import Mathlib

/-!
# Phoenixcoin v0.7: consensus core

A shallow embedding of parts of `src/main.h` and `src/main.cpp`, with theorems about them.

Conventions of the embedding.

* `uint256`, `unsigned int` and `int` values are natural numbers or integers; where the
  width of a machine integer matters the wrap-around is written out (`wrap64`, `wrap32u`).
* A `std::vector` is a `List`; a `std::map` is a `CMap` (a list of key/value pairs with the
  operations of `std::map` that the code uses).
* A pointer to a block-index node is the position of the node in the list of all nodes that
  were ever allocated; `none` is the null pointer.
* Functions of the repository whose source is not part of `main.h`/`main.cpp` (the hash
  functions, the big-number decoder of compact targets, the script interpreter, the
  database) are parameters of the definitions that call them.
-/

namespace Phoenixcoin

/-! ## Data model (main.h) -/

/-- A 256-bit unsigned integer (`uint256`). -/
abbrev uint256 := Nat

/-- A serialised script (`CScript`), a vector of bytes. -/
abbrev CScript := List Nat

/-- The largest `unsigned int`, `std::numeric_limits<uint32_t>::max()`. -/
def UINT32_MAX : Nat := 4294967295

/-- Class `COutPoint` (main.h:244): a transaction hash and an index into its `vout`. -/
structure COutPoint where
  hash : uint256
  n : Nat
deriving DecidableEq, Repr

/-- Method `COutPoint::IsNull` (main.h:253). -/
def COutPoint.IsNull (o : COutPoint) : Bool :=
  o.hash == 0 && o.n == UINT32_MAX

/-- Class `CTxIn` (main.h:283). -/
structure CTxIn where
  prevout : COutPoint
  scriptSig : CScript
  nSequence : Nat
deriving DecidableEq, Repr

/-- Class `CTxOut` (main.h:356); `nValue` is an `int64`. -/
structure CTxOut where
  nValue : Int
  scriptPubKey : CScript
deriving DecidableEq, Repr

/-- Class `CTransaction` (main.h:435); `nDoS` is the mutable denial-of-service counter. -/
structure CTransaction where
  nVersion : Int
  vin : List CTxIn
  vout : List CTxOut
  nLockTime : Nat
  nDoS : Int
deriving DecidableEq, Repr

/-- Method `CTransaction::IsCoinBase` (main.h:527). -/
def CTransaction.IsCoinBase (tx : CTransaction) : Bool :=
  match tx.vin with
  | [txin] => txin.prevout.IsNull
  | _ => false

/-- Class `CBlock` (main.h:816): the header, the transactions, the memory-only Merkle tree
and the denial-of-service counter. -/
structure CBlock where
  nVersion : Int
  hashPrevBlock : uint256
  hashMerkleRoot : uint256
  nTime : Nat
  nBits : Nat
  nNonce : Nat
  vtx : List CTransaction
  vMerkleTree : List uint256
  nDoS : Int
deriving DecidableEq, Repr

/-! ## Merkle tree (main.h:943-991) -/

/-- Element access `v[i]` on a vector of hashes with an `int` index. An index outside the
vector (undefined in C++) reads 0. -/
def vecAt (v : List uint256) (i : Int) : uint256 :=
  if 0 ≤ i then v.getD i.toNat 0 else 0

/-- The inner loop of `BuildMerkleTree` (main.h:951-956),
`for (int i = 0; i < nSize; i += 2)`, started at `i`: every round appends the hash of the
entries `j+i` and `j+min(i+1, nSize-1)` of the vector. -/
def BuildMerkleTree.row (Hash : uint256 → uint256 → uint256) (j nSize : Int) (i : Int)
    (vMerkleTree : List uint256) : List uint256 :=
  if i < nSize then
    let i2 := min (i + 1) (nSize - 1)
    BuildMerkleTree.row Hash j nSize (i + 2)
      (vMerkleTree ++ [Hash (vecAt vMerkleTree (j + i)) (vecAt vMerkleTree (j + i2))])
  else vMerkleTree
termination_by (nSize - i).toNat
decreasing_by omega

/-- The outer loop of `BuildMerkleTree` (main.h:949-958),
`for (int nSize = vtx.size(); nSize > 1; nSize = (nSize + 1) / 2)`, started at `nSize`
with offset `j`. -/
def BuildMerkleTree.levels (Hash : uint256 → uint256 → uint256) (nSize : Int) (j : Int)
    (vMerkleTree : List uint256) : List uint256 :=
  if 1 < nSize then
    BuildMerkleTree.levels Hash ((nSize + 1) / 2) (j + nSize)
      (BuildMerkleTree.row Hash j nSize 0 vMerkleTree)
  else vMerkleTree
termination_by nSize.toNat
decreasing_by omega

/-- Method `CBlock::BuildMerkleTree` (main.h:943): rebuilds `vMerkleTree` from the
transaction hashes and returns its last entry (0 for an empty tree). The result is the
returned root and the block with the rebuilt tree. -/
def CBlock.BuildMerkleTree (GetHash : CTransaction → uint256)
    (Hash : uint256 → uint256 → uint256) (b : CBlock) : uint256 × CBlock :=
  let leaves := b.vtx.map GetHash
  let tree := BuildMerkleTree.levels Hash (b.vtx.length : Int) 0 leaves
  (if tree.isEmpty then 0 else tree.getLastD 0, { b with vMerkleTree := tree })

/-- The bitwise `x ^ 1` on an `int`: the lowest bit is flipped. -/
def xor1 (x : Int) : Int := if x % 2 = 0 then x + 1 else x - 1

/-- The loop of `GetMerkleBranch` (main.h:968-974) started at `nSize` with offset `j` and
index `nIndex`; returns the entries pushed to `vMerkleBranch`. -/
def GetMerkleBranch.loop (vMerkleTree : List uint256) (nSize : Int) (j : Int)
    (nIndex : Int) : List uint256 :=
  if 1 < nSize then
    let i := min (xor1 nIndex) (nSize - 1)
    vecAt vMerkleTree (j + i) ::
      GetMerkleBranch.loop vMerkleTree ((nSize + 1) / 2) (j + nSize) (nIndex / 2)
  else []
termination_by nSize.toNat
decreasing_by omega

/-- Method `CBlock::GetMerkleBranch` (main.h:962): builds the tree when `vMerkleTree` is
empty, then collects the sibling of the path node on every level. The result is the branch
and the block with the tree it used. -/
def CBlock.GetMerkleBranch (GetHash : CTransaction → uint256)
    (Hash : uint256 → uint256 → uint256) (b : CBlock) (nIndex : Int) :
    List uint256 × CBlock :=
  let b1 := if b.vMerkleTree.isEmpty then (b.BuildMerkleTree GetHash Hash).2 else b
  (GetMerkleBranch.loop b1.vMerkleTree (b1.vtx.length : Int) 0 nIndex, b1)

/-- The loop of `CheckMerkleBranch` (main.h:982-989) over the branch. `nIndex & 1` is the
parity of `nIndex` and `nIndex >>= 1` halves it (rounding down). -/
def CheckMerkleBranch.loop (Hash : uint256 → uint256 → uint256) :
    List uint256 → uint256 → Int → uint256
  | [], hash, _ => hash
  | otherside :: rest, hash, nIndex =>
      CheckMerkleBranch.loop Hash rest
        (if nIndex % 2 = 1 then Hash otherside hash else Hash hash otherside) (nIndex / 2)

/-- Static method `CBlock::CheckMerkleBranch` (main.h:978). -/
def CheckMerkleBranch (Hash : uint256 → uint256 → uint256) (hash : uint256)
    (vMerkleBranch : List uint256) (nIndex : Int) : uint256 :=
  if nIndex = -1 then 0 else CheckMerkleBranch.loop Hash vMerkleBranch hash nIndex


/-! ### The tree level by level -/

/-- One level of the tree above the level `l`: neighbours are hashed in pairs, an unpaired
last entry with itself. -/
def nextLevel (Hash : uint256 → uint256 → uint256) : List uint256 → List uint256
  | [] => []
  | [x] => [Hash x x]
  | x :: y :: rest => Hash x y :: nextLevel Hash rest

/-! ## Constants (main.h:35-104) -/

/-- Modelled from the spec: the constant `COIN` of `util.h`, which is not among the
sources; section 6 of the specification gives `MAX_MONEY` as 10 000 000 x 10^8 base units,
so one coin is 10^8 base units. -/
def COIN : Int := 100000000

/-- Constant `BASE_MATURITY` (main.h:36). -/
def BASE_MATURITY : Int := 100

/-- Constant `BASE_MATURITY_OFFSET` (main.h:39). -/
def BASE_MATURITY_OFFSET : Int := 1

/-- Constant `MAX_BLOCK_SIZE` (main.h:44). -/
def MAX_BLOCK_SIZE : Nat := 524288

/-- Constant `MAX_BLOCK_SIZE_GEN` (main.h:46), `MAX_BLOCK_SIZE >> 1`. -/
def MAX_BLOCK_SIZE_GEN : Nat := MAX_BLOCK_SIZE / 2

/-- Constant `MAX_BLOCK_SIGOPS` (main.h:48), `MAX_BLOCK_SIZE >> 6`. -/
def MAX_BLOCK_SIGOPS : Nat := MAX_BLOCK_SIZE / 64

/-- Constant `MAX_MONEY` (main.h:63). -/
def MAX_MONEY : Int := 10000000 * COIN

/-- Function `MoneyRange` (main.h:64). -/
def MoneyRange (nValue : Int) : Bool :=
  decide (nValue ≥ 0) && decide (nValue ≤ MAX_MONEY)

/-- Constant `nForkThree` (main.h:78). -/
def nForkThree : Int := 74100

/-- Constant `nForkFour` (main.h:79). -/
def nForkFour : Int := 154000

/-- Constant `nTestnetForkOne` (main.h:85). -/
def nTestnetForkOne : Int := 600

/-! ## Machine integers -/

/-- The value of a 64-bit signed integer after an arithmetic result `x` is stored in it
(two's complement wrap-around). -/
def wrap64 (x : Int) : Int := (x + 2 ^ 63) % 2 ^ 64 - 2 ^ 63

/-- The value of an `unsigned int` after an arithmetic result `x` is stored in it. -/
def wrap32u (x : Nat) : Nat := x % 2 ^ 32

/-! ## CheckTransaction (main.cpp:455-501) -/

/-- Method `CTransaction::DoS` (main.h:446): adds to the counter and hands `fIn` through.
The result is the returned flag and the transaction with its new counter. -/
def CTransaction.DoS (tx : CTransaction) (nDoSIn : Int) (fIn : Bool) : Bool × CTransaction :=
  (fIn, { tx with nDoS := tx.nDoS + nDoSIn })

/-- The loop over `vout` in `CheckTransaction` (main.cpp:468-477) with the running total
`nValueOut`; `false` when one of its three checks fails. -/
def CheckTransaction.outputs : List CTxOut → Int → Bool
  | [], _ => true
  | txout :: rest, nValueOut =>
      if txout.nValue < 0 then false
      else if txout.nValue > MAX_MONEY then false
      else
        let nValueOut1 := wrap64 (nValueOut + txout.nValue)
        if !MoneyRange nValueOut1 then false
        else CheckTransaction.outputs rest nValueOut1

/-- The loop over `vin` in `CheckTransaction` (main.cpp:480-486) with the set
`vInOutPoints` of the outpoints seen so far; `false` when an outpoint is seen twice. -/
def CheckTransaction.inputs : List CTxIn → List COutPoint → Bool
  | [], _ => true
  | txin :: rest, vInOutPoints =>
      if vInOutPoints.contains txin.prevout then false
      else CheckTransaction.inputs rest (txin.prevout :: vInOutPoints)

/-- Method `CTransaction::CheckTransaction` (main.cpp:455). `GetSerializeSize` is the
serialised size of a transaction (serialize.h). The result is the returned flag and the
transaction with its new `nDoS`. -/
def CTransaction.CheckTransaction (GetSerializeSize : CTransaction → Nat)
    (tx : CTransaction) : Bool × CTransaction :=
  match tx.vin with
  | [] => tx.DoS 10 false
  | txin0 :: _ =>
    if tx.vout.isEmpty then tx.DoS 10 false
    else if GetSerializeSize tx > MAX_BLOCK_SIZE then tx.DoS 100 false
    else if !CheckTransaction.outputs tx.vout 0 then tx.DoS 100 false
    else if !CheckTransaction.inputs tx.vin [] then (false, tx)
    else if tx.IsCoinBase then
      if txin0.scriptSig.length < 2 || txin0.scriptSig.length > 100 then tx.DoS 100 false
      else (true, tx)
    else if tx.vin.any (fun txin => txin.prevout.IsNull) then tx.DoS 10 false
    else (true, tx)

/-! ## CheckProofOfWork (main.cpp:49, 1172-1186) -/

/-- Global `bnProofOfWorkLimit` (main.cpp:49), `~uint256(0) >> 20`. -/
def bnProofOfWorkLimit : Int := ((2 ^ 256 - 1 : Nat) >>> 20 : Nat)

/-- Modelled from the spec: `CBigNum::getuint256` of `bignum.h`, which is not among the
sources; the specification keeps targets as 256-bit unsigned integers, so the conversion
keeps the low 256 bits of a non-negative big number. -/
def getuint256 (bn : Int) : uint256 := bn.toNat % 2 ^ 256

/-- Function `CheckProofOfWork` (main.cpp:1172). `SetCompact` decodes a compact target
into a big number (`CBigNum::SetCompact` of `bignum.h`). -/
def CheckProofOfWork (SetCompact : Nat → Int) (hash : uint256) (nBits : Nat) : Bool :=
  let bnTarget := SetCompact nBits
  if bnTarget ≤ 0 || bnTarget > bnProofOfWorkLimit then false
  else if hash > getuint256 bnTarget then false
  else true

/-! ## GetProofOfWorkReward (main.cpp:927-941) -/

/-- The right shift `x >> n` of an `int64` by an `int` count. C++ defines the result only
for a count from 0 to 63; otherwise there is none. -/
def shr64 (x : Int) (n : Int) : Option Int :=
  if 0 ≤ n ∧ n < 64 then some (x >>> n.toNat) else none

/-- Function `GetProofOfWorkReward` (main.cpp:927); `fTestNet` is the global network
flag. The result is `none` where the shift has no defined result. -/
def GetProofOfWorkReward (fTestNet : Bool) (nHeight : Int) (nFees : Int) : Option Int :=
  let nSubsidy : Int := 50 * COIN
  let nSubsidy : Int :=
    if (nHeight ≥ nForkThree && nHeight < nForkFour) || (fTestNet && nHeight < nTestnetForkOne)
    then 25 * COIN else nSubsidy
  (shr64 nSubsidy (Int.tdiv nHeight 1000000)).map (fun nSubsidy => wrap64 (nSubsidy + nFees))

/-! ## CheckBlock (main.cpp:1984-2036) -/

/-- What `CheckBlock` calls or reads outside `main.h` and `main.cpp`: the serialised sizes
(serialize.h), the transaction hash and the hash of two concatenated values (util.h), the
proof-of-work hash of the header (`GetHashPoW`, which calls `neoscrypt`), the decoder of
compact targets (bignum.h), the legacy count of signature operations of a script
(`CScript::GetSigOpCount(false)`, script.cpp), the adjusted network time (util.cpp), the
script verifier (`VerifySignature`, script.cpp) and the height of the last hard-coded
checkpoint (`Checkpoints::GetTotalBlocksEstimate`, checkpoints.cpp). -/
structure Externals where
  GetSerializeSizeTx : CTransaction → Nat
  GetSerializeSizeBlock : CBlock → Nat
  GetHash : CTransaction → uint256
  Hash : uint256 → uint256 → uint256
  GetHashPoW : CBlock → uint256
  SetCompact : Nat → Int
  GetSigOpCount : CScript → Nat
  GetAdjustedTime : Int
  VerifySignature : CTransaction → CTransaction → Nat → Bool → Int → Bool
  GetTotalBlocksEstimate : Int

/-- Method `CBlock::DoS` (main.h:836). -/
def CBlock.DoS (b : CBlock) (nDoSIn : Int) (fIn : Bool) : Bool × CBlock :=
  (fIn, { b with nDoS := b.nDoS + nDoSIn })

/-- Method `CTransaction::GetLegacySigOpCount` (main.cpp:383): an `unsigned int` counter
summed over the input scripts and then the output scripts. -/
def CTransaction.GetLegacySigOpCount (GetSigOpCount : CScript → Nat)
    (tx : CTransaction) : Nat :=
  let nSigOps := tx.vin.foldl (fun n txin => wrap32u (n + GetSigOpCount txin.scriptSig)) 0
  tx.vout.foldl (fun n txout => wrap32u (n + GetSigOpCount txout.scriptPubKey)) nSigOps

/-- The loop `if (!tx.CheckTransaction()) return DoS(tx.nDoS, ...)` of `CheckBlock`
(main.cpp:2008-2010): the counter of the first failing transaction, if there is one, and
the transactions with the counters they have afterwards. -/
def CheckBlock.transactions (GetSerializeSize : CTransaction → Nat) :
    List CTransaction → Option Int × List CTransaction
  | [] => (none, [])
  | tx :: rest =>
      let r := tx.CheckTransaction GetSerializeSize
      if r.1 then
        let q := CheckBlock.transactions GetSerializeSize rest
        (q.1, r.2 :: q.2)
      else (some r.2.nDoS, r.2 :: rest)

/-- The set `uniqueTx` of `CheckBlock` (main.cpp:2014-2018) after the hashes were
inserted; an element that is already in the set is not inserted again. -/
def CheckBlock.uniqueTx (hashes : List uint256) : List uint256 :=
  hashes.foldl (fun s h => if s.contains h then s else h :: s) []

/-- The counter `nSigOps` of `CheckBlock` (main.cpp:2022-2026), an `unsigned int`. -/
def CheckBlock.nSigOps (GetSigOpCount : CScript → Nat) (vtx : List CTransaction) : Nat :=
  vtx.foldl (fun n tx => wrap32u (n + tx.GetLegacySigOpCount GetSigOpCount)) 0

/-- Method `CBlock::CheckBlock` (main.cpp:1984). The result is the returned flag and the
block with its new `nDoS` (and, once built, its Merkle tree). -/
def CBlock.CheckBlock (ext : Externals) (fCheckPOW fCheckMerkleRoot : Bool) (b : CBlock) :
    Bool × CBlock :=
  if b.vtx.isEmpty || b.vtx.length > MAX_BLOCK_SIZE ||
      ext.GetSerializeSizeBlock b > MAX_BLOCK_SIZE then
    b.DoS 100 false
  else if fCheckPOW && !CheckProofOfWork ext.SetCompact (ext.GetHashPoW b) b.nBits then
    b.DoS 50 false
  else if (b.nTime : Int) > wrap64 (ext.GetAdjustedTime + 2 * 60 * 60) then
    (false, b)
  else
    match b.vtx with
    | [] => b.DoS 100 false
    | tx0 :: rest =>
      if !tx0.IsCoinBase then b.DoS 100 false
      else if rest.any (fun tx => tx.IsCoinBase) then b.DoS 100 false
      else
        let r := CheckBlock.transactions ext.GetSerializeSizeTx b.vtx
        let b1 := { b with vtx := r.2 }
        match r.1 with
        | some nDoSTx => b1.DoS nDoSTx false
        | none =>
          if (CheckBlock.uniqueTx (b1.vtx.map ext.GetHash)).length ≠ b1.vtx.length then
            b1.DoS 100 false
          else if CheckBlock.nSigOps ext.GetSigOpCount b1.vtx > MAX_BLOCK_SIGOPS then
            b1.DoS 100 false
          else if fCheckMerkleRoot then
            let m := b1.BuildMerkleTree ext.GetHash ext.Hash
            if b1.hashMerkleRoot ≠ m.1 then m.2.DoS 100 false else (true, m.2)
          else (true, b1)

/-- The exact number of legacy signature operations of a transaction: the counts of its
input scripts and of its output scripts, added without a bound. -/
def legacySigOps (GetSigOpCount : CScript → Nat) (tx : CTransaction) : Nat :=
  (tx.vin.map (fun txin => GetSigOpCount txin.scriptSig)).sum +
    (tx.vout.map (fun txout => GetSigOpCount txout.scriptPubKey)).sum

/-- The number of script bytes of a transaction. -/
def scriptBytes (tx : CTransaction) : Nat :=
  (tx.vin.map (fun txin => txin.scriptSig.length)).sum +
    (tx.vout.map (fun txout => txout.scriptPubKey.length)).sum

/-! ## Maps -/

/-- A `std::map`: a list of key/value pairs in which a key occurs at most once when the
list is built with `CMap.set` and `CMap.erase`. -/
abbrev CMap (K V : Type) := List (K × V)

/-- Lookup `m.find(k)`: the value stored under `k`, if there is one. -/
def CMap.find {K V : Type} [DecidableEq K] (m : CMap K V) (k : K) : Option V :=
  match m with
  | [] => none
  | (k1, v) :: rest => if k1 = k then some v else CMap.find rest k

/-- Membership test `m.count(k)`. -/
def CMap.count {K V : Type} [DecidableEq K] (m : CMap K V) (k : K) : Nat :=
  if (m.find k).isSome then 1 else 0

/-- Removal `m.erase(k)`. -/
def CMap.erase {K V : Type} [DecidableEq K] (m : CMap K V) (k : K) : CMap K V :=
  m.filter (fun e => decide (e.1 ≠ k))

/-- Assignment `m[k] = v`: the old entry of `k`, if any, is replaced. -/
def CMap.set {K V : Type} [DecidableEq K] (m : CMap K V) (k : K) (v : V) : CMap K V :=
  (k, v) :: m.erase k

/-! ## Block index and chain state (main.h:1089, main.cpp:40-60) -/

/-- Class `CBlockIndex` (main.h:1089). `phashBlock` holds the hash the pointer of the same
name points to; `pprev` and `pnext` are pointers to nodes. -/
structure CBlockIndex where
  phashBlock : uint256
  pprev : Option Nat
  pnext : Option Nat
  nFile : Nat
  nBlockPos : Nat
  nHeight : Int
  bnChainWork : Int
  nVersion : Int
  hashMerkleRoot : uint256
  nTime : Nat
  nBits : Nat
  nNonce : Nat
deriving DecidableEq, Repr

/-- The global variables of main.cpp:40-60 that the embedded functions use, with
`vBlockIndex` the store of all allocated `CBlockIndex` nodes: the pointer `p` points to
the node at position `p`. -/
structure ChainState where
  vBlockIndex : List CBlockIndex
  mapBlockIndex : CMap uint256 Nat
  hashGenesisBlock : uint256
  pindexGenesisBlock : Option Nat
  nBestHeight : Int
  bnBestChainWork : Int
  bnBestInvalidWork : Int
  hashBestChain : uint256
  pindexBest : Option Nat
  nBaseMaturity : Int
deriving DecidableEq, Repr

/-- The node a pointer points to; `none` for a pointer that points to no allocated node. -/
def ChainState.node (s : ChainState) (p : Nat) : Option CBlockIndex := s.vBlockIndex[p]?

/-- The node reached from `p` by following `pprev` exactly `k` times, if all these nodes
exist. -/
def ChainState.ancestor (s : ChainState) (p : Nat) : Nat → Option Nat
  | 0 => if p < s.vBlockIndex.length then some p else none
  | k + 1 =>
    match s.node p with
    | none => none
    | some n =>
      match n.pprev with
      | none => none
      | some q => ChainState.ancestor s q k

/-- Every parent pointer points to an allocated node, and a node is one higher than its
parent. -/
def ChainState.HeightsLinked (s : ChainState) : Prop :=
  ∀ p np q, s.node p = some np → np.pprev = some q →
    ∃ nq, s.node q = some nq ∧ np.nHeight = nq.nHeight + 1

/-- A check of `HeightsLinked` that can be computed. -/
def ChainState.checkHeightsLinked (s : ChainState) : Bool :=
  s.vBlockIndex.all fun np =>
    match np.pprev with
    | none => true
    | some q =>
      match s.node q with
      | none => false
      | some nq => decide (np.nHeight = nq.nHeight + 1)

/-- A check of `WorkMonotone` that can be computed. -/
def ChainState.checkWorkMonotone (s : ChainState) : Bool :=
  s.vBlockIndex.all fun np =>
    match np.pprev with
    | none => true
    | some q =>
      match s.node q with
      | none => true
      | some nq => decide (nq.bnChainWork ≤ np.bnChainWork)

/-! ## ConnectInputs (main.cpp:1400-1502) -/

/-- Class `CDiskTxPos` (main.h:178). -/
structure CDiskTxPos where
  nFile : Nat
  nBlockPos : Nat
  nTxPos : Nat
deriving DecidableEq, Repr

/-- Method `CDiskTxPos::IsNull` (main.h:199). -/
def CDiskTxPos.IsNull (pos : CDiskTxPos) : Bool := pos.nFile == UINT32_MAX

/-- Class `CTxIndex` (main.h:752). -/
structure CTxIndex where
  pos : CDiskTxPos
  vSpent : List CDiskTxPos
deriving DecidableEq, Repr

/-- Type `MapPrevTx` (main.h): previous transactions and their index entries by hash. -/
abbrev MapPrevTx := CMap uint256 (CTxIndex × CTransaction)

/-- How a piece of a function body ends: with a `return` (the returned flag and what is
added to `nDoS` on the way) or by handing its state to the code that follows. -/
inductive Flow (σ : Type) where
  | ret (fResult : Bool) (nDoSIn : Int)
  | next (state : σ)
deriving Repr

/-- The loop of `GetValueOut` (main.h:564-569) with the running total; `none` when it
throws. -/
def GetValueOut.loop : List CTxOut → Int → Option Int
  | [], nValueOut => some nValueOut
  | txout :: rest, nValueOut =>
      let nValueOut1 := wrap64 (nValueOut + txout.nValue)
      if !MoneyRange txout.nValue || !MoneyRange nValueOut1 then none
      else GetValueOut.loop rest nValueOut1

/-- Method `CTransaction::GetValueOut` (main.h:561); `none` when it throws. -/
def CTransaction.GetValueOut (tx : CTransaction) : Option Int :=
  GetValueOut.loop tx.vout 0

/-- The coinbase maturity loop of `ConnectInputs` (main.cpp:1432-1436),
`for (pindex = pindexBlock; pindex && (pindexBlock->nHeight - pindex->nHeight <
nBaseMaturity); pindex = pindex->pprev)`, started at `pindex`: `some true` when it finds
the block at the disk position `pos` and returns the error, `some false` when it runs
out. The first argument bounds the number of rounds; the result is `none` when the bound
is reached or a pointer points to no node. -/
def ConnectInputs.immature (s : ChainState) (nHeightBlock : Int) (pos : CDiskTxPos) :
    Nat → Option Nat → Option Bool
  | _, none => some false
  | fuel, some p =>
    match s.node p with
    | none => none
    | some pindex =>
      if nHeightBlock - pindex.nHeight < s.nBaseMaturity then
        if pindex.nBlockPos == pos.nBlockPos && pindex.nFile == pos.nFile then some true
        else
          match fuel with
          | 0 => none
          | fuel1 + 1 => ConnectInputs.immature s nHeightBlock pos fuel1 pindex.pprev
      else some false

/-- The first loop over `vin` in `ConnectInputs` (main.cpp:1410-1443) with the running
total `nValueIn`. The result is `none` when the assertion fails or a pointer points to no
node. -/
def ConnectInputs.pass1 (s : ChainState) (inputs : MapPrevTx) (pindexBlock : Option Nat) :
    List CTxIn → Int → Option (Flow Int)
  | [], nValueIn => some (Flow.next nValueIn)
  | txin :: rest, nValueIn =>
    let prevout := txin.prevout
    match inputs.find prevout.hash with
    | none => none
    | some (txindex, txPrev) =>
      if prevout.n ≥ txPrev.vout.length || prevout.n ≥ txindex.vSpent.length then
        some (Flow.ret false 100)
      else
        let fImmature : Option Bool :=
          if txPrev.IsCoinBase then
            match pindexBlock with
            | none => some false
            | some pb =>
              match s.node pb with
              | none => none
              | some nb =>
                ConnectInputs.immature s nb.nHeight txindex.pos s.vBlockIndex.length (some pb)
          else some false
        match fImmature with
        | none => none
        | some true => some (Flow.ret false 0)
        | some false =>
          let nValue := (txPrev.vout.getD prevout.n ⟨0, []⟩).nValue
          let nValueIn1 := wrap64 (nValueIn + nValue)
          if !MoneyRange nValue || !MoneyRange nValueIn1 then some (Flow.ret false 100)
          else ConnectInputs.pass1 s inputs pindexBlock rest nValueIn1

/-- The second loop over `vin` in `ConnectInputs` (main.cpp:1447-1486), started at input
number `i`, with the local copy of `inputs` and the caller's `mapTestPool`. The result is
how the loop ends and `mapTestPool` as it is then. -/
def ConnectInputs.pass2 (ext : Externals) (s : ChainState) (tx : CTransaction)
    (posThisTx : CDiskTxPos) (fBlock fMiner fStrictPayToScriptHash : Bool) :
    List CTxIn → Nat → MapPrevTx → CMap uint256 CTxIndex →
      Option (Flow MapPrevTx × CMap uint256 CTxIndex)
  | [], _, inputs, mapTestPool => some (Flow.next inputs, mapTestPool)
  | txin :: rest, i, inputs, mapTestPool =>
    let prevout := txin.prevout
    match inputs.find prevout.hash with
    | none => none
    | some (txindex, txPrev) =>
      if !(txindex.vSpent.getD prevout.n ⟨UINT32_MAX, 0, 0⟩).IsNull then
        some (Flow.ret false 0, mapTestPool)
      else
        let fVerify := !(fBlock && decide (s.nBestHeight < ext.GetTotalBlocksEstimate))
        if fVerify && !ext.VerifySignature txPrev tx i fStrictPayToScriptHash 0 then
          if fStrictPayToScriptHash && ext.VerifySignature txPrev tx i false 0 then
            some (Flow.ret false 0, mapTestPool)
          else some (Flow.ret false 100, mapTestPool)
        else
          let txindex1 : CTxIndex :=
            { txindex with vSpent := txindex.vSpent.set prevout.n posThisTx }
          let inputs1 := inputs.set prevout.hash (txindex1, txPrev)
          let mapTestPool1 :=
            if fBlock || fMiner then mapTestPool.set prevout.hash txindex1 else mapTestPool
          ConnectInputs.pass2 ext s tx posThisTx fBlock fMiner fStrictPayToScriptHash rest (i + 1)
            inputs1 mapTestPool1

/-- Method `CTransaction::ConnectInputs` (main.cpp:1400). The result is the returned
flag, the transaction with its new `nDoS` and the new `mapTestPool`; it is `none` when
the call does not return (a failed assertion, an exception of `GetValueOut`, a pointer
that points to no node). -/
def CTransaction.ConnectInputs (ext : Externals) (s : ChainState) (tx : CTransaction)
    (inputs : MapPrevTx) (mapTestPool : CMap uint256 CTxIndex) (posThisTx : CDiskTxPos)
    (pindexBlock : Option Nat) (fBlock fMiner fStrictPayToScriptHash : Bool) :
    Option (Bool × CTransaction × CMap uint256 CTxIndex) :=
  if tx.IsCoinBase then some (true, tx, mapTestPool)
  else
    match ConnectInputs.pass1 s inputs pindexBlock tx.vin 0 with
    | none => none
    | some (Flow.ret f n) => some ((tx.DoS n f).1, (tx.DoS n f).2, mapTestPool)
    | some (Flow.next nValueIn) =>
      match ConnectInputs.pass2 ext s tx posThisTx fBlock fMiner fStrictPayToScriptHash
          tx.vin 0 inputs mapTestPool with
      | none => none
      | some (Flow.ret f n, mapTestPool1) => some ((tx.DoS n f).1, (tx.DoS n f).2, mapTestPool1)
      | some (Flow.next _, mapTestPool1) =>
        match tx.GetValueOut with
        | none => none
        | some nValueOut =>
          if nValueIn < nValueOut then
            some ((tx.DoS 100 false).1, (tx.DoS 100 false).2, mapTestPool1)
          else
            let nTxFee := wrap64 (nValueIn - nValueOut)
            if nTxFee < 0 then some ((tx.DoS 100 false).1, (tx.DoS 100 false).2, mapTestPool1)
            else
              let nFees := wrap64 (0 + nTxFee)
              if !MoneyRange nFees then
                some ((tx.DoS 100 false).1, (tx.DoS 100 false).2, mapTestPool1)
              else some (true, tx, mapTestPool1)

/-! ## Memory pool (main.h:1477, main.cpp:538-727) -/

/-- Class `CInPoint` (main.h:229). The pointer `ptx` into `mapTx` is kept as the key of
the entry it points to. -/
structure CInPoint where
  ptx : Option uint256
  n : Nat
deriving DecidableEq, Repr

/-- Class `CTxMemPool` (main.h:1477). -/
structure CTxMemPool where
  mapTx : CMap uint256 CTransaction
  mapNextTx : CMap COutPoint CInPoint
deriving DecidableEq, Repr

/-- The loop of `addUnchecked` (main.cpp:696-697) started at input number `i`. -/
def addUnchecked.loop (hash : uint256) :
    List CTxIn → Nat → CMap COutPoint CInPoint → CMap COutPoint CInPoint
  | [], _, mapNextTx => mapNextTx
  | txin :: rest, i, mapNextTx =>
      addUnchecked.loop hash rest (i + 1) (mapNextTx.set txin.prevout ⟨some hash, i⟩)

/-- Method `CTxMemPool::addUnchecked` (main.cpp:690). The result is the pool and the
global counter `nTransactionsUpdated` (an `unsigned int`). -/
def CTxMemPool.addUnchecked (pool : CTxMemPool) (nTransactionsUpdated : Nat)
    (hash : uint256) (tx : CTransaction) : CTxMemPool × Nat :=
  ({ mapTx := pool.mapTx.set hash tx
     mapNextTx := addUnchecked.loop hash tx.vin 0 pool.mapNextTx },
    wrap32u (nTransactionsUpdated + 1))

/-- Method `CTxMemPool::remove` (main.cpp:703). -/
def CTxMemPool.remove (GetHash : CTransaction → uint256) (pool : CTxMemPool)
    (nTransactionsUpdated : Nat) (tx : CTransaction) : CTxMemPool × Nat :=
  let hash := GetHash tx
  if pool.mapTx.count hash ≠ 0 then
    ({ mapTx := pool.mapTx.erase hash
       mapNextTx := tx.vin.foldl (fun m txin => m.erase txin.prevout) pool.mapNextTx },
      wrap32u (nTransactionsUpdated + 1))
  else (pool, nTransactionsUpdated)

/-- Method `CTxMemPool::clear` (main.cpp:720). -/
def CTxMemPool.clear (_pool : CTxMemPool) (nTransactionsUpdated : Nat) : CTxMemPool × Nat :=
  ({ mapTx := [], mapNextTx := [] }, wrap32u (nTransactionsUpdated + 1))

/-- What one call of `CTxMemPool::accept` learns from outside the pool: whether the
database already holds the transaction (`txdb.ContainsTx`), and the outcome of the block
under `if (fCheckInputs)` (main.cpp:596-658: `FetchInputs`, `AreInputsStandard`, the fee
floor, the rate limiter of free transactions, `ConnectInputs`), which reads the database,
the clock and the wallet and does not write to the pool: whether it lets the transaction
pass, what it adds to `nDoS`, and what it stores in `*pfMissingInputs`. -/
structure AcceptAnswers where
  fContainsTx : Bool
  fInputsOk : Bool
  nDoSInputs : Int
  fMissingInputs : Bool
deriving DecidableEq, Repr

/-- What a call of `CTxMemPool::accept` leaves behind. -/
structure AcceptResult where
  fResult : Bool
  tx : CTransaction
  fMissingInputs : Bool
  pool : CTxMemPool
  nTransactionsUpdated : Nat
deriving DecidableEq, Repr

/-- Method `CTxMemPool::accept` (main.cpp:538). `IsStandard` is
`CTransaction::IsStandard` (script.cpp), `fTestNet` the global network flag. The code
after the `return false` of the conflict loop (main.cpp:577-591) and the uses of `ptxOld`
(main.cpp:663-672), which stays null, are never executed and are left out. -/
def CTxMemPool.accept (GetSerializeSize : CTransaction → Nat)
    (GetHash : CTransaction → uint256) (IsStandard : CTransaction → Bool) (fTestNet : Bool)
    (pool : CTxMemPool) (nTransactionsUpdated : Nat) (tx : CTransaction)
    (fCheckInputs : Bool) (answers : AcceptAnswers) : AcceptResult :=
  let r := tx.CheckTransaction GetSerializeSize
  if !r.1 then ⟨false, r.2, false, pool, nTransactionsUpdated⟩
  else if tx.IsCoinBase then ⟨false, (tx.DoS 100 false).2, false, pool, nTransactionsUpdated⟩
  else if (tx.nLockTime : Int) > 2147483647 then ⟨false, tx, false, pool, nTransactionsUpdated⟩
  else if !fTestNet && !IsStandard tx then ⟨false, tx, false, pool, nTransactionsUpdated⟩
  else
    let hash := GetHash tx
    if pool.mapTx.count hash ≠ 0 then ⟨false, tx, false, pool, nTransactionsUpdated⟩
    else if fCheckInputs && answers.fContainsTx then
      ⟨false, tx, false, pool, nTransactionsUpdated⟩
    else if tx.vin.any (fun txin => pool.mapNextTx.count txin.prevout ≠ 0) then
      ⟨false, tx, false, pool, nTransactionsUpdated⟩
    else if fCheckInputs && !answers.fInputsOk then
      ⟨false, { tx with nDoS := tx.nDoS + answers.nDoSInputs }, answers.fMissingInputs, pool,
        nTransactionsUpdated⟩
    else
      let added := pool.addUnchecked nTransactionsUpdated hash tx
      ⟨true, tx, false, added.1, added.2⟩

/-- A call of one of the methods that change the pool. -/
inductive MemPoolCall where
  | accept (tx : CTransaction) (fCheckInputs : Bool) (answers : AcceptAnswers)
  | remove (tx : CTransaction)
  | clear
deriving Repr

/-- The pool and the counter after one call. -/
def MemPoolCall.run (GetSerializeSize : CTransaction → Nat) (GetHash : CTransaction → uint256)
    (IsStandard : CTransaction → Bool) (fTestNet : Bool) (state : CTxMemPool × Nat) :
    MemPoolCall → CTxMemPool × Nat
  | MemPoolCall.accept tx fCheckInputs answers =>
      let r := state.1.accept GetSerializeSize GetHash IsStandard fTestNet state.2 tx
        fCheckInputs answers
      (r.pool, r.nTransactionsUpdated)
  | MemPoolCall.remove tx => state.1.remove GetHash state.2 tx
  | MemPoolCall.clear => state.1.clear state.2

/-- The pool and the counter after a sequence of calls, the first call first. -/
def MemPoolCall.runAll (GetSerializeSize : CTransaction → Nat)
    (GetHash : CTransaction → uint256) (IsStandard : CTransaction → Bool) (fTestNet : Bool)
    (state : CTxMemPool × Nat) (calls : List MemPoolCall) : CTxMemPool × Nat :=
  calls.foldl (MemPoolCall.run GetSerializeSize GetHash IsStandard fTestNet) state

/-- The outpoint invariant of the pool: `mapNextTx` maps the previous outpoint of input
`i` of every pool transaction `t` to `(t, i)`, and every entry of `mapNextTx` is the
previous outpoint of the input it names of a pool transaction. -/
def CTxMemPool.OutpointInvariant (pool : CTxMemPool) : Prop :=
  (∀ hash t, pool.mapTx.find hash = some t → ∀ i txin, t.vin[i]? = some txin →
      pool.mapNextTx.find txin.prevout = some ⟨some hash, i⟩) ∧
  (∀ outpoint inpoint, pool.mapNextTx.find outpoint = some inpoint →
      ∃ hash t txin, inpoint.ptx = some hash ∧ pool.mapTx.find hash = some t ∧
        t.vin[inpoint.n]? = some txin ∧ txin.prevout = outpoint)

/-- The invariant that the calls preserve: the outpoint invariant, and every pool
transaction is stored under its hash. -/
def CTxMemPool.Consistent (GetHash : CTransaction → uint256) (pool : CTxMemPool) : Prop :=
  pool.OutpointInvariant ∧ ∀ hash t, pool.mapTx.find hash = some t → GetHash t = hash

/-! ## Best chain (main.cpp:1209-1227, 1690-1896, 1935-1978) -/

/-- The node reached from `p` by following `pnext` exactly `k` times, if all these nodes
exist. -/
def ChainState.descendant (s : ChainState) (p : Nat) : Nat → Option Nat
  | 0 => if p < s.vBlockIndex.length then some p else none
  | k + 1 =>
    match s.node p with
    | none => none
    | some n =>
      match n.pnext with
      | none => none
      | some q => ChainState.descendant s q k

/-- The chain of `pnext` pointers that starts at the node `a` reaches the node `b`. -/
def ChainState.PnextReaches (s : ChainState) (a b : Nat) : Prop :=
  ∃ k, s.descendant a k = some b

/-- Cumulative work does not decrease from a parent to its child. -/
def ChainState.WorkMonotone (s : ChainState) : Prop :=
  ∀ p np q nq, s.node p = some np → np.pprev = some q → s.node q = some nq →
    nq.bnChainWork ≤ np.bnChainWork

/-- The assignment `p->pnext = v`; `none` when `p` points to no node. -/
def ChainState.setPnext (s : ChainState) (p : Nat) (v : Option Nat) : Option ChainState :=
  match s.node p with
  | none => none
  | some n => some { s with vBlockIndex := s.vBlockIndex.set p { n with pnext := v } }

/-- What the database, the block files and the validation of blocks answer during a
call of `SetBestChain` or `AddToBlockIndex`. The calls that concern a block are told
apart by the node of the block: `TxnCommit p` and `WriteHashBestChain p` stand for the
calls made when `p` becomes the tip, `TxnBeginSecondary p` for the `TxnBegin` made before
the postponed block `p` is connected. `TxnBeginIndex` and `TxnCommitIndex` are the calls
of `AddToBlockIndex` around `WriteBlockIndex`. -/
structure DbAnswers where
  TxnBegin : Bool
  TxnBeginSecondary : Nat → Bool
  TxnCommit : Nat → Bool
  WriteHashBestChain : Nat → Bool
  ReadFromDisk : Nat → Bool
  ConnectBlock : Nat → Bool
  DisconnectBlock : Nat → Bool
  TxnBeginIndex : Bool
  TxnCommitIndex : Bool

/-- Function `InvalidChainFound` (main.cpp:1209). Its log output reads
`pindexBest->GetBlockTime()`, so the call does not return for a null `pindexBest`. -/
def InvalidChainFound (s : ChainState) (pindexNew : Nat) : Option ChainState :=
  match s.node pindexNew, s.pindexBest with
  | some n, some _ =>
    if n.bnChainWork > s.bnBestInvalidWork then
      some { s with bnBestInvalidWork := n.bnChainWork }
    else some s
  | _, _ => none

/-- The inner loop of the search for the fork in `Reorganize` (main.cpp:1699-1701),
`while (plonger->nHeight > pfork->nHeight) if (!(plonger = plonger->pprev)) return
error(...)`: `some none` when it returns the error, else the new `plonger`. The first
argument bounds the number of rounds. -/
def Reorganize.descend (s : ChainState) (nHeightFork : Int) : Nat → Nat → Option (Option Nat)
  | fuel, plonger =>
    match s.node plonger with
    | none => none
    | some n =>
      if n.nHeight > nHeightFork then
        match n.pprev with
        | none => some none
        | some q =>
          match fuel with
          | 0 => none
          | fuel1 + 1 => Reorganize.descend s nHeightFork fuel1 q
      else some (some plonger)

/-- The search for the fork in `Reorganize` (main.cpp:1697-1706),
`while (pfork != plonger) { ... }`: `some none` when it returns an error, else the fork.
The first argument bounds the number of rounds. -/
def Reorganize.findFork (s : ChainState) : Nat → Nat → Nat → Option (Option Nat)
  | fuel, pfork, plonger =>
    if pfork ≠ plonger then
      match s.node pfork with
      | none => none
      | some nf =>
        match Reorganize.descend s nf.nHeight s.vBlockIndex.length plonger with
        | none => none
        | some none => some none
        | some (some plonger1) =>
          if pfork = plonger1 then some (some pfork)
          else
            match nf.pprev with
            | none => some none
            | some pfork1 =>
              match fuel with
              | 0 => none
              | fuel1 + 1 => Reorganize.findFork s fuel1 pfork1 plonger1
    else some (some pfork)

/-- The loops that fill `vDisconnect` and `vConnect` (main.cpp:1709-1717),
`for (pindex = from; pindex != pfork; pindex = pindex->pprev) push_back(pindex)`. The
first argument bounds the number of rounds. -/
def Reorganize.path (s : ChainState) (pfork : Nat) : Nat → Option Nat → Option (List Nat)
  | fuel, pindex =>
    if pindex ≠ some pfork then
      match pindex with
      | none => none
      | some p =>
        match s.node p with
        | none => none
        | some n =>
          match fuel with
          | 0 => none
          | fuel1 + 1 => (Reorganize.path s pfork fuel1 n.pprev).map (fun l => p :: l)
    else some []

/-- The loop `if (pindex->pprev) pindex->pprev->pnext = NULL` over `vDisconnect`
(main.cpp:1762-1764). -/
def Reorganize.unlink : List Nat → ChainState → Option ChainState
  | [], s => some s
  | p :: rest, s =>
    match s.node p with
    | none => none
    | some n =>
      match n.pprev with
      | none => Reorganize.unlink rest s
      | some q =>
        match s.setPnext q none with
        | none => none
        | some s1 => Reorganize.unlink rest s1

/-- The loop `if (pindex->pprev) pindex->pprev->pnext = pindex` over `vConnect`
(main.cpp:1767-1769). -/
def Reorganize.link : List Nat → ChainState → Option ChainState
  | [], s => some s
  | p :: rest, s =>
    match s.node p with
    | none => none
    | some n =>
      match n.pprev with
      | none => Reorganize.link rest s
      | some q =>
        match s.setPnext q (some p) with
        | none => none
        | some s1 => Reorganize.link rest s1

/-- Function `Reorganize` (main.cpp:1690) on the block index; the changes it makes to the
database, the memory pool and the wallets are not part of the state. The result is `none`
when the call does not return (a null or wild pointer is followed, or a bound on the
rounds of a loop is reached). -/
def Reorganize (db : DbAnswers) (s : ChainState) (pindexNew : Nat) :
    Option (Bool × ChainState) :=
  match s.pindexBest with
  | none => none
  | some pindexBest =>
    match Reorganize.findFork s s.vBlockIndex.length pindexBest pindexNew with
    | none => none
    | some none => some (false, s)
    | some (some pfork) =>
      match Reorganize.path s pfork s.vBlockIndex.length (some pindexBest),
          Reorganize.path s pfork s.vBlockIndex.length (some pindexNew) with
      | some vDisconnect, some vConnectRev =>
        let vConnect := vConnectRev.reverse
        if !vDisconnect.all (fun p => db.ReadFromDisk p && db.DisconnectBlock p) then
          some (false, s)
        else if !vConnect.all (fun p => db.ReadFromDisk p && db.ConnectBlock p) then
          some (false, s)
        else if !db.WriteHashBestChain pindexNew then some (false, s)
        else if !db.TxnCommit pindexNew then some (false, s)
        else
          match Reorganize.unlink vDisconnect s with
          | none => none
          | some s1 =>
            match Reorganize.link vConnect s1 with
            | none => none
            | some s2 => some (true, s2)
      | _, _ => none

/-- Method `CBlock::SetBestChainInner` (main.cpp:1792) on the block index. -/
def SetBestChainInner (db : DbAnswers) (s : ChainState) (pindexNew : Nat) :
    Option (Bool × ChainState) :=
  if !db.ConnectBlock pindexNew || !db.WriteHashBestChain pindexNew then
    (InvalidChainFound s pindexNew).map (fun s1 => (false, s1))
  else if !db.TxnCommit pindexNew then some (false, s)
  else
    match s.node pindexNew with
    | none => none
    | some n =>
      match n.pprev with
      | none => none
      | some q => (s.setPnext q (some pindexNew)).map (fun s1 => (true, s1))

/-- The loop of `SetBestChain` that postpones blocks (main.cpp:1843-1847),
`while (pindexIntermediate->pprev && pindexIntermediate->pprev->bnChainWork >
pindexBest->bnChainWork)`: the final `pindexIntermediate` and `vpindexSecondary`. The
first argument bounds the number of rounds. -/
def SetBestChain.postpone (s : ChainState) :
    Nat → Nat → List Nat → Option (Nat × List Nat)
  | fuel, pindexIntermediate, vpindexSecondary =>
    match s.node pindexIntermediate with
    | none => none
    | some n =>
      match n.pprev with
      | none => some (pindexIntermediate, vpindexSecondary)
      | some q =>
        match s.node q, s.pindexBest.bind s.node with
        | some nq, some nBest =>
          if nq.bnChainWork > nBest.bnChainWork then
            match fuel with
            | 0 => none
            | fuel1 + 1 =>
              SetBestChain.postpone s fuel1 q (vpindexSecondary ++ [pindexIntermediate])
          else some (pindexIntermediate, vpindexSecondary)
        | _, _ => none

/-- The loop of `SetBestChain` that connects the postponed blocks (main.cpp:1863-1877),
over `vpindexSecondary` in reverse order; a failure ends the loop. -/
def SetBestChain.connectSecondary (db : DbAnswers) : List Nat → ChainState → Option ChainState
  | [], s => some s
  | pindex :: rest, s =>
    if !db.ReadFromDisk pindex then some s
    else if !db.TxnBeginSecondary pindex then some s
    else
      match SetBestChainInner db s pindex with
      | none => none
      | some (false, s1) => some s1
      | some (true, s1) => SetBestChain.connectSecondary db rest s1

/-- The three branches of `SetBestChain` (main.cpp:1824-1878): the genesis block, a
block on top of the best block, and a reorganisation. -/
def SetBestChain.branch (db : DbAnswers) (s : ChainState) (hash hashPrevBlock : uint256)
    (pindexNew : Nat) : Option (Bool × ChainState) :=
  if s.pindexGenesisBlock = none ∧ hash = s.hashGenesisBlock then
    if !db.TxnCommit pindexNew then some (false, s)
    else some (true, { s with pindexGenesisBlock := some pindexNew })
  else if hashPrevBlock = s.hashBestChain then
    SetBestChainInner db s pindexNew
  else
    match SetBestChain.postpone s s.vBlockIndex.length pindexNew [] with
    | none => none
    | some (pindexIntermediate, vpindexSecondary) =>
      match Reorganize db s pindexIntermediate with
      | none => none
      | some (false, s1) => (InvalidChainFound s1 pindexNew).map (fun s2 => (false, s2))
      | some (true, s1) =>
        (SetBestChain.connectSecondary db vpindexSecondary.reverse s1).map
          (fun s2 => (true, s2))

/-- Method `CBlock::SetBestChain` (main.cpp:1816) on the block index and the globals of
the best chain; `hash` is the hash of the block and `hashPrevBlock` its header field. -/
def SetBestChain (db : DbAnswers) (s : ChainState) (hash hashPrevBlock : uint256)
    (pindexNew : Nat) : Option (Bool × ChainState) :=
  if !db.TxnBegin then some (false, s)
  else
    match SetBestChain.branch db s hash hashPrevBlock pindexNew with
    | none => none
    | some (false, s1) => some (false, s1)
    | some (true, s1) =>
      match s1.node pindexNew with
      | none => none
      | some n =>
        some (true, { s1 with
          hashBestChain := hash
          pindexBest := some pindexNew
          nBestHeight := n.nHeight
          bnBestChainWork := n.bnChainWork })

/-- Method `CBlockIndex::GetBlockWork` (main.h:1165). -/
def GetBlockWork (SetCompact : Nat → Int) (nBits : Nat) : Int :=
  let bnTarget := SetCompact nBits
  if bnTarget ≤ 0 then 0 else (2 ^ 256 : Int) / (bnTarget + 1)

/-- The first part of `CBlock::AddToBlockIndex` after the test for a duplicate
(main.cpp:1942-1953), which allocates and fills the index node of the block: the pointer
to the new node and the state with the node. The node is first built by the constructor
(height 0, work 0, null pointers) and entered in `mapBlockIndex`; then its parent is
looked up. The result is `none` when `mapBlockIndex` leads to no node. -/
def AddToBlockIndex.insert (SetCompact : Nat → Int) (s : ChainState) (hash : uint256)
    (block : CBlock) (nFile nBlockPos : Nat) : Option (Nat × ChainState) :=
  let pindexNew := s.vBlockIndex.length
  let node0 : CBlockIndex :=
    { phashBlock := hash
      pprev := none
      pnext := none
      nFile := nFile
      nBlockPos := nBlockPos
      nHeight := 0
      bnChainWork := 0
      nVersion := block.nVersion
      hashMerkleRoot := block.hashMerkleRoot
      nTime := block.nTime
      nBits := block.nBits
      nNonce := block.nNonce }
  let s1 : ChainState :=
    { s with vBlockIndex := s.vBlockIndex ++ [node0],
             mapBlockIndex := s.mapBlockIndex.set hash pindexNew }
  match s1.mapBlockIndex.find block.hashPrevBlock with
  | none =>
    let node := { node0 with bnChainWork := 0 + GetBlockWork SetCompact block.nBits }
    some (pindexNew, { s1 with vBlockIndex := s1.vBlockIndex.set pindexNew node })
  | some q =>
    match s1.node q with
    | none => none
    | some nq =>
      let node :=
        { node0 with
          pprev := some q
          nHeight := nq.nHeight + 1
          bnChainWork := nq.bnChainWork + GetBlockWork SetCompact block.nBits }
      some (pindexNew, { s1 with vBlockIndex := s1.vBlockIndex.set pindexNew node })

/-- Method `CBlock::AddToBlockIndex` (main.cpp:1935) on the block index and the globals
of the best chain; `hash` is the hash of the block. -/
def AddToBlockIndex (SetCompact : Nat → Int) (db : DbAnswers) (s : ChainState)
    (hash : uint256) (block : CBlock) (nFile nBlockPos : Nat) : Option (Bool × ChainState) :=
  if s.mapBlockIndex.count hash ≠ 0 then some (false, s)
  else
    match AddToBlockIndex.insert SetCompact s hash block nFile nBlockPos with
    | none => none
    | some (pindexNew, s1) =>
      if !db.TxnBeginIndex then some (false, s1)
      else if !db.TxnCommitIndex then some (false, s1)
      else
        match s1.node pindexNew with
        | none => none
        | some n =>
          if n.bnChainWork > s1.bnBestChainWork then
            match SetBestChain db s1 hash block.hashPrevBlock pindexNew with
            | none => none
            | some (false, s2) => some (false, s2)
            | some (true, s2) => some (true, s2)
          else some (true, s1)

/-- The fields of an index node that the best-chain functions never assign: all but
`pnext`. -/
def CBlockIndex.erasePnext (n : CBlockIndex) : CBlockIndex := { n with pnext := none }

/-- Two states have the same index nodes up to the `pnext` pointers. -/
def ChainState.SameNodes (s s1 : ChainState) : Prop :=
  s1.vBlockIndex.map CBlockIndex.erasePnext = s.vBlockIndex.map CBlockIndex.erasePnext

/-! ## GetMinFee (main.h:57-61, 423-428, main.cpp:503-535) -/

/-- Constant `MIN_TX_FEE` (main.h:57). -/
def MIN_TX_FEE : Int := 10000000

/-- Constant `MIN_RELAY_TX_FEE` (main.h:59). -/
def MIN_RELAY_TX_FEE : Int := 5000000

/-- Constant `TX_DUST` (main.h:61). -/
def TX_DUST : Int := 1000000

/-- Enumeration `GetMinFee_mode` (main.h:423). -/
inductive GetMinFee_mode where
  | GMF_BLOCK
  | GMF_RELAY
  | GMF_SEND
deriving DecidableEq, Repr

/-- The dust loop of `GetMinFee` (main.cpp:524-525): one `nBaseFee` is added, in 64-bit
arithmetic, for every output below `TX_DUST`. -/
def GetMinFee.dust (nBaseFee : Int) : List CTxOut → Int → Int
  | [], nMinFee => nMinFee
  | txout :: rest, nMinFee =>
      GetMinFee.dust nBaseFee rest
        (if txout.nValue < TX_DUST then wrap64 (nMinFee + nBaseFee) else nMinFee)

/-- Method `CTransaction::GetMinFee` (main.cpp:503). `nBytes` is an `unsigned int`, and so
is `nNewBlockSize`, whose sum wraps at `2^32`; the fee is an `int64`. -/
def CTransaction.GetMinFee (tx : CTransaction) (nBytes : Nat) (fAllowFree : Bool)
    (mode : GetMinFee_mode) : Int :=
  let nBaseFee : Int := if mode = GetMinFee_mode.GMF_RELAY then MIN_RELAY_TX_FEE else MIN_TX_FEE
  let nNewBlockSize : Nat := if mode = GetMinFee_mode.GMF_SEND then nBytes else wrap32u (1000 + nBytes)
  let nMinFee0 : Int := wrap64 ((1 + (nBytes : Int) / 1000) * nBaseFee)
  let nMinFee1 : Int :=
    if fAllowFree then
      if mode = GetMinFee_mode.GMF_SEND then (if nBytes < 2000 then 0 else nMinFee0)
      else (if nNewBlockSize < 11000 then 0 else nMinFee0)
    else nMinFee0
  let nMinFee2 : Int := GetMinFee.dust nBaseFee tx.vout nMinFee1
  if mode ≠ GetMinFee_mode.GMF_SEND ∧ nNewBlockSize ≥ MAX_BLOCK_SIZE_GEN / 2 then
    if nNewBlockSize ≥ MAX_BLOCK_SIZE_GEN then MAX_MONEY
    else
      let nMinFee3 : Int :=
        wrap64 (nMinFee2 * ((MAX_BLOCK_SIZE_GEN / (MAX_BLOCK_SIZE_GEN - nNewBlockSize) : Nat) : Int))
      if !MoneyRange nMinFee3 then MAX_MONEY else nMinFee3
  else nMinFee2

/-- The number of outputs of a transaction whose value is below `TX_DUST`. -/
def CTransaction.nDustOutputs (tx : CTransaction) : Nat :=
  (tx.vout.filter (fun txout => decide (txout.nValue < TX_DUST))).length

/-! ## FetchInputs, GetValueIn and the input checks of accept (main.cpp:598-658, 1283-1375) -/

/-- What the transaction database (class `CTxDB`, db.cpp) answers: `ReadTxIndex` by hash
(`none` when it returns false), `CTransaction::ReadFromDisk` by disk position (`none` when
it returns false), and `ContainsTx` by hash. -/
structure TxDb where
  ReadTxIndex : uint256 → Option CTxIndex
  ReadFromDisk : CDiskTxPos → Option CTransaction
  ContainsTx : uint256 → Bool

/-- A null disk position, `CDiskTxPos::SetNull` (main.h:198). -/
def CDiskTxPos.null : CDiskTxPos := ⟨UINT32_MAX, 0, 0⟩

/-- A null index entry, `CTxIndex::SetNull` (main.h:777). -/
def CTxIndex.null : CTxIndex := ⟨CDiskTxPos.null, []⟩

/-- A null transaction, `CTransaction::SetNull` (main.h:462). -/
def CTransaction.null : CTransaction := ⟨1, [], [], 0, 0⟩

/-- The first loop of `FetchInputs` (main.cpp:1295-1337) over the inputs that are left,
with the map `inputsRet` filled so far. The result is the flag (`false` for one of the
`return`s of the loop) and the map, in which `inputsRet[prevout.hash]` has made an entry
before the `return`. -/
def FetchInputs.fetch (db : TxDb) (mempool : CTxMemPool) (mapTestPool : CMap uint256 CTxIndex)
    (fBlock fMiner : Bool) : List CTxIn → MapPrevTx → Bool × MapPrevTx
  | [], inputsRet => (true, inputsRet)
  | txin :: rest, inputsRet =>
      let prevout := txin.prevout
      if inputsRet.count prevout.hash ≠ 0 then
        FetchInputs.fetch db mempool mapTestPool fBlock fMiner rest inputsRet
      else
        let found : Option CTxIndex :=
          if (fBlock || fMiner) && decide (mapTestPool.count prevout.hash ≠ 0) then
            mapTestPool.find prevout.hash
          else db.ReadTxIndex prevout.hash
        let fFound := found.isSome
        let txindex := found.getD CTxIndex.null
        if !fFound && (fBlock || fMiner) then
          (false, inputsRet.set prevout.hash (txindex, CTransaction.null))
        else if !fFound || decide (txindex.pos = ⟨1, 1, 1⟩) then
          match mempool.mapTx.find prevout.hash with
          | none => (false, inputsRet.set prevout.hash (txindex, CTransaction.null))
          | some txPrev =>
            let txindex1 : CTxIndex :=
              if !fFound then
                { txindex with
                  vSpent := txindex.vSpent.take txPrev.vout.length ++
                    List.replicate (txPrev.vout.length - txindex.vSpent.length) CDiskTxPos.null }
              else txindex
            FetchInputs.fetch db mempool mapTestPool fBlock fMiner rest
              (inputsRet.set prevout.hash (txindex1, txPrev))
        else
          match db.ReadFromDisk txindex.pos with
          | none => (false, inputsRet.set prevout.hash (txindex, CTransaction.null))
          | some txPrev =>
            FetchInputs.fetch db mempool mapTestPool fBlock fMiner rest
              (inputsRet.set prevout.hash (txindex, txPrev))

/-- The second loop of `FetchInputs` (main.cpp:1340-1356): `some true` when every
`prevout.n` is in range, `some false` when one is not, `none` when the assertion fails. -/
def FetchInputs.inRange (inputsRet : MapPrevTx) : List CTxIn → Option Bool
  | [] => some true
  | txin :: rest =>
      match inputsRet.find txin.prevout.hash with
      | none => none
      | some (txindex, txPrev) =>
        if txin.prevout.n ≥ txPrev.vout.length || txin.prevout.n ≥ txindex.vSpent.length then
          some false
        else FetchInputs.inRange inputsRet rest

/-- Method `CTransaction::FetchInputs` (main.cpp:1283). The result is the returned flag,
the transaction with its new `nDoS`, the new `inputsRet` and `fInvalid`; it is `none` when
the assertion of the second loop fails. -/
def CTransaction.FetchInputs (tx : CTransaction) (db : TxDb) (mempool : CTxMemPool)
    (mapTestPool : CMap uint256 CTxIndex) (fBlock fMiner : Bool) (inputsRet : MapPrevTx) :
    Option (Bool × CTransaction × MapPrevTx × Bool) :=
  if tx.IsCoinBase then some (true, tx, inputsRet, false)
  else
    let r := FetchInputs.fetch db mempool mapTestPool fBlock fMiner tx.vin inputsRet
    if !r.1 then some (false, tx, r.2, false)
    else
      match FetchInputs.inRange r.2 tx.vin with
      | none => none
      | some false => some ((tx.DoS 100 false).1, (tx.DoS 100 false).2, r.2, true)
      | some true => some (true, tx, r.2, false)

/-- Method `CTransaction::GetOutputFor` (main.cpp:1359); `none` when it throws. -/
def CTransaction.GetOutputFor (input : CTxIn) (inputs : MapPrevTx) : Option CTxOut :=
  match inputs.find input.prevout.hash with
  | none => none
  | some (_, txPrev) => txPrev.vout[input.prevout.n]?

/-- The loop of `GetValueIn` (main.cpp:1378-1381) with the running 64-bit total. -/
def GetValueIn.loop (inputs : MapPrevTx) : List CTxIn → Int → Option Int
  | [], nResult => some nResult
  | txin :: rest, nResult =>
      match CTransaction.GetOutputFor txin inputs with
      | none => none
      | some txout => GetValueIn.loop inputs rest (wrap64 (nResult + txout.nValue))

/-- Method `CTransaction::GetValueIn` (main.cpp:1372); `none` when it throws. -/
def CTransaction.GetValueIn (tx : CTransaction) (inputs : MapPrevTx) : Option Int :=
  if tx.IsCoinBase then some 0 else GetValueIn.loop inputs tx.vin 0

/-- The block under `if (fCheckInputs)` of `CTxMemPool::accept` (main.cpp:598-658) for the
transaction `tx` with the hash `hash`, up to what it tells the rest of `accept`: whether
the database holds the transaction already (main.cpp:559), whether the block lets the
transaction pass, what it adds to `nDoS`, and what it stores in `*pfMissingInputs`.
`AreInputsStandard` is the method of that name (script code), `RateLimited` says whether
the rate limiter of free transactions, which keeps a floating-point count between calls,
refuses a transaction of the given size. The result is `none` when the block does not
return (an assertion or an exception). -/
def accept.inputChecks (ext : Externals) (db : TxDb)
    (AreInputsStandard : CTransaction → MapPrevTx → Bool)
    (RateLimited : CTransaction → Nat → Bool) (fTestNet : Bool) (s : ChainState)
    (mempool : CTxMemPool) (tx : CTransaction) (hash : uint256) : Option AcceptAnswers :=
  match tx.FetchInputs db mempool [] false false [] with
  | none => none
  | some (false, tx1, _, fInvalid) =>
      some ⟨db.ContainsTx hash, false, tx1.nDoS - tx.nDoS, !fInvalid⟩
  | some (true, _, mapInputs, _) =>
    if !AreInputsStandard tx mapInputs && !fTestNet then
      some ⟨db.ContainsTx hash, false, 0, false⟩
    else
      match tx.GetValueIn mapInputs, tx.GetValueOut with
      | some nValueIn, some nValueOut =>
        let nFees := wrap64 (nValueIn - nValueOut)
        let nSize := wrap32u (ext.GetSerializeSizeTx tx)
        let txMinFee := tx.GetMinFee nSize true GetMinFee_mode.GMF_RELAY
        if nFees < txMinFee then some ⟨db.ContainsTx hash, false, 0, false⟩
        else if decide (nFees < MIN_RELAY_TX_FEE) && RateLimited tx nSize then
          some ⟨db.ContainsTx hash, false, 0, false⟩
        else
          match tx.ConnectInputs ext s mapInputs [] ⟨1, 1, 1⟩ s.pindexBest false false true with
          | none => none
          | some (fResult, tx1, _) =>
              some ⟨db.ContainsTx hash, fResult, tx1.nDoS - tx.nDoS, false⟩
      | _, _ => none

/-! ## GetNextWorkRequired (main.h:76-104, main.cpp:49-51, 1004-1170) -/

/-- Constant `nForkOne` (main.h:76). -/
def nForkOne : Int := 46500

/-- Constant `nForkTwo` (main.h:77). -/
def nForkTwo : Int := 69444

/-- Constant `nForkFive` (main.h:80). -/
def nForkFive : Int := 400000

/-- Constant `nTestnetForkTwo` (main.h:86). -/
def nTestnetForkTwo : Int := 3600

/-- Constant `nTargetSpacingZero` (main.h:94). -/
def nTargetSpacingZero : Int := 90

/-- Constant `nTargetSpacingOne` (main.h:95). -/
def nTargetSpacingOne : Int := nTargetSpacingZero

/-- Constant `nTargetSpacingTwo` (main.h:96). -/
def nTargetSpacingTwo : Int := 50

/-- Constant `nTargetSpacingThree` (main.h:97). -/
def nTargetSpacingThree : Int := 45

/-- Constant `nTargetSpacingFour` (main.h:98). -/
def nTargetSpacingFour : Int := 90

/-- Constant `nTargetTimespanZero` (main.h:100). -/
def nTargetTimespanZero : Int := 2400 * nTargetSpacingZero

/-- Constant `nTargetTimespanOne` (main.h:101). -/
def nTargetTimespanOne : Int := 600 * nTargetSpacingOne

/-- Constant `nTargetTimespanTwo` (main.h:102). -/
def nTargetTimespanTwo : Int := 108 * nTargetSpacingTwo

/-- Constant `nTargetTimespanThree` (main.h:103). -/
def nTargetTimespanThree : Int := 126 * nTargetSpacingThree

/-- Constant `nTargetTimespanFour` (main.h:104). -/
def nTargetTimespanFour : Int := 20 * nTargetSpacingFour

/-- Global `bnNeoScryptSwitch` (main.cpp:51), `~uint256(0) >> 26`. -/
def bnNeoScryptSwitch : Int := ((2 ^ 256 - 1 : Nat) >>> 26 : Nat)

/-- The value of an `int64` or of an `int` sum stored in an `int`: the low 32 bits, with
the sign. -/
def wrap32 (x : Int) : Int := (x + 2 ^ 31) % 2 ^ 32 - 2 ^ 31

/-- The time of the block of node `p` as `GetBlockTime` (main.h:1176) returns it; `none`
for a pointer that points to no node. -/
def ChainState.GetBlockTime (s : ChainState) (p : Nat) : Option Int :=
  (s.node p).map fun n => (n.nTime : Int)

/-- The part of `GetNextWorkRequired` from the averaging windows to the limiter
(main.cpp:1085-1148) for a retarget at the height `nHeight` on top of the node
`pindexLast`, entered with `nInterval` and `nTargetTimespan`. The two loops
`for(i = 0; pindexFirst && (i < nInterval); i++) pindexFirst = pindexFirst->pprev` are
walks along `pprev`, and the block time is read through `pindexFirst` after each. The
result is the limited `nActualTimespan` with the final `nTargetTimespan`; it is `none`
when a null pointer or a pointer to no node is read. The products of the constants stay
far below `2^31`; the sums of time spans are stored in an `int`. -/
def GetNextWorkRequired.timespan (fTestNet : Bool) (s : ChainState) (pindexLast : Nat)
    (nHeight nInterval nTargetTimespan : Int) : Option (Int × Int) :=
  let fAveraging : Bool :=
    decide (nHeight ≥ nForkFour) || (fTestNet && decide (nHeight ≥ nTestnetForkOne))
  let nInterval1 : Int := if fAveraging then nInterval * 5 else nInterval
  let nTargetTimespan1 : Int := if fAveraging then nTargetTimespan * 5 else nTargetTimespan
  let nInterval2 : Int := if nInterval1 ≥ nHeight then nHeight - 1 else nInterval1
  match s.ancestor pindexLast nInterval2.toNat with
  | none => none
  | some pindexFirst =>
    match s.GetBlockTime pindexLast, s.GetBlockTime pindexFirst with
    | some nTimeLast, some nTimeFirst =>
      let nActualTimespan : Int := wrap32 (nTimeLast - nTimeFirst)
      let damped : Option Int :=
        if fAveraging then
          match s.ancestor pindexFirst (nInterval2 * 4).toNat with
          | none => none
          | some pindexFirst1 =>
            match s.GetBlockTime pindexFirst1 with
            | none => none
            | some nTimeFirst1 =>
              let nActualTimespanExtended : Int := wrap32 (Int.tdiv (nTimeLast - nTimeFirst1) 5)
              let nActualTimespanAvg : Int :=
                Int.tdiv (wrap32 (nActualTimespan + nActualTimespanExtended)) 2
              some (Int.tdiv (wrap32 (nActualTimespanAvg + 9 * nTargetTimespan1)) 10)
        else some nActualTimespan
      match damped with
      | none => none
      | some nActualTimespan1 =>
        let nActualTimespanMax : Int := nTargetTimespan1 * 4
        let nActualTimespanMin : Int := Int.tdiv nTargetTimespan1 4
        let nActualTimespanMax : Int :=
          if nHeight ≥ nForkOne then Int.tdiv (nTargetTimespan1 * 99) 55 else nActualTimespanMax
        let nActualTimespanMin : Int :=
          if nHeight ≥ nForkOne then Int.tdiv (nTargetTimespan1 * 55) 99 else nActualTimespanMin
        let nActualTimespanMax : Int :=
          if nHeight ≥ nForkThree then Int.tdiv (nTargetTimespan1 * 109) 100
          else nActualTimespanMax
        let nActualTimespanMin : Int :=
          if nHeight ≥ nForkThree then Int.tdiv (nTargetTimespan1 * 100) 109
          else nActualTimespanMin
        let nActualTimespanMax : Int :=
          if fAveraging then Int.tdiv (nTargetTimespan1 * 102) 100 else nActualTimespanMax
        let nActualTimespanMin : Int :=
          if fAveraging then Int.tdiv (nTargetTimespan1 * 100) 102 else nActualTimespanMin
        let nActualTimespanMax : Int :=
          if nHeight ≥ nForkFive ∨ (fTestNet = true ∧ nHeight ≥ nTestnetForkTwo) then
            Int.tdiv (nTargetTimespan1 * 105) 100
          else nActualTimespanMax
        let nActualTimespan2 : Int :=
          if nActualTimespan1 < nActualTimespanMin then nActualTimespanMin else nActualTimespan1
        let nActualTimespan3 : Int :=
          if nActualTimespan2 > nActualTimespanMax then nActualTimespanMax else nActualTimespan2
        some (nActualTimespan3, nTargetTimespan1)
    | _, _ => none

/-- The loop of the testnet rule (main.cpp:1075-1077),
`while(pindex->pprev && (pindex->nHeight % nInterval != 0) && (pindex->nBits ==
nProofOfWorkLimit)) pindex = pindex->pprev`, with a bound on the number of rounds: the
node at which it stops, `none` when the bound is reached or a pointer points to no node. -/
def GetNextWorkRequired.lastRegular (s : ChainState) (nInterval : Int)
    (nProofOfWorkLimit : Nat) : Nat → Nat → Option CBlockIndex
  | 0, _ => none
  | fuel + 1, pindex =>
    match s.node pindex with
    | none => none
    | some n =>
      match n.pprev with
      | none => some n
      | some q =>
        if Int.tmod n.nHeight nInterval ≠ 0 ∧ n.nBits = nProofOfWorkLimit then
          GetNextWorkRequired.lastRegular s nInterval nProofOfWorkLimit fuel q
        else some n

/-- Function `GetNextWorkRequired` (main.cpp:1004). `SetCompact` and `GetCompact` are the
methods of `CBigNum` (bignum.h), `nTime` is `pblock->nTime`; the big-number quotient is
the truncating one. The write to the global `fNeoScrypt` is not part of the value and is
left out. The result is `none` when a null pointer or a pointer to no node is read. -/
def GetNextWorkRequired (SetCompact : Nat → Int) (GetCompact : Int → Nat) (fTestNet : Bool)
    (s : ChainState) (pindexLast : Option Nat) (nTime : Nat) : Option Nat :=
  let nProofOfWorkLimit := GetCompact bnProofOfWorkLimit
  match pindexLast with
  | none => some nProofOfWorkLimit
  | some pLast =>
    match s.node pLast with
    | none => none
    | some last =>
      let nHeight : Int := last.nHeight + 1
      let nTargetSpacing : Int := nTargetSpacingZero
      let nTargetTimespan : Int := nTargetTimespanZero
      let nTargetSpacing : Int := if nHeight ≥ nForkOne then nTargetSpacingOne else nTargetSpacing
      let nTargetTimespan : Int :=
        if nHeight ≥ nForkOne then nTargetTimespanOne else nTargetTimespan
      let nTargetSpacing : Int := if nHeight ≥ nForkTwo then nTargetSpacingTwo else nTargetSpacing
      let nTargetTimespan : Int :=
        if nHeight ≥ nForkTwo then nTargetTimespanTwo else nTargetTimespan
      let nTargetSpacing : Int :=
        if nHeight ≥ nForkThree ∨ fTestNet = true then nTargetSpacingThree else nTargetSpacing
      let nTargetTimespan : Int :=
        if nHeight ≥ nForkThree ∨ fTestNet = true then nTargetTimespanThree else nTargetTimespan
      let nTargetSpacing : Int :=
        if nHeight ≥ nForkFour ∨ (fTestNet = true ∧ nHeight ≥ nTestnetForkOne) then
          nTargetSpacingFour
        else nTargetSpacing
      let nTargetTimespan : Int :=
        if nHeight ≥ nForkFour ∨ (fTestNet = true ∧ nHeight ≥ nTestnetForkOne) then
          nTargetTimespanFour
        else nTargetTimespan
      if (nHeight ≥ nForkFive ∨ (fTestNet = true ∧ nHeight ≥ nTestnetForkTwo)) ∧
          nHeight = nForkFive then
        some (GetCompact bnNeoScryptSwitch)
      else
        let nInterval : Int := Int.tdiv nTargetTimespan nTargetSpacing
        let fHardFork : Bool :=
          if fTestNet then decide (nHeight = nTestnetForkOne) || decide (nHeight = nTestnetForkTwo)
          else decide (nHeight = nForkOne) || decide (nHeight = nForkTwo) ||
            decide (nHeight = nForkThree) || decide (nHeight = nForkFour) ||
            decide (nHeight = nForkFive)
        if Int.tmod nHeight nInterval ≠ 0 ∧ fHardFork = false then
          if fTestNet then
            if nTime > wrap32u (last.nTime + (nTargetSpacing * 2).toNat) then
              some nProofOfWorkLimit
            else
              (GetNextWorkRequired.lastRegular s nInterval nProofOfWorkLimit
                (s.vBlockIndex.length + 1) pLast).map fun n => n.nBits
          else some last.nBits
        else
          match GetNextWorkRequired.timespan fTestNet s pLast nHeight nInterval
              nTargetTimespan with
          | none => none
          | some (nActualTimespan, nTargetTimespan1) =>
            let bnNew : Int :=
              Int.tdiv (SetCompact last.nBits * nActualTimespan) nTargetTimespan1
            let bnNew : Int := if bnNew > bnProofOfWorkLimit then bnProofOfWorkLimit else bnNew
            some (GetCompact bnNew)

/-! ## AcceptBlock (main.h:55, 82-92, 313, 481, 1181, 1215, main.cpp:2038-2189) -/

/-- Constant `BLOCK_LIMITER_TIME` (main.h:55). -/
def BLOCK_LIMITER_TIME : Int := 120

/-- Constant `LOCKTIME_THRESHOLD` (main.h:67). -/
def LOCKTIME_THRESHOLD : Int := 500000000

/-- Constant `nSoftForkOne` (main.h:82). -/
def nSoftForkOne : Int := 270000

/-- Constant `nSoftForkTwo` (main.h:83). -/
def nSoftForkTwo : Int := 340000

/-- Constant `nTestnetSoftForkOne` (main.h:88). -/
def nTestnetSoftForkOne : Int := 3400

/-- Constant `nTestnetSoftForkTwo` (main.h:89). -/
def nTestnetSoftForkTwo : Int := 3500

/-- Constant `nSwitchV2` (main.h:91). -/
def nSwitchV2 : Nat := 1406851200

/-- Constant `nTestnetSwitchV2` (main.h:92). -/
def nTestnetSwitchV2 : Nat := 1404777600

/-- The loop of `GetMedianTimePast` (main.h:1188-1189) for at most `k` more nodes from
`pindex` on: the block times it stores, the oldest first; `none` when a pointer points to
no node. -/
def GetMedianTimePast.times (s : ChainState) : Nat → Option Nat → Option (List Int)
  | 0, _ => some []
  | _ + 1, none => some []
  | k + 1, some p =>
    match s.node p with
    | none => none
    | some n => (GetMedianTimePast.times s k n.pprev).map fun l => l ++ [(n.nTime : Int)]

/-- Method `CBlockIndex::GetMedianTimePast` (main.h:1181) of the node `p`: the element in
the middle of the sorted times of the node and of up to ten nodes before it. -/
def ChainState.GetMedianTimePast (s : ChainState) (p : Nat) : Option Int :=
  (GetMedianTimePast.times s 11 (some p)).map fun l =>
    (l.insertionSort (fun a b => a ≤ b)).getD (l.length / 2) 0

/-- The filling loop of `GetAverageTimePast` (main.h:1230-1231) for at most `k` more
nodes from `pindex` on: the time stamps it stores, the newest first. -/
def GetAverageTimePast.stamps (s : ChainState) : Nat → Option Nat → Option (List Nat)
  | 0, _ => some []
  | _ + 1, none => some []
  | k + 1, some p =>
    match s.node p with
    | none => none
    | some n => (GetAverageTimePast.stamps s k n.pprev).map fun l => n.nTime :: l

/-- Method `CBlockIndex::GetAverageTimePast` (main.h:1215) of the node `p`, with its
`unsigned int` time stamps and its 64-bit accumulator. -/
def ChainState.GetAverageTimePast (s : ChainState) (p : Nat) (nAvgTimeSpan nMinDelay : Nat) :
    Option Nat :=
  if nAvgTimeSpan = 0 then some 0
  else
    match GetAverageTimePast.stamps s nAvgTimeSpan (some p) with
    | none => none
    | some l =>
      let avg : List Nat := List.replicate (nAvgTimeSpan - l.length) 0 ++ l.reverse
      if avg.getD 0 0 = 0 then some 0
      else
        let r : Nat × Nat :=
          avg.tail.foldl
            (fun (acc : Nat × Nat) (a : Nat) =>
              let nTempTime : Nat :=
                if a < wrap32u (acc.1 + nMinDelay) then wrap32u (acc.1 + nMinDelay) else a
              (nTempTime, (acc.2 + nTempTime) % 2 ^ 64))
            (avg.getD 0 0, avg.getD 0 0)
        some (wrap32u (r.2 / nAvgTimeSpan))

/-- Method `CTxIn::IsFinal` (main.h:313). -/
def CTxIn.IsFinal (txin : CTxIn) : Bool := txin.nSequence == UINT32_MAX

/-- Method `CTransaction::IsFinal` (main.h:481). -/
def CTransaction.IsFinal (ext : Externals) (s : ChainState) (tx : CTransaction)
    (nBlockHeight nBlockTime : Int) : Bool :=
  if tx.nLockTime = 0 then true
  else
    let nBlockHeight1 : Int := if nBlockHeight = 0 then s.nBestHeight else nBlockHeight
    let nBlockTime1 : Int := if nBlockTime = 0 then ext.GetAdjustedTime else nBlockTime
    if (tx.nLockTime : Int) <
        (if (tx.nLockTime : Int) < LOCKTIME_THRESHOLD then nBlockHeight1 else nBlockTime1) then
      true
    else tx.vin.all CTxIn.IsFinal

/-- The comparison `std::equal(expect.begin(), expect.end(), scriptSig.begin())` of
`AcceptBlock` (main.cpp:2055): it stops at the first difference, and it has no result when
it reads past the end of `scriptSig`. -/
def AcceptBlock.equal : CScript → CScript → Option Bool
  | [], _ => some true
  | _ :: _, [] => none
  | e :: expect, c :: scriptSig =>
      if e = c then AcceptBlock.equal expect scriptSig else some false

/-- What `AcceptBlock` calls outside `main.h` and `main.cpp` or reads from the clock: the
block hash (`CBlock::GetHash`), the encoder of compact targets (bignum.h), the script
`CScript() << nHeight` (script.h), `IsInitialBlockDownload` at its call for soft fork 2
and at its call for the synchronised checkpoints (it reads the clock and keeps static
state), `Checkpoints::CheckHardened`, `Checkpoints::CheckSync`, whether `CheckpointsMode`
is `STRICT`, `CheckDiskSpace` of the size of the block on disk, and `WriteToDisk` (`none`
when it fails, else the file and the position it stores). -/
structure AcceptBlockAnswers where
  GetHash : CBlock → uint256
  GetCompact : Int → Nat
  ScriptOfHeight : Int → CScript
  fInitialBlockDownload : Bool
  fInitialBlockDownloadSync : Bool
  CheckHardened : Int → uint256 → Bool
  CheckSync : uint256 → Nat → Bool
  fStrict : Bool
  CheckDiskSpace : CBlock → Bool
  WriteToDisk : CBlock → Option (Nat × Nat)

/-- The time-stamp rules of soft fork 1 in `AcceptBlock` (main.cpp:2078-2093): the score
of the rule that rejects the block, `none` when all three let it pass. The sum
`nOurTime + 10 * 60` is an `unsigned int`; the other two comparisons are made in `int64`. -/
def AcceptBlock.softForkOne (nTime nOurTime : Nat) (nMedianTimePast nPrevBlockTime : Int) :
    Option Int :=
  if nTime > wrap32u (nOurTime + 10 * 60) then some 5
  else if (nTime : Int) ≤ nMedianTimePast + BLOCK_LIMITER_TIME then some 5
  else if (nTime : Int) ≤ nPrevBlockTime - 10 * 60 then some 20
  else none

/-- The time-stamp rules of soft fork 2 in `AcceptBlock` (main.cpp:2099-2110), with the
value of `pindexPrev->GetAverageTimePast(5, 45)`: whether they reject the block. -/
def AcceptBlock.softForkTwo (nTime nOurTime nAverageTimePast : Nat) : Bool :=
  if nTime > wrap32u (nOurTime + 5 * 60) then true
  else decide (nTime > wrap32u (nOurTime + 60)) &&
    decide ((nAverageTimePast : Int) + BLOCK_LIMITER_TIME > (nOurTime : Int))

/-- The test of the block height in the coinbase in `AcceptBlock` (main.cpp:2052-2057);
`none` when `vtx[0].vin[0]` does not exist or the comparison reads past the end. -/
def AcceptBlock.heightInCoinbase (ans : AcceptBlockAnswers) (fTestNet : Bool) (b : CBlock)
    (nHeight : Int) : Option Bool :=
  if (fTestNet && decide (b.nTime > nTestnetSwitchV2)) ||
      (!fTestNet && decide (b.nTime > nSwitchV2)) then
    match b.vtx with
    | [] => none
    | tx0 :: _ =>
      match tx0.vin with
      | [] => none
      | txin0 :: _ => AcceptBlock.equal (ans.ScriptOfHeight nHeight) txin0.scriptSig
  else some true

/-- The part of `AcceptBlock` for soft fork 2 (main.cpp:2096-2112): whether it rejects the
block; `none` when `GetAverageTimePast` reads a pointer to no node. -/
def AcceptBlock.softTwo (ans : AcceptBlockAnswers) (fTestNet : Bool) (s : ChainState)
    (b : CBlock) (pindexPrev : Nat) (nHeight : Int) (nOurTime : Nat) : Option Bool :=
  if !ans.fInitialBlockDownload &&
      ((fTestNet && decide (nHeight ≥ nTestnetSoftForkTwo)) ||
        decide (nHeight ≥ nSoftForkTwo)) then
    if b.nTime > wrap32u (nOurTime + 5 * 60) then some true
    else if b.nTime > wrap32u (nOurTime + 60) then
      (s.GetAverageTimePast pindexPrev 5 45).map fun nAverageTimePast =>
        AcceptBlock.softForkTwo b.nTime nOurTime nAverageTimePast
    else some false
  else some false

/-- The last part of `AcceptBlock` (main.cpp:2114-2170): the final transactions, the
checkpoints, and the storing of the block. -/
def AcceptBlock.store (ext : Externals) (ans : AcceptBlockAnswers) (db : DbAnswers)
    (s : ChainState) (b : CBlock) (hash : uint256) (pindexPrev : Nat) (nHeight : Int) :
    Option (Bool × CBlock × ChainState) :=
  if b.vtx.any (fun tx => !tx.IsFinal ext s nHeight (b.nTime : Int)) then
    some ((b.DoS 10 false).1, (b.DoS 10 false).2, s)
  else if !ans.CheckHardened nHeight hash then
    some ((b.DoS 100 false).1, (b.DoS 100 false).2, s)
  else if !ans.fInitialBlockDownloadSync && ans.fStrict && !ans.CheckSync hash pindexPrev then
    some (false, b, s)
  else if !ans.CheckDiskSpace b then some (false, b, s)
  else
    match ans.WriteToDisk b with
    | none => some (false, b, s)
    | some (nFile, nBlockPos) =>
      match AddToBlockIndex ext.SetCompact db s hash b nFile nBlockPos with
      | none => none
      | some (false, s1) => some (false, b, s1)
      | some (true, s1) => some (true, b, s1)

/-- The time-stamp rules of `AcceptBlock` (main.cpp:2069-2112) and what follows them. -/
def AcceptBlock.timeRules (ext : Externals) (ans : AcceptBlockAnswers) (db : DbAnswers)
    (fTestNet : Bool) (s : ChainState) (b : CBlock) (hash : uint256) (pindexPrev : Nat)
    (prev : CBlockIndex) : Option (Bool × CBlock × ChainState) :=
  let nHeight : Int := prev.nHeight + 1
  let nOurTime : Nat := (ext.GetAdjustedTime % 2 ^ 32).toNat
  match s.GetMedianTimePast pindexPrev with
  | none => none
  | some nMedianTimePast =>
    if b.nTime ≤ (nMedianTimePast % 2 ^ 32).toNat then
      some ((b.DoS 20 false).1, (b.DoS 20 false).2, s)
    else
      let softOne : Option Int :=
        if (fTestNet && decide (nHeight ≥ nTestnetSoftForkOne)) ||
            decide (nHeight ≥ nSoftForkOne) then
          AcceptBlock.softForkOne b.nTime nOurTime nMedianTimePast (prev.nTime : Int)
        else none
      match softOne with
      | some nDoSIn => some ((b.DoS nDoSIn false).1, (b.DoS nDoSIn false).2, s)
      | none =>
        match AcceptBlock.softTwo ans fTestNet s b pindexPrev nHeight nOurTime with
        | none => none
        | some true => some ((b.DoS 5 false).1, (b.DoS 5 false).2, s)
        | some false => AcceptBlock.store ext ans db s b hash pindexPrev nHeight

/-- Method `CBlock::AcceptBlock` (main.cpp:2038) on the block index and the globals of the
best chain. The result is the returned flag, the block with its new `nDoS` and the new
state; it is `none` when the call has no defined result (a block without transactions or
a coinbase without inputs at `vtx[0].vin[0]`, a read past the end of the coinbase script,
a pointer to no node). The relay of the inventory to the peers and
`AcceptPendingSyncCheckpoint` (main.cpp:2172-2186), which do not touch the block index or
the returned flag, are left out. -/
def CBlock.AcceptBlock (ext : Externals) (ans : AcceptBlockAnswers) (db : DbAnswers)
    (fTestNet : Bool) (s : ChainState) (b : CBlock) : Option (Bool × CBlock × ChainState) :=
  let hash := ans.GetHash b
  if s.mapBlockIndex.count hash ≠ 0 then some (false, b, s)
  else
    match s.mapBlockIndex.find b.hashPrevBlock with
    | none => some ((b.DoS 10 false).1, (b.DoS 10 false).2, s)
    | some pindexPrev =>
    match s.node pindexPrev with
    | none => none
    | some prev =>
    let nHeight : Int := prev.nHeight + 1
    match AcceptBlock.heightInCoinbase ans fTestNet b nHeight with
    | none => none
    | some false => some ((b.DoS 100 false).1, (b.DoS 100 false).2, s)
    | some true =>
    if (decide (nHeight ≥ nForkFive) || (fTestNet && decide (nHeight ≥ nTestnetForkTwo))) &&
        decide (b.nVersion ≠ 2) then
      some ((b.DoS 100 false).1, (b.DoS 100 false).2, s)
    else
    match GetNextWorkRequired ext.SetCompact ans.GetCompact fTestNet s (some pindexPrev)
        b.nTime with
    | none => none
    | some nBitsRequired =>
    if b.nBits ≠ nBitsRequired then some ((b.DoS 100 false).1, (b.DoS 100 false).2, s)
    else AcceptBlock.timeRules ext ans db fTestNet s b hash pindexPrev prev

/-! ## Peers (net.cpp:579-657) -/

/-- A message in the receive buffer of a peer, as the framing code of `ProcessMessages`
(main.cpp:3431-3483) cuts it out: the command of the header and the message data. -/
structure NetMessage where
  strCommand : String
  vMsg : List Nat
deriving DecidableEq, Repr

/-- The fields of class `CNode` that the functions below read or write: the address, the
socket (`none` for `INVALID_SOCKET`), the receive buffer as the list of the messages in
it, the versions of the two streams `vRecv` and `vSend`, and the state of the handshake
and of the misbehaviour count. -/
structure CNode where
  addr : Nat
  hSocket : Option Nat
  vRecv : List NetMessage
  nRecvVersion : Int
  nSendVersion : Int
  nVersion : Int
  nServices : Nat
  fDisconnect : Bool
  nMisbehavior : Int
deriving DecidableEq, Repr

/-- Method `CNode::CloseSocketDisconnect` (net.cpp:579). -/
def CNode.CloseSocketDisconnect (pnode : CNode) : CNode :=
  match pnode.hSocket with
  | none => { pnode with fDisconnect := true }
  | some _ => { pnode with fDisconnect := true, hSocket := none, vRecv := [] }

/-- What `Misbehaving` reads outside net.cpp: `CNetAddr::IsLocal` of an address
(netbase.cpp), the arguments `-banscore` and `-bantime` (`GetArg`, util.cpp) and the
clock (`GetTime`). -/
structure BanParams where
  IsLocal : Nat → Bool
  nBanScore : Int
  nBanTime : Int
  GetTime : Int

/-- Method `CNode::Misbehaving` (net.cpp:634) with the global map `setBanned`. The result
is the returned flag, the peer and the map. -/
def CNode.Misbehaving (ban : BanParams) (pnode : CNode) (setBanned : CMap Nat Int)
    (howmuch : Int) : Bool × CNode × CMap Nat Int :=
  if ban.IsLocal pnode.addr then (false, pnode, setBanned)
  else
    let pnode1 : CNode := { pnode with nMisbehavior := wrap32 (pnode.nMisbehavior + howmuch) }
    if pnode1.nMisbehavior ≥ ban.nBanScore then
      let banTime : Int := wrap64 (ban.GetTime + ban.nBanTime)
      let setBanned1 : CMap Nat Int :=
        if setBanned.count pnode.addr = 0 then setBanned.set pnode.addr 0 else setBanned
      let setBanned2 : CMap Nat Int :=
        if (setBanned1.find pnode.addr).getD 0 < banTime then setBanned1.set pnode.addr banTime
        else setBanned1
      (true, pnode1.CloseSocketDisconnect, setBanned2)
    else (false, pnode1, setBanned)

/-! ## ProcessBlock (main.cpp:2203-2282) -/

/-- Insertion `m.insert(make_pair(k, v))` into a `std::map`: an entry that is there stays. -/
def CMap.insert {K V : Type} [DecidableEq K] (m : CMap K V) (k : K) (v : V) : CMap K V :=
  if m.count k ≠ 0 then m else m ++ [(k, v)]

/-- The block index with the two maps of orphan blocks (main.cpp:60-61). The maps of the
code hold pointers to one copy of each orphan block; here both hold the block. -/
structure BlockState where
  chain : ChainState
  mapOrphanBlocks : CMap uint256 CBlock
  mapOrphanBlocksByPrev : List (uint256 × CBlock)

/-- What a call of `ProcessBlock` leaves behind: the returned flag, the block, the peer,
the map of banned addresses and the block state. -/
structure ProcessBlockResult where
  fResult : Bool
  block : CBlock
  pfrom : Option CNode
  setBanned : CMap Nat Int
  state : BlockState

/-- The inner loop of the work queue of `ProcessBlock` (main.cpp:2264-2273) over the
orphan blocks that wait for one parent: the state and the queue after it. -/
def ProcessBlock.orphans (ext : Externals) (ans : AcceptBlockAnswers) (db : DbAnswers)
    (fTestNet : Bool) :
    List (uint256 × CBlock) → BlockState → List uint256 → Option (BlockState × List uint256)
  | [], st, vWorkQueue => some (st, vWorkQueue)
  | (_, pblockOrphan) :: rest, st, vWorkQueue =>
    match pblockOrphan.AcceptBlock ext ans db fTestNet st.chain with
    | none => none
    | some (fAccepted, pblockOrphan1, chain1) =>
      let vWorkQueue1 :=
        if fAccepted then vWorkQueue ++ [ans.GetHash pblockOrphan1] else vWorkQueue
      ProcessBlock.orphans ext ans db fTestNet rest
        { st with
          chain := chain1
          mapOrphanBlocks := st.mapOrphanBlocks.erase (ans.GetHash pblockOrphan1) }
        vWorkQueue1

/-- The outer loop of the work queue of `ProcessBlock` (main.cpp:2261-2275) over the
entries of `vWorkQueue` that are left, with a bound on the number of rounds. -/
def ProcessBlock.queue (ext : Externals) (ans : AcceptBlockAnswers) (db : DbAnswers)
    (fTestNet : Bool) : Nat → List uint256 → BlockState → Option BlockState
  | _, [], st => some st
  | 0, _ :: _, _ => none
  | fuel + 1, hashPrev :: rest, st =>
    match ProcessBlock.orphans ext ans db fTestNet
        (st.mapOrphanBlocksByPrev.filter fun e => decide (e.1 = hashPrev)) st [] with
    | none => none
    | some (st1, accepted) =>
      ProcessBlock.queue ext ans db fTestNet fuel (rest ++ accepted)
        { st1 with
          mapOrphanBlocksByPrev :=
            st1.mapOrphanBlocksByPrev.filter fun e => decide (e.1 ≠ hashPrev) }

/-- The test of `ProcessBlock` against the last checkpoint (main.cpp:2224-2234): whether
the block is rejected as older than the checkpoint `pcheckpoint`; `none` when the pointer
points to no node. -/
def ProcessBlock.beforeCheckpoint (s : ChainState) (pcheckpoint : Option Nat) (pblock : CBlock) :
    Option Bool :=
  match pcheckpoint with
  | none => some false
  | some pc =>
    if pblock.hashPrevBlock ≠ s.hashBestChain then
      (s.node pc).map fun cp => decide ((pblock.nTime : Int) - (cp.nTime : Int) < 0)
    else some false

/-- Function `ProcessBlock` (main.cpp:2203). `pcheckpoint` is the answer of
`Checkpoints::GetLastCheckpoint(mapBlockIndex)` (checkpoints.cpp), a pointer into the block
index or null. The requests that the function sends to the peer (`PushGetBlocks`, `AskFor`
and the calls about sync checkpoints), which touch neither the block state nor the
misbehaviour count, are left out. The result is `none` when the call has no defined
result. -/
def ProcessBlock (ext : Externals) (ans : AcceptBlockAnswers) (db : DbAnswers)
    (ban : BanParams) (pcheckpoint : Option Nat) (fTestNet : Bool) (st : BlockState)
    (setBanned : CMap Nat Int) (pfrom : Option CNode) (pblock : CBlock) :
    Option ProcessBlockResult :=
  let hash := ans.GetHash pblock
  if st.chain.mapBlockIndex.count hash ≠ 0 then some ⟨false, pblock, pfrom, setBanned, st⟩
  else if st.mapOrphanBlocks.count hash ≠ 0 then some ⟨false, pblock, pfrom, setBanned, st⟩
  else
    let checked := pblock.CheckBlock ext true true
    if !checked.1 then some ⟨false, checked.2, pfrom, setBanned, st⟩
    else
      let pblock1 := checked.2
      match ProcessBlock.beforeCheckpoint st.chain pcheckpoint pblock1 with
      | none => none
      | some true =>
        match pfrom with
        | none => some ⟨false, pblock1, none, setBanned, st⟩
        | some peer =>
          let r := peer.Misbehaving ban setBanned 100
          some ⟨false, pblock1, some r.2.1, r.2.2, st⟩
      | some false =>
        if st.chain.mapBlockIndex.count pblock1.hashPrevBlock = 0 then
          match pfrom with
          | none => some ⟨true, pblock1, none, setBanned, st⟩
          | some peer =>
            some ⟨true, pblock1, some peer, setBanned,
              { st with
                mapOrphanBlocks := st.mapOrphanBlocks.insert hash pblock1
                mapOrphanBlocksByPrev :=
                  st.mapOrphanBlocksByPrev ++ [(pblock1.hashPrevBlock, pblock1)] }⟩
        else
          match pblock1.AcceptBlock ext ans db fTestNet st.chain with
          | none => none
          | some (false, pblock2, chain1) =>
            some ⟨false, pblock2, pfrom, setBanned, { st with chain := chain1 }⟩
          | some (true, pblock2, chain1) =>
            (ProcessBlock.queue ext ans db fTestNet (st.mapOrphanBlocksByPrev.length + 1)
              [hash] { st with chain := chain1 }).map fun st1 =>
                ⟨true, pblock2, pfrom, setBanned, st1⟩

/-! ## ProcessMessage and ProcessMessages (main.cpp:2767-2910, 3412-3522) -/

/-- What `vRecv >> pfrom->nVersion >> pfrom->nServices >> nTime >> addrMe` of the version
handler (main.cpp:2794) yields: the version and the services when all four reads succeed,
or, when a read throws, the fields that were assigned before. -/
inductive VersionRead where
  | failed (nVersion : Option Int) (nServices : Option Nat)
  | ok (nVersion : Int) (nServices : Nat)
deriving DecidableEq, Repr

/-- What the message functions call or read outside the code modelled here: the parameters
of `Misbehaving`, the three protocol versions (version.h), the test of
`-dropmessagestest` (it draws a random number), the deserialisation of the head of a
version message (serialize.h), the rest of the version handler after the test of the range
(main.cpp:2806-2893: address manager, alerts, checkpoints, pushed messages), the handlers
of the commands other than `version` and `verack` (main.cpp:2913-3400), the test
`pfrom->vSend.size() >= SendBufferSize()`, and the flag `fShutdown`. The handlers return
the flag of `ProcessMessage`, `none` when they throw. -/
structure MessageParams where
  ban : BanParams
  MIN_PROTOCOL_VERSION : Int
  MAX_PROTOCOL_VERSION : Int
  PROTOCOL_VERSION : Int
  DropMessage : NetMessage → Bool
  ReadVersion : List Nat → VersionRead
  VersionRest : CNode → List Nat → Option Bool × CNode
  Handler : String → List Nat → CNode → CMap Nat Int → Option Bool × CNode × CMap Nat Int
  SendBufferFull : CNode → Bool
  fShutdown : Bool

/-- Function `ProcessMessage` (main.cpp:2767) for the peer `pfrom` and the map `setBanned`.
The result is the returned flag (`none` when an exception leaves the function), the peer
and the map. The call of `AddressCurrentlyConnected` at the end (main.cpp:3407), which
writes to the address manager only, is left out. -/
def ProcessMessage (net : MessageParams) (pfrom : CNode) (setBanned : CMap Nat Int)
    (strCommand : String) (vRecv : List Nat) : Option Bool × CNode × CMap Nat Int :=
  if net.DropMessage ⟨strCommand, vRecv⟩ then (some true, pfrom, setBanned)
  else if strCommand = "version" then
    if pfrom.nVersion ≠ 0 then (some true, pfrom, setBanned)
    else
      match net.ReadVersion vRecv with
      | VersionRead.failed nVersion nServices =>
        (none,
          { pfrom with
            nVersion := nVersion.getD pfrom.nVersion
            nServices := nServices.getD pfrom.nServices },
          setBanned)
      | VersionRead.ok nVersion nServices =>
        let pfrom1 : CNode := { pfrom with nVersion := nVersion, nServices := nServices }
        if pfrom1.nVersion > net.MAX_PROTOCOL_VERSION ∨
            pfrom1.nVersion < net.MIN_PROTOCOL_VERSION then
          (some false, { pfrom1 with fDisconnect := true }, setBanned)
        else ((net.VersionRest pfrom1 vRecv).1, (net.VersionRest pfrom1 vRecv).2, setBanned)
  else if pfrom.nVersion = 0 then
    (some false, (pfrom.Misbehaving net.ban setBanned 1).2.1,
      (pfrom.Misbehaving net.ban setBanned 1).2.2)
  else if strCommand = "verack" then
    (some true, { pfrom with nRecvVersion := min pfrom.nVersion net.PROTOCOL_VERSION },
      setBanned)
  else net.Handler strCommand vRecv pfrom setBanned

/-- The loop of `ProcessMessages` (main.cpp:3426-3518) with a bound on the number of
rounds. One round takes the first message out of the receive buffer and hands it to
`ProcessMessage`; the flag it returns and the exceptions it throws are only printed. -/
def ProcessMessages.loop (net : MessageParams) :
    Nat → CNode → CMap Nat Int → Option (CNode × CMap Nat Int)
  | 0, _, _ => none
  | fuel + 1, pfrom, setBanned =>
    if net.SendBufferFull pfrom then some (pfrom, setBanned)
    else
      match pfrom.vRecv with
      | [] => some (pfrom, setBanned)
      | msg :: rest =>
        let r := ProcessMessage net { pfrom with vRecv := rest } setBanned msg.strCommand msg.vMsg
        if r.1.isSome && net.fShutdown then some (r.2.1, r.2.2)
        else ProcessMessages.loop net fuel r.2.1 r.2.2

/-- Function `ProcessMessages` (main.cpp:3412) on the receive buffer of `pfrom`, which
holds the messages that its framing code accepts (start bytes, valid command, size,
checksum). The result is the returned flag, the peer and the map `setBanned`; it is `none`
when the bound on the number of rounds is reached. -/
def ProcessMessages (net : MessageParams) (pfrom : CNode) (setBanned : CMap Nat Int) :
    Option (Bool × CNode × CMap Nat Int) :=
  if pfrom.vRecv.isEmpty then some (true, pfrom, setBanned)
  else
    (ProcessMessages.loop net (pfrom.vRecv.length + 1) pfrom setBanned).map fun r =>
      (true, r.1, r.2)

/-! ## GetBlockHeight (main.h:911-933) -/

/-- The loop of `GetBlockHeight` (main.h:924-925), `pheight[i] = scriptsig[i + 1]` for
`i` from `i` up to `scount - 1`: the bytes it copies, `none` when it reads past the end of
the script. The first argument counts the rounds that are left. -/
def GetBlockHeight.copy (scriptsig : CScript) : Nat → Nat → Option (List Nat)
  | 0, _ => some []
  | k + 1, i =>
    match scriptsig[i + 1]? with
    | none => none
    | some byte => (GetBlockHeight.copy scriptsig k (i + 1)).map fun l => byte :: l

/-- The `int` whose low bytes are the given ones, the lowest first, and whose other bytes
are 0. -/
def GetBlockHeight.height : List Nat → Int
  | [] => 0
  | byte :: rest => (byte : Int) + 256 * GetBlockHeight.height rest

/-- Method `CBlock::GetBlockHeight` (main.h:913); the script bytes are `unsigned char`s.
The result is `none` when the method reads `vtx[0].vin[0]` of a transaction without inputs
or a byte past the end of the input script. -/
def CBlock.GetBlockHeight (b : CBlock) : Option Int :=
  match b.vtx with
  | [] => some (-1)
  | tx0 :: _ =>
    match tx0.vin with
    | [] => none
    | txin0 :: _ =>
      match txin0.scriptSig[0]? with
      | none => none
      | some scount =>
        if scount < 4 then
          (GetBlockHeight.copy txin0.scriptSig scount 0).map GetBlockHeight.height
        else some (-1)

/-- The indices of the input script that `GetBlockHeight` reads: index 0 and, when the
byte there is below 4, the indices 1 to that byte. -/
def GetBlockHeight.reads (scriptsig : CScript) : List Nat :=
  0 :: (match scriptsig[0]? with
    | none => []
    | some scount => if scount < 4 then (List.range scount).map (fun i => i + 1) else [])

/-! ## mruset (mruset.h) -/

/-- Class `mruset<T>` (mruset.h:13): the `std::set` as the list of its elements, each of
them once, the `std::deque`, and the limit. -/
structure mruset (T : Type) where
  set : List T
  queue : List T
  nMaxSize : Nat

/-- Method `mruset::insert` (mruset.h:38): the flag `ret.second` and the container. -/
def mruset.insert {T : Type} [DecidableEq T] (m : mruset T) (x : T) : Bool × mruset T :=
  if x ∈ m.set then (false, m)
  else
    let set1 := m.set ++ [x]
    if m.nMaxSize ≠ 0 ∧ m.queue.length = m.nMaxSize then
      match m.queue with
      | [] => (true, { m with set := set1, queue := [x] })
      | front :: rest => (true, { m with set := set1.erase front, queue := rest ++ [x] })
    else (true, { m with set := set1, queue := m.queue ++ [x] })

/-- A sequence of `insert` calls: the flags they report and the container after them. -/
def mruset.insertAll {T : Type} [DecidableEq T] : mruset T → List T → List Bool × mruset T
  | m, [] => ([], m)
  | m, x :: xs =>
    let r := m.insert x
    let rs := mruset.insertAll r.2 xs
    (r.1 :: rs.1, rs.2)

/-- The elements of a sequence of `insert` calls whose call reported true, in the order of
the calls. -/
def mruset.accepted {T : Type} [DecidableEq T] : mruset T → List T → List T
  | _, [] => []
  | m, x :: xs =>
    if (m.insert x).1 then x :: mruset.accepted (m.insert x).2 xs
    else mruset.accepted (m.insert x).2 xs

/-- The last `n` elements of a list, all of them when there are fewer. -/
def lastN {T : Type} (n : Nat) (l : List T) : List T := l.drop (l.length - n)

/-- The state of an `mruset` with the limit `N` after the elements `acc` were accepted:
the queue holds the last `N` of them, and the set holds the elements of the queue, each
once. -/
def mruset.Holds {T : Type} (m : mruset T) (N : Nat) (acc : List T) : Prop :=
  m.nMaxSize = N ∧ m.queue = lastN N acc ∧ (∀ y, y ∈ m.set ↔ y ∈ m.queue) ∧
    m.set.Nodup ∧ m.queue.Nodup

/-! ## GetMoneySupply (main.cpp:943-1003) -/

/-- Function `GetMoneySupply` (main.cpp:944). The products of the height with 25 or 50 are
`int` products, their products with `COIN` and the sums are `int64`; the products and sums
of constants are written as they are. -/
def GetMoneySupply (fTestNet : Bool) (nHeight : Int) : Int :=
  if !fTestNet then
    if nHeight < nForkThree then wrap64 (wrap32 ((nHeight + 1) * 50) * COIN)
    else
      let nMoneySupply : Int := nForkThree * 50 * COIN
      if nHeight < nForkFour then
        wrap64 (nMoneySupply + wrap32 ((nHeight - nForkThree + 1) * 25) * COIN)
      else
        let nMoneySupply : Int := nMoneySupply + (nForkFour - nForkThree) * 25 * COIN
        if nHeight < 1000000 then
          wrap64 (nMoneySupply + wrap32 ((nHeight - nForkFour + 1) * 50) * COIN)
        else
          let nMoneySupply : Int := nMoneySupply + (1000000 - nForkFour) * 50 * COIN
          if nHeight < 2000000 then
            wrap64 (nMoneySupply + wrap32 ((nHeight - 1000000 + 1) * 25) * COIN)
          else
            let nMoneySupply : Int := nMoneySupply + (2000000 - 1000000) * 25 * COIN
            if nHeight < 3000000 then
              wrap64 (nMoneySupply +
                Int.tdiv (wrap64 (wrap32 ((nHeight - 2000000 + 1) * 25) * COIN)) 2)
            else
              let nMoneySupply : Int :=
                nMoneySupply + Int.tdiv ((3000000 - 2000000) * 25 * COIN) 2
              if nHeight < 4000000 then
                wrap64 (nMoneySupply +
                  Int.tdiv (wrap64 (wrap32 ((nHeight - 3000000 + 1) * 25) * COIN)) 4)
              else nMoneySupply + Int.tdiv ((4000000 - 3000000) * 25 * COIN) 4
  else
    if nHeight < nTestnetForkOne then wrap64 (wrap32 (nHeight * 25) * COIN)
    else
      let nMoneySupply : Int := nTestnetForkOne * 25 * COIN
      if nHeight < 1000000 then
        wrap64 (nMoneySupply + wrap32 ((nHeight - nTestnetForkOne + 1) * 50) * COIN)
      else
        let nMoneySupply : Int := nMoneySupply + (1000000 - nTestnetForkOne) * 50 * COIN
        if nHeight < 2000000 then
          wrap64 (nMoneySupply + wrap32 ((nHeight - 1000000 + 1) * 25) * COIN)
        else nMoneySupply + (2000000 - 1000000) * 25 * COIN

/-- The sum over `i = 0..h` of `GetProofOfWorkReward(i, 0)`, as the claim about the money
supply words it; `none` when one of the rewards has no defined value. -/
def sumOfSubsidies (fTestNet : Bool) : Nat → Option Int
  | 0 => GetProofOfWorkReward fTestNet 0 0
  | h + 1 =>
    match sumOfSubsidies fTestNet h, GetProofOfWorkReward fTestNet ((h : Int) + 1) 0 with
    | some nSum, some nReward => some (nSum + nReward)
    | _, _ => none

/-! ## GetNextWorkRequired in parts -/

/-- The target spacing and the target time span that `GetNextWorkRequired` selects for the
height `nHeight` (main.cpp:1016-1043). -/
def GetNextWorkRequired.targets (fTestNet : Bool) (nHeight : Int) : Int × Int :=
  let nTargetSpacing : Int := nTargetSpacingZero
  let nTargetTimespan : Int := nTargetTimespanZero
  let nTargetSpacing : Int := if nHeight ≥ nForkOne then nTargetSpacingOne else nTargetSpacing
  let nTargetTimespan : Int :=
    if nHeight ≥ nForkOne then nTargetTimespanOne else nTargetTimespan
  let nTargetSpacing : Int := if nHeight ≥ nForkTwo then nTargetSpacingTwo else nTargetSpacing
  let nTargetTimespan : Int :=
    if nHeight ≥ nForkTwo then nTargetTimespanTwo else nTargetTimespan
  let nTargetSpacing : Int :=
    if nHeight ≥ nForkThree ∨ fTestNet = true then nTargetSpacingThree else nTargetSpacing
  let nTargetTimespan : Int :=
    if nHeight ≥ nForkThree ∨ fTestNet = true then nTargetTimespanThree else nTargetTimespan
  let nTargetSpacing : Int :=
    if nHeight ≥ nForkFour ∨ (fTestNet = true ∧ nHeight ≥ nTestnetForkOne) then
      nTargetSpacingFour
    else nTargetSpacing
  let nTargetTimespan : Int :=
    if nHeight ≥ nForkFour ∨ (fTestNet = true ∧ nHeight ≥ nTestnetForkOne) then
      nTargetTimespanFour
    else nTargetTimespan
  (nTargetSpacing, nTargetTimespan)

/-- Whether `GetNextWorkRequired` takes the branch of the regular blocks at the height
`nHeight` (main.cpp:1051-1064) and does not retarget. -/
def GetNextWorkRequired.regular (fTestNet : Bool) (nHeight nInterval : Int) : Prop :=
  Int.tmod nHeight nInterval ≠ 0 ∧
    (if fTestNet then decide (nHeight = nTestnetForkOne) || decide (nHeight = nTestnetForkTwo)
      else decide (nHeight = nForkOne) || decide (nHeight = nForkTwo) ||
        decide (nHeight = nForkThree) || decide (nHeight = nForkFour) ||
        decide (nHeight = nForkFive)) = false

/-- The time span of `GetNextWorkRequired` before the limiter (main.cpp:1085-1122): the
value of `nActualTimespan` after the averaging and the damping, with the final
`nTargetTimespan`. -/
def GetNextWorkRequired.unclamped (fTestNet : Bool) (s : ChainState) (pindexLast : Nat)
    (nHeight nInterval nTargetTimespan : Int) : Option (Int × Int) :=
  let fAveraging : Bool :=
    decide (nHeight ≥ nForkFour) || (fTestNet && decide (nHeight ≥ nTestnetForkOne))
  let nInterval1 : Int := if fAveraging then nInterval * 5 else nInterval
  let nTargetTimespan1 : Int := if fAveraging then nTargetTimespan * 5 else nTargetTimespan
  let nInterval2 : Int := if nInterval1 ≥ nHeight then nHeight - 1 else nInterval1
  match s.ancestor pindexLast nInterval2.toNat with
  | none => none
  | some pindexFirst =>
    match s.GetBlockTime pindexLast, s.GetBlockTime pindexFirst with
    | some nTimeLast, some nTimeFirst =>
      let nActualTimespan : Int := wrap32 (nTimeLast - nTimeFirst)
      if fAveraging then
        match s.ancestor pindexFirst (nInterval2 * 4).toNat with
        | none => none
        | some pindexFirst1 =>
          match s.GetBlockTime pindexFirst1 with
          | none => none
          | some nTimeFirst1 =>
            let nActualTimespanExtended : Int := wrap32 (Int.tdiv (nTimeLast - nTimeFirst1) 5)
            let nActualTimespanAvg : Int :=
              Int.tdiv (wrap32 (nActualTimespan + nActualTimespanExtended)) 2
            some (Int.tdiv (wrap32 (nActualTimespanAvg + 9 * nTargetTimespan1)) 10,
              nTargetTimespan1)
      else some (nActualTimespan, nTargetTimespan1)
    | _, _ => none

/-- The limiter of `GetNextWorkRequired` (main.cpp:1124-1148) for the time span
`nActualTimespan` and the final `nTargetTimespan`. -/
def GetNextWorkRequired.clamp (fTestNet : Bool) (nHeight nActualTimespan nTargetTimespan : Int) :
    Int :=
  let fAveraging : Bool :=
    decide (nHeight ≥ nForkFour) || (fTestNet && decide (nHeight ≥ nTestnetForkOne))
  let nActualTimespanMax : Int := nTargetTimespan * 4
  let nActualTimespanMin : Int := Int.tdiv nTargetTimespan 4
  let nActualTimespanMax : Int :=
    if nHeight ≥ nForkOne then Int.tdiv (nTargetTimespan * 99) 55 else nActualTimespanMax
  let nActualTimespanMin : Int :=
    if nHeight ≥ nForkOne then Int.tdiv (nTargetTimespan * 55) 99 else nActualTimespanMin
  let nActualTimespanMax : Int :=
    if nHeight ≥ nForkThree then Int.tdiv (nTargetTimespan * 109) 100 else nActualTimespanMax
  let nActualTimespanMin : Int :=
    if nHeight ≥ nForkThree then Int.tdiv (nTargetTimespan * 100) 109 else nActualTimespanMin
  let nActualTimespanMax : Int :=
    if fAveraging then Int.tdiv (nTargetTimespan * 102) 100 else nActualTimespanMax
  let nActualTimespanMin : Int :=
    if fAveraging then Int.tdiv (nTargetTimespan * 100) 102 else nActualTimespanMin
  let nActualTimespanMax : Int :=
    if nHeight ≥ nForkFive ∨ (fTestNet = true ∧ nHeight ≥ nTestnetForkTwo) then
      Int.tdiv (nTargetTimespan * 105) 100
    else nActualTimespanMax
  let nActualTimespan2 : Int :=
    if nActualTimespan < nActualTimespanMin then nActualTimespanMin else nActualTimespan
  if nActualTimespan2 > nActualTimespanMax then nActualTimespanMax else nActualTimespan2

/-! ## The message getblocks (main.h:1174, 1429-1443, main.cpp:3083-3147) -/

/-- Method `CBlockIndex::IsInMainChain` (main.h:1174) of the node `p`; `none` for a pointer
that points to no node. -/
def ChainState.IsInMainChain (s : ChainState) (p : Nat) : Option Bool :=
  match s.node p with
  | none => none
  | some n => some (n.pnext.isSome || decide (s.pindexBest = some p))

/-- Method `CBlockLocator::GetBlockIndex` (main.h:1429) for the locator `vHave`: the first
block of the locator that is in the main chain, or `pindexGenesisBlock`. -/
def CBlockLocator.GetBlockIndex (s : ChainState) : List uint256 → Option (Option Nat)
  | [] => some s.pindexGenesisBlock
  | hash :: rest =>
    match s.mapBlockIndex.find hash with
    | none => CBlockLocator.GetBlockIndex s rest
    | some pindex =>
      match s.IsInMainChain pindex with
      | none => none
      | some true => some (some pindex)
      | some false => CBlockLocator.GetBlockIndex s rest

/-- The loop `while(nLimit--)` of the handler (main.cpp:3117-3131) from the node `pindex`
with `nLimit` rounds left: the node it ends at and `vInv`, the hashes passed to
`PushInventory` so far, in order. -/
def getblocks.loop (s : ChainState) (hashStop : uint256) :
    Nat → Nat → List uint256 → Option (Nat × List uint256)
  | 0, pindex, vInv => some (pindex, vInv)
  | nLimit + 1, pindex, vInv =>
    match s.node pindex with
    | none => none
    | some n =>
      if n.phashBlock = hashStop then some (pindex, vInv)
      else
        match n.pnext with
        | some q => getblocks.loop s hashStop nLimit q (vInv ++ [n.phashBlock])
        | none => some (pindex, vInv ++ [n.phashBlock])

/-- What the handling of one `getblocks` message leaves behind: the value returned, the
peer's `nGetblocksReceiveTime`, and the hashes of the block inventories passed to
`PushInventory` of the peer, in order. -/
structure GetblocksResult where
  fRet : Bool
  nGetblocksReceiveTime : Nat
  vInventory : List uint256
deriving DecidableEq, Repr

/-- The advertisement of the best block that ends the handler (main.cpp:3139-3146), after
the loop has ended at `pindex` with the inventories `vInv`. -/
def getblocks.advertise (s : ChainState) (nCurrentTime pindex : Nat) (vInv : List uint256) :
    Option GetblocksResult :=
  match s.node pindex, s.pindexBest.bind s.node with
  | some n, some best =>
    if wrap32 (best.nHeight - n.nHeight) < 4000 ∧ n.phashBlock ≠ s.hashBestChain then
      some ⟨true, nCurrentTime, vInv ++ [s.hashBestChain]⟩
    else some ⟨true, nCurrentTime, vInv⟩
  | _, _ => none

/-- The branch of `ProcessMessage` for the command `getblocks` (main.cpp:3083-3147), for a
peer whose `nGetblocksReceiveTime` is an `unsigned int`, with `GetTime` the clock at the
call, `vHave` the locator read from the message and `hashStop` the hash after it. -/
def ProcessMessage.getblocks (s : ChainState) (GetTime : Int) (nGetblocksReceiveTime : Nat)
    (vHave : List uint256) (hashStop : uint256) : Option GetblocksResult :=
  let nCurrentTime : Nat := (GetTime % 2 ^ 32).toNat
  if wrap32u (nCurrentTime + 2 ^ 32 - 5) < nGetblocksReceiveTime then
    some ⟨false, nGetblocksReceiveTime, []⟩
  else
    match CBlockLocator.GetBlockIndex s vHave with
    | some (some p) =>
      match s.node p with
      | none => none
      | some n =>
        match n.pnext with
        | none => some ⟨true, nCurrentTime, []⟩
        | some q =>
          match getblocks.loop s hashStop 1000 q [] with
          | none => none
          | some (pindex, vInv) => getblocks.advertise s nCurrentTime pindex vInv
    | _ => none

/-! ## CreateNewBlock (main.h:763, main.cpp:1389-1402, 3730-3999) -/

/-- Constructor `CTxIndex(posIn, nOutputs)` (main.h:763): `nOutputs` null positions. -/
def CTxIndex.ofOutputs (posIn : CDiskTxPos) (nOutputs : Nat) : CTxIndex :=
  ⟨posIn, List.replicate nOutputs CDiskTxPos.null⟩

/-- What script.cpp answers about pay-to-script-hash outputs: `CScript::IsPayToScriptHash`
of a `scriptPubKey`, and `CScript::GetSigOpCount(scriptSig)` of a `scriptPubKey` and the
`scriptSig` that spends it. -/
structure P2SHAnswers where
  IsPayToScriptHash : CScript → Bool
  GetSigOpCount : CScript → CScript → Nat

/-- The loop of `GetP2SHSigOpCount` (main.cpp:1395-1400) with the `unsigned int` counter;
`none` when `GetOutputFor` throws. -/
def GetP2SHSigOpCount.loop (p2sh : P2SHAnswers) (inputs : MapPrevTx) :
    List CTxIn → Nat → Option Nat
  | [], nSigOps => some nSigOps
  | txin :: rest, nSigOps =>
      match CTransaction.GetOutputFor txin inputs with
      | none => none
      | some prevout =>
        if p2sh.IsPayToScriptHash prevout.scriptPubKey then
          GetP2SHSigOpCount.loop p2sh inputs rest
            (wrap32u (nSigOps + p2sh.GetSigOpCount prevout.scriptPubKey txin.scriptSig))
        else GetP2SHSigOpCount.loop p2sh inputs rest nSigOps

/-- Method `CTransaction::GetP2SHSigOpCount` (main.cpp:1389); `none` when it throws. -/
def CTransaction.GetP2SHSigOpCount (p2sh : P2SHAnswers) (tx : CTransaction)
    (inputs : MapPrevTx) : Option Nat :=
  if tx.IsCoinBase then some 0 else GetP2SHSigOpCount.loop p2sh inputs tx.vin 0

/-- Class `COrphan` (main.cpp:3730). The pointer `ptx` into the memory pool is kept as the
transaction it points to, the `double`s as rational numbers. -/
structure COrphan where
  ptx : CTransaction
  setDependsOn : List uint256
  dPriority : ℚ
  dFeePerKb : ℚ
deriving DecidableEq

/-- Type `TxPriority` (main.cpp:3758), a tuple of two `double`s and a pointer into the
memory pool. -/
structure TxPriority where
  dPriority : ℚ
  dFeePerKb : ℚ
  ptx : CTransaction
deriving DecidableEq

/-- The call operator of `TxPriorityCompare` (main.cpp:3764). -/
def TxPriorityCompare (byFee : Bool) (a b : TxPriority) : Bool :=
  if byFee then
    if a.dFeePerKb = b.dFeePerKb then decide (a.dPriority < b.dPriority)
    else decide (a.dFeePerKb < b.dFeePerKb)
  else
    if a.dPriority = b.dPriority then decide (a.dFeePerKb < b.dFeePerKb)
    else decide (a.dPriority < b.dPriority)

/-- What `CreateNewBlock` reads outside `main.h` and `main.cpp`: the values `GetArg` returns
for `-blockmaxsize`, `-blockprioritysize` and `-blockminsize` (util.cpp), the fee
`nMinTxFee` after `-mintxfee` is parsed, and the heap functions of the C++ library, which
rearrange a vector under the comparison they are given. -/
structure MinerParams where
  blockmaxsize : Int
  blockprioritysize : Int
  blockminsize : Int
  nMinTxFee : Int
  make_heap : (TxPriority → TxPriority → Bool) → List TxPriority → List TxPriority
  pop_heap : (TxPriority → TxPriority → Bool) → List TxPriority → List TxPriority
  push_heap : (TxPriority → TxPriority → Bool) → List TxPriority → List TxPriority

/-- The `unsigned int nBlockMaxSize` of `CreateNewBlock` (main.cpp:3798-3800). -/
def CreateNewBlock.nBlockMaxSize (mp : MinerParams) : Nat :=
  max 1000 (min (MAX_BLOCK_SIZE - 1000) (mp.blockmaxsize % 2 ^ 32).toNat)

/-- The `unsigned int nBlockPrioritySize` of `CreateNewBlock` (main.cpp:3804-3805). -/
def CreateNewBlock.nBlockPrioritySize (mp : MinerParams) : Nat :=
  min (CreateNewBlock.nBlockMaxSize mp) (mp.blockprioritysize % 2 ^ 32).toNat

/-- The `unsigned int nBlockMinSize` of `CreateNewBlock` (main.cpp:3809-3810). -/
def CreateNewBlock.nBlockMinSize (mp : MinerParams) : Nat :=
  min (CreateNewBlock.nBlockMaxSize mp) (mp.blockminsize % 2 ^ 32).toNat

/-- The variables of `CreateNewBlock` that its loop over the priority queue works on
(main.cpp:3829-3833, 3904-3908), with `vtx` the transactions of the new block. The
pointers of `mapDependers` are positions in `vOrphan`. -/
structure MinerState where
  vecPriority : List TxPriority
  vOrphan : List COrphan
  mapDependers : CMap uint256 (List Nat)
  mapTestPool : CMap uint256 CTxIndex
  vtx : List CTransaction
  nBlockSize : Nat
  nBlockTx : Nat
  nBlockSigOps : Int
  fSortedByFee : Bool
  nFees : Int
deriving DecidableEq

/-- The state in which the loop over the priority queue starts (main.cpp:3795, 3822,
3904-3911): the block holds the coinbase transaction `txNew`, 1000 bytes and 100 signature
operations are reserved, and the queue, the orphans and their dependencies are as the loop
over the memory pool has left them. -/
def CreateNewBlock.init (mp : MinerParams) (txNew : CTransaction)
    (vecPriority : List TxPriority) (vOrphan : List COrphan)
    (mapDependers : CMap uint256 (List Nat)) : MinerState :=
  let fSortedByFee : Bool := decide (CreateNewBlock.nBlockPrioritySize mp ≤ 0)
  { vecPriority := mp.make_heap (TxPriorityCompare fSortedByFee) vecPriority
    vOrphan := vOrphan
    mapDependers := mapDependers
    mapTestPool := []
    vtx := [txNew]
    nBlockSize := 1000
    nBlockTx := 0
    nBlockSigOps := 100
    fSortedByFee := fSortedByFee
    nFees := 0 }

/-- The sum `nBlockSigOps + nTxSigOps` of an `int` and an `unsigned int`, which is an
`unsigned int`. -/
def CreateNewBlock.sigOps (nBlockSigOps : Int) (nTxSigOps : Nat) : Nat :=
  wrap32u ((nBlockSigOps % 2 ^ 32).toNat + nTxSigOps)

/-- The loop over `mapDependers[hash]` (main.cpp:3983-3994) for the orphans that are left:
the new `vOrphan` and `vecPriority`; `none` for a pointer that points to no orphan. -/
def CreateNewBlock.dependers (mp : MinerParams) (fSortedByFee : Bool) (hash : uint256) :
    List Nat → List COrphan → List TxPriority → Option (List COrphan × List TxPriority)
  | [], vOrphan, vecPriority => some (vOrphan, vecPriority)
  | porphan :: rest, vOrphan, vecPriority =>
    match vOrphan[porphan]? with
    | none => none
    | some o =>
      if o.setDependsOn ≠ [] then
        let o1 : COrphan :=
          { o with setDependsOn := o.setDependsOn.filter (fun h => decide (h ≠ hash)) }
        let vOrphan1 := vOrphan.set porphan o1
        if o1.setDependsOn = [] then
          CreateNewBlock.dependers mp fSortedByFee hash rest vOrphan1
            (mp.push_heap (TxPriorityCompare fSortedByFee)
              (vecPriority ++ [⟨o1.dPriority, o1.dFeePerKb, o1.ptx⟩]))
        else CreateNewBlock.dependers mp fSortedByFee hash rest vOrphan1 vecPriority
      else CreateNewBlock.dependers mp fSortedByFee hash rest vOrphan vecPriority

/-- The end of the loop body (main.cpp:3963-3995) for a transaction whose inputs are
connected in `mapTestPoolTmp`: the transaction is added to the block. -/
def CreateNewBlock.add (ext : Externals) (mp : MinerParams) (st : MinerState)
    (tx : CTransaction) (nTxSize nTxSigOps : Nat) (nTxFees : Int)
    (mapTestPoolTmp : CMap uint256 CTxIndex) : Option MinerState :=
  let hash := ext.GetHash tx
  let st1 : MinerState :=
    { st with
      mapTestPool := mapTestPoolTmp.set hash (CTxIndex.ofOutputs ⟨1, 1, 1⟩ tx.vout.length)
      vtx := st.vtx ++ [tx]
      nBlockSize := st.nBlockSize + nTxSize
      nBlockTx := st.nBlockTx + 1
      nBlockSigOps := wrap32 (CreateNewBlock.sigOps st.nBlockSigOps nTxSigOps)
      nFees := wrap64 (st.nFees + nTxFees) }
  match st.mapDependers.find hash with
  | none => some st1
  | some vDependers =>
    match CreateNewBlock.dependers mp st.fSortedByFee hash vDependers st.vOrphan
        st.vecPriority with
    | none => none
    | some (vOrphan, vecPriority) =>
      some { st1 with vOrphan := vOrphan, vecPriority := vecPriority }

/-- The part of the loop body that works on the inputs (main.cpp:3949-3962) of the
transaction `tx` with the size `nTxSize` and the legacy count `nTxSigOps`; the result is
`none` when a call does not return. The `nDoS` that a failed check leaves on the
transaction in the memory pool is not kept. -/
def CreateNewBlock.connect (ext : Externals) (p2sh : P2SHAnswers) (mp : MinerParams)
    (db : TxDb) (mempool : CTxMemPool) (s : ChainState) (st : MinerState)
    (tx : CTransaction) (nTxSize nTxSigOps : Nat) : Option MinerState :=
  match tx.FetchInputs db mempool st.mapTestPool false true [] with
  | none => none
  | some (false, _, _, _) => some st
  | some (true, _, mapInputs, _) =>
    match tx.GetValueIn mapInputs, tx.GetValueOut with
    | some nValueIn, some nValueOut =>
      let nTxFees := wrap64 (nValueIn - nValueOut)
      match tx.GetP2SHSigOpCount p2sh mapInputs with
      | none => none
      | some nP2SH =>
        let nTxSigOps1 := wrap32u (nTxSigOps + nP2SH)
        if CreateNewBlock.sigOps st.nBlockSigOps nTxSigOps1 ≥ MAX_BLOCK_SIGOPS then some st
        else
          match tx.ConnectInputs ext s mapInputs st.mapTestPool ⟨1, 1, 1⟩ s.pindexBest false
              true true with
          | none => none
          | some (false, _, _) => some st
          | some (true, _, mapTestPoolTmp) =>
            CreateNewBlock.add ext mp st tx nTxSize nTxSigOps1 nTxFees mapTestPoolTmp
    | _, _ => none

/-- One round of the loop over the priority queue (main.cpp:3913-3996) with `front` at
the head of the queue. -/
def CreateNewBlock.step (ext : Externals) (p2sh : P2SHAnswers) (mp : MinerParams)
    (db : TxDb) (mempool : CTxMemPool) (s : ChainState) (st : MinerState)
    (front : TxPriority) : Option MinerState :=
  let tx := front.ptx
  let st1 : MinerState :=
    { st with
      vecPriority := (mp.pop_heap (TxPriorityCompare st.fSortedByFee) st.vecPriority).dropLast }
  let nTxSize := ext.GetSerializeSizeTx tx
  if st.nBlockSize + nTxSize ≥ CreateNewBlock.nBlockMaxSize mp then some st1
  else
    let nTxSigOps := tx.GetLegacySigOpCount ext.GetSigOpCount
    if CreateNewBlock.sigOps st.nBlockSigOps nTxSigOps ≥ MAX_BLOCK_SIGOPS then some st1
    else if st.fSortedByFee && decide (front.dFeePerKb < (mp.nMinTxFee : ℚ)) &&
        decide (st.nBlockSize + nTxSize ≥ CreateNewBlock.nBlockMinSize mp) then some st1
    else
      let st2 : MinerState :=
        if !st.fSortedByFee &&
            (decide (st.nBlockSize + nTxSize ≥ CreateNewBlock.nBlockPrioritySize mp) ||
              decide (front.dPriority < ((Int.tdiv (COIN * 144) 250 : Int) : ℚ))) then
          { st1 with
            fSortedByFee := true
            vecPriority := mp.make_heap (TxPriorityCompare true) st1.vecPriority }
        else st1
      CreateNewBlock.connect ext p2sh mp db mempool s st2 tx nTxSize nTxSigOps

/-- The loop over the priority queue (main.cpp:3913-3996): the state in which it ends. The
first argument bounds the number of rounds; the result is `none` when the bound is reached
or a call does not return. -/
def CreateNewBlock.loop (ext : Externals) (p2sh : P2SHAnswers) (mp : MinerParams)
    (db : TxDb) (mempool : CTxMemPool) (s : ChainState) : Nat → MinerState → Option MinerState
  | 0, _ => none
  | fuel + 1, st =>
    match st.vecPriority with
    | [] => some st
    | front :: _ =>
      match CreateNewBlock.step ext p2sh mp db mempool s st front with
      | none => none
      | some st1 => CreateNewBlock.loop ext p2sh mp db mempool s fuel st1

/-- The sizes that `CreateNewBlock` adds up in `nBlockSize`: the serialised sizes of the
transactions of the block after the coinbase transaction. -/
def CreateNewBlock.sizes (ext : Externals) (vtx : List CTransaction) : Nat :=
  (vtx.tail.map ext.GetSerializeSizeTx).sum

/-- What the loop over the priority queue keeps true of its state: the block holds its
coinbase transaction, `nBlockSize` is 1000 plus the sizes of the transactions added,
it is below `nBlockMaxSize` once a transaction is added, and `nBlockSigOps` is a count
below `MAX_BLOCK_SIGOPS`. -/
def CreateNewBlock.Kept (ext : Externals) (mp : MinerParams) (st : MinerState) : Prop :=
  st.vtx ≠ [] ∧ st.nBlockSize = 1000 + CreateNewBlock.sizes ext st.vtx ∧
    (st.vtx.tail = [] ∨ st.nBlockSize < CreateNewBlock.nBlockMaxSize mp) ∧
    0 ≤ st.nBlockSigOps ∧ st.nBlockSigOps < MAX_BLOCK_SIGOPS

/-- The signature operations of selected transactions by the words of the specification:
to the total `n` are added, for each transaction of `vtx` in turn, its legacy count
(`GetLegacySigOpCount`) and its P2SH count (`GetP2SHSigOpCount` over the inputs that
`FetchInputs` finds with the transactions before it connected in `mapTestPool`), as
numbers without a bound. The result is the total with the `mapTestPool` of the selected
transactions; it is `none` when one of the transactions cannot be connected. -/
def CreateNewBlock.counted (ext : Externals) (p2sh : P2SHAnswers) (db : TxDb)
    (mempool : CTxMemPool) (s : ChainState) :
    List CTransaction → CMap uint256 CTxIndex × Nat → Option (CMap uint256 CTxIndex × Nat)
  | [], acc => some acc
  | tx :: rest, (mapTestPool, n) =>
    match tx.FetchInputs db mempool mapTestPool false true [] with
    | some (true, _, mapInputs, _) =>
      match tx.GetP2SHSigOpCount p2sh mapInputs,
          tx.ConnectInputs ext s mapInputs mapTestPool ⟨1, 1, 1⟩ s.pindexBest false true true with
      | some nP2SH, some (true, _, mapTestPoolTmp) =>
        CreateNewBlock.counted ext p2sh db mempool s rest
          (mapTestPoolTmp.set (ext.GetHash tx) (CTxIndex.ofOutputs ⟨1, 1, 1⟩ tx.vout.length),
            n + tx.GetLegacySigOpCount ext.GetSigOpCount + nP2SH)
      | _, _ => none
    | _ => none

/-- What script.cpp and serialize.h, which are not among the sources, keep to: a script
has at most 20 counted signature operations per byte, the count of a pay-to-script-hash
output is taken from the script inside the `scriptSig` that spends it, and a serialised
transaction contains its scripts. -/
def CreateNewBlock.ScriptBounds (ext : Externals) (p2sh : P2SHAnswers) : Prop :=
  (∀ script : CScript, ext.GetSigOpCount script ≤ 20 * script.length) ∧
    (∀ scriptPubKey scriptSig : CScript, p2sh.IsPayToScriptHash scriptPubKey = true →
      p2sh.GetSigOpCount scriptPubKey scriptSig ≤ 20 * scriptSig.length) ∧
    ∀ tx : CTransaction, scriptBytes tx ≤ ext.GetSerializeSizeTx tx

/-- What the loop over the priority queue keeps true of its counter: the transactions
added have the signature operations `n` with the 100 reserved ones, they are the ones
connected in `mapTestPool`, `nBlockSigOps` is `n` as an `unsigned int`, and under
`ScriptBounds` it is `n` itself and below `MAX_BLOCK_SIGOPS`. -/
def CreateNewBlock.Counted (ext : Externals) (p2sh : P2SHAnswers) (db : TxDb)
    (mempool : CTxMemPool) (s : ChainState) (st : MinerState) : Prop :=
  ∃ n : Nat, CreateNewBlock.counted ext p2sh db mempool s st.vtx.tail ([], 100) =
      some (st.mapTestPool, n) ∧
    st.nBlockSigOps = ((n % 2 ^ 32 : Nat) : Int) ∧
    (CreateNewBlock.ScriptBounds ext p2sh → n < MAX_BLOCK_SIGOPS)

/-! ## ConnectBlock and DisconnectBlock (main.cpp:1247-1280, 1553-1688) -/

/-- Modelled from the spec: the handle on the transaction index that class `CTxDB` of
`db.cpp`, which is not among the sources, keeps. Section 3 of the specification has the
index as the entries (disk position, spent vector) by transaction id, so the index is a
map `mapTxIndex`, `ReadTxIndex` is its lookup, `UpdateTxIndex` its assignment and
`EraseTxIndex` its removal, and each of them succeeds. `ReadFromDisk` reads the block
files. -/
def TxDb.ofIndex (mapTxIndex : CMap uint256 CTxIndex)
    (ReadFromDisk : CDiskTxPos → Option CTransaction) : TxDb :=
  ⟨mapTxIndex.find, ReadFromDisk, fun hash => (mapTxIndex.find hash).isSome⟩

/-- The loop of `DisconnectInputs` (main.cpp:1252-1270) over the inputs that are left: the
flag is `false` for one of its `return`s, and the index is as the loop leaves it. -/
def DisconnectInputs.loop :
    List CTxIn → CMap uint256 CTxIndex → Bool × CMap uint256 CTxIndex
  | [], mapTxIndex => (true, mapTxIndex)
  | txin :: rest, mapTxIndex =>
    let prevout := txin.prevout
    match mapTxIndex.find prevout.hash with
    | none => (false, mapTxIndex)
    | some txindex =>
      if prevout.n ≥ txindex.vSpent.length then (false, mapTxIndex)
      else
        let txindex1 : CTxIndex :=
          { txindex with vSpent := txindex.vSpent.set prevout.n CDiskTxPos.null }
        DisconnectInputs.loop rest (mapTxIndex.set prevout.hash txindex1)

/-- Method `CTransaction::DisconnectInputs` (main.cpp:1247): the returned flag and the
transaction index. -/
def CTransaction.DisconnectInputs (GetHash : CTransaction → uint256) (tx : CTransaction)
    (mapTxIndex : CMap uint256 CTxIndex) : Bool × CMap uint256 CTxIndex :=
  let r := if !tx.IsCoinBase then DisconnectInputs.loop tx.vin mapTxIndex else (true, mapTxIndex)
  if !r.1 then r else (true, r.2.erase (GetHash tx))

/-- The loop of `DisconnectBlock` (main.cpp:1556-1558) over the transactions in the order
in which they are disconnected. -/
def DisconnectBlock.loop (GetHash : CTransaction → uint256) :
    List CTransaction → CMap uint256 CTxIndex → Bool × CMap uint256 CTxIndex
  | [], mapTxIndex => (true, mapTxIndex)
  | tx :: rest, mapTxIndex =>
    let r := tx.DisconnectInputs GetHash mapTxIndex
    if !r.1 then r else DisconnectBlock.loop GetHash rest r.2

/-- Method `CBlock::DisconnectBlock` (main.cpp:1553) on the transaction index: the
returned flag and the index. `WriteBlockIndex` is the answer of the database to the write
of the previous block's entry; the result is `none` when `pindex` points to no node. -/
def CBlock.DisconnectBlock (GetHash : CTransaction → uint256) (WriteBlockIndex : Bool)
    (s : ChainState) (b : CBlock) (mapTxIndex : CMap uint256 CTxIndex) (pindex : Nat) :
    Option (Bool × CMap uint256 CTxIndex) :=
  let r := DisconnectBlock.loop GetHash b.vtx.reverse mapTxIndex
  if !r.1 then some r
  else
    match s.node pindex with
    | none => none
    | some n =>
      if n.pprev.isSome && !WriteBlockIndex then some (false, r.2) else some (true, r.2)

/-- What `ConnectBlock` reads outside `main.h` and `main.cpp`: the size of a transaction
and of an empty block as they are stored on disk and the size of a compact size
(serialize.h), the transactions of the block files, and the answer of the database to the
write of the previous block's entry. -/
structure ConnectBlockParams where
  GetSerializeSizeDisk : CTransaction → Nat
  nEmptyBlockSize : Nat
  GetSizeOfCompactSize : Nat → Nat
  ReadFromDisk : CDiskTxPos → Option CTransaction
  WriteBlockIndex : Bool

/-- The variables of the loop of `ConnectBlock` over the transactions
(main.cpp:1600-1610). -/
structure ConnectBlockState where
  mapQueuedChanges : CMap uint256 CTxIndex
  nFees : Int
  nSigOps : Nat
  nTxPos : Nat
deriving DecidableEq

/-- The test on `txindexOld` under `fEnforceBIP30` (main.cpp:1616-1621): `false` when the
loop returns. -/
def ConnectBlock.bip30 (mapTxIndex : CMap uint256 CTxIndex) (hashTx : uint256) : Bool :=
  match mapTxIndex.find hashTx with
  | none => true
  | some txindexOld => !txindexOld.vSpent.any (fun pos => pos.IsNull)

/-- The part of the loop body of `ConnectBlock` for a transaction that is no coinbase
(main.cpp:1635-1652). The result is `none` when a call does not return, `some none` when
`ConnectBlock` returns false. -/
def ConnectBlock.inputs (ext : Externals) (p2sh : P2SHAnswers) (db : TxDb)
    (mempool : CTxMemPool) (s : ChainState) (pindex : Nat) (fStrictPayToScriptHash : Bool)
    (posThisTx : CDiskTxPos) (st : ConnectBlockState) (tx : CTransaction) :
    Option (Option ConnectBlockState) :=
  match tx.FetchInputs db mempool st.mapQueuedChanges true false [] with
  | none => none
  | some (false, _, _, _) => some none
  | some (true, _, mapInputs, _) =>
    let nSigOps : Option Nat :=
      if fStrictPayToScriptHash then
        (tx.GetP2SHSigOpCount p2sh mapInputs).map (fun n => wrap32u (st.nSigOps + n))
      else some st.nSigOps
    match nSigOps with
    | none => none
    | some nSigOps =>
      if nSigOps > MAX_BLOCK_SIGOPS then some none
      else
        match tx.GetValueIn mapInputs, tx.GetValueOut with
        | some nValueIn, some nValueOut =>
          match tx.ConnectInputs ext s mapInputs st.mapQueuedChanges posThisTx (some pindex)
              true false fStrictPayToScriptHash with
          | none => none
          | some (false, _, _) => some none
          | some (true, _, mapQueuedChanges) =>
            some (some { st with
              mapQueuedChanges := mapQueuedChanges
              nFees := wrap64 (st.nFees + wrap64 (nValueIn - nValueOut))
              nSigOps := nSigOps })
        | _, _ => none

/-- The loop body of `ConnectBlock` (main.cpp:1613-1655) for the transaction `tx` of a
block stored in the file `nFile` at `nBlockPos`, with the transaction index `mapTxIndex`
of the database. -/
def ConnectBlock.tx (ext : Externals) (p2sh : P2SHAnswers) (cp : ConnectBlockParams)
    (mempool : CTxMemPool) (s : ChainState) (mapTxIndex : CMap uint256 CTxIndex)
    (pindex nFile nBlockPos : Nat) (fEnforceBIP30 fStrictPayToScriptHash fJustCheck : Bool)
    (st : ConnectBlockState) (tx : CTransaction) : Option (Option ConnectBlockState) :=
  let hashTx := ext.GetHash tx
  if fEnforceBIP30 && !ConnectBlock.bip30 mapTxIndex hashTx then some none
  else
    let nSigOps := wrap32u (st.nSigOps + tx.GetLegacySigOpCount ext.GetSigOpCount)
    if nSigOps > MAX_BLOCK_SIGOPS then some none
    else
      let posThisTx : CDiskTxPos := ⟨nFile, nBlockPos, st.nTxPos⟩
      let nTxPos :=
        if !fJustCheck then wrap32u (st.nTxPos + cp.GetSerializeSizeDisk tx) else st.nTxPos
      let st1 : ConnectBlockState := { st with nSigOps := nSigOps, nTxPos := nTxPos }
      let r : Option (Option ConnectBlockState) :=
        if !tx.IsCoinBase then
          ConnectBlock.inputs ext p2sh (TxDb.ofIndex mapTxIndex cp.ReadFromDisk) mempool s
            pindex fStrictPayToScriptHash posThisTx st1 tx
        else some (some st1)
      match r with
      | some (some st2) =>
        some (some { st2 with
          mapQueuedChanges :=
            st2.mapQueuedChanges.set hashTx (CTxIndex.ofOutputs posThisTx tx.vout.length) })
      | r1 => r1

/-- The loop of `ConnectBlock` over the transactions that are left (main.cpp:1611-1656). -/
def ConnectBlock.loop (ext : Externals) (p2sh : P2SHAnswers) (cp : ConnectBlockParams)
    (mempool : CTxMemPool) (s : ChainState) (mapTxIndex : CMap uint256 CTxIndex)
    (pindex nFile nBlockPos : Nat) (fEnforceBIP30 fStrictPayToScriptHash fJustCheck : Bool) :
    List CTransaction → ConnectBlockState → Option (Option ConnectBlockState)
  | [], st => some (some st)
  | tx :: rest, st =>
    match ConnectBlock.tx ext p2sh cp mempool s mapTxIndex pindex nFile nBlockPos
        fEnforceBIP30 fStrictPayToScriptHash fJustCheck st tx with
    | some (some st1) =>
      ConnectBlock.loop ext p2sh cp mempool s mapTxIndex pindex nFile nBlockPos
        fEnforceBIP30 fStrictPayToScriptHash fJustCheck rest st1
    | r => r

/-- The writes of the queued changes (main.cpp:1667-1671). Each key of the map is written
once; an entry that stands earlier in the list is the one the map holds for its key. -/
def ConnectBlock.write (mapQueuedChanges mapTxIndex : CMap uint256 CTxIndex) :
    CMap uint256 CTxIndex :=
  mapQueuedChanges.foldr (fun e m => m.set e.1 e.2) mapTxIndex

/-- The end of `ConnectBlock` (main.cpp:1658-1687) after the loop has left the state `st`:
the returned flag and the transaction index; `none` when a call does not return. -/
def ConnectBlock.finish (cp : ConnectBlockParams) (fTestNet : Bool)
    (mapTxIndex : CMap uint256 CTxIndex) (vtx : List CTransaction) (n : CBlockIndex)
    (fJustCheck : Bool) (st : ConnectBlockState) : Option (Bool × CMap uint256 CTxIndex) :=
  match vtx.head?.bind (fun tx => tx.GetValueOut),
      GetProofOfWorkReward fTestNet n.nHeight st.nFees with
  | some nValueOut, some nReward =>
    if nValueOut > nReward then some (false, mapTxIndex)
    else if fJustCheck then some (true, mapTxIndex)
    else
      let mapTxIndex1 := ConnectBlock.write st.mapQueuedChanges mapTxIndex
      if n.pprev.isSome && !cp.WriteBlockIndex then some (false, mapTxIndex1)
      else some (true, mapTxIndex1)
  | _, _ => none

/-- Method `CBlock::ConnectBlock` (main.cpp:1573) on the transaction index `mapTxIndex` of
the database: the returned flag and the index. The result is `none` when a call does not
return or `pindex` points to no node; the `nDoS` that a failed check leaves on the block
or on a transaction is not kept. The node of `pindex` has a hash, as every node of the
block index has; the test `!pindex->phashBlock` is for the index `CreateNewBlock` makes
up. -/
def CBlock.ConnectBlock (ext : Externals) (p2sh : P2SHAnswers) (cp : ConnectBlockParams)
    (fTestNet : Bool) (mempool : CTxMemPool) (s : ChainState) (b : CBlock)
    (mapTxIndex : CMap uint256 CTxIndex) (pindex : Nat) (fJustCheck : Bool) :
    Option (Bool × CMap uint256 CTxIndex) :=
  let c := b.CheckBlock ext (!fJustCheck) (!fJustCheck)
  if !c.1 then some (false, mapTxIndex)
  else
    match s.node pindex with
    | none => none
    | some n =>
      let fEnforceBIP30 : Bool :=
        !(decide (n.nHeight = 91842 ∧ n.phashBlock =
            0x00000000000a4d0a398161ffc163c503763b1f4360639393e0e4c8e300e0caec) ||
          decide (n.nHeight = 91880 ∧ n.phashBlock =
            0x00000000000743f190a18c5577a3c2d2a1f610ae9601ac046a38084ccb7cd721))
      let fStrictPayToScriptHash : Bool := decide ((n.nTime : Int) ≥ 1333238400)
      let nTxPos : Nat :=
        if fJustCheck then 1
        else wrap32u (n.nBlockPos + cp.nEmptyBlockSize + (2 ^ 32 - 1) +
          cp.GetSizeOfCompactSize c.2.vtx.length)
      match ConnectBlock.loop ext p2sh cp mempool s mapTxIndex pindex n.nFile n.nBlockPos
          fEnforceBIP30 fStrictPayToScriptHash fJustCheck c.2.vtx ⟨[], 0, 0, nTxPos⟩ with
      | none => none
      | some none => some (false, mapTxIndex)
      | some (some st) => ConnectBlock.finish cp fTestNet mapTxIndex c.2.vtx n fJustCheck st

/-- The entry of `hash` in the index `mapTxIndex` with the queued changes laid over it. -/
def ConnectBlock.view (mapQueuedChanges mapTxIndex : CMap uint256 CTxIndex)
    (hash : uint256) : Option CTxIndex :=
  match mapQueuedChanges.find hash with
  | some txindex => some txindex
  | none => mapTxIndex.find hash

/-- The index `v1` is the index `v` after outputs that `v` has as unspent were marked as
spent: the two have the same keys, positions and numbers of outputs, each outpoint of
`outs` is unspent in `v`, and every other outpoint is in `v1` as it is in `v`. -/
def ConnectBlock.MarkedFrom (outs : List COutPoint) (v v1 : uint256 → Option CTxIndex) :
    Prop :=
  ∀ hash, (v hash = none ↔ v1 hash = none) ∧
    ∀ e e1, v hash = some e → v1 hash = some e1 →
      e1.pos = e.pos ∧ e1.vSpent.length = e.vSpent.length ∧
      ∀ n, n < e.vSpent.length →
        ((⟨hash, n⟩ ∈ outs → ∃ p, e.vSpent[n]? = some p ∧ p.IsNull = true) ∧
          (⟨hash, n⟩ ∉ outs → e1.vSpent[n]? = e.vSpent[n]?))

/-- The index `w` is the index `v` but for outputs that `v` has as unspent and `w` has
with the null position of `SetNull`. -/
def DisconnectBlock.ClearedFrom (v w : uint256 → Option CTxIndex) : Prop :=
  ∀ hash, (w hash = none ↔ v hash = none) ∧
    ∀ a e, w hash = some a → v hash = some e →
      a.pos = e.pos ∧ a.vSpent.length = e.vSpent.length ∧
      ∀ n, n < e.vSpent.length →
        (a.vSpent[n]? = e.vSpent[n]? ∨
          (a.vSpent[n]? = some CDiskTxPos.null ∧ ∃ p, e.vSpent[n]? = some p ∧ p.IsNull = true))

/-! ## Example values -/

/-- Stand-ins for the external functions, small enough to compute with. -/
def exampleExternals : Externals where
  GetSerializeSizeTx := fun tx => 10 + scriptBytes tx
  GetSerializeSizeBlock := fun b => 80 + (b.vtx.map (fun tx => 10 + scriptBytes tx)).sum
  GetHash := fun tx => tx.nLockTime
  Hash := fun a b => 10 * a + b
  GetHashPoW := fun _ => 0
  SetCompact := fun n => n
  GetSigOpCount := fun s => s.length
  GetAdjustedTime := 1000
  VerifySignature := fun _ _ _ _ _ => true
  GetTotalBlocksEstimate := 0

/-- A coinbase transaction with a two-byte input script and one output of 50 units. -/
def exampleCoinbase : CTransaction :=
  ⟨1, [⟨⟨0, UINT32_MAX⟩, [1, 2], 0⟩], [⟨50, []⟩], 7, 0⟩

/-- A block that holds only `exampleCoinbase`. -/
def exampleBlock : CBlock := ⟨2, 0, 7, 1000, 1, 0, [exampleCoinbase], [], 0⟩

/-- A chain of 101 blocks at the heights 0 to 100; the block of height `i` is the node
`i`, stored in file 1 at position `1000 * i`. -/
def exampleChain : ChainState where
  vBlockIndex := (List.range 101).map fun i =>
    { phashBlock := 1000 + i
      pprev := if i = 0 then none else some (i - 1)
      pnext := if i = 100 then none else some (i + 1)
      nFile := 1
      nBlockPos := 1000 * i
      nHeight := i
      bnChainWork := i + 1
      nVersion := 2
      hashMerkleRoot := 0
      nTime := 90 * i
      nBits := 1
      nNonce := 0 }
  mapBlockIndex := (List.range 101).map fun i => (1000 + i, i)
  hashGenesisBlock := 1000
  pindexGenesisBlock := some 0
  nBestHeight := 100
  bnBestChainWork := 101
  bnBestInvalidWork := 0
  hashBestChain := 1100
  pindexBest := some 100
  nBaseMaturity := BASE_MATURITY

/-- A transaction that spends the only output of `exampleCoinbase`. -/
def exampleSpend : CTransaction :=
  ⟨1, [⟨⟨7, 0⟩, [], UINT32_MAX⟩], [⟨40, []⟩], 0, 0⟩

/-- The fetched inputs of `exampleSpend`: `exampleCoinbase`, stored in the block at
position `nBlockPos` of file 1, with its output unspent. -/
def exampleInputs (nBlockPos : Nat) : MapPrevTx :=
  [(7, (⟨⟨1, nBlockPos, 81⟩, [⟨UINT32_MAX, 0, 0⟩]⟩, exampleCoinbase))]

/-- A block index with a fork: the genesis block (node 0), the best block `A1` on top of
it (node 1), and a side branch `B1` (node 2), `B2` (node 3) on top of the genesis block
that has more work than `A1`. The block of node `i` is stored in file 1 at position
`1000 * i`. -/
def exampleFork : ChainState where
  vBlockIndex :=
    [ ⟨1000, none, some 1, 1, 0, 0, 1, 2, 0, 0, 1, 0⟩,
      ⟨1001, some 0, none, 1, 1000, 1, 2, 2, 0, 90, 1, 0⟩,
      ⟨1002, some 0, none, 1, 2000, 1, 3, 2, 0, 100, 1, 0⟩,
      ⟨1003, some 2, none, 1, 3000, 2, 4, 2, 0, 190, 1, 0⟩ ]
  mapBlockIndex := [(1000, 0), (1001, 1), (1002, 2), (1003, 3)]
  hashGenesisBlock := 1000
  pindexGenesisBlock := some 0
  nBestHeight := 1
  bnBestChainWork := 2
  bnBestInvalidWork := 0
  hashBestChain := 1001
  pindexBest := some 1
  nBaseMaturity := BASE_MATURITY

/-- A transaction hash without collisions on the inputs: a code number of the list of
inputs. -/
def exampleGetHash (tx : CTransaction) : uint256 :=
  Encodable.encode
    (tx.vin.map fun txin => (txin.prevout.hash, txin.prevout.n, txin.scriptSig, txin.nSequence))

/-- A transaction that spends output 1 of the transaction 7. -/
def exampleSpend2 : CTransaction :=
  ⟨1, [⟨⟨7, 1⟩, [], UINT32_MAX⟩], [⟨30, []⟩], 0, 0⟩

/-- A transaction that spends output 0 of the transaction 7, as `exampleSpend` does. -/
def exampleDoubleSpend : CTransaction :=
  ⟨1, [⟨⟨7, 0⟩, [9], UINT32_MAX⟩], [⟨20, []⟩], 0, 0⟩

/-- A sequence of calls on the memory pool. -/
def exampleCalls : List MemPoolCall :=
  [ MemPoolCall.accept exampleSpend true ⟨false, true, 0, false⟩,
    MemPoolCall.accept exampleSpend2 true ⟨false, true, 0, false⟩,
    MemPoolCall.accept exampleDoubleSpend true ⟨false, true, 0, false⟩,
    MemPoolCall.remove exampleSpend,
    MemPoolCall.clear ]

/-- Answers of the database and of the validation in which everything succeeds except
that `ConnectBlock` rejects the block of node 3. -/
def exampleAnswers : DbAnswers where
  TxnBegin := true
  TxnBeginSecondary := fun _ => true
  TxnCommit := fun _ => true
  WriteHashBestChain := fun _ => true
  ReadFromDisk := fun _ => true
  ConnectBlock := fun p => decide (p ≠ 3)
  DisconnectBlock := fun _ => true
  TxnBeginIndex := true
  TxnCommitIndex := true

/-- The state that `SetBestChain` leaves when it is called in `exampleFork` for the block
`B2` (node 3) with `exampleAnswers`. -/
def exampleForkAfter : ChainState :=
  { exampleFork with
    vBlockIndex :=
      [ ⟨1000, none, some 2, 1, 0, 0, 1, 2, 0, 0, 1, 0⟩,
        ⟨1001, some 0, none, 1, 1000, 1, 2, 2, 0, 90, 1, 0⟩,
        ⟨1002, some 0, none, 1, 2000, 1, 3, 2, 0, 100, 1, 0⟩,
        ⟨1003, some 2, none, 1, 3000, 2, 4, 2, 0, 190, 1, 0⟩ ]
    nBestHeight := 2
    bnBestChainWork := 4
    bnBestInvalidWork := 4
    hashBestChain := 1003
    pindexBest := some 3 }

/-- A transaction with one input and one output of `TX_DUST` units, which is not dust. -/
def examplePlain : CTransaction :=
  ⟨1, [⟨⟨7, 0⟩, [], UINT32_MAX⟩], [⟨1000000, []⟩], 0, 0⟩

/-- A transaction that names the same outpoint in both of its inputs. -/
def exampleTwice : CTransaction :=
  ⟨1, [⟨⟨7, 0⟩, [], UINT32_MAX⟩, ⟨⟨7, 0⟩, [], UINT32_MAX⟩], [⟨40, []⟩], 0, 0⟩

/-- A memory pool that holds `exampleSpend` under the hash 0. -/
def examplePool : CTxMemPool :=
  ⟨[(0, exampleSpend)], [(⟨7, 0⟩, ⟨some 0, 0⟩)]⟩

/-- A transaction with one output of 2000000 units. -/
def exampleFunding : CTransaction :=
  ⟨1, [⟨⟨5, 0⟩, [], UINT32_MAX⟩], [⟨2000000, []⟩], 8, 0⟩

/-- A transaction that spends the output of `exampleFunding`, stored under the hash 8, and
leaves 1000000 units as its fee. -/
def examplePaying : CTransaction :=
  ⟨1, [⟨⟨8, 0⟩, [], UINT32_MAX⟩], [⟨1000000, []⟩], 0, 0⟩

/-- A transaction database that holds `exampleCoinbase` under the hash 7, in the block at
position 0 of file 1, and `exampleFunding` under the hash 8, in the block at position 1000,
both with their outputs unspent. -/
def exampleDb : TxDb where
  ReadTxIndex := fun hash =>
    if hash = 7 then some ⟨⟨1, 0, 81⟩, [CDiskTxPos.null]⟩
    else if hash = 8 then some ⟨⟨1, 1000, 81⟩, [CDiskTxPos.null]⟩
    else none
  ReadFromDisk := fun pos =>
    if pos = ⟨1, 0, 81⟩ then some exampleCoinbase
    else if pos = ⟨1, 1000, 81⟩ then some exampleFunding
    else none
  ContainsTx := fun hash => decide (hash = 7 ∨ hash = 8)

/-- A chain of 501 blocks at the heights 399519 to 400019, 30 seconds apart; the block of
height `399519 + i` is the node `i`. -/
def exampleRetargetChain : ChainState where
  vBlockIndex := (List.range 501).map fun i =>
    { phashBlock := 1000 + i
      pprev := if i = 0 then none else some (i - 1)
      pnext := if i = 500 then none else some (i + 1)
      nFile := 1
      nBlockPos := 1000 * i
      nHeight := 399519 + i
      bnChainWork := i + 1
      nVersion := 2
      hashMerkleRoot := 0
      nTime := 1500000000 + 30 * i
      nBits := 1000
      nNonce := 0 }
  mapBlockIndex := (List.range 501).map fun i => (1000 + i, i)
  hashGenesisBlock := 1000
  pindexGenesisBlock := some 0
  nBestHeight := 400019
  bnBestChainWork := 501
  bnBestInvalidWork := 0
  hashBestChain := 1500
  pindexBest := some 500
  nBaseMaturity := BASE_MATURITY

/-- The last node of `exampleRetargetChain`. -/
def exampleRetargetTip : CBlockIndex :=
  ⟨1500, some 499, none, 1, 500000, 400019, 501, 2, 0, 1500015000, 1000, 0⟩

/-- A chain of 12 blocks at the heights 300000 to 300011, 90 seconds apart; the block of
height `300000 + i` is the node `i`. -/
def exampleSoftForkChain : ChainState where
  vBlockIndex := (List.range 12).map fun i =>
    { phashBlock := 1000 + i
      pprev := if i = 0 then none else some (i - 1)
      pnext := if i = 11 then none else some (i + 1)
      nFile := 1
      nBlockPos := 1000 * i
      nHeight := 300000 + i
      bnChainWork := i + 1
      nVersion := 2
      hashMerkleRoot := 0
      nTime := 1500000000 + 90 * i
      nBits := 1000
      nNonce := 0 }
  mapBlockIndex := (List.range 12).map fun i => (1000 + i, i)
  hashGenesisBlock := 1000
  pindexGenesisBlock := some 0
  nBestHeight := 300011
  bnBestChainWork := 12
  bnBestInvalidWork := 0
  hashBestChain := 1011
  pindexBest := some 11
  nBaseMaturity := BASE_MATURITY

/-- A block on top of `exampleSoftForkChain`, 90 seconds after its last block. -/
def exampleSoftForkBlock : CBlock :=
  ⟨2, 1011, 7, 1500001080, 1000, 0, [exampleCoinbase], [], 0⟩

/-- The stand-ins of `exampleExternals` at the adjusted time 1500001000. -/
def exampleSoftForkExternals : Externals :=
  { exampleExternals with GetAdjustedTime := 1500001000 }

/-- Answers to `AcceptBlock` in which every outside check passes: the block hash is 5000
plus the time of the block, the height script is the script of `exampleCoinbase`. -/
def exampleAcceptAnswers : AcceptBlockAnswers where
  GetHash := fun b => 5000 + b.nTime
  GetCompact := fun bn => bn.toNat
  ScriptOfHeight := fun _ => [1, 2]
  fInitialBlockDownload := false
  fInitialBlockDownloadSync := false
  CheckHardened := fun _ _ => true
  CheckSync := fun _ _ => true
  fStrict := true
  CheckDiskSpace := fun _ => true
  WriteToDisk := fun _ => some (1, 12000)

/-- A peer with an open socket and a clean record. -/
def examplePeer : CNode :=
  ⟨77, some 5, [], 0, 0, 0, 0, false, 0⟩

/-- Ban parameters with the default score 100 and ban time of a day, in which no address
is local. -/
def exampleBan : BanParams where
  IsLocal := fun _ => false
  nBanScore := 100
  nBanTime := 86400
  GetTime := 1500001000

/-- A block on top of `exampleSoftForkChain` whose time is 90 seconds before that of the
last block of the chain. -/
def exampleEarlyBlock : CBlock :=
  ⟨2, 1011, 7, 1500000900, 1000, 0, [exampleCoinbase], [], 0⟩

/-- The last node of `exampleSoftForkChain`. -/
def exampleSoftForkTip : CBlockIndex :=
  ⟨1011, some 10, none, 1, 11000, 300011, 12, 2, 0, 1500000990, 1000, 0⟩

/-- A block on a side branch of `exampleSoftForkChain`, on top of the block of node 5, whose
time is before that of the last block of the chain. -/
def exampleStaleBlock : CBlock :=
  ⟨2, 1005, 7, 1500000900, 1000, 0, [exampleCoinbase], [], 0⟩

/-- Message parameters with the protocol versions 60000 to 70000, in which the head of a
version message is its first two numbers and every outside handler does nothing. -/
def exampleNet : MessageParams where
  ban := exampleBan
  MIN_PROTOCOL_VERSION := 60000
  MAX_PROTOCOL_VERSION := 70000
  PROTOCOL_VERSION := 60006
  DropMessage := fun _ => false
  ReadVersion := fun vRecv =>
    match vRecv with
    | [] => VersionRead.failed none none
    | [nVersion] => VersionRead.failed (some nVersion) none
    | nVersion :: nServices :: _ => VersionRead.ok nVersion nServices
  VersionRest := fun pfrom _ => (some true, pfrom)
  Handler := fun _ _ pfrom setBanned => (some true, pfrom, setBanned)
  SendBufferFull := fun _ => false
  fShutdown := false

/-- A peer before the handshake whose receive buffer holds a version message with the
version 70001 and then a `verack` message. -/
def exampleEarlyPeer : CNode :=
  { examplePeer with vRecv := [⟨"version", [70001, 1]⟩, ⟨"verack", []⟩] }

/-- Ban parameters like `exampleBan` in which every address is local. -/
def exampleLocalBan : BanParams :=
  { exampleBan with IsLocal := fun _ => true }

/-- A coinbase transaction whose input script has the two bytes 3 and 0. -/
def exampleShortCoinbase : CTransaction :=
  ⟨1, [⟨⟨0, UINT32_MAX⟩, [3, 0], 0⟩], [⟨50, []⟩], 7, 0⟩

/-- A block that holds only `exampleShortCoinbase`. -/
def exampleShortBlock : CBlock := ⟨2, 0, 7, 1000, 1, 0, [exampleShortCoinbase], [], 0⟩

/-- The node `i` of `exampleLinearChain`. -/
def exampleLinearNode (n : Nat) (nHeight0 : Int) (nTime0 nSpacing : Nat) (i : Nat) :
    CBlockIndex :=
  { phashBlock := 1000 + i
    pprev := if i = 0 then none else some (i - 1)
    pnext := if i + 1 < n then some (i + 1) else none
    nFile := 1
    nBlockPos := 1000 * i
    nHeight := nHeight0 + i
    bnChainWork := i + 1
    nVersion := 2
    hashMerkleRoot := 0
    nTime := nTime0 + nSpacing * i
    nBits := 1000
    nNonce := 0 }

/-- A chain of `n` blocks without branches: the block of node `i` has the hash `1000 + i`,
the height `nHeight0 + i` and the time `nTime0 + nSpacing * i`, and the last block is the
best one. -/
def exampleLinearChain (n : Nat) (nHeight0 : Int) (nTime0 nSpacing : Nat) : ChainState where
  vBlockIndex := (List.range n).map (exampleLinearNode n nHeight0 nTime0 nSpacing)
  mapBlockIndex := (List.range n).map fun i => (1000 + i, i)
  hashGenesisBlock := 1000
  pindexGenesisBlock := some 0
  nBestHeight := nHeight0 + n - 1
  bnBestChainWork := n
  bnBestInvalidWork := 0
  hashBestChain := 1000 + n - 1
  pindexBest := some (n - 1)
  nBaseMaturity := BASE_MATURITY

/-- Scripts none of which pays to a script hash. -/
def exampleP2SH : P2SHAnswers := ⟨fun _ => false, fun _ _ => 0⟩

/-- A heap under `comp`: the vector sorted from the greatest entry to the least. -/
def exampleHeap (comp : TxPriority → TxPriority → Bool) (v : List TxPriority) :
    List TxPriority :=
  v.insertionSort (fun a b => comp b a = true)

/-- What `pop_heap` leaves: the head of the vector at its end, a heap before it. -/
def examplePopHeap (comp : TxPriority → TxPriority → Bool) : List TxPriority →
    List TxPriority
  | [] => []
  | front :: rest => exampleHeap comp rest ++ [front]

/-- The settings of a miner who leaves the block sizes at their defaults. -/
def exampleMiner : MinerParams where
  blockmaxsize := 131072
  blockprioritysize := 27000
  blockminsize := 0
  nMinTxFee := MIN_TX_FEE
  make_heap := exampleHeap
  pop_heap := examplePopHeap
  push_heap := exampleHeap

/-- The settings of a miner who runs with `-blockmaxsize=500000`. -/
def exampleLargeMiner : MinerParams := { exampleMiner with blockmaxsize := 500000 }

/-- Stand-ins as `exampleExternals`, but every transaction serialises to 300000 bytes. -/
def exampleLargeExternals : Externals :=
  { exampleExternals with GetSerializeSizeTx := fun _ => 300000 }

/-- A memory pool that holds `examplePaying` under the hash 0. -/
def examplePayingPool : CTxMemPool :=
  ⟨[(0, examplePaying)], [(⟨8, 0⟩, ⟨some 0, 0⟩)]⟩

/-- The priority queue for `examplePayingPool`: `examplePaying` with the priority 666 and
3333 units of fee per kilobyte. -/
def examplePayingQueue : List TxPriority := [⟨666, 3333, examplePaying⟩]

/-- A transaction that spends the output of `examplePaying`, stored under the hash 0, and
goes by the hash 9. -/
def exampleChild : CTransaction :=
  ⟨1, [⟨⟨0, 0⟩, [], UINT32_MAX⟩], [⟨500000, []⟩], 9, 0⟩

/-- A block of `exampleCoinbase`, `examplePaying` and `exampleChild`, which spends the
output of `examplePaying`; the Merkle root of the hashes 7, 0 and 9 is 799. -/
def exampleSpendingBlock : CBlock :=
  ⟨2, 1002, 799, 1000, 1, 0, [exampleCoinbase, examplePaying, exampleChild], [], 0⟩

/-- A transaction index that holds `exampleFunding` under the hash 8, in the block at
position 1000 of file 1, with its output unspent. -/
def exampleTxIndex : CMap uint256 CTxIndex :=
  [(8, ⟨⟨1, 1000, 81⟩, [CDiskTxPos.null]⟩)]

/-- What `ConnectBlock` reads for `exampleSpendingBlock`, stored at position 3000 of file
1: the three transactions are at the offsets 3081, 3093 and 3103. -/
def exampleConnectParams : ConnectBlockParams where
  GetSerializeSizeDisk := fun tx => 10 + scriptBytes tx
  nEmptyBlockSize := 81
  GetSizeOfCompactSize := fun _ => 1
  ReadFromDisk := fun pos =>
    if pos = ⟨1, 1000, 81⟩ then some exampleFunding
    else if pos = ⟨1, 3000, 3081⟩ then some exampleCoinbase
    else if pos = ⟨1, 3000, 3093⟩ then some examplePaying
    else if pos = ⟨1, 3000, 3103⟩ then some exampleChild
    else none
  WriteBlockIndex := true

/-- The index `exampleTxIndex` after `exampleSpendingBlock` is connected as the node 3 of
`exampleFork`: the outputs of `exampleFunding` and of `examplePaying` are spent. -/
def exampleTxIndexAfter : CMap uint256 CTxIndex :=
  [(9, ⟨⟨1, 3000, 3103⟩, [CDiskTxPos.null]⟩),
   (0, ⟨⟨1, 3000, 3093⟩, [⟨1, 3000, 3103⟩]⟩),
   (8, ⟨⟨1, 1000, 81⟩, [⟨1, 3000, 3093⟩]⟩),
   (7, ⟨⟨1, 3000, 3081⟩, [CDiskTxPos.null]⟩)]

/-- A transaction that spends the output of `exampleFunding` with an input script of three
bytes and has an output script of two bytes. -/
def exampleSigning : CTransaction :=
  ⟨1, [⟨⟨8, 0⟩, [1, 2, 3], UINT32_MAX⟩], [⟨1000000, [4, 5]⟩], 0, 0⟩

/-- A memory pool that holds `exampleSigning` under the hash 0. -/
def exampleSigningPool : CTxMemPool :=
  ⟨[(0, exampleSigning)], [(⟨8, 0⟩, ⟨some 0, 0⟩)]⟩

/-- The priority queue for `exampleSigningPool`. -/
def exampleSigningQueue : List TxPriority := [⟨666, 3333, exampleSigning⟩]

/-- Scripts all of which pay to a script hash, the script inside a `scriptSig` having one
signature operation for each byte of the `scriptSig`. -/
def exampleScriptHash : P2SHAnswers := ⟨fun _ => true, fun _ scriptSig => scriptSig.length⟩

/-! # Theorems -/

/-! ## Merkle tree -/

theorem nextLevel_length (Hash : uint256 → uint256 → uint256) :
    ∀ l : List uint256, (nextLevel Hash l).length = (l.length + 1) / 2
  | [] => by simp [nextLevel]
  | [_] => by simp [nextLevel]
  | _ :: _ :: rest => by
      simp only [nextLevel, List.length_cons, nextLevel_length Hash rest]
      omega

theorem vecAt_natCast (v : List uint256) (k : Nat) : vecAt v (k : Int) = v.getD k 0 := by
  simp [vecAt]

theorem vecAt_add (v : List uint256) (j k : Nat) :
    vecAt v ((j : Int) + (k : Int)) = v.getD (j + k) 0 := by
  rw [← vecAt_natCast]; push_cast; rfl

theorem getD_append_mid (p l a : List uint256) (k : Nat) (hk : k < l.length) :
    (p ++ l ++ a).getD (p.length + k) 0 = l.getD k 0 := by
  rw [List.append_assoc, List.getD_append_right _ _ _ _ (by omega)]
  simp only [Nat.add_sub_cancel_left]
  rw [List.getD_append _ _ _ _ hk]

/-- What the entry `k / 2` of the next level is, in terms of the entry `k` of this level
and its neighbour. -/
theorem nextLevel_getD (Hash : uint256 → uint256 → uint256) :
    ∀ (l : List uint256) (k : Nat), k < l.length →
      (nextLevel Hash l).getD (k / 2) 0 =
        if k % 2 = 1 then Hash (l.getD (k - 1) 0) (l.getD k 0)
        else Hash (l.getD k 0) (l.getD (min (k + 1) (l.length - 1)) 0)
  | [], k, h => by simp at h
  | [x], k, h => by
      have : k = 0 := by simpa using h
      subst this; simp [nextLevel]
  | x :: y :: rest, 0, _ => by simp [nextLevel]
  | x :: y :: rest, 1, _ => by simp [nextLevel]
  | x :: y :: rest, k + 2, h => by
      have h2 : k < rest.length := by simpa using h
      have ih := nextLevel_getD Hash rest k h2
      have e1 : (k + 2) / 2 = k / 2 + 1 := by omega
      have e2 : (k + 2) % 2 = k % 2 := by omega
      rw [e1, e2]
      simp only [nextLevel, List.getD_cons_succ, List.length_cons]
      rw [ih]
      by_cases hp : k % 2 = 1
      · have : k + 2 - 1 = (k - 1) + 2 := by omega
        simp only [hp, if_true, this, List.getD_cons_succ]
      · have hm : min (k + 2 + 1) (rest.length + 1 + 1 - 1) = min (k + 1) (rest.length - 1) + 2 := by
          omega
        simp only [hp, if_false, hm, List.getD_cons_succ]

/-- The inner loop appends the next level: started at an even position `l1.length` of the
level `l1 ++ l2` that is stored at offset `p.length`, it appends the next level of `l2`. -/
theorem BuildMerkleTree.row_eq (Hash : uint256 → uint256 → uint256) (p : List uint256) :
    ∀ (l2 l1 a : List uint256),
      BuildMerkleTree.row Hash p.length ((l1 ++ l2).length : Nat) (l1.length : Nat)
          (p ++ (l1 ++ l2) ++ a) =
        p ++ (l1 ++ l2) ++ a ++ nextLevel Hash l2
  | [], l1, a => by
      rw [BuildMerkleTree.row]
      simp [nextLevel]
  | [x], l1, a => by
      rw [BuildMerkleTree.row]
      have h1 : ((l1.length : Nat) : Int) < ((l1 ++ [x]).length : Nat) := by simp
      rw [if_pos h1]
      rw [BuildMerkleTree.row]
      have h2 : ¬ (((l1.length : Nat) : Int) + 2 < ((l1 ++ [x]).length : Nat)) := by
        simp only [List.length_append, List.length_singleton]; push_cast; omega
      rw [if_neg h2]
      have hm : min (((l1.length : Nat) : Int) + 1) (((l1 ++ [x]).length : Nat) - 1) =
          ((l1.length : Nat) : Int) := by
        simp only [List.length_append, List.length_singleton]; push_cast; omega
      simp only [hm, vecAt_add]
      have hk : l1.length < (l1 ++ [x]).length := by simp
      rw [getD_append_mid p (l1 ++ [x]) a l1.length hk]
      simp [nextLevel]
  | x :: y :: rest, l1, a => by
      rw [BuildMerkleTree.row]
      have h1 : ((l1.length : Nat) : Int) < ((l1 ++ x :: y :: rest).length : Nat) := by
        simp only [List.length_append, List.length_cons]; push_cast; omega
      rw [if_pos h1]
      have hm : min (((l1.length : Nat) : Int) + 1) (((l1 ++ x :: y :: rest).length : Nat) - 1) =
          ((l1.length + 1 : Nat) : Int) := by
        simp only [List.length_append, List.length_cons]; push_cast; omega
      simp only [hm, vecAt_add]
      have hk : l1.length < (l1 ++ x :: y :: rest).length := by simp
      have hk1 : l1.length + 1 < (l1 ++ x :: y :: rest).length := by simp
      rw [getD_append_mid p _ a l1.length hk, getD_append_mid p _ a (l1.length + 1) hk1]
      have e0 : (l1 ++ x :: y :: rest).getD l1.length 0 = x := by
        rw [List.getD_append_right _ _ _ _ (le_refl _)]; simp
      have e1 : (l1 ++ x :: y :: rest).getD (l1.length + 1) 0 = y := by
        rw [List.getD_append_right _ _ _ _ (by omega)]; simp
      rw [e0, e1]
      have hl : l1 ++ x :: y :: rest = (l1 ++ [x, y]) ++ rest := by simp
      have hi : ((l1.length : Nat) : Int) + 2 = (((l1 ++ [x, y]).length : Nat) : Int) := by
        simp
      rw [hi, hl]
      have := BuildMerkleTree.row_eq Hash p rest (l1 ++ [x, y]) (a ++ [Hash x y])
      simp only [List.append_assoc] at this ⊢
      rw [this]
      simp [nextLevel]

/-- The inner loop run on a whole level stored at the end of the vector. -/
theorem BuildMerkleTree.row_level (Hash : uint256 → uint256 → uint256)
    (p l : List uint256) :
    BuildMerkleTree.row Hash p.length (l.length : Nat) 0 (p ++ l) =
      p ++ l ++ nextLevel Hash l := by
  have := BuildMerkleTree.row_eq Hash p l [] []
  simpa using this

/-- The outer loop only appends to the vector. -/
theorem BuildMerkleTree.levels_extends (Hash : uint256 → uint256 → uint256) :
    ∀ (k : Nat) (l p : List uint256), l.length = k →
      ∃ ext, BuildMerkleTree.levels Hash (l.length : Nat) (p.length : Nat) (p ++ l) =
        p ++ l ++ ext := by
  intro k
  induction k using Nat.strong_induction_on with
  | _ k ih =>
    intro l p hl
    rw [BuildMerkleTree.levels]
    by_cases h1 : (1 : Int) < (l.length : Nat)
    · rw [if_pos h1, BuildMerkleTree.row_level]
      have hk : 1 < l.length := by exact_mod_cast h1
      have hlen : (nextLevel Hash l).length < k := by
        rw [nextLevel_length]; omega
      obtain ⟨ext, hext⟩ := ih _ hlen (nextLevel Hash l) (p ++ l) rfl
      have e1 : (((l.length : Nat) : Int) + 1) / 2 = ((nextLevel Hash l).length : Nat) := by
        rw [nextLevel_length]; push_cast; rfl
      have e2 : ((p.length : Nat) : Int) + ((l.length : Nat) : Int) = ((p ++ l).length : Nat) := by
        simp
      rw [e1, e2, hext]
      exact ⟨nextLevel Hash l ++ ext, by simp⟩
    · rw [if_neg h1]
      exact ⟨[], by simp⟩

/-- The position that `GetMerkleBranch` reads on a level of `n` entries for the path
node `k`. -/
theorem sibling_index (k n : Nat) (hk : k < n) :
    min (xor1 (k : Int)) ((n : Int) - 1) =
      ((if k % 2 = 1 then k - 1 else min (k + 1) (n - 1) : Nat) : Int) := by
  unfold xor1
  by_cases hp : k % 2 = 1
  · have : ¬ ((k : Int) % 2 = 0) := by omega
    rw [if_neg this, if_pos hp]; omega
  · have : (k : Int) % 2 = 0 := by omega
    rw [if_pos this, if_neg hp]; omega

/-- Round trip on one stored level and everything above it: folding the branch collected
from the finished tree over the entry `idx` of the level gives the last entry of the tree. -/
theorem merkle_level_round_trip (Hash : uint256 → uint256 → uint256) :
    ∀ (k : Nat) (l p : List uint256) (idx : Nat), l.length = k → idx < k →
      CheckMerkleBranch.loop Hash
          (GetMerkleBranch.loop
            (BuildMerkleTree.levels Hash (l.length : Nat) (p.length : Nat) (p ++ l))
            (l.length : Nat) (p.length : Nat) (idx : Nat))
          (l.getD idx 0) (idx : Nat) =
        (BuildMerkleTree.levels Hash (l.length : Nat) (p.length : Nat) (p ++ l)).getLastD 0 := by
  intro k
  induction k using Nat.strong_induction_on with
  | _ k ih =>
    intro l p idx hl hidx
    by_cases h1 : (1 : Int) < (l.length : Nat)
    · have hk : 1 < l.length := by exact_mod_cast h1
      have hlen : (nextLevel Hash l).length < k := by
        rw [nextLevel_length]; omega
      have e1 : (((l.length : Nat) : Int) + 1) / 2 = ((nextLevel Hash l).length : Nat) := by
        rw [nextLevel_length]; push_cast; rfl
      have e2 : ((p.length : Nat) : Int) + ((l.length : Nat) : Int) = ((p ++ l).length : Nat) := by
        simp
      have hT : BuildMerkleTree.levels Hash (l.length : Nat) (p.length : Nat) (p ++ l) =
          BuildMerkleTree.levels Hash ((nextLevel Hash l).length : Nat) ((p ++ l).length : Nat)
            (p ++ l ++ nextLevel Hash l) := by
        rw [BuildMerkleTree.levels, if_pos h1, BuildMerkleTree.row_level, e1, e2]
      obtain ⟨ext, hext⟩ := BuildMerkleTree.levels_extends Hash _ l p rfl
      have hidx2 : idx / 2 < (nextLevel Hash l).length := by
        rw [nextLevel_length]; omega
      have hrec := ih _ hlen (nextLevel Hash l) (p ++ l) (idx / 2) rfl hidx2
      rw [← hT] at hrec
      rw [GetMerkleBranch.loop, if_pos h1]
      simp only [CheckMerkleBranch.loop]
      rw [sibling_index idx l.length (by omega), vecAt_add, e1, e2]
      have e3 : ((idx : Nat) : Int) / 2 = ((idx / 2 : Nat) : Int) := by push_cast; rfl
      rw [e3]
      have hnext := nextLevel_getD Hash l idx (by omega)
      have hhash : (if ((idx : Nat) : Int) % 2 = 1 then
            Hash ((BuildMerkleTree.levels Hash (l.length : Nat) (p.length : Nat) (p ++ l)).getD
              (p.length + if idx % 2 = 1 then idx - 1 else min (idx + 1) (l.length - 1)) 0)
              (l.getD idx 0)
          else
            Hash (l.getD idx 0)
              ((BuildMerkleTree.levels Hash (l.length : Nat) (p.length : Nat) (p ++ l)).getD
              (p.length + if idx % 2 = 1 then idx - 1 else min (idx + 1) (l.length - 1)) 0)) =
          (nextLevel Hash l).getD (idx / 2) 0 := by
        rw [hnext, hext]
        by_cases hp : idx % 2 = 1
        · have hp2 : ((idx : Nat) : Int) % 2 = 1 := by omega
          rw [if_pos hp2, if_pos hp, if_pos hp, getD_append_mid p l ext (idx - 1) (by omega)]
        · have hp2 : ¬ (((idx : Nat) : Int) % 2 = 1) := by omega
          rw [if_neg hp2, if_neg hp, if_neg hp,
            getD_append_mid p l ext (min (idx + 1) (l.length - 1)) (by omega)]
      rw [hhash]
      exact hrec
    · have hk : l.length = 1 := by
        have : ¬ (1 < l.length) := by intro h; exact h1 (by exact_mod_cast h)
        omega
      have hi0 : idx = 0 := by omega
      subst hi0
      rw [BuildMerkleTree.levels, if_neg h1, GetMerkleBranch.loop, if_neg h1]
      simp only [CheckMerkleBranch.loop]
      match l, hk with
      | [x], _ => rw [List.getLastD_concat]; rfl

/-- The outer loop does nothing on a level of at most one entry. -/
theorem BuildMerkleTree.levels_of_le_one (Hash : uint256 → uint256 → uint256) (nSize j : Int)
    (v : List uint256) (h : nSize ≤ 1) : BuildMerkleTree.levels Hash nSize j v = v := by
  rw [BuildMerkleTree.levels, if_neg (by omega)]

/-- Claim C1. Merkle round trip: for every block and every position `i` of one of its
transactions, `CheckMerkleBranch` applied to the hash of transaction `i`, the branch that
`GetMerkleBranch(i)` collects on the freshly built tree, and `i`, returns the root that
`BuildMerkleTree` returned; `GetHash` and `Hash` are arbitrary functions. -/
theorem merkle_round_trip (GetHash : CTransaction → uint256)
    (Hash : uint256 → uint256 → uint256) (b : CBlock) (i : Nat) (hi : i < b.vtx.length) :
    CheckMerkleBranch Hash (GetHash (b.vtx.get ⟨i, hi⟩))
        ((b.BuildMerkleTree GetHash Hash).2.GetMerkleBranch GetHash Hash (i : Int)).1 (i : Int) =
      (b.BuildMerkleTree GetHash Hash).1 := by
  have hlen : (b.vtx.map GetHash).length = b.vtx.length := by simp
  have hi2 : i < (b.vtx.map GetHash).length := by omega
  have key := merkle_level_round_trip Hash _ (b.vtx.map GetHash) [] i rfl hi2
  obtain ⟨ext, hext⟩ := BuildMerkleTree.levels_extends Hash _ (b.vtx.map GetHash) [] rfl
  simp only [List.nil_append, List.length_nil, hlen, Nat.cast_zero] at key hext
  have hne : (BuildMerkleTree.levels Hash (b.vtx.length : Nat) 0 (b.vtx.map GetHash)).isEmpty =
      false := by
    have : (BuildMerkleTree.levels Hash (b.vtx.length : Nat) 0 (b.vtx.map GetHash)) ≠ [] := by
      intro h
      rw [hext] at h
      have hl := congrArg List.length h
      simp only [List.length_append, List.length_map, List.length_nil] at hl
      omega
    simpa using this
  have hleaf : GetHash (b.vtx.get ⟨i, hi⟩) = (b.vtx.map GetHash).getD i 0 := by
    rw [List.getD_eq_getElem _ _ hi2]; simp
  have hidx : ((i : Nat) : Int) ≠ -1 := by omega
  simp only [CBlock.GetMerkleBranch, CBlock.BuildMerkleTree, CheckMerkleBranch, hne, if_neg hidx]
  rw [hleaf]
  simpa using key

/-- Claim C1 at a block of three transactions and its last transaction. -/
theorem merkle_round_trip_witness :
    CheckMerkleBranch (fun a b => 10 * a + b)
        (CTransaction.nLockTime (List.get
          [(⟨1, [], [], 1, 0⟩ : CTransaction), ⟨1, [], [], 2, 0⟩, ⟨1, [], [], 3, 0⟩] ⟨2, by decide⟩))
        ((CBlock.BuildMerkleTree CTransaction.nLockTime (fun a b => 10 * a + b)
            ⟨2, 0, 0, 0, 0, 0, [⟨1, [], [], 1, 0⟩, ⟨1, [], [], 2, 0⟩, ⟨1, [], [], 3, 0⟩], [], 0⟩).2.GetMerkleBranch
          CTransaction.nLockTime (fun a b => 10 * a + b) ((2 : Nat) : Int)).1 ((2 : Nat) : Int) =
      (CBlock.BuildMerkleTree CTransaction.nLockTime (fun a b => 10 * a + b)
        ⟨2, 0, 0, 0, 0, 0, [⟨1, [], [], 1, 0⟩, ⟨1, [], [], 2, 0⟩, ⟨1, [], [], 3, 0⟩], [], 0⟩).1 :=
  merkle_round_trip CTransaction.nLockTime (fun a b => 10 * a + b)
    ⟨2, 0, 0, 0, 0, 0, [⟨1, [], [], 1, 0⟩, ⟨1, [], [], 2, 0⟩, ⟨1, [], [], 3, 0⟩], [], 0⟩ 2 (by decide)

/-! ## CheckTransaction -/

theorem MAX_MONEY_eq : MAX_MONEY = 1000000000000000 := by
  norm_num [MAX_MONEY, COIN]

theorem MoneyRange_iff (x : Int) : MoneyRange x = true ↔ 0 ≤ x ∧ x ≤ MAX_MONEY := by
  simp [MoneyRange]

theorem wrap64_of_range (x : Int) (h1 : -(2 ^ 63) ≤ x) (h2 : x < 2 ^ 63) : wrap64 x = x := by
  unfold wrap64
  omega

/-- The loop over the outputs passes exactly when every value and every exact running
total is in the money range; the running total is never changed by the wrap-around. -/
theorem CheckTransaction.outputs_iff :
    ∀ (l : List CTxOut) (acc : Int), 0 ≤ acc → acc ≤ MAX_MONEY →
      (CheckTransaction.outputs l acc = true ↔
        (∀ txout ∈ l, 0 ≤ txout.nValue ∧ txout.nValue ≤ MAX_MONEY) ∧
        ∀ k, k ≤ l.length →
          0 ≤ acc + ((l.take k).map CTxOut.nValue).sum ∧
          acc + ((l.take k).map CTxOut.nValue).sum ≤ MAX_MONEY)
  | [], acc, h0, h1 => by
      simp [CheckTransaction.outputs, h0, h1]
  | txout :: rest, acc, h0, h1 => by
      have hM := MAX_MONEY_eq
      rw [CheckTransaction.outputs]
      by_cases hneg : txout.nValue < 0
      · rw [if_pos hneg]
        constructor
        · intro h; cases h
        · rintro ⟨hv, _⟩
          have := (hv txout (List.mem_cons_self _ _)).1
          omega
      rw [if_neg hneg]
      by_cases hbig : txout.nValue > MAX_MONEY
      · rw [if_pos hbig]
        constructor
        · intro h; cases h
        · rintro ⟨hv, _⟩
          have := (hv txout (List.mem_cons_self _ _)).2
          omega
      rw [if_neg hbig]
      have hw : wrap64 (acc + txout.nValue) = acc + txout.nValue :=
        wrap64_of_range _ (by omega) (by omega)
      simp only [hw]
      by_cases hr : MoneyRange (acc + txout.nValue) = true
      · have hr2 := (MoneyRange_iff _).1 hr
        simp only [hr, Bool.not_true, Bool.false_eq_true, if_false]
        rw [CheckTransaction.outputs_iff rest (acc + txout.nValue) hr2.1 hr2.2]
        constructor
        · rintro ⟨hv, hs⟩
          refine ⟨?_, ?_⟩
          · intro o ho
            rcases List.mem_cons.1 ho with rfl | ho
            · exact ⟨by omega, by omega⟩
            · exact hv o ho
          · intro k hk
            cases k with
            | zero => simp [h0, h1]
            | succ k =>
              have := hs k (by simpa using hk)
              simp only [List.take_succ_cons, List.map_cons, List.sum_cons]
              constructor <;> omega
        · rintro ⟨hv, hs⟩
          refine ⟨fun o ho => hv o (List.mem_cons_of_mem _ ho), ?_⟩
          intro k hk
          have := hs (k + 1) (by simpa using hk)
          simp only [List.take_succ_cons, List.map_cons, List.sum_cons] at this
          constructor <;> omega
      · have hr3 : MoneyRange (acc + txout.nValue) = false := by
          simpa using hr
        simp only [hr3, Bool.not_false, if_true]
        constructor
        · intro h; cases h
        · rintro ⟨_, hs⟩
          have := hs 1 (by simp)
          simp only [List.take_succ_cons, List.take_zero, List.map_cons, List.map_nil,
            List.sum_cons, List.sum_nil, add_zero] at this
          exact absurd ((MoneyRange_iff _).2 this) hr

/-- The loop over the inputs passes exactly when the outpoints are pairwise distinct and
none of them was seen before. -/
theorem CheckTransaction.inputs_iff :
    ∀ (l : List CTxIn) (seen : List COutPoint),
      (CheckTransaction.inputs l seen = true ↔
        (l.map CTxIn.prevout).Nodup ∧ ∀ txin ∈ l, txin.prevout ∉ seen)
  | [], seen => by simp [CheckTransaction.inputs]
  | txin :: rest, seen => by
      rw [CheckTransaction.inputs]
      by_cases hc : seen.contains txin.prevout = true
      · rw [if_pos hc]
        constructor
        · intro h; cases h
        · rintro ⟨_, h⟩
          exact absurd (by simpa using hc) (h txin (List.mem_cons_self _ _))
      · rw [if_neg hc, CheckTransaction.inputs_iff rest (txin.prevout :: seen)]
        have hc2 : txin.prevout ∉ seen := by simpa using hc
        simp only [List.map_cons, List.nodup_cons, List.mem_map, List.mem_cons, not_or,
          not_exists, not_and, forall_eq_or_imp]
        constructor
        · rintro ⟨hn, h⟩
          exact ⟨⟨fun x hx he => (h x hx).1 he, hn⟩, hc2, fun x hx => (h x hx).2⟩
        · rintro ⟨⟨h1, hn⟩, _, h⟩
          exact ⟨hn, fun x hx => ⟨fun he => h1 x hx he, h x hx⟩⟩

/-- Claim C2. `CheckTransaction` returns true exactly when: the input list is non-empty,
the output list is non-empty, the serialised size is at most `MAX_BLOCK_SIZE`, every output
value is in `[0, MAX_MONEY]`, every running total of the output values (the exact sum of
the first `k` values, for every `k`) is in `[0, MAX_MONEY]`, the input outpoints are
pairwise distinct, and either the transaction is a coinbase whose single input script has
2 to 100 bytes or it is not a coinbase and no input has a null previous outpoint. The code
keeps the running total in a 64-bit integer (`wrap64`); the totals of the statement are
exact integers, so the accumulation never wraps. -/
theorem CheckTransaction_true_iff (GetSerializeSize : CTransaction → Nat)
    (tx : CTransaction) :
    (tx.CheckTransaction GetSerializeSize).1 = true ↔
      tx.vin ≠ [] ∧ tx.vout ≠ [] ∧ GetSerializeSize tx ≤ MAX_BLOCK_SIZE ∧
      (∀ txout ∈ tx.vout, 0 ≤ txout.nValue ∧ txout.nValue ≤ MAX_MONEY) ∧
      (∀ k, k ≤ tx.vout.length →
        0 ≤ ((tx.vout.take k).map CTxOut.nValue).sum ∧
        ((tx.vout.take k).map CTxOut.nValue).sum ≤ MAX_MONEY ∧
        ((tx.vout.take k).map CTxOut.nValue).sum < 2 ^ 63) ∧
      (tx.vin.map CTxIn.prevout).Nodup ∧
      ((tx.IsCoinBase = true ∧
          ∃ txin, tx.vin = [txin] ∧ 2 ≤ txin.scriptSig.length ∧ txin.scriptSig.length ≤ 100) ∨
        (tx.IsCoinBase = false ∧ ∀ txin ∈ tx.vin, txin.prevout.IsNull = false)) := by
  have hM := MAX_MONEY_eq
  have hout := CheckTransaction.outputs_iff tx.vout 0 (le_refl _) (by omega)
  have hin := CheckTransaction.inputs_iff tx.vin []
  simp only [zero_add, List.not_mem_nil, not_false_eq_true, implies_true, and_true] at hout hin
  have hsum : (∀ k, k ≤ tx.vout.length →
        0 ≤ ((tx.vout.take k).map CTxOut.nValue).sum ∧
        ((tx.vout.take k).map CTxOut.nValue).sum ≤ MAX_MONEY ∧
        ((tx.vout.take k).map CTxOut.nValue).sum < 2 ^ 63) ↔
      (∀ k, k ≤ tx.vout.length →
        0 ≤ ((tx.vout.take k).map CTxOut.nValue).sum ∧
        ((tx.vout.take k).map CTxOut.nValue).sum ≤ MAX_MONEY) := by
    constructor
    · intro h k hk; exact ⟨(h k hk).1, (h k hk).2.1⟩
    · intro h k hk; exact ⟨(h k hk).1, (h k hk).2, by have := (h k hk).2; omega⟩
  rw [hsum]
  unfold CTransaction.CheckTransaction
  cases hvin : tx.vin with
  | nil => simp [CTransaction.DoS]
  | cons txin0 vrest =>
    simp only [ne_eq, reduceCtorEq, not_false_eq_true, true_and]
    by_cases hvout : tx.vout.isEmpty = true
    · have : tx.vout = [] := by simpa using hvout
      simp [hvout, this, CTransaction.DoS]
    have hvout2 : tx.vout ≠ [] := by simpa using hvout
    rw [if_neg hvout]
    by_cases hsz : GetSerializeSize tx > MAX_BLOCK_SIZE
    · rw [if_pos hsz]
      simp only [CTransaction.DoS, Bool.false_eq_true, false_iff, not_and]
      intro _ h; omega
    rw [if_neg hsz]
    have hsz2 : GetSerializeSize tx ≤ MAX_BLOCK_SIZE := by omega
    by_cases ho : CheckTransaction.outputs tx.vout 0 = true
    swap
    · have ho2 : CheckTransaction.outputs tx.vout 0 = false := by simpa using ho
      simp only [ho2, Bool.not_false, if_true, CTransaction.DoS, Bool.false_eq_true, false_iff]
      rintro ⟨_, _, hv, hs, _⟩
      exact ho (hout.2 ⟨hv, hs⟩)
    have ho3 := hout.1 ho
    simp only [ho, Bool.not_true, Bool.false_eq_true, if_false]
    rw [← hvin]
    by_cases hi : CheckTransaction.inputs tx.vin [] = true
    swap
    · have hi2 : CheckTransaction.inputs tx.vin [] = false := by simpa using hi
      simp only [hi2, Bool.not_false, if_true, Bool.false_eq_true, false_iff]
      rintro ⟨_, _, _, _, hn, _⟩
      exact hi (hin.2 hn)
    have hi3 := hin.1 hi
    simp only [hi, Bool.not_true, Bool.false_eq_true, if_false]
    by_cases hcb : tx.IsCoinBase = true
    · rw [if_pos hcb]
      have hone : tx.vin = [txin0] := by
        unfold CTransaction.IsCoinBase at hcb
        rw [hvin] at hcb
        cases vrest with
        | nil => exact hvin
        | cons _ _ => simp at hcb
      by_cases hlen : (decide (txin0.scriptSig.length < 2) || decide (txin0.scriptSig.length > 100)) = true
      · rw [if_pos hlen]
        simp only [CTransaction.DoS, Bool.false_eq_true, false_iff]
        rintro ⟨_, _, _, _, _, h⟩
        rcases h with ⟨_, t, ht, h2, h100⟩ | ⟨hf, _⟩
        · rw [hone] at ht
          have : t = txin0 := by simpa using ht.symm
          subst this
          simp only [Bool.or_eq_true, decide_eq_true_eq] at hlen
          omega
        · rw [hcb] at hf; cases hf
      · rw [if_neg hlen]
        simp only [Bool.or_eq_true, decide_eq_true_eq, not_or, not_lt] at hlen
        simp only [true_iff]
        exact ⟨hvout2, hsz2, ho3.1, ho3.2, hi3, Or.inl ⟨hcb, txin0, hone, by omega, by omega⟩⟩
    · rw [if_neg hcb]
      have hcb2 : tx.IsCoinBase = false := by simpa using hcb
      by_cases hany : (tx.vin.any fun txin => txin.prevout.IsNull) = true
      · rw [if_pos hany]
        simp only [CTransaction.DoS, Bool.false_eq_true, false_iff]
        rintro ⟨_, _, _, _, _, h⟩
        rcases h with ⟨ht, _⟩ | ⟨_, hall⟩
        · exact hcb ht
        · obtain ⟨t, ht, hnull⟩ := List.any_eq_true.1 hany
          rw [hall t ht] at hnull; cases hnull
      · rw [if_neg hany]
        simp only [true_iff]
        refine ⟨hvout2, hsz2, ho3.1, ho3.2, hi3, Or.inr ⟨hcb2, ?_⟩⟩
        intro t ht
        by_contra hnn
        exact hany (List.any_eq_true.2 ⟨t, ht, by simpa using hnn⟩)

/-! ## CheckProofOfWork -/

theorem bnProofOfWorkLimit_lt : bnProofOfWorkLimit < 2 ^ 256 := by
  unfold bnProofOfWorkLimit
  have h : ((2 ^ 256 - 1 : Nat) >>> 20) < 2 ^ 256 := by
    rw [Nat.shiftRight_eq_div_pow]
    exact lt_of_le_of_lt (Nat.div_le_self _ _) (by norm_num)
  exact_mod_cast h

/-- Claim C4. `CheckProofOfWork(hash, nBits)` returns true exactly when the target `T`
decoded from `nBits` satisfies `0 < T <= (2^256 - 1) >> 20` and `hash <= T`; the decoder
`SetCompact` is arbitrary. -/
theorem CheckProofOfWork_iff (SetCompact : Nat → Int) (hash : uint256) (nBits : Nat) :
    CheckProofOfWork SetCompact hash nBits = true ↔
      0 < SetCompact nBits ∧
      SetCompact nBits ≤ (((2 ^ 256 - 1 : Nat) >>> 20 : Nat) : Int) ∧
      (hash : Int) ≤ SetCompact nBits := by
  have hlim := bnProofOfWorkLimit_lt
  unfold CheckProofOfWork
  simp only [Bool.or_eq_true, decide_eq_true_eq]
  by_cases hr : SetCompact nBits ≤ 0 ∨ SetCompact nBits > bnProofOfWorkLimit
  · rw [if_pos hr]
    simp only [Bool.false_eq_true, false_iff]
    rintro ⟨h1, h2, _⟩
    have h2b : SetCompact nBits ≤ bnProofOfWorkLimit := h2
    omega
  · rw [if_neg hr]
    have hpos : 0 < SetCompact nBits := by omega
    have hle : SetCompact nBits ≤ bnProofOfWorkLimit := by omega
    have hget : ((getuint256 (SetCompact nBits) : Nat) : Int) = SetCompact nBits := by
      unfold getuint256
      have h1 : (SetCompact nBits).toNat < 2 ^ 256 := by
        have : ((SetCompact nBits).toNat : Int) < 2 ^ 256 := by
          rw [Int.toNat_of_nonneg (by omega)]; omega
        exact_mod_cast this
      rw [Nat.mod_eq_of_lt h1, Int.toNat_of_nonneg (by omega)]
    by_cases hh : hash > getuint256 (SetCompact nBits)
    · rw [if_pos hh]
      simp only [Bool.false_eq_true, false_iff]
      rintro ⟨_, _, h3⟩
      have : (hash : Int) > (getuint256 (SetCompact nBits) : Nat) := by exact_mod_cast hh
      omega
    · rw [if_neg hh]
      simp only [true_iff]
      refine ⟨hpos, hle, ?_⟩
      have : (hash : Int) ≤ (getuint256 (SetCompact nBits) : Nat) := by
        exact_mod_cast (not_lt.1 hh)
      omega

/-! ## GetProofOfWorkReward -/

/-- The mainnet subsidy schedule below height 64 000 000: the reward is the subsidy of the
height, halved once per full million of the height, plus the fees, when that sum fits an
`int64`. -/
theorem GetProofOfWorkReward_schedule (nHeight nFees : Int) (h0 : 0 ≤ nHeight)
    (h64 : nHeight < 64000000)
    (hlo : -(2 ^ 63) ≤
      ((if nForkThree ≤ nHeight ∧ nHeight < nForkFour then 25 * COIN else 50 * COIN) >>>
        (nHeight / 1000000).toNat) + nFees)
    (hhi : ((if nForkThree ≤ nHeight ∧ nHeight < nForkFour then 25 * COIN else 50 * COIN) >>>
        (nHeight / 1000000).toNat) + nFees < 2 ^ 63) :
    GetProofOfWorkReward false nHeight nFees =
      some (((if nForkThree ≤ nHeight ∧ nHeight < nForkFour then 25 * COIN else 50 * COIN) >>>
        (nHeight / 1000000).toNat) + nFees) := by
  unfold GetProofOfWorkReward shr64
  have hdiv : Int.tdiv nHeight 1000000 = nHeight / 1000000 := by
    rw [Int.tdiv_eq_ediv] <;> omega
  have hc : 0 ≤ nHeight / 1000000 ∧ nHeight / 1000000 < 64 := by omega
  simp only [hdiv, hc, and_self, if_true, Option.map_some', Bool.false_and, Bool.or_false,
    Bool.and_eq_true, decide_eq_true_eq, ge_iff_le]
  rw [wrap64_of_range _ hlo hhi]

/-- Claim C5 at height 64 000 000 on mainnet: the code shifts the 64-bit subsidy by 64
positions, for which C++ defines no result, where the claimed schedule gives
`50 COIN >> 64 = 0`. -/
theorem GetProofOfWorkReward_height_64000000 :
    GetProofOfWorkReward false 64000000 0 = none ∧
      ((50 * COIN) >>> (64000000 / 1000000 : Int).toNat) + 0 = 0 := by
  constructor
  · rfl
  · decide

/-! ## CheckBlock -/

/-- A transaction that passes `CheckTransaction` keeps its counter. -/
theorem CheckTransaction_true_snd (GetSerializeSize : CTransaction → Nat) (tx : CTransaction)
    (h : (tx.CheckTransaction GetSerializeSize).1 = true) :
    (tx.CheckTransaction GetSerializeSize).2 = tx := by
  unfold CTransaction.CheckTransaction at h ⊢
  cases hvin : tx.vin with
  | nil => rw [hvin] at h; simp [CTransaction.DoS] at h
  | cons txin0 vrest =>
    rw [hvin] at h
    simp only at h ⊢
    split_ifs at h ⊢ <;> first | rfl | (simp [CTransaction.DoS] at h)

theorem CheckBlock.transactions_none (GetSerializeSize : CTransaction → Nat) :
    ∀ l : List CTransaction, (CheckBlock.transactions GetSerializeSize l).1 = none →
      (∀ tx ∈ l, (tx.CheckTransaction GetSerializeSize).1 = true) ∧
      (CheckBlock.transactions GetSerializeSize l).2 = l
  | [], _ => by simp [CheckBlock.transactions]
  | tx :: rest, h => by
      rw [CheckBlock.transactions] at h ⊢
      by_cases hc : (tx.CheckTransaction GetSerializeSize).1 = true
      · simp only [hc, if_true] at h ⊢
        obtain ⟨h1, h2⟩ := CheckBlock.transactions_none GetSerializeSize rest h
        refine ⟨?_, ?_⟩
        · intro t ht
          rcases List.mem_cons.1 ht with rfl | ht
          · exact hc
          · exact h1 t ht
        · rw [h2, CheckTransaction_true_snd GetSerializeSize tx hc]
      · simp [hc] at h

theorem CheckBlock.uniqueTx_fold (l : List uint256) :
    ∀ s : List uint256,
      (l.foldl (fun s h => if s.contains h then s else h :: s) s).length ≤ s.length + l.length ∧
      ((l.foldl (fun s h => if s.contains h then s else h :: s) s).length = s.length + l.length →
        l.Nodup ∧ ∀ x ∈ l, x ∉ s) := by
  induction l with
  | nil => intro s; simp
  | cons a l ih =>
    intro s
    simp only [List.foldl_cons, List.length_cons]
    by_cases hc : s.contains a = true
    · rw [if_pos hc]
      obtain ⟨h1, _⟩ := ih s
      exact ⟨by omega, fun h => by omega⟩
    · rw [if_neg hc]
      obtain ⟨h1, h2⟩ := ih (a :: s)
      simp only [List.length_cons] at h1 h2
      refine ⟨by omega, fun h => ?_⟩
      obtain ⟨hn, hd⟩ := h2 (by omega)
      have ha : a ∉ s := by simpa using hc
      refine ⟨List.nodup_cons.2 ⟨fun hm => ?_, hn⟩, ?_⟩
      · exact hd a hm (List.mem_cons_self _ _)
      · intro x hx
        rcases List.mem_cons.1 hx with rfl | hx
        · exact ha
        · exact fun hxs => hd x hx (List.mem_cons_of_mem _ hxs)

theorem CheckBlock.uniqueTx_length (l : List uint256)
    (h : (CheckBlock.uniqueTx l).length = l.length) : l.Nodup := by
  have := (CheckBlock.uniqueTx_fold l []).2
  simp only [List.length_nil, zero_add] at this
  exact (this h).1

/-- A 32-bit counter that adds up values whose exact sum fits 32 bits holds the exact
sum. -/
theorem foldl_wrap32u {α : Type} (f : α → Nat) :
    ∀ (l : List α) (acc : Nat), acc + (l.map f).sum < 2 ^ 32 →
      l.foldl (fun n a => wrap32u (n + f a)) acc = acc + (l.map f).sum
  | [], acc, _ => by simp
  | a :: l, acc, h => by
      simp only [List.map_cons, List.sum_cons] at h
      simp only [List.foldl_cons, List.map_cons, List.sum_cons]
      have hw : wrap32u (acc + f a) = acc + f a := by
        unfold wrap32u; exact Nat.mod_eq_of_lt (by omega)
      rw [hw, foldl_wrap32u f l (acc + f a) (by omega)]
      omega

theorem GetLegacySigOpCount_exact (GetSigOpCount : CScript → Nat) (tx : CTransaction)
    (h : legacySigOps GetSigOpCount tx < 2 ^ 32) :
    tx.GetLegacySigOpCount GetSigOpCount = legacySigOps GetSigOpCount tx := by
  unfold legacySigOps at h ⊢
  unfold CTransaction.GetLegacySigOpCount
  have h1 := foldl_wrap32u (fun txin : CTxIn => GetSigOpCount txin.scriptSig) tx.vin 0
    (by omega)
  simp only [zero_add] at h1
  simp only [h1]
  exact foldl_wrap32u (fun txout : CTxOut => GetSigOpCount txout.scriptPubKey) tx.vout _ h

theorem sum_map_le_mul {α : Type} (f g : α → Nat) (c : Nat) :
    ∀ l : List α, (∀ a ∈ l, f a ≤ c * g a) → (l.map f).sum ≤ c * (l.map g).sum
  | [], _ => by simp
  | a :: l, h => by
      simp only [List.map_cons, List.sum_cons]
      have h1 := h a (List.mem_cons_self _ _)
      have h2 := sum_map_le_mul f g c l (fun x hx => h x (List.mem_cons_of_mem _ hx))
      rw [Nat.mul_add]
      omega

theorem sum_map_le_sum_map {α : Type} (f g : α → Nat) :
    ∀ l : List α, (∀ a ∈ l, f a ≤ g a) → (l.map f).sum ≤ (l.map g).sum
  | [], _ => by simp
  | a :: l, h => by
      simp only [List.map_cons, List.sum_cons]
      have h1 := h a (List.mem_cons_self _ _)
      have h2 := sum_map_le_sum_map f g l (fun x hx => h x (List.mem_cons_of_mem _ hx))
      omega

theorem le_sum_map_of_mem {α : Type} (f : α → Nat) :
    ∀ (l : List α) (a : α), a ∈ l → f a ≤ (l.map f).sum
  | [], _, h => by simp at h
  | b :: l, a, h => by
      simp only [List.map_cons, List.sum_cons]
      rcases List.mem_cons.1 h with rfl | h
      · omega
      · have := le_sum_map_of_mem f l a h
        omega

theorem legacySigOps_le (GetSigOpCount : CScript → Nat)
    (hops : ∀ s : CScript, GetSigOpCount s ≤ 20 * s.length) (tx : CTransaction) :
    legacySigOps GetSigOpCount tx ≤ 20 * scriptBytes tx := by
  unfold legacySigOps scriptBytes
  have h1 := sum_map_le_mul (fun txin : CTxIn => GetSigOpCount txin.scriptSig)
    (fun txin => txin.scriptSig.length) 20 tx.vin (fun a _ => hops _)
  have h2 := sum_map_le_mul (fun txout : CTxOut => GetSigOpCount txout.scriptPubKey)
    (fun txout => txout.scriptPubKey.length) 20 tx.vout (fun a _ => hops _)
  rw [Nat.mul_add]
  omega

/-- The counter of `CheckBlock` holds the exact number of legacy signature operations of
the block when every count is at most 20 per script byte and the scripts fit the block
size limit. -/
theorem CheckBlock.nSigOps_exact (GetSigOpCount : CScript → Nat)
    (hops : ∀ s : CScript, GetSigOpCount s ≤ 20 * s.length) (vtx : List CTransaction)
    (hbytes : (vtx.map scriptBytes).sum ≤ MAX_BLOCK_SIZE) :
    CheckBlock.nSigOps GetSigOpCount vtx = (vtx.map (legacySigOps GetSigOpCount)).sum := by
  have hM : MAX_BLOCK_SIZE = 524288 := rfl
  have htot : (vtx.map (legacySigOps GetSigOpCount)).sum ≤ 20 * (vtx.map scriptBytes).sum :=
    sum_map_le_mul _ _ 20 vtx (fun tx _ => legacySigOps_le GetSigOpCount hops tx)
  have hfun : ∀ tx ∈ vtx,
      tx.GetLegacySigOpCount GetSigOpCount = legacySigOps GetSigOpCount tx := by
    intro tx htx
    apply GetLegacySigOpCount_exact
    have := le_sum_map_of_mem (legacySigOps GetSigOpCount) vtx tx htx
    norm_num
    omega
  unfold CheckBlock.nSigOps
  have hmap : vtx.map (fun tx => tx.GetLegacySigOpCount GetSigOpCount) =
      vtx.map (legacySigOps GetSigOpCount) := List.map_congr_left hfun
  have := foldl_wrap32u (fun tx : CTransaction => tx.GetLegacySigOpCount GetSigOpCount) vtx 0
    (by rw [hmap]; norm_num; omega)
  rw [this, hmap, zero_add]

/-- Claim C3. `CheckBlock(fCheckPOW = true, fCheckMerkleRoot = true)` returns true only if:
the transaction list is non-empty and the serialised block size is at most
`MAX_BLOCK_SIZE`; `CheckProofOfWork(GetHashPoW(), nBits)` holds; `nTime` is at most the
adjusted network time plus 7200; the first transaction is a coinbase and no later one is;
every transaction passes `CheckTransaction`; the transaction ids are pairwise distinct; the
exact sum of the legacy signature-operation counts is at most `MAX_BLOCK_SIGOPS`; and
`hashMerkleRoot` equals `BuildMerkleTree()`. The assumptions are about the code outside
`main.cpp`: the adjusted time is an `int64`, a script has at most 20 counted signature
operations per byte, a serialised transaction contains its scripts and a serialised block
its transactions. -/
theorem CheckBlock_true_only_if (ext : Externals) (b : CBlock)
    (htime : -(2 ^ 63) ≤ ext.GetAdjustedTime ∧ ext.GetAdjustedTime < 2 ^ 63)
    (hops : ∀ s : CScript, ext.GetSigOpCount s ≤ 20 * s.length)
    (htx : ∀ tx ∈ b.vtx, scriptBytes tx ≤ ext.GetSerializeSizeTx tx)
    (hblk : (b.vtx.map ext.GetSerializeSizeTx).sum ≤ ext.GetSerializeSizeBlock b)
    (h : (b.CheckBlock ext true true).1 = true) :
    b.vtx ≠ [] ∧ ext.GetSerializeSizeBlock b ≤ MAX_BLOCK_SIZE ∧
      CheckProofOfWork ext.SetCompact (ext.GetHashPoW b) b.nBits = true ∧
      (b.nTime : Int) ≤ ext.GetAdjustedTime + 7200 ∧
      (∃ tx0 rest, b.vtx = tx0 :: rest ∧ tx0.IsCoinBase = true ∧
        ∀ tx ∈ rest, tx.IsCoinBase = false) ∧
      (∀ tx ∈ b.vtx, (tx.CheckTransaction ext.GetSerializeSizeTx).1 = true) ∧
      (b.vtx.map ext.GetHash).Nodup ∧
      (b.vtx.map (legacySigOps ext.GetSigOpCount)).sum ≤ MAX_BLOCK_SIGOPS ∧
      b.hashMerkleRoot = (b.BuildMerkleTree ext.GetHash ext.Hash).1 := by
  unfold CBlock.CheckBlock at h
  by_cases h1 : (b.vtx.isEmpty || decide (b.vtx.length > MAX_BLOCK_SIZE) ||
      decide (ext.GetSerializeSizeBlock b > MAX_BLOCK_SIZE)) = true
  · rw [if_pos h1] at h; simp [CBlock.DoS] at h
  rw [if_neg h1] at h
  simp only [Bool.or_eq_true, List.isEmpty_iff, decide_eq_true_eq, not_or, not_lt] at h1
  obtain ⟨⟨hne, _⟩, hsize⟩ := h1
  by_cases h2 : (true && !CheckProofOfWork ext.SetCompact (ext.GetHashPoW b) b.nBits) = true
  · rw [if_pos h2] at h; simp [CBlock.DoS] at h
  rw [if_neg h2] at h
  have hpow : CheckProofOfWork ext.SetCompact (ext.GetHashPoW b) b.nBits = true := by
    simpa using h2
  by_cases h3 : (b.nTime : Int) > wrap64 (ext.GetAdjustedTime + 2 * 60 * 60)
  · rw [if_pos h3] at h; simp at h
  rw [if_neg h3] at h
  have htm : (b.nTime : Int) ≤ ext.GetAdjustedTime + 7200 := by
    by_cases hov : ext.GetAdjustedTime + 2 * 60 * 60 < 2 ^ 63
    · rw [wrap64_of_range _ (by omega) hov] at h3; omega
    · exfalso
      apply h3
      unfold wrap64
      omega
  cases hv : b.vtx with
  | nil => exact absurd hv hne
  | cons tx0 rest =>
    rw [hv] at h
    simp only at h
    by_cases h4 : (!tx0.IsCoinBase) = true
    · rw [if_pos h4] at h; simp [CBlock.DoS] at h
    rw [if_neg h4] at h
    have hcb0 : tx0.IsCoinBase = true := by simpa using h4
    by_cases h5 : (rest.any fun tx => tx.IsCoinBase) = true
    · rw [if_pos h5] at h; simp [CBlock.DoS] at h
    rw [if_neg h5] at h
    have hcbr : ∀ tx ∈ rest, tx.IsCoinBase = false := by
      intro t ht
      by_contra hn
      exact h5 (List.any_eq_true.2 ⟨t, ht, by simpa using hn⟩)
    cases hr : (CheckBlock.transactions ext.GetSerializeSizeTx (tx0 :: rest)).1 with
    | some n => rw [hr] at h; simp [CBlock.DoS] at h
    | none =>
      rw [hr] at h
      obtain ⟨hall, hsame⟩ := CheckBlock.transactions_none ext.GetSerializeSizeTx _ hr
      simp only [hsame] at h
      by_cases h6 : (CheckBlock.uniqueTx ((tx0 :: rest).map ext.GetHash)).length ≠
          (tx0 :: rest).length
      · rw [if_pos h6] at h; simp [CBlock.DoS] at h
      rw [if_neg h6] at h
      have hnd : ((tx0 :: rest).map ext.GetHash).Nodup := by
        apply CheckBlock.uniqueTx_length
        rw [List.length_map]
        exact not_not.1 h6
      by_cases h7 : CheckBlock.nSigOps ext.GetSigOpCount (tx0 :: rest) > MAX_BLOCK_SIGOPS
      · rw [if_pos h7] at h; simp [CBlock.DoS] at h
      rw [if_neg h7] at h
      have hbytes : ((tx0 :: rest).map scriptBytes).sum ≤ MAX_BLOCK_SIZE := by
        have := sum_map_le_sum_map scriptBytes ext.GetSerializeSizeTx (tx0 :: rest)
          (by rw [← hv]; exact htx)
        rw [hv] at hblk
        omega
      have hsig := CheckBlock.nSigOps_exact ext.GetSigOpCount hops (tx0 :: rest) hbytes
      rw [hsig] at h7
      simp only [if_true] at h
      have hvb : ({ b with vtx := tx0 :: rest } : CBlock) = b := by
        cases b; simp only at hv; subst hv; rfl
      rw [hvb] at h
      by_cases h8 : b.hashMerkleRoot ≠ (b.BuildMerkleTree ext.GetHash ext.Hash).1
      · rw [if_pos h8] at h; simp [CBlock.DoS] at h
      rw [← hv] at hall
      exact ⟨by simp, hsize, hpow, htm, ⟨tx0, rest, rfl, hcb0, hcbr⟩, by rw [← hv]; exact hall,
        hnd, by omega, not_not.1 h8⟩

theorem exampleBlock_CheckBlock : (exampleBlock.CheckBlock exampleExternals true true).1 = true := by
  have hm : exampleBlock.BuildMerkleTree exampleExternals.GetHash exampleExternals.Hash =
      (7, { exampleBlock with vMerkleTree := [7] }) := by
    simp only [CBlock.BuildMerkleTree]
    rw [BuildMerkleTree.levels_of_le_one _ _ _ _ (by decide)]
    rfl
  have ht : CheckBlock.transactions exampleExternals.GetSerializeSizeTx exampleBlock.vtx =
      (none, exampleBlock.vtx) := by
    decide
  have hb : ({ exampleBlock with vtx := exampleBlock.vtx } : CBlock) = exampleBlock := rfl
  unfold CBlock.CheckBlock
  rw [if_neg (by decide), if_neg (by decide), if_neg (by decide)]
  simp only [ht, hb, hm]
  decide

/-- Claim C3 at `exampleBlock`, a block of one coinbase transaction that passes
`CheckBlock`. -/
theorem CheckBlock_true_only_if_witness :
    exampleBlock.vtx ≠ [] ∧
      exampleExternals.GetSerializeSizeBlock exampleBlock ≤ MAX_BLOCK_SIZE ∧
      CheckProofOfWork exampleExternals.SetCompact (exampleExternals.GetHashPoW exampleBlock)
        exampleBlock.nBits = true ∧
      (exampleBlock.nTime : Int) ≤ exampleExternals.GetAdjustedTime + 7200 ∧
      (∃ tx0 rest, exampleBlock.vtx = tx0 :: rest ∧ tx0.IsCoinBase = true ∧
        ∀ tx ∈ rest, tx.IsCoinBase = false) ∧
      (∀ tx ∈ exampleBlock.vtx,
        (tx.CheckTransaction exampleExternals.GetSerializeSizeTx).1 = true) ∧
      (exampleBlock.vtx.map exampleExternals.GetHash).Nodup ∧
      (exampleBlock.vtx.map (legacySigOps exampleExternals.GetSigOpCount)).sum ≤
        MAX_BLOCK_SIGOPS ∧
      exampleBlock.hashMerkleRoot =
        (exampleBlock.BuildMerkleTree exampleExternals.GetHash exampleExternals.Hash).1 :=
  CheckBlock_true_only_if exampleExternals exampleBlock (by decide)
    (fun s => by show s.length ≤ 20 * s.length; omega)
    (fun tx _ => by show scriptBytes tx ≤ 10 + scriptBytes tx; omega)
    (by decide) exampleBlock_CheckBlock

/-! ## Block index: walking along `pprev` -/

theorem ChainState.node_lt (s : ChainState) (p : Nat) (n : CBlockIndex)
    (h : s.node p = some n) : p < s.vBlockIndex.length := by
  unfold ChainState.node at h
  exact (List.getElem?_eq_some.1 h).1

theorem ChainState.node_of_lt (s : ChainState) (p : Nat) (h : p < s.vBlockIndex.length) :
    ∃ n, s.node p = some n := by
  unfold ChainState.node
  exact ⟨s.vBlockIndex[p], List.getElem?_eq_getElem h⟩

theorem ChainState.ancestor_zero (s : ChainState) (p c : Nat) :
    s.ancestor p 0 = some c ↔ p < s.vBlockIndex.length ∧ c = p := by
  unfold ChainState.ancestor
  by_cases h : p < s.vBlockIndex.length
  · simp [h, eq_comm]
  · simp [h]

theorem ChainState.ancestor_succ (s : ChainState) (p k c : Nat) :
    s.ancestor p (k + 1) = some c ↔
      ∃ n q, s.node p = some n ∧ n.pprev = some q ∧ s.ancestor q k = some c := by
  rw [ChainState.ancestor]
  cases hn : s.node p with
  | none => simp
  | some n =>
    cases hq : n.pprev with
    | none => simp [hq]
    | some q => simp [hq]

theorem ChainState.heightsLinked_of_check (s : ChainState)
    (h : s.checkHeightsLinked = true) : s.HeightsLinked := by
  intro p np q hp hq
  have hmem : np ∈ s.vBlockIndex := by
    unfold ChainState.node at hp
    exact List.getElem?_mem hp
  have := List.all_eq_true.1 h np hmem
  simp only [hq] at this
  cases hnq : s.node q with
  | none => rw [hnq] at this; cases this
  | some nq =>
    rw [hnq] at this
    exact ⟨nq, rfl, by simpa using this⟩

/-- A node that is reached is an allocated node. -/
theorem ChainState.ancestor_node (s : ChainState) :
    ∀ (k p c : Nat), s.ancestor p k = some c → ∃ nc, s.node c = some nc
  | 0, p, c, h => by
      obtain ⟨hp, rfl⟩ := (s.ancestor_zero p c).1 h
      exact s.node_of_lt _ hp
  | k + 1, p, c, h => by
      obtain ⟨n, q, _, _, hq⟩ := (s.ancestor_succ p k c).1 h
      exact ChainState.ancestor_node s k q c hq

/-- One more step at the far end of a walk. -/
theorem ChainState.ancestor_snoc (s : ChainState) :
    ∀ (k p c r : Nat) (nc : CBlockIndex), s.ancestor p k = some c → s.node c = some nc →
      nc.pprev = some r → r < s.vBlockIndex.length → s.ancestor p (k + 1) = some r
  | 0, p, c, r, nc, h, hc, hr, hlt => by
      obtain ⟨hp, rfl⟩ := (s.ancestor_zero p c).1 h
      exact (s.ancestor_succ _ 0 r).2 ⟨nc, r, hc, hr, (s.ancestor_zero r r).2 ⟨hlt, rfl⟩⟩
  | k + 1, p, c, r, nc, h, hc, hr, hlt => by
      obtain ⟨n, q, hn, hq, hqc⟩ := (s.ancestor_succ p k c).1 h
      exact (s.ancestor_succ p (k + 1) r).2
        ⟨n, q, hn, hq, ChainState.ancestor_snoc s k q c r nc hqc hc hr hlt⟩

/-- A walk can be cut short. -/
theorem ChainState.ancestor_le (s : ChainState) :
    ∀ (k p c : Nat), s.ancestor p k = some c → ∀ j, j ≤ k → ∃ q, s.ancestor p j = some q
  | 0, p, c, h, j, hj => by
      have : j = 0 := by omega
      subst this; exact ⟨c, h⟩
  | k + 1, p, c, h, 0, _ => by
      obtain ⟨n, q, hn, _, _⟩ := (s.ancestor_succ p k c).1 h
      exact ⟨p, (s.ancestor_zero p p).2 ⟨s.node_lt p n hn, rfl⟩⟩
  | k + 1, p, c, h, j + 1, hj => by
      obtain ⟨n, q, hn, hq, hqc⟩ := (s.ancestor_succ p k c).1 h
      obtain ⟨r, hr⟩ := ChainState.ancestor_le s k q c hqc j (by omega)
      exact ⟨r, (s.ancestor_succ p j r).2 ⟨n, q, hn, hq, hr⟩⟩

/-- With linked heights the node reached after `k` steps is `k` lower. -/
theorem ChainState.ancestor_height (s : ChainState) (hl : s.HeightsLinked) :
    ∀ (k p c : Nat) (np nc : CBlockIndex), s.ancestor p k = some c → s.node p = some np →
      s.node c = some nc → nc.nHeight = np.nHeight - k
  | 0, p, c, np, nc, h, hp, hc => by
      obtain ⟨_, rfl⟩ := (s.ancestor_zero p c).1 h
      rw [hp] at hc
      cases hc
      simp
  | k + 1, p, c, np, nc, h, hp, hc => by
      obtain ⟨n, q, hn, hq, hqc⟩ := (s.ancestor_succ p k c).1 h
      rw [hp] at hn
      cases hn
      obtain ⟨nq, hnq, hh⟩ := hl p np q hp hq
      have := ChainState.ancestor_height s hl k q c nq nc hqc hnq hc
      push_cast
      omega

/-- With linked heights a walk along `pprev` visits every node at most once, so it is
shorter than the number of nodes. -/
theorem ChainState.ancestor_lt_length (s : ChainState) (hl : s.HeightsLinked)
    (p k c : Nat) (h : s.ancestor p k = some c) : k < s.vBlockIndex.length := by
  have hall : ∀ j : Fin (k + 1), ∃ q : Fin s.vBlockIndex.length,
      s.ancestor p j.1 = some q.1 := by
    intro j
    obtain ⟨q, hq⟩ := s.ancestor_le k p c h j.1 (by omega)
    obtain ⟨nq, hnq⟩ := s.ancestor_node _ _ _ hq
    exact ⟨⟨q, s.node_lt q nq hnq⟩, hq⟩
  choose f hf using hall
  have hinj : Function.Injective f := by
    intro a b hab
    have ha := hf a
    have hb := hf b
    rw [hab] at ha
    obtain ⟨p0, hp0⟩ := s.ancestor_le k p c h 0 (by omega)
    obtain ⟨hplt, _⟩ := (s.ancestor_zero p p0).1 hp0
    obtain ⟨np, hnp⟩ := s.node_of_lt p hplt
    obtain ⟨nq, hnq⟩ := s.ancestor_node _ _ _ hb
    have h1 := s.ancestor_height hl _ _ _ np nq ha hnp hnq
    have h2 := s.ancestor_height hl _ _ _ np nq hb hnp hnq
    apply Fin.ext
    omega
  have := Fintype.card_le_of_injective f hinj
  simp only [Fintype.card_fin] at this
  omega

/-- The last step of a walk, read from the far end. -/
theorem ChainState.ancestor_succ_end (s : ChainState) :
    ∀ (k p r : Nat), s.ancestor p (k + 1) = some r →
      ∃ c nc, s.ancestor p k = some c ∧ s.node c = some nc ∧ nc.pprev = some r
  | 0, p, r, h => by
      obtain ⟨n, q, hn, hq, hqr⟩ := (s.ancestor_succ p 0 r).1 h
      obtain ⟨_, rfl⟩ := (s.ancestor_zero q r).1 hqr
      exact ⟨p, n, (s.ancestor_zero p p).2 ⟨s.node_lt p n hn, rfl⟩, hn, hq⟩
  | k + 1, p, r, h => by
      obtain ⟨n, q, hn, hq, hqr⟩ := (s.ancestor_succ p (k + 1) r).1 h
      obtain ⟨c, nc, hc, hnc, hr⟩ := ChainState.ancestor_succ_end s k q r hqr
      exact ⟨c, nc, (s.ancestor_succ p k c).2 ⟨n, q, hn, hq, hc⟩, hnc, hr⟩

/-! ## ConnectInputs -/

theorem ConnectInputs.immature_none_ptr (s : ChainState) (H : Int) (pos : CDiskTxPos)
    (fuel : Nat) : ConnectInputs.immature s H pos fuel none = some false := by
  cases fuel <;> rfl

/-- With linked heights the maturity loop comes to an end within its bound. -/
theorem ConnectInputs.immature_some (s : ChainState) (hl : s.HeightsLinked) (H : Int)
    (pos : CDiskTxPos) (pb : Nat) :
    ∀ (fuel j q : Nat), s.ancestor pb j = some q → s.vBlockIndex.length ≤ j + fuel →
      ∃ r, ConnectInputs.immature s H pos fuel (some q) = some r := by
  intro fuel
  induction fuel with
  | zero =>
    intro j q hq hN
    have := s.ancestor_lt_length hl pb j q hq
    omega
  | succ f ih =>
    intro j q hq hN
    obtain ⟨nq, hnq⟩ := s.ancestor_node _ _ _ hq
    rw [ConnectInputs.immature]
    simp only [hnq]
    split_ifs
    · exact ⟨_, rfl⟩
    · cases hr : nq.pprev with
      | none => exact ⟨false, ConnectInputs.immature_none_ptr s H pos f⟩
      | some r =>
        obtain ⟨nr, hnr, _⟩ := hl q nq r hnq hr
        exact ih (j + 1) r (s.ancestor_snoc j pb q r nq hq hnq hr (s.node_lt r nr hnr))
          (by omega)
    · exact ⟨_, rfl⟩

/-- With linked heights the maturity loop finds a block that lies fewer than
`nBaseMaturity` steps back on the `pprev` chain of `pindexBlock`. -/
theorem ConnectInputs.immature_found (s : ChainState) (hl : s.HeightsLinked)
    (pos : CDiskTxPos) (pb k c : Nat) (nb nc : CBlockIndex) (hb : s.node pb = some nb)
    (hanc : s.ancestor pb k = some c) (hc : s.node c = some nc)
    (hpos : nc.nFile = pos.nFile ∧ nc.nBlockPos = pos.nBlockPos)
    (hk : (k : Int) < s.nBaseMaturity) :
    ∀ (fuel j q : Nat), j ≤ k → s.ancestor pb j = some q → s.vBlockIndex.length ≤ j + fuel →
      ConnectInputs.immature s nb.nHeight pos fuel (some q) = some true := by
  intro fuel
  induction fuel with
  | zero =>
    intro j q _ hq hN
    have := s.ancestor_lt_length hl pb j q hq
    omega
  | succ f ih =>
    intro j q hj hq hN
    obtain ⟨nq, hnq⟩ := s.ancestor_node _ _ _ hq
    have hh := s.ancestor_height hl j pb q nb nq hq hb hnq
    rw [ConnectInputs.immature]
    simp only [hnq]
    have hcond : nb.nHeight - nq.nHeight < s.nBaseMaturity := by omega
    rw [if_pos hcond]
    by_cases hm : (nq.nBlockPos == pos.nBlockPos && nq.nFile == pos.nFile) = true
    · rw [if_pos hm]
    · rw [if_neg hm]
      have hjk : j < k := by
        rcases Nat.lt_or_ge j k with h | h
        · exact h
        · exfalso
          have hjk : j = k := by omega
          subst hjk
          rw [hanc] at hq
          cases hq
          rw [hc] at hnq
          cases hnq
          apply hm
          simp [hpos.1, hpos.2]
      obtain ⟨r, hr⟩ := s.ancestor_le k pb c hanc (j + 1) (by omega)
      obtain ⟨c2, nc2, hc2, hnc2, hprev⟩ := s.ancestor_succ_end j pb r hr
      rw [hq] at hc2
      cases hc2
      rw [hnq] at hnc2
      cases hnc2
      simp only [hprev]
      exact ih (j + 1) r (by omega) hr (by omega)

/-- The first loop of `ConnectInputs` returns false when one of the inputs spends a
coinbase whose block lies fewer than `nBaseMaturity` steps back on the `pprev` chain of
`pindexBlock`. -/
theorem ConnectInputs.pass1_immature (s : ChainState) (hl : s.HeightsLinked)
    (inputs : MapPrevTx) (pb k c : Nat) (nb nc : CBlockIndex) (txin : CTxIn)
    (txindex : CTxIndex) (txPrev : CTransaction)
    (hprev : inputs.find txin.prevout.hash = some (txindex, txPrev))
    (hcb : txPrev.IsCoinBase = true)
    (hb : s.node pb = some nb) (hanc : s.ancestor pb k = some c) (hc : s.node c = some nc)
    (hpos : nc.nFile = txindex.pos.nFile ∧ nc.nBlockPos = txindex.pos.nBlockPos)
    (hk : (k : Int) < s.nBaseMaturity) :
    ∀ (l : List CTxIn) (nValueIn : Int),
      (∀ t ∈ l, (inputs.find t.prevout.hash).isSome = true) → txin ∈ l →
      ∃ n, ConnectInputs.pass1 s inputs (some pb) l nValueIn = some (Flow.ret false n)
  | [], _, _, hmem => by simp at hmem
  | t :: rest, nValueIn, hf, hmem => by
      have hpb0 : s.ancestor pb 0 = some pb := (s.ancestor_zero pb pb).2 ⟨s.node_lt pb nb hb, rfl⟩
      rw [ConnectInputs.pass1]
      have hft := hf t (List.mem_cons_self _ _)
      cases hlook : inputs.find t.prevout.hash with
      | none => rw [hlook] at hft; cases hft
      | some e =>
        obtain ⟨txindex1, txPrev1⟩ := e
        simp only [hb]
        by_cases hrange : (decide (t.prevout.n ≥ txPrev1.vout.length) ||
            decide (t.prevout.n ≥ txindex1.vSpent.length)) = true
        · rw [if_pos hrange]; exact ⟨_, rfl⟩
        rw [if_neg hrange]
        have hrest : ∀ r, (if txPrev1.IsCoinBase = true then
              ConnectInputs.immature s nb.nHeight txindex1.pos s.vBlockIndex.length (some pb)
            else some false) = some r → r = false → txin ∈ rest := by
          intro r hr hrf
          subst hrf
          rcases List.mem_cons.1 hmem with rfl | h
          · exfalso
            rw [hprev] at hlook
            cases hlook
            rw [if_pos hcb] at hr
            have := ConnectInputs.immature_found s hl txindex.pos pb k c nb nc hb hanc hc
              hpos hk s.vBlockIndex.length 0 pb (by omega) hpb0 (by omega)
            rw [this] at hr
            cases hr
          · exact h
        have hsome : ∃ r, (if txPrev1.IsCoinBase = true then
              ConnectInputs.immature s nb.nHeight txindex1.pos s.vBlockIndex.length (some pb)
            else some false) = some r := by
          by_cases hcb1 : txPrev1.IsCoinBase = true
          · rw [if_pos hcb1]
            exact ConnectInputs.immature_some s hl nb.nHeight txindex1.pos pb
              s.vBlockIndex.length 0 pb hpb0 (by omega)
          · rw [if_neg hcb1]; exact ⟨false, rfl⟩
        obtain ⟨r, hr⟩ := hsome
        rw [hr]
        cases r with
        | true => exact ⟨_, rfl⟩
        | false =>
          simp only
          split_ifs
          · exact ⟨_, rfl⟩
          · exact ConnectInputs.pass1_immature s hl inputs pb k c nb nc txin txindex txPrev
              hprev hcb hb hanc hc hpos hk rest _
              (fun t ht => hf t (List.mem_cons_of_mem _ ht)) (hrest false hr rfl)

/-- Claim C6 as stated fails at depth 100. In `exampleChain` the block of node 100 is
100 blocks above the block of node 0, which holds `exampleCoinbase`; 100 is less than
`BASE_MATURITY + BASE_MATURITY_OFFSET = 101`, and `ConnectInputs` in the context of the
block of node 100 returns true for `exampleSpend`, which spends that coinbase. -/
theorem ConnectInputs_depth_100_returns_true :
    exampleCoinbase.IsCoinBase = true ∧
      (exampleInputs 0).find 7 = some (⟨⟨1, 0, 81⟩, [⟨UINT32_MAX, 0, 0⟩]⟩, exampleCoinbase) ∧
      (exampleChain.node 0).map (fun n => (n.nFile, n.nBlockPos, n.nHeight)) = some (1, 0, 0) ∧
      (exampleChain.node 100).map (fun n => n.nHeight) = some 100 ∧
      exampleChain.ancestor 100 100 = some 0 ∧
      (100 : Int) - 0 < BASE_MATURITY + BASE_MATURITY_OFFSET ∧
      exampleSpend.ConnectInputs exampleExternals exampleChain (exampleInputs 0) []
        ⟨1, 1, 1⟩ (some 100) false false true = some (true, exampleSpend, []) := by
  set_option maxRecDepth 100000 in decide

/-- Claim C6, amended. For every transaction that is not a coinbase and has an input that
spends an output of a coinbase transaction, `ConnectInputs` returns false whenever the
block `pindexBlock` in whose context it is connected is fewer than
`nBaseMaturity = BASE_MATURITY = 100` blocks above the block that contains that coinbase,
that block being on the `pprev` chain of `pindexBlock`. The block index has linked
heights and all inputs of the transaction were fetched. -/
theorem ConnectInputs_immature_coinbase (ext : Externals) (s : ChainState)
    (tx : CTransaction) (inputs : MapPrevTx) (mapTestPool : CMap uint256 CTxIndex)
    (posThisTx : CDiskTxPos) (pindexBlock : Nat) (fBlock fMiner fStrictPayToScriptHash : Bool)
    (txin : CTxIn) (txindex : CTxIndex) (txPrev : CTransaction) (k pindexCoinbase : Nat)
    (nb nc : CBlockIndex)
    (hl : s.HeightsLinked) (hmat : s.nBaseMaturity = BASE_MATURITY)
    (hncb : tx.IsCoinBase = false)
    (hfetched : ∀ t ∈ tx.vin, (inputs.find t.prevout.hash).isSome = true)
    (hmem : txin ∈ tx.vin)
    (hprev : inputs.find txin.prevout.hash = some (txindex, txPrev))
    (hcb : txPrev.IsCoinBase = true)
    (hb : s.node pindexBlock = some nb)
    (hanc : s.ancestor pindexBlock k = some pindexCoinbase)
    (hc : s.node pindexCoinbase = some nc)
    (hpos : nc.nFile = txindex.pos.nFile ∧ nc.nBlockPos = txindex.pos.nBlockPos)
    (hdepth : nb.nHeight - nc.nHeight < BASE_MATURITY) :
    ∃ tx1 mapTestPool1,
      tx.ConnectInputs ext s inputs mapTestPool posThisTx (some pindexBlock) fBlock fMiner
        fStrictPayToScriptHash = some (false, tx1, mapTestPool1) := by
  have hh := s.ancestor_height hl k pindexBlock pindexCoinbase nb nc hanc hb hc
  have hk : (k : Int) < s.nBaseMaturity := by rw [hmat]; omega
  obtain ⟨n, hn⟩ := ConnectInputs.pass1_immature s hl inputs pindexBlock k pindexCoinbase nb nc
    txin txindex txPrev hprev hcb hb hanc hc hpos hk tx.vin 0 hfetched hmem
  unfold CTransaction.ConnectInputs
  simp only [hncb, Bool.false_eq_true, if_false, hn]
  exact ⟨_, _, rfl⟩

/-- Claim C6, amended, in `exampleFork`: `exampleSpend` spends the coinbase of the block
`B1` and is connected in the context of its child `B2`. -/
theorem ConnectInputs_immature_coinbase_witness :
    ∃ tx1 mapTestPool1,
      exampleSpend.ConnectInputs exampleExternals exampleFork (exampleInputs 2000) []
        ⟨1, 3000, 200⟩ (some 3) true false true = some (false, tx1, mapTestPool1) :=
  ConnectInputs_immature_coinbase exampleExternals exampleFork exampleSpend
    (exampleInputs 2000) [] ⟨1, 3000, 200⟩ 3 true false true
    ⟨⟨7, 0⟩, [], UINT32_MAX⟩ ⟨⟨1, 2000, 81⟩, [⟨UINT32_MAX, 0, 0⟩]⟩ exampleCoinbase 1 2
    ⟨1003, some 2, none, 1, 3000, 2, 4, 2, 0, 190, 1, 0⟩
    ⟨1002, some 0, none, 1, 2000, 1, 3, 2, 0, 100, 1, 0⟩
    (exampleFork.heightsLinked_of_check (by decide)) (by decide) (by decide) (by decide)
    (by decide) (by decide) (by decide) (by decide) (by decide) (by decide) (by decide)
    (by decide)

/-! ## Maps -/

theorem CMap.find_erase_self {K V : Type} [DecidableEq K] (k : K) :
    ∀ m : CMap K V, (CMap.erase m k).find k = none
  | [] => rfl
  | (k1, v) :: rest => by
      unfold CMap.erase
      by_cases h : k1 = k
      · simp only [List.filter, h, ne_eq, not_true_eq_false, decide_False]
        exact CMap.find_erase_self k rest
      · simp only [List.filter, h, ne_eq, not_false_eq_true, decide_True, CMap.find, if_false]
        exact CMap.find_erase_self k rest

theorem CMap.find_erase_ne {K V : Type} [DecidableEq K] (k k2 : K) (hne : k ≠ k2) :
    ∀ m : CMap K V, (CMap.erase m k).find k2 = m.find k2
  | [] => rfl
  | (k1, v) :: rest => by
      unfold CMap.erase
      by_cases h : k1 = k
      · have h2 : ¬ k1 = k2 := by rw [h]; exact hne
        simp only [List.filter, h, ne_eq, not_true_eq_false, decide_False, CMap.find]
        rw [if_neg (by rw [← h]; exact h2)]
        exact CMap.find_erase_ne k k2 hne rest
      · simp only [List.filter, h, ne_eq, not_false_eq_true, decide_True, CMap.find]
        by_cases h2 : k1 = k2
        · simp [h2]
        · simp only [h2, if_false]
          exact CMap.find_erase_ne k k2 hne rest

theorem CMap.find_set_self {K V : Type} [DecidableEq K] (m : CMap K V) (k : K) (v : V) :
    (m.set k v).find k = some v := by
  simp [CMap.set, CMap.find]

theorem CMap.find_set_ne {K V : Type} [DecidableEq K] (m : CMap K V) (k k2 : K) (v : V)
    (hne : k ≠ k2) : (m.set k v).find k2 = m.find k2 := by
  simp only [CMap.set, CMap.find, hne, if_false]
  exact CMap.find_erase_ne k k2 hne m

theorem CMap.count_eq_zero {K V : Type} [DecidableEq K] (m : CMap K V) (k : K) :
    m.count k = 0 ↔ m.find k = none := by
  unfold CMap.count
  cases m.find k <;> simp

/-! ## Memory pool -/

theorem addUnchecked.loop_find_of_not_mem (hash : uint256) (o : COutPoint) :
    ∀ (l : List CTxIn) (i : Nat) (m : CMap COutPoint CInPoint),
      o ∉ l.map CTxIn.prevout → (addUnchecked.loop hash l i m).find o = m.find o
  | [], _, _, _ => rfl
  | t :: rest, i, m, h => by
      simp only [List.map_cons, List.mem_cons, not_or] at h
      rw [addUnchecked.loop, addUnchecked.loop_find_of_not_mem hash o rest (i + 1) _ h.2]
      exact CMap.find_set_ne m t.prevout o _ (fun e => h.1 e.symm)

theorem addUnchecked.loop_find_of_mem (hash : uint256) :
    ∀ (l : List CTxIn) (i : Nat) (m : CMap COutPoint CInPoint) (j : Nat) (txin : CTxIn),
      (l.map CTxIn.prevout).Nodup → l[j]? = some txin →
      (addUnchecked.loop hash l i m).find txin.prevout = some ⟨some hash, i + j⟩
  | [], _, _, j, txin, _, h => by simp at h
  | t :: rest, i, m, 0, txin, hnd, h => by
      simp only [List.getElem?_cons_zero, Option.some.injEq] at h
      subst h
      simp only [List.map_cons, List.nodup_cons] at hnd
      rw [addUnchecked.loop, addUnchecked.loop_find_of_not_mem hash _ rest (i + 1) _ hnd.1]
      exact CMap.find_set_self m _ _
  | t :: rest, i, m, j + 1, txin, hnd, h => by
      simp only [List.getElem?_cons_succ] at h
      simp only [List.map_cons, List.nodup_cons] at hnd
      rw [addUnchecked.loop,
        addUnchecked.loop_find_of_mem hash rest (i + 1) _ j txin hnd.2 h]
      congr 2
      omega

theorem mem_map_prevout_iff (l : List CTxIn) (o : COutPoint) :
    o ∈ l.map CTxIn.prevout ↔ ∃ (j : Nat) (txin : CTxIn), l[j]? = some txin ∧ txin.prevout = o := by
  constructor
  · intro h
    obtain ⟨txin, hmem, rfl⟩ := List.mem_map.1 h
    obtain ⟨j, hj⟩ := List.getElem?_of_mem hmem
    exact ⟨j, txin, hj, rfl⟩
  · rintro ⟨j, txin, hj, rfl⟩
    exact List.mem_map.2 ⟨txin, List.getElem?_mem hj, rfl⟩

theorem erase_fold_find (o : COutPoint) :
    ∀ (l : List CTxIn) (m : CMap COutPoint CInPoint),
      (l.foldl (fun m txin => m.erase txin.prevout) m).find o =
        if o ∈ l.map CTxIn.prevout then none else m.find o
  | [], m => by simp
  | t :: rest, m => by
      simp only [List.foldl_cons, List.map_cons, List.mem_cons]
      rw [erase_fold_find o rest]
      by_cases h1 : o ∈ rest.map CTxIn.prevout
      · simp [h1]
      · by_cases h2 : o = t.prevout
        · subst h2
          simp [h1, CMap.find_erase_self]
        · simp only [h1, h2, or_self, if_false]
          exact CMap.find_erase_ne _ _ (fun e => h2 e.symm) m

/-- A transaction that passes `CheckTransaction` has pairwise distinct input outpoints. -/
theorem CheckTransaction_true_nodup (GetSerializeSize : CTransaction → Nat)
    (tx : CTransaction) (h : (tx.CheckTransaction GetSerializeSize).1 = true) :
    (tx.vin.map CTxIn.prevout).Nodup := by
  unfold CTransaction.CheckTransaction at h
  cases hvin : tx.vin with
  | nil => simp
  | cons txin0 vrest =>
    rw [hvin] at h
    simp only at h
    rw [← hvin] at h ⊢
    by_cases hi : CheckTransaction.inputs tx.vin [] = true
    · exact ((CheckTransaction.inputs_iff tx.vin []).1 hi).1
    · exfalso
      have hi2 : CheckTransaction.inputs tx.vin [] = false := by simpa using hi
      simp only [hi2] at h
      split_ifs at h <;> simp_all [CTransaction.DoS]

theorem CTxMemPool.consistent_addUnchecked (GetHash : CTransaction → uint256)
    (pool : CTxMemPool) (n : Nat) (tx : CTransaction)
    (hinv : pool.Consistent GetHash)
    (hnew : pool.mapTx.find (GetHash tx) = none)
    (hfree : ∀ txin ∈ tx.vin, pool.mapNextTx.find txin.prevout = none)
    (hnd : (tx.vin.map CTxIn.prevout).Nodup) :
    (pool.addUnchecked n (GetHash tx) tx).1.Consistent GetHash := by
  obtain ⟨⟨h1, h2⟩, h3⟩ := hinv
  unfold CTxMemPool.addUnchecked
  refine ⟨⟨?_, ?_⟩, ?_⟩
  · intro hash t ht i txin hi
    simp only at ht ⊢
    by_cases he : GetHash tx = hash
    · subst he
      rw [CMap.find_set_self] at ht
      cases ht
      have := addUnchecked.loop_find_of_mem (GetHash tx) tx.vin 0 pool.mapNextTx i txin hnd hi
      simpa using this
    · rw [CMap.find_set_ne _ _ _ _ he] at ht
      have hold := h1 hash t ht i txin hi
      have hnot : txin.prevout ∉ tx.vin.map CTxIn.prevout := by
        intro hm
        obtain ⟨x, hx, hxe⟩ := List.mem_map.1 hm
        have := hfree x hx
        rw [hxe, hold] at this
        cases this
      rw [addUnchecked.loop_find_of_not_mem _ _ _ _ _ hnot]
      exact hold
  · intro o ip hfind
    simp only at hfind ⊢
    by_cases hm : o ∈ tx.vin.map CTxIn.prevout
    · obtain ⟨j, txin, hj, rfl⟩ := (mem_map_prevout_iff tx.vin o).1 hm
      have := addUnchecked.loop_find_of_mem (GetHash tx) tx.vin 0 pool.mapNextTx j txin hnd hj
      rw [this] at hfind
      cases hfind
      exact ⟨GetHash tx, tx, txin, rfl, CMap.find_set_self _ _ _, by simpa using hj, rfl⟩
    · rw [addUnchecked.loop_find_of_not_mem _ _ _ _ _ hm] at hfind
      obtain ⟨hash, t, txin, hp, ht, hn, ho⟩ := h2 o ip hfind
      have hne : GetHash tx ≠ hash := by
        intro he
        rw [he, ht] at hnew
        cases hnew
      exact ⟨hash, t, txin, hp, by rw [CMap.find_set_ne _ _ _ _ hne]; exact ht, hn, ho⟩
  · intro hash t ht
    simp only at ht
    by_cases he : GetHash tx = hash
    · subst he
      rw [CMap.find_set_self] at ht
      cases ht
      rfl
    · rw [CMap.find_set_ne _ _ _ _ he] at ht
      exact h3 hash t ht

theorem CTxMemPool.consistent_accept (GetSerializeSize : CTransaction → Nat)
    (GetHash : CTransaction → uint256) (IsStandard : CTransaction → Bool) (fTestNet : Bool)
    (pool : CTxMemPool) (n : Nat) (tx : CTransaction) (fCheckInputs : Bool)
    (answers : AcceptAnswers) (hinv : pool.Consistent GetHash) :
    (pool.accept GetSerializeSize GetHash IsStandard fTestNet n tx fCheckInputs
      answers).pool.Consistent GetHash := by
  unfold CTxMemPool.accept
  simp only
  split_ifs with hc _ _ _ hcount _ hany
  all_goals first
    | exact hinv
    | skip
  have hct : (tx.CheckTransaction GetSerializeSize).1 = true := by simpa using hc
  have hnew : pool.mapTx.find (GetHash tx) = none := by
    rw [← CMap.count_eq_zero]
    exact not_not.1 hcount
  have hfree : ∀ txin ∈ tx.vin, pool.mapNextTx.find txin.prevout = none := by
    intro txin hmem
    rw [← CMap.count_eq_zero]
    by_contra hne
    exact hany (List.any_eq_true.2 ⟨txin, hmem, by simpa using hne⟩)
  exact CTxMemPool.consistent_addUnchecked GetHash pool n tx hinv hnew hfree
    (CheckTransaction_true_nodup GetSerializeSize tx hct)

theorem CTxMemPool.consistent_remove (GetHash : CTransaction → uint256)
    (hcoll : ∀ a b : CTransaction, GetHash a = GetHash b → a.vin = b.vin)
    (pool : CTxMemPool) (n : Nat) (tx : CTransaction) (hinv : pool.Consistent GetHash) :
    (pool.remove GetHash n tx).1.Consistent GetHash := by
  unfold CTxMemPool.remove
  simp only
  split_ifs with hcount
  swap
  · exact hinv
  obtain ⟨⟨h1, h2⟩, h3⟩ := hinv
  have hsome : ∃ t, pool.mapTx.find (GetHash tx) = some t := by
    cases hf : pool.mapTx.find (GetHash tx) with
    | none => exact absurd ((CMap.count_eq_zero _ _).2 hf) hcount
    | some t => exact ⟨t, rfl⟩
  obtain ⟨t0, ht0⟩ := hsome
  have hvin : tx.vin = t0.vin := hcoll _ _ (h3 _ _ ht0).symm
  refine ⟨⟨?_, ?_⟩, ?_⟩
  · intro hash t ht i txin hi
    simp only at ht ⊢
    have hne : GetHash tx ≠ hash := by
      intro he
      rw [he, CMap.find_erase_self] at ht
      cases ht
    rw [CMap.find_erase_ne _ _ hne] at ht
    have hold := h1 hash t ht i txin hi
    rw [erase_fold_find]
    have hnot : txin.prevout ∉ tx.vin.map CTxIn.prevout := by
      intro hm
      rw [hvin] at hm
      obtain ⟨j, x, hj, hx⟩ := (mem_map_prevout_iff t0.vin _).1 hm
      have := h1 _ t0 ht0 j x hj
      rw [hx, hold] at this
      simp only [Option.some.injEq, CInPoint.mk.injEq] at this
      exact hne this.1.symm
    rw [if_neg hnot]
    exact hold
  · intro o ip hfind
    simp only at hfind ⊢
    rw [erase_fold_find] at hfind
    by_cases hm : o ∈ tx.vin.map CTxIn.prevout
    · rw [if_pos hm] at hfind
      cases hfind
    · rw [if_neg hm] at hfind
      obtain ⟨hash, t, txin, hp, ht, hn, ho⟩ := h2 o ip hfind
      have hne : GetHash tx ≠ hash := by
        intro he
        rw [← he, ht0] at ht
        cases ht
        apply hm
        rw [hvin]
        exact (mem_map_prevout_iff t0.vin o).2 ⟨_, txin, hn, ho⟩
      exact ⟨hash, t, txin, hp, by rw [CMap.find_erase_ne _ _ hne]; exact ht, hn, ho⟩
  · intro hash t ht
    simp only at ht
    have hne : GetHash tx ≠ hash := by
      intro he
      rw [he, CMap.find_erase_self] at ht
      cases ht
    rw [CMap.find_erase_ne _ _ hne] at ht
    exact h3 hash t ht

theorem CTxMemPool.consistent_empty (GetHash : CTransaction → uint256) :
    CTxMemPool.Consistent GetHash ⟨[], []⟩ := by
  refine ⟨⟨?_, ?_⟩, ?_⟩
  · intro hash t ht; cases ht
  · intro o ip h; cases h
  · intro hash t ht; cases ht

theorem MemPoolCall.consistent_runAll (GetSerializeSize : CTransaction → Nat)
    (GetHash : CTransaction → uint256) (IsStandard : CTransaction → Bool) (fTestNet : Bool)
    (hcoll : ∀ a b : CTransaction, GetHash a = GetHash b → a.vin = b.vin) :
    ∀ (calls : List MemPoolCall) (state : CTxMemPool × Nat), state.1.Consistent GetHash →
      (MemPoolCall.runAll GetSerializeSize GetHash IsStandard fTestNet state
        calls).1.Consistent GetHash
  | [], state, h => h
  | call :: rest, state, h => by
      unfold MemPoolCall.runAll
      rw [List.foldl_cons]
      apply MemPoolCall.consistent_runAll GetSerializeSize GetHash IsStandard fTestNet hcoll rest
      cases call with
      | accept tx f a =>
        exact CTxMemPool.consistent_accept GetSerializeSize GetHash IsStandard fTestNet _ _ tx
          f a h
      | remove tx => exact CTxMemPool.consistent_remove GetHash hcoll _ _ tx h
      | clear => exact CTxMemPool.consistent_empty GetHash

/-- Claim C7. Starting from the empty pool, after every sequence of calls of
`CTxMemPool::accept`, `remove` and `clear` (with any answers of the database and of the
input checks to `accept`): for every transaction `t` in `mapTx` and every input `i` of
`t`, `mapNextTx` maps the previous outpoint of that input to `(t, i)`; every entry of
`mapNextTx` names an input of a transaction in `mapTx`; and no two inputs of pool
transactions spend the same outpoint. The transaction hash is taken to determine the
inputs of the transaction (no collisions). -/
theorem mempool_outpoint_invariant (GetSerializeSize : CTransaction → Nat)
    (GetHash : CTransaction → uint256) (IsStandard : CTransaction → Bool) (fTestNet : Bool)
    (hcoll : ∀ a b : CTransaction, GetHash a = GetHash b → a.vin = b.vin)
    (calls : List MemPoolCall) (nTransactionsUpdated : Nat) :
    (MemPoolCall.runAll GetSerializeSize GetHash IsStandard fTestNet
        (⟨[], []⟩, nTransactionsUpdated) calls).1.OutpointInvariant ∧
      ∀ (hash1 hash2 : uint256) (t1 t2 : CTransaction) (i1 i2 : Nat) (txin1 txin2 : CTxIn),
        (MemPoolCall.runAll GetSerializeSize GetHash IsStandard fTestNet
          (⟨[], []⟩, nTransactionsUpdated) calls).1.mapTx.find hash1 = some t1 →
        (MemPoolCall.runAll GetSerializeSize GetHash IsStandard fTestNet
          (⟨[], []⟩, nTransactionsUpdated) calls).1.mapTx.find hash2 = some t2 →
        t1.vin[i1]? = some txin1 → t2.vin[i2]? = some txin2 →
        txin1.prevout = txin2.prevout → hash1 = hash2 ∧ i1 = i2 := by
  have h := MemPoolCall.consistent_runAll GetSerializeSize GetHash IsStandard fTestNet hcoll
    calls (⟨[], []⟩, nTransactionsUpdated) (CTxMemPool.consistent_empty GetHash)
  refine ⟨h.1, ?_⟩
  intro hash1 hash2 t1 t2 i1 i2 txin1 txin2 ht1 ht2 hi1 hi2 he
  have e1 := h.1.1 hash1 t1 ht1 i1 txin1 hi1
  have e2 := h.1.1 hash2 t2 ht2 i2 txin2 hi2
  rw [he, e2] at e1
  simp only [Option.some.injEq, CInPoint.mk.injEq] at e1
  exact ⟨e1.1.symm, e1.2.symm⟩

theorem exampleGetHash_vin (a b : CTransaction) (h : exampleGetHash a = exampleGetHash b) :
    a.vin = b.vin := by
  unfold exampleGetHash at h
  have h1 := Encodable.encode_injective h
  refine List.map_injective_iff.2 ?_ h1
  intro x y hxy
  cases x with
  | mk px sx nx =>
    cases y with
    | mk py sy ny =>
      cases px
      cases py
      simp only [Prod.mk.injEq] at hxy
      obtain ⟨h1, h2, h3, h4⟩ := hxy
      subst h1 h2 h3 h4
      rfl

/-- Claim C7 for a sequence of five calls that accepts two transactions, is offered a
third that spends the outpoint of the first, removes the first and clears the pool. -/
theorem mempool_outpoint_invariant_witness :
    (MemPoolCall.runAll exampleExternals.GetSerializeSizeTx exampleGetHash (fun _ => true)
        false (⟨[], []⟩, 0) exampleCalls).1.OutpointInvariant ∧
      ∀ (hash1 hash2 : uint256) (t1 t2 : CTransaction) (i1 i2 : Nat) (txin1 txin2 : CTxIn),
        (MemPoolCall.runAll exampleExternals.GetSerializeSizeTx exampleGetHash (fun _ => true)
          false (⟨[], []⟩, 0) exampleCalls).1.mapTx.find hash1 = some t1 →
        (MemPoolCall.runAll exampleExternals.GetSerializeSizeTx exampleGetHash (fun _ => true)
          false (⟨[], []⟩, 0) exampleCalls).1.mapTx.find hash2 = some t2 →
        t1.vin[i1]? = some txin1 → t2.vin[i2]? = some txin2 →
        txin1.prevout = txin2.prevout → hash1 = hash2 ∧ i1 = i2 :=
  mempool_outpoint_invariant exampleExternals.GetSerializeSizeTx exampleGetHash
    (fun _ => true) false exampleGetHash_vin exampleCalls 0

/-! ## Best chain: what the functions leave unchanged -/

theorem ChainState.SameNodes.refl (s : ChainState) : s.SameNodes s := rfl

theorem ChainState.SameNodes.trans {s s1 s2 : ChainState} (h1 : s.SameNodes s1)
    (h2 : s1.SameNodes s2) : s.SameNodes s2 := by
  unfold ChainState.SameNodes at *
  rw [h2, h1]

theorem ChainState.SameNodes.node {s s1 : ChainState} (h : s.SameNodes s1) (p : Nat)
    (n1 : CBlockIndex) (h1 : s1.node p = some n1) :
    ∃ n, s.node p = some n ∧ n.erasePnext = n1.erasePnext := by
  unfold ChainState.SameNodes at h
  unfold ChainState.node at *
  have h2 : (s1.vBlockIndex.map CBlockIndex.erasePnext)[p]? = some n1.erasePnext := by
    rw [List.getElem?_map, h1]; rfl
  rw [h, List.getElem?_map] at h2
  cases hn : s.vBlockIndex[p]? with
  | none => rw [hn] at h2; cases h2
  | some n =>
    rw [hn] at h2
    exact ⟨n, rfl, by simpa using h2⟩

theorem ChainState.SameNodes.symm {s s1 : ChainState} (h : s.SameNodes s1) :
    s1.SameNodes s := by
  unfold ChainState.SameNodes at *
  exact h.symm

theorem ChainState.sameNodes_setPnext (s s1 : ChainState) (p : Nat) (v : Option Nat)
    (h : s.setPnext p v = some s1) : s.SameNodes s1 := by
  unfold ChainState.setPnext at h
  cases hn : s.node p with
  | none => rw [hn] at h; cases h
  | some n =>
    rw [hn] at h
    simp only [Option.some.injEq] at h
    subst h
    unfold ChainState.SameNodes
    simp only
    unfold ChainState.node at hn
    apply List.ext_getElem?
    intro i
    rw [List.getElem?_map, List.getElem?_map, List.getElem?_set]
    by_cases hip : p = i
    · subst hip
      rw [if_pos rfl, hn]
      have hlt := (List.getElem?_eq_some.1 hn).1
      simp [hlt, CBlockIndex.erasePnext]
    · rw [if_neg hip]

theorem InvalidChainFound_sameNodes (s s1 : ChainState) (p : Nat)
    (h : InvalidChainFound s p = some s1) : s.SameNodes s1 := by
  unfold InvalidChainFound at h
  split at h
  · split_ifs at h <;> cases h <;> exact ChainState.SameNodes.refl _
  · cases h

theorem Reorganize.unlink_sameNodes :
    ∀ (l : List Nat) (s s1 : ChainState), Reorganize.unlink l s = some s1 → s.SameNodes s1
  | [], s, s1, h => by
      simp only [Reorganize.unlink, Option.some.injEq] at h
      subst h; exact ChainState.SameNodes.refl _
  | p :: rest, s, s1, h => by
      rw [Reorganize.unlink] at h
      cases hn : s.node p with
      | none => rw [hn] at h; cases h
      | some n =>
        rw [hn] at h
        simp only at h
        cases hq : n.pprev with
        | none =>
          rw [hq] at h
          exact Reorganize.unlink_sameNodes rest s s1 h
        | some q =>
          rw [hq] at h
          simp only at h
          cases hs : s.setPnext q none with
          | none => rw [hs] at h; cases h
          | some s2 =>
            rw [hs] at h
            exact (s.sameNodes_setPnext s2 q none hs).trans
              (Reorganize.unlink_sameNodes rest s2 s1 h)

theorem Reorganize.link_sameNodes :
    ∀ (l : List Nat) (s s1 : ChainState), Reorganize.link l s = some s1 → s.SameNodes s1
  | [], s, s1, h => by
      simp only [Reorganize.link, Option.some.injEq] at h
      subst h; exact ChainState.SameNodes.refl _
  | p :: rest, s, s1, h => by
      rw [Reorganize.link] at h
      cases hn : s.node p with
      | none => rw [hn] at h; cases h
      | some n =>
        rw [hn] at h
        simp only at h
        cases hq : n.pprev with
        | none =>
          rw [hq] at h
          exact Reorganize.link_sameNodes rest s s1 h
        | some q =>
          rw [hq] at h
          simp only at h
          cases hs : s.setPnext q (some p) with
          | none => rw [hs] at h; cases h
          | some s2 =>
            rw [hs] at h
            exact (s.sameNodes_setPnext s2 q (some p) hs).trans
              (Reorganize.link_sameNodes rest s2 s1 h)

theorem Reorganize_sameNodes (db : DbAnswers) (s s1 : ChainState) (p : Nat) (r : Bool)
    (h : Reorganize db s p = some (r, s1)) : s.SameNodes s1 := by
  unfold Reorganize at h
  cases hb : s.pindexBest with
  | none => rw [hb] at h; cases h
  | some pb =>
    rw [hb] at h
    simp only at h
    cases hf : Reorganize.findFork s s.vBlockIndex.length pb p with
    | none => rw [hf] at h; cases h
    | some o =>
      rw [hf] at h
      cases o with
      | none =>
        simp only [Option.some.injEq, Prod.mk.injEq] at h
        rw [← h.2]; exact ChainState.SameNodes.refl _
      | some pfork =>
        simp only at h
        cases hd : Reorganize.path s pfork s.vBlockIndex.length (some pb) with
        | none => rw [hd] at h; cases h
        | some vD =>
          cases hc : Reorganize.path s pfork s.vBlockIndex.length (some p) with
          | none => rw [hd, hc] at h; cases h
          | some vC =>
            rw [hd, hc] at h
            simp only at h
            split_ifs at h
            any_goals
              (simp only [Option.some.injEq, Prod.mk.injEq] at h
               rw [← h.2]; exact ChainState.SameNodes.refl _)
            cases hu : Reorganize.unlink vD s with
            | none => rw [hu] at h; cases h
            | some s2 =>
              rw [hu] at h
              simp only at h
              cases hk : Reorganize.link vC.reverse s2 with
              | none => rw [hk] at h; cases h
              | some s3 =>
                rw [hk] at h
                simp only [Option.some.injEq, Prod.mk.injEq] at h
                rw [← h.2]
                exact (Reorganize.unlink_sameNodes vD s s2 hu).trans
                  (Reorganize.link_sameNodes _ s2 s3 hk)

theorem SetBestChainInner_sameNodes (db : DbAnswers) (s s1 : ChainState) (p : Nat) (r : Bool)
    (h : SetBestChainInner db s p = some (r, s1)) : s.SameNodes s1 := by
  unfold SetBestChainInner at h
  split_ifs at h
  · cases hi : InvalidChainFound s p with
    | none => rw [hi] at h; cases h
    | some s2 =>
      rw [hi] at h
      simp only [Option.map_some', Option.some.injEq, Prod.mk.injEq] at h
      rw [← h.2]
      exact InvalidChainFound_sameNodes s s2 p hi
  · simp only [Option.some.injEq, Prod.mk.injEq] at h
    rw [← h.2]; exact ChainState.SameNodes.refl _
  · cases hn : s.node p with
    | none => rw [hn] at h; cases h
    | some n =>
      rw [hn] at h
      simp only at h
      cases hq : n.pprev with
      | none => rw [hq] at h; cases h
      | some q =>
        rw [hq] at h
        simp only at h
        cases hs : s.setPnext q (some p) with
        | none => rw [hs] at h; cases h
        | some s2 =>
          rw [hs] at h
          simp only [Option.map_some', Option.some.injEq, Prod.mk.injEq] at h
          rw [← h.2]
          exact s.sameNodes_setPnext s2 q (some p) hs

theorem SetBestChain.connectSecondary_sameNodes (db : DbAnswers) :
    ∀ (l : List Nat) (s s1 : ChainState),
      SetBestChain.connectSecondary db l s = some s1 → s.SameNodes s1
  | [], s, s1, h => by
      simp only [SetBestChain.connectSecondary, Option.some.injEq] at h
      subst h; exact ChainState.SameNodes.refl _
  | p :: rest, s, s1, h => by
      rw [SetBestChain.connectSecondary] at h
      split_ifs at h
      · cases h; exact ChainState.SameNodes.refl _
      · cases h; exact ChainState.SameNodes.refl _
      · cases hi : SetBestChainInner db s p with
        | none => rw [hi] at h; cases h
        | some res =>
          obtain ⟨r, s2⟩ := res
          rw [hi] at h
          have h2 := SetBestChainInner_sameNodes db s s2 p r hi
          cases r with
          | false =>
            simp only [Option.some.injEq] at h
            subst h; exact h2
          | true =>
            simp only at h
            exact h2.trans (SetBestChain.connectSecondary_sameNodes db rest s2 s1 h)

theorem SetBestChain.branch_sameNodes (db : DbAnswers) (s s1 : ChainState)
    (hash hashPrev : uint256) (p : Nat) (r : Bool)
    (h : SetBestChain.branch db s hash hashPrev p = some (r, s1)) : s.SameNodes s1 := by
  unfold SetBestChain.branch at h
  by_cases hg : s.pindexGenesisBlock = none ∧ hash = s.hashGenesisBlock
  · rw [if_pos hg] at h
    by_cases hc : (!db.TxnCommit p) = true
    · rw [if_pos hc] at h
      simp only [Option.some.injEq, Prod.mk.injEq] at h
      rw [← h.2]; exact ChainState.SameNodes.refl _
    · rw [if_neg hc] at h
      simp only [Option.some.injEq, Prod.mk.injEq] at h
      rw [← h.2]; exact ChainState.SameNodes.refl _
  rw [if_neg hg] at h
  by_cases hp : hashPrev = s.hashBestChain
  · rw [if_pos hp] at h
    exact SetBestChainInner_sameNodes db s s1 p r h
  rw [if_neg hp] at h
  cases hpost : SetBestChain.postpone s s.vBlockIndex.length p [] with
  | none => rw [hpost] at h; cases h
  | some res =>
    obtain ⟨pI, sec⟩ := res
    rw [hpost] at h
    simp only at h
    cases hre : Reorganize db s pI with
    | none => rw [hre] at h; cases h
    | some res2 =>
      obtain ⟨r2, s3⟩ := res2
      rw [hre] at h
      have h3 := Reorganize_sameNodes db s s3 pI r2 hre
      cases r2 with
      | false =>
        simp only at h
        cases hi : InvalidChainFound s3 p with
        | none => rw [hi] at h; cases h
        | some s4 =>
          rw [hi] at h
          simp only [Option.map_some', Option.some.injEq, Prod.mk.injEq] at h
          rw [← h.2]
          exact h3.trans (InvalidChainFound_sameNodes s3 s4 p hi)
      | true =>
        simp only at h
        cases hcs : SetBestChain.connectSecondary db sec.reverse s3 with
        | none => rw [hcs] at h; cases h
        | some s4 =>
          rw [hcs] at h
          simp only [Option.map_some', Option.some.injEq, Prod.mk.injEq] at h
          rw [← h.2]
          exact h3.trans (SetBestChain.connectSecondary_sameNodes db _ s3 s4 hcs)

theorem SetBestChain_sameNodes (db : DbAnswers) (s s1 : ChainState) (hash hashPrev : uint256)
    (p : Nat) (r : Bool) (h : SetBestChain db s hash hashPrev p = some (r, s1)) :
    s.SameNodes s1 := by
  unfold SetBestChain at h
  by_cases h0 : (!db.TxnBegin) = true
  · rw [if_pos h0] at h
    simp only [Option.some.injEq, Prod.mk.injEq] at h
    rw [← h.2]; exact ChainState.SameNodes.refl _
  rw [if_neg h0] at h
  cases hbr : SetBestChain.branch db s hash hashPrev p with
  | none => rw [hbr] at h; cases h
  | some res =>
    obtain ⟨r2, s2⟩ := res
    rw [hbr] at h
    have h2 := SetBestChain.branch_sameNodes db s s2 hash hashPrev p r2 hbr
    cases r2 with
    | false =>
      simp only [Option.some.injEq, Prod.mk.injEq] at h
      rw [← h.2]; exact h2
    | true =>
      simp only at h
      cases hn : s2.node p with
      | none => rw [hn] at h; cases h
      | some n =>
        rw [hn] at h
        simp only [Option.some.injEq, Prod.mk.injEq] at h
        rw [← h.2]
        exact h2

/-! ## AddToBlockIndex -/

theorem GetBlockWork_nonneg (SetCompact : Nat → Int) (nBits : Nat) :
    0 ≤ GetBlockWork SetCompact nBits := by
  unfold GetBlockWork
  simp only
  split_ifs with h
  · exact le_refl _
  · exact Int.ediv_nonneg (by positivity) (by omega)

theorem GetBlockWork_eq (SetCompact : Nat → Int) (nBits : Nat) :
    (SetCompact nBits ≤ 0 → GetBlockWork SetCompact nBits = 0) ∧
      (0 < SetCompact nBits →
        GetBlockWork SetCompact nBits =
          ((2 ^ 256 / ((SetCompact nBits).toNat + 1) : Nat) : Int)) := by
  unfold GetBlockWork
  simp only
  constructor
  · intro h; rw [if_pos h]
  · intro h
    rw [if_neg (by omega)]
    have h1 : SetCompact nBits + 1 = (((SetCompact nBits).toNat + 1 : Nat) : Int) := by
      push_cast
      rw [Int.toNat_of_nonneg (by omega)]
    rw [h1]
    norm_cast

theorem ChainState.node_append_left (s : ChainState) (extra : List CBlockIndex) (q : Nat)
    (hq : q < s.vBlockIndex.length) (m : CMap uint256 Nat) :
    ({ s with vBlockIndex := s.vBlockIndex ++ extra, mapBlockIndex := m } : ChainState).node q =
      s.node q := by
  unfold ChainState.node
  simp only
  rw [List.getElem?_append_left hq]

/-- What the new node looks like right after it is filled in. -/
theorem AddToBlockIndex.insert_spec (SetCompact : Nat → Int) (s s2 : ChainState)
    (hash : uint256) (block : CBlock) (nFile nBlockPos p : Nat)
    (hself : block.hashPrevBlock ≠ hash)
    (hmap : ∀ h q, s.mapBlockIndex.find h = some q → q < s.vBlockIndex.length)
    (h : AddToBlockIndex.insert SetCompact s hash block nFile nBlockPos = some (p, s2)) :
    p = s.vBlockIndex.length ∧
      ∃ n, s2.node p = some n ∧ n.phashBlock = hash ∧
        (n.pprev = none → n.bnChainWork = 0 + GetBlockWork SetCompact block.nBits) ∧
        (∀ q, n.pprev = some q → ∃ nq, s2.node q = some nq ∧
          n.bnChainWork = nq.bnChainWork + GetBlockWork SetCompact block.nBits) := by
  unfold AddToBlockIndex.insert at h
  simp only at h
  rw [CMap.find_set_ne _ _ _ _ (fun e => hself e.symm)] at h
  cases hf : s.mapBlockIndex.find block.hashPrevBlock with
  | none =>
    rw [hf] at h
    simp only [Option.some.injEq, Prod.mk.injEq] at h
    obtain ⟨hp, hs⟩ := h
    subst hp hs
    refine ⟨rfl, ?_⟩
    refine ⟨⟨hash, none, none, nFile, nBlockPos, 0, 0 + GetBlockWork SetCompact block.nBits,
      block.nVersion, block.hashMerkleRoot, block.nTime, block.nBits, block.nNonce⟩,
      ?_, rfl, fun _ => rfl, ?_⟩
    · unfold ChainState.node
      simp
    · intro q hq
      simp at hq
  | some q =>
    rw [hf] at h
    simp only at h
    have hq := hmap _ _ hf
    rw [ChainState.node_append_left s _ q hq] at h
    cases hn : s.node q with
    | none => rw [hn] at h; cases h
    | some nq =>
      rw [hn] at h
      simp only [Option.some.injEq, Prod.mk.injEq] at h
      obtain ⟨hp, hs⟩ := h
      subst hp hs
      refine ⟨rfl, ?_⟩
      refine ⟨⟨hash, some q, none, nFile, nBlockPos, nq.nHeight + 1,
        nq.bnChainWork + GetBlockWork SetCompact block.nBits,
        block.nVersion, block.hashMerkleRoot, block.nTime, block.nBits, block.nNonce⟩,
        ?_, rfl, ?_, ?_⟩
      · unfold ChainState.node
        simp
      · intro hnone
        simp at hnone
      · intro q2 hq2
        simp only [Option.some.injEq] at hq2
        subst hq2
        refine ⟨nq, ?_, rfl⟩
        unfold ChainState.node at hn ⊢
        simp only
        rw [List.getElem?_set_ne (by omega), List.getElem?_append_left hq]
        exact hn

theorem CBlockIndex.erasePnext_fields (a b : CBlockIndex) (h : a.erasePnext = b.erasePnext) :
    a.phashBlock = b.phashBlock ∧ a.pprev = b.pprev ∧ a.nHeight = b.nHeight ∧
      a.bnChainWork = b.bnChainWork := by
  have h1 := congrArg CBlockIndex.phashBlock h
  have h2 := congrArg CBlockIndex.pprev h
  have h3 := congrArg CBlockIndex.nHeight h
  have h4 := congrArg CBlockIndex.bnChainWork h
  exact ⟨h1, h2, h3, h4⟩

/-- Claim C10. The index node that `AddToBlockIndex` creates for a block (at the end of
the node store) has, when the call returns, `bnChainWork` equal to its parent's
`bnChainWork`, or 0 when it has no parent, plus `GetBlockWork()`, where `GetBlockWork()`
is `floor(2^256 / (T + 1))` for the target `T` decoded from `nBits` and 0 when `T <= 0`;
hence the parent's cumulative work is at most the child's. The hash of the block is new
to `mapBlockIndex` (else no node is created) and differs from `hashPrevBlock`, and
`mapBlockIndex` holds pointers to allocated nodes. -/
theorem AddToBlockIndex_chain_work (SetCompact : Nat → Int) (db : DbAnswers)
    (s s1 : ChainState) (hash : uint256) (block : CBlock) (nFile nBlockPos : Nat) (r : Bool)
    (hnew : s.mapBlockIndex.count hash = 0)
    (hself : block.hashPrevBlock ≠ hash)
    (hmap : ∀ h q, s.mapBlockIndex.find h = some q → q < s.vBlockIndex.length)
    (h : AddToBlockIndex SetCompact db s hash block nFile nBlockPos = some (r, s1)) :
    ∃ n, s1.node s.vBlockIndex.length = some n ∧ n.phashBlock = hash ∧
      (SetCompact block.nBits ≤ 0 → GetBlockWork SetCompact block.nBits = 0) ∧
      (0 < SetCompact block.nBits →
        GetBlockWork SetCompact block.nBits =
          ((2 ^ 256 / ((SetCompact block.nBits).toNat + 1) : Nat) : Int)) ∧
      (n.pprev = none → n.bnChainWork = 0 + GetBlockWork SetCompact block.nBits) ∧
      (∀ q, n.pprev = some q → ∃ nq, s1.node q = some nq ∧
        n.bnChainWork = nq.bnChainWork + GetBlockWork SetCompact block.nBits ∧
        nq.bnChainWork ≤ n.bnChainWork) := by
  have hW := GetBlockWork_nonneg SetCompact block.nBits
  have hWeq := GetBlockWork_eq SetCompact block.nBits
  unfold AddToBlockIndex at h
  rw [if_neg (by simp [hnew])] at h
  cases hins : AddToBlockIndex.insert SetCompact s hash block nFile nBlockPos with
  | none => rw [hins] at h; cases h
  | some res =>
    obtain ⟨p, s2⟩ := res
    rw [hins] at h
    simp only at h
    obtain ⟨hp, n, hn, hhash, hnone, hsome⟩ :=
      AddToBlockIndex.insert_spec SetCompact s s2 hash block nFile nBlockPos p hself hmap hins
    subst hp
    have hsame : s2.SameNodes s1 := by
      by_cases hb : (!db.TxnBeginIndex) = true
      · rw [if_pos hb] at h
        simp only [Option.some.injEq, Prod.mk.injEq] at h
        rw [← h.2]; exact ChainState.SameNodes.refl _
      rw [if_neg hb] at h
      by_cases hc : (!db.TxnCommitIndex) = true
      · rw [if_pos hc] at h
        simp only [Option.some.injEq, Prod.mk.injEq] at h
        rw [← h.2]; exact ChainState.SameNodes.refl _
      rw [if_neg hc, hn] at h
      simp only at h
      by_cases hw : n.bnChainWork > s2.bnBestChainWork
      · rw [if_pos hw] at h
        cases hsb : SetBestChain db s2 hash block.hashPrevBlock s.vBlockIndex.length with
        | none => rw [hsb] at h; cases h
        | some res2 =>
          obtain ⟨r2, s3⟩ := res2
          rw [hsb] at h
          have := SetBestChain_sameNodes db s2 s3 _ _ _ r2 hsb
          cases r2 <;>
            (simp only [Option.some.injEq, Prod.mk.injEq] at h
             rw [← h.2]; exact this)
      · rw [if_neg hw] at h
        simp only [Option.some.injEq, Prod.mk.injEq] at h
        rw [← h.2]; exact ChainState.SameNodes.refl _
    obtain ⟨n1, hn1, he⟩ := hsame.symm.node _ n hn
    obtain ⟨e1, e2, _, e4⟩ := CBlockIndex.erasePnext_fields _ _ he
    refine ⟨n1, hn1, by rw [e1]; exact hhash, hWeq.1, hWeq.2, ?_, ?_⟩
    · intro hpn
      rw [e4]
      exact hnone (by rw [← e2]; exact hpn)
    · intro q hq
      obtain ⟨nq, hnq, hwork⟩ := hsome q (by rw [← e2]; exact hq)
      obtain ⟨nq1, hnq1, heq⟩ := hsame.symm.node _ nq hnq
      obtain ⟨_, _, _, f4⟩ := CBlockIndex.erasePnext_fields _ _ heq
      refine ⟨nq1, hnq1, ?_, ?_⟩
      · rw [e4, f4]; exact hwork
      · rw [e4, f4]; omega

theorem exampleFork_mapBlockIndex (h : uint256) (q : Nat)
    (hf : exampleFork.mapBlockIndex.find h = some q) : q < exampleFork.vBlockIndex.length := by
  show q < 4
  simp only [exampleFork, CMap.find] at hf
  split_ifs at hf <;> simp at hf <;> omega

/-- Claim C10 for a block that is added on top of the block `B2` of `exampleFork`. -/
theorem AddToBlockIndex_chain_work_witness :
    ∃ n, (AddToBlockIndex (fun n => n) exampleAnswers exampleFork 1004
          ⟨2, 1003, 0, 200, 5, 0, [], [], 0⟩ 1 4000).bind
        (fun res => res.2.node exampleFork.vBlockIndex.length) = some n ∧
      n.bnChainWork = 4 + GetBlockWork (fun n => n) 5 := by
  have hrun : ∃ res, AddToBlockIndex (fun n => n) exampleAnswers exampleFork 1004
      ⟨2, 1003, 0, 200, 5, 0, [], [], 0⟩ 1 4000 = some res := by
    rw [← Option.isSome_iff_exists]
    set_option maxRecDepth 100000 in decide
  obtain ⟨⟨r, s1⟩, hres⟩ := hrun
  obtain ⟨n, hn, _, _, _, _, hsome⟩ :=
    AddToBlockIndex_chain_work (fun n => n) exampleAnswers exampleFork s1 1004
      ⟨2, 1003, 0, 200, 5, 0, [], [], 0⟩ 1 4000 r (by decide) (by decide)
      exampleFork_mapBlockIndex hres
  have hprev : (AddToBlockIndex (fun n => n) exampleAnswers exampleFork 1004
      ⟨2, 1003, 0, 200, 5, 0, [], [], 0⟩ 1 4000).bind
        (fun res => (res.2.node exampleFork.vBlockIndex.length).bind
          (fun n => n.pprev.bind (fun q => (res.2.node q).map CBlockIndex.bnChainWork))) =
      some 4 := by
    set_option maxRecDepth 100000 in decide
  rw [hres] at hprev ⊢
  simp only [Option.some_bind, hn] at hprev ⊢
  refine ⟨n, rfl, ?_⟩
  cases hq : n.pprev with
  | none => rw [hq] at hprev; cases hprev
  | some q =>
    rw [hq] at hprev
    obtain ⟨nq, hnq, hw, _⟩ := hsome q hq
    simp only [Option.some_bind, hnq, Option.map_some', Option.some.injEq] at hprev
    rw [hw, hprev]

/-! ## SetBestChain: the postponed blocks -/

/-- A walk of `j + m` steps is a walk of `j` steps and then one of `m` steps. -/
theorem ChainState.ancestor_add (s : ChainState) :
    ∀ (j m p c : Nat), s.ancestor p (j + m) = some c →
      ∃ q, s.ancestor p j = some q ∧ s.ancestor q m = some c
  | 0, m, p, c, h => by
      rw [Nat.zero_add] at h
      obtain ⟨q, hq⟩ := s.ancestor_le m p c h 0 (by omega)
      obtain ⟨hlt, rfl⟩ := (s.ancestor_zero p q).1 hq
      exact ⟨_, hq, h⟩
  | j + 1, m, p, c, h => by
      have e : j + 1 + m = (j + m) + 1 := by omega
      rw [e] at h
      obtain ⟨n, q0, hn, hq0, hrest⟩ := (s.ancestor_succ p (j + m) c).1 h
      obtain ⟨q, hq, hqc⟩ := ChainState.ancestor_add s j m q0 c hrest
      exact ⟨q, (s.ancestor_succ p j q).2 ⟨n, q0, hn, hq0, hq⟩, hqc⟩

/-- With monotone work an ancestor has at most the work of its descendant. -/
theorem ChainState.ancestor_work_le (s : ChainState) (hm : s.WorkMonotone) :
    ∀ (k p c : Nat) (np nc : CBlockIndex), s.ancestor p k = some c → s.node p = some np →
      s.node c = some nc → nc.bnChainWork ≤ np.bnChainWork
  | 0, p, c, np, nc, h, hp, hc => by
      obtain ⟨_, rfl⟩ := (s.ancestor_zero p c).1 h
      rw [hp] at hc
      cases hc
      exact le_refl _
  | k + 1, p, c, np, nc, h, hp, hc => by
      obtain ⟨n, q, hn, hq, hqc⟩ := (s.ancestor_succ p k c).1 h
      rw [hp] at hn
      cases hn
      obtain ⟨nq, hnq⟩ := s.ancestor_node _ _ _ (s.ancestor_le k q c hqc 0 (by omega)).choose_spec
      have hq0 := (s.ancestor_le k q c hqc 0 (by omega)).choose_spec
      obtain ⟨_, hq1⟩ := (s.ancestor_zero q _).1 hq0
      rw [hq1] at hnq
      have h1 := hm p np q nq hp hq hnq
      have h2 := ChainState.ancestor_work_le s hm k q c nq nc hqc hnq hc
      omega

/-- The loop that postpones blocks, started `j` steps below `pindexNew` at a node all of
whose successors on the path (and itself) exceed the work of the best block. -/
theorem SetBestChain.postpone_spec (s : ChainState) (hl : s.HeightsLinked)
    (hm : s.WorkMonotone) (pindexNew pb : Nat) (nBest : CBlockIndex)
    (hbest : s.pindexBest = some pb) (hnb : s.node pb = some nBest) :
    ∀ (fuel j p : Nat) (sec : List Nat), s.ancestor pindexNew j = some p →
      s.vBlockIndex.length ≤ j + fuel →
      (∀ i q nq, i ≤ j → s.ancestor pindexNew i = some q → s.node q = some nq →
        nq.bnChainWork > nBest.bnChainWork) →
      ∃ pI secI nI k, SetBestChain.postpone s fuel p sec = some (pI, secI) ∧
        s.node pI = some nI ∧ nI.bnChainWork > nBest.bnChainWork ∧
        (∀ q nq, nI.pprev = some q → s.node q = some nq →
          nq.bnChainWork ≤ nBest.bnChainWork) ∧
        s.ancestor pindexNew k = some pI ∧
        (∀ i q nq, i ≤ k → s.ancestor pindexNew i = some q → s.node q = some nq →
          nq.bnChainWork > nBest.bnChainWork) ∧
        (∀ i q nq, k < i → s.ancestor pindexNew i = some q → s.node q = some nq →
          nq.bnChainWork ≤ nBest.bnChainWork) := by
  intro fuel
  induction fuel with
  | zero =>
    intro j p sec hp hN _
    have := s.ancestor_lt_length hl pindexNew j p hp
    omega
  | succ f ih =>
    intro j p sec hp hN hall
    obtain ⟨np, hnp⟩ := s.ancestor_node _ _ _ hp
    have hwp := hall j p np (le_refl _) hp hnp
    rw [SetBestChain.postpone]
    simp only [hnp]
    cases hprev : np.pprev with
    | none =>
      refine ⟨p, sec, np, j, rfl, hnp, hwp, ?_, hp, hall, ?_⟩
      · intro q nq hq; rw [hprev] at hq; cases hq
      · intro i q nq hi hq _
        exfalso
        obtain ⟨r, hr⟩ := s.ancestor_le i pindexNew q hq (j + 1) (by omega)
        obtain ⟨c2, nc2, hc2, hnc2, hpr⟩ := s.ancestor_succ_end j pindexNew r hr
        rw [hp] at hc2
        cases hc2
        rw [hnp] at hnc2
        cases hnc2
        rw [hprev] at hpr
        cases hpr
    | some q =>
      obtain ⟨nq, hnq, _⟩ := hl p np q hnp hprev
      have hq : s.ancestor pindexNew (j + 1) = some q :=
        s.ancestor_snoc j pindexNew p q np hp hnp hprev (s.node_lt q nq hnq)
      simp only [hnq, hbest, Option.some_bind, hnb]
      by_cases hw : nq.bnChainWork > nBest.bnChainWork
      · rw [if_pos hw]
        apply ih (j + 1) q (sec ++ [p]) hq (by omega)
        intro i r nr hi hr hnr
        rcases Nat.lt_or_ge i (j + 1) with h | h
        · exact hall i r nr (by omega) hr hnr
        · have : i = j + 1 := by omega
          subst this
          rw [hq] at hr
          cases hr
          rw [hnq] at hnr
          cases hnr
          exact hw
      · rw [if_neg hw]
        refine ⟨p, sec, np, j, rfl, hnp, hwp, ?_, hp, hall, ?_⟩
        · intro q2 nq2 hq2 hnq2
          rw [hprev] at hq2
          cases hq2
          rw [hnq] at hnq2
          cases hnq2
          omega
        · intro i r nr hi hr hnr
          obtain ⟨m, rfl⟩ : ∃ m, i = (j + 1) + m := ⟨i - (j + 1), by omega⟩
          obtain ⟨q2, hq2, hrest⟩ := s.ancestor_add (j + 1) m pindexNew r hr
          rw [hq] at hq2
          cases hq2
          have := s.ancestor_work_le hm m q r nq nr hrest hnq hnr
          omega

theorem ChainState.workMonotone_of_check (s : ChainState)
    (h : s.checkWorkMonotone = true) : s.WorkMonotone := by
  intro p np q nq hp hq hnq
  have hmem : np ∈ s.vBlockIndex := by
    unfold ChainState.node at hp
    exact List.getElem?_mem hp
  have := List.all_eq_true.1 h np hmem
  simp only [hq, hnq] at this
  simpa using this

/-- Claim C9. When `SetBestChain` is called for a node `pindexNew` that has more
cumulative work than `pindexBest` and takes the reorganisation branch (the block is not
the genesis block and does not build on the best block), the loop that postpones blocks
ends with a node `pindexIntermediate` that it hands to `Reorganize`; that node has more
cumulative work than `pindexBest`, its parent, if it has one, has at most the work of
`pindexBest`, it lies on the `pprev` path of `pindexNew`, every node of the path from it
up to `pindexNew` has more work than `pindexBest` and every node of the path below it has
at most that work. The block index has linked heights and monotone work. -/
theorem SetBestChain_reorganize_target (s : ChainState) (pindexNew pindexBest : Nat)
    (nNew nBest : CBlockIndex)
    (hl : s.HeightsLinked) (hm : s.WorkMonotone)
    (hbest : s.pindexBest = some pindexBest) (hnb : s.node pindexBest = some nBest)
    (hnew : s.node pindexNew = some nNew)
    (hwork : nNew.bnChainWork > nBest.bnChainWork) :
    ∃ pindexIntermediate vpindexSecondary nI k,
      SetBestChain.postpone s s.vBlockIndex.length pindexNew [] =
        some (pindexIntermediate, vpindexSecondary) ∧
      (∀ (db : DbAnswers) (hash hashPrevBlock : uint256),
        ¬ (s.pindexGenesisBlock = none ∧ hash = s.hashGenesisBlock) →
        hashPrevBlock ≠ s.hashBestChain →
        SetBestChain.branch db s hash hashPrevBlock pindexNew =
          match Reorganize db s pindexIntermediate with
          | none => none
          | some (false, s1) => (InvalidChainFound s1 pindexNew).map (fun s2 => (false, s2))
          | some (true, s1) =>
            (SetBestChain.connectSecondary db vpindexSecondary.reverse s1).map
              (fun s2 => (true, s2))) ∧
      s.node pindexIntermediate = some nI ∧
      nI.bnChainWork > nBest.bnChainWork ∧
      (∀ q nq, nI.pprev = some q → s.node q = some nq →
        nq.bnChainWork ≤ nBest.bnChainWork) ∧
      s.ancestor pindexNew k = some pindexIntermediate ∧
      (∀ i q nq, i ≤ k → s.ancestor pindexNew i = some q → s.node q = some nq →
        nq.bnChainWork > nBest.bnChainWork) ∧
      (∀ i q nq, k < i → s.ancestor pindexNew i = some q → s.node q = some nq →
        nq.bnChainWork ≤ nBest.bnChainWork) := by
  have h0 : s.ancestor pindexNew 0 = some pindexNew :=
    (s.ancestor_zero pindexNew pindexNew).2 ⟨s.node_lt _ _ hnew, rfl⟩
  obtain ⟨pI, secI, nI, k, hpost, h1, h2, h3, h4, h5, h6⟩ :=
    SetBestChain.postpone_spec s hl hm pindexNew pindexBest nBest hbest hnb
      s.vBlockIndex.length 0 pindexNew [] h0 (by omega)
      (by
        intro i q nq hi hq hnq
        have : i = 0 := by omega
        subst this
        rw [h0] at hq
        cases hq
        rw [hnew] at hnq
        cases hnq
        exact hwork)
  refine ⟨pI, secI, nI, k, hpost, ?_, h1, h2, h3, h4, h5, h6⟩
  intro db hash hashPrevBlock hg hp
  unfold SetBestChain.branch
  rw [if_neg hg, if_neg hp, hpost]

/-- Claim C9 in `exampleFork` for the block `B2` (node 3). -/
theorem SetBestChain_reorganize_target_witness :
    ∃ pindexIntermediate vpindexSecondary nI k,
      SetBestChain.postpone exampleFork exampleFork.vBlockIndex.length 3 [] =
        some (pindexIntermediate, vpindexSecondary) ∧
      (∀ (db : DbAnswers) (hash hashPrevBlock : uint256),
        ¬ (exampleFork.pindexGenesisBlock = none ∧ hash = exampleFork.hashGenesisBlock) →
        hashPrevBlock ≠ exampleFork.hashBestChain →
        SetBestChain.branch db exampleFork hash hashPrevBlock 3 =
          match Reorganize db exampleFork pindexIntermediate with
          | none => none
          | some (false, s1) => (InvalidChainFound s1 3).map (fun s2 => (false, s2))
          | some (true, s1) =>
            (SetBestChain.connectSecondary db vpindexSecondary.reverse s1).map
              (fun s2 => (true, s2))) ∧
      exampleFork.node pindexIntermediate = some nI ∧
      nI.bnChainWork > (2 : Int) ∧
      (∀ q nq, nI.pprev = some q → exampleFork.node q = some nq →
        nq.bnChainWork ≤ (2 : Int)) ∧
      exampleFork.ancestor 3 k = some pindexIntermediate ∧
      (∀ i q nq, i ≤ k → exampleFork.ancestor 3 i = some q → exampleFork.node q = some nq →
        nq.bnChainWork > (2 : Int)) ∧
      (∀ i q nq, k < i → exampleFork.ancestor 3 i = some q → exampleFork.node q = some nq →
        nq.bnChainWork ≤ (2 : Int)) :=
  SetBestChain_reorganize_target exampleFork 3 1
    ⟨1003, some 2, none, 1, 3000, 2, 4, 2, 0, 190, 1, 0⟩
    ⟨1001, some 0, none, 1, 1000, 1, 2, 2, 0, 90, 1, 0⟩
    (exampleFork.heightsLinked_of_check (by decide))
    (exampleFork.workMonotone_of_check (by decide))
    (by decide) (by decide) (by decide) (by decide)

/-- Claim C8 at `exampleFork`. Before the call the `pnext` chain from the genesis node 0
reaches the best node 1. `SetBestChain` is called for the block `B2` (node 3), whose
parent `B1` (node 2) also has more work than the best block; `Reorganize` switches to
`B1`, and `ConnectBlock` then rejects the postponed block `B2`. The call returns true
and makes node 3 the best node, but the `pnext` chain from the genesis node ends at
node 2 and does not reach node 3. -/
theorem SetBestChain_postponed_block_rejected :
    exampleFork.pindexGenesisBlock = some 0 ∧ exampleFork.pindexBest = some 1 ∧
      exampleFork.PnextReaches 0 1 ∧
      SetBestChain exampleAnswers exampleFork 1003 1002 3 = some (true, exampleForkAfter) ∧
      exampleForkAfter.pindexGenesisBlock = some 0 ∧
      exampleForkAfter.pindexBest = some 3 ∧
      ¬ exampleForkAfter.PnextReaches 0 3 := by
  refine ⟨rfl, rfl, ⟨1, by decide⟩, by decide, rfl, rfl, ?_⟩
  rintro ⟨k, hk⟩
  match k, hk with
  | 0, hk => exact absurd hk (by decide)
  | 1, hk => exact absurd hk (by decide)
  | k + 2, hk =>
    simp [ChainState.descendant, ChainState.node, exampleForkAfter, exampleFork] at hk

/-! ## GetMinFee -/

theorem wrap64_small (x : Int) (h0 : -(2 ^ 63) ≤ x) (h1 : x < 2 ^ 63) : wrap64 x = x := by
  unfold wrap64
  rw [Int.emod_eq_of_lt (by omega) (by omega)]
  omega

/-- The dust loop adds `nBaseFee` once per dust output, as long as the sum stays within
64 bits. -/
theorem GetMinFee.dust_eq (nBaseFee : Int) (hb0 : 0 ≤ nBaseFee) :
    ∀ (vout : List CTxOut) (nMinFee : Int), 0 ≤ nMinFee →
      nMinFee + nBaseFee * ((vout.filter (fun txout => decide (txout.nValue < TX_DUST))).length : Int)
        < 2 ^ 63 →
      GetMinFee.dust nBaseFee vout nMinFee =
        nMinFee + nBaseFee * ((vout.filter (fun txout => decide (txout.nValue < TX_DUST))).length : Int) := by
  intro vout
  induction vout with
  | nil => intro n _ _; simp [GetMinFee.dust]
  | cons txout rest ih =>
    intro n hn hlt
    unfold GetMinFee.dust
    by_cases hd : txout.nValue < TX_DUST
    · have hf : (List.filter (fun txout => decide (txout.nValue < TX_DUST)) (txout :: rest)).length
          = (List.filter (fun txout => decide (txout.nValue < TX_DUST)) rest).length + 1 := by
        simp [List.filter, hd]
      rw [hf] at hlt ⊢
      push_cast at hlt ⊢
      have hk : (0 : Int) ≤ nBaseFee * ((List.filter (fun txout => decide (txout.nValue < TX_DUST)) rest).length : Int) :=
        mul_nonneg hb0 (Int.natCast_nonneg _)
      rw [if_pos hd, wrap64_small _ (by omega) (by nlinarith)]
      rw [ih (n + nBaseFee) (by omega) (by nlinarith)]
      ring
    · have hf : (List.filter (fun txout => decide (txout.nValue < TX_DUST)) (txout :: rest)).length
          = (List.filter (fun txout => decide (txout.nValue < TX_DUST)) rest).length := by
        simp [List.filter, hd]
      rw [hf] at hlt ⊢
      rw [if_neg hd, ih n hn hlt]

/-- Without dust outputs the dust loop changes nothing. -/
theorem GetMinFee.dust_none (nBaseFee : Int) :
    ∀ (vout : List CTxOut) (nMinFee : Int), (∀ txout ∈ vout, ¬ txout.nValue < TX_DUST) →
      GetMinFee.dust nBaseFee vout nMinFee = nMinFee := by
  intro vout
  induction vout with
  | nil => intro n _; rfl
  | cons txout rest ih =>
    intro n h
    unfold GetMinFee.dust
    rw [if_neg (h txout (List.mem_cons_self _ _))]
    exact ih n (fun t ht => h t (List.mem_cons_of_mem _ ht))

/-- The size component as the code computes it, for both base fees. -/
theorem GetMinFee.size_small (nBytes : Nat) (hbytes : nBytes < 2 ^ 32) (nBaseFee : Int)
    (hb : nBaseFee = MIN_RELAY_TX_FEE ∨ nBaseFee = MIN_TX_FEE) :
    wrap64 ((1 + (nBytes : Int) / 1000) * nBaseFee) = (1 + (nBytes : Int) / 1000) * nBaseFee := by
  have h1 : (0 : Int) ≤ (nBytes : Int) / 1000 := Int.ediv_nonneg (Int.natCast_nonneg _) (by norm_num)
  have h2 : (nBytes : Int) / 1000 ≤ 4294967 := by
    have : (nBytes : Int) < 4294967296 := by exact_mod_cast hbytes
    omega
  apply wrap64_small
  · rcases hb with hb | hb <;> rw [hb] <;> simp only [MIN_RELAY_TX_FEE, MIN_TX_FEE] <;> nlinarith
  · rcases hb with hb | hb <;> rw [hb] <;> simp only [MIN_RELAY_TX_FEE, MIN_TX_FEE] <;> nlinarith

/-- Claim C14, as the code has it: without dust outputs and without the free exemption, in
mode `GMF_SEND` or with `nBytes + 1000 < MAX_BLOCK_SIZE_GEN / 2`, the minimum fee is
`(1 + nBytes / 1000) * base` with the integer quotient, one base fee more than the claimed
`ceil(nBytes / 1000) * base` whenever `nBytes` is a multiple of 1000. -/
theorem GetMinFee_size_component (tx : CTransaction) (nBytes : Nat) (mode : GetMinFee_mode)
    (hdust : ∀ txout ∈ tx.vout, ¬ txout.nValue < TX_DUST) (hbytes : nBytes < 2 ^ 32)
    (hmode : mode = GetMinFee_mode.GMF_SEND ∨ nBytes + 1000 < MAX_BLOCK_SIZE_GEN / 2) :
    tx.GetMinFee nBytes false mode =
      (1 + (nBytes : Int) / 1000) *
        (if mode = GetMinFee_mode.GMF_RELAY then MIN_RELAY_TX_FEE else MIN_TX_FEE) := by
  unfold CTransaction.GetMinFee
  simp only [Bool.false_eq_true, if_false]
  rw [GetMinFee.dust_none _ _ _ hdust]
  have hsz := GetMinFee.size_small nBytes hbytes
    (if mode = GetMinFee_mode.GMF_RELAY then MIN_RELAY_TX_FEE else MIN_TX_FEE)
    (by by_cases hm : mode = GetMinFee_mode.GMF_RELAY <;> simp [hm])
  rw [hsz]
  rw [if_neg]
  rintro ⟨hns, hge⟩
  rcases hmode with hm | hm
  · exact hns hm
  · rw [if_neg hns] at hge
    have : wrap32u (1000 + nBytes) ≤ 1000 + nBytes := Nat.mod_le _ _
    omega

/-- Claim C14 at a transaction of 2500 bytes in mode `GMF_RELAY`: three base fees. -/
theorem GetMinFee_size_component_witness :
    (∀ txout ∈ examplePlain.vout, ¬ txout.nValue < TX_DUST) ∧ 2500 < 2 ^ 32 ∧
      (GetMinFee_mode.GMF_RELAY = GetMinFee_mode.GMF_SEND ∨
        2500 + 1000 < MAX_BLOCK_SIZE_GEN / 2) ∧
      examplePlain.GetMinFee 2500 false GetMinFee_mode.GMF_RELAY =
        (1 + ((2500 : Nat) : Int) / 1000) *
          (if GetMinFee_mode.GMF_RELAY = GetMinFee_mode.GMF_RELAY then MIN_RELAY_TX_FEE
            else MIN_TX_FEE) :=
  ⟨by decide, by decide, by decide,
    GetMinFee_size_component examplePlain 2500 GetMinFee_mode.GMF_RELAY (by decide) (by decide)
      (by decide)⟩

/-- Claim C14 fails at `nBytes = 1000`: for a transaction without dust outputs, in mode
`GMF_SEND` and without the free exemption, the code returns two base fees, where
`ceil(1000 / 1000) * base` is one base fee. -/
theorem GetMinFee_1000_bytes :
    (∀ txout ∈ examplePlain.vout, ¬ txout.nValue < TX_DUST) ∧
      examplePlain.GetMinFee 1000 false GetMinFee_mode.GMF_SEND = 2 * MIN_TX_FEE ∧
      ⌈((1000 : Nat) : ℚ) / 1000⌉ * MIN_TX_FEE = 1 * MIN_TX_FEE ∧
      examplePlain.GetMinFee 1000 false GetMinFee_mode.GMF_SEND ≠
        ⌈((1000 : Nat) : ℚ) / 1000⌉ * MIN_TX_FEE := by
  have hc : ⌈((1000 : Nat) : ℚ) / 1000⌉ = 1 := by norm_num
  rw [hc]
  refine ⟨by decide, by decide, rfl, by decide⟩

/-- Claim C15: with `fAllowFree = true`, in mode `GMF_SEND` with `nBytes < 2000` or in
another mode with `nBytes + 1000 < 11000`, the minimum fee is the base fee times the number
of outputs below `TX_DUST`, hence 0 without such outputs. The number of dust outputs is
taken so small that the sum fits the 64-bit fee. -/
theorem GetMinFee_free_exemption (tx : CTransaction) (nBytes : Nat) (mode : GetMinFee_mode)
    (hfit : MIN_TX_FEE * (tx.nDustOutputs : Int) < 2 ^ 63)
    (hmode : (mode = GetMinFee_mode.GMF_SEND ∧ nBytes < 2000) ∨
      (mode ≠ GetMinFee_mode.GMF_SEND ∧ nBytes + 1000 < 11000)) :
    tx.GetMinFee nBytes true mode =
        (if mode = GetMinFee_mode.GMF_RELAY then MIN_RELAY_TX_FEE else MIN_TX_FEE) *
          (tx.nDustOutputs : Int) ∧
      (tx.nDustOutputs = 0 → tx.GetMinFee nBytes true mode = 0) := by
  have hb : ∀ b : Int, b = MIN_RELAY_TX_FEE ∨ b = MIN_TX_FEE →
      0 ≤ b ∧ 0 + b * (tx.nDustOutputs : Int) < 2 ^ 63 := by
    intro b hb
    have hn : (0 : Int) ≤ (tx.nDustOutputs : Int) := Int.natCast_nonneg _
    simp only [MIN_TX_FEE] at hfit
    rcases hb with hb | hb <;> rw [hb] <;> simp only [MIN_RELAY_TX_FEE, MIN_TX_FEE] <;>
      constructor <;> omega
  have key : tx.GetMinFee nBytes true mode =
        (if mode = GetMinFee_mode.GMF_RELAY then MIN_RELAY_TX_FEE else MIN_TX_FEE) *
          (tx.nDustOutputs : Int) := by
    have hbase := hb (if mode = GetMinFee_mode.GMF_RELAY then MIN_RELAY_TX_FEE else MIN_TX_FEE)
      (by by_cases hm : mode = GetMinFee_mode.GMF_RELAY <;> simp [hm])
    unfold CTransaction.GetMinFee
    simp only [if_true]
    rcases hmode with ⟨hm, hlt⟩ | ⟨hm, hlt⟩
    · have hne : ¬ (mode ≠ GetMinFee_mode.GMF_SEND ∧ nBytes ≥ MAX_BLOCK_SIZE_GEN / 2) := by
        rintro ⟨h, _⟩; exact h hm
      simp only [if_pos hm, if_pos hlt, if_neg hne]
      rw [GetMinFee.dust_eq _ hbase.1 _ _ (le_refl _) hbase.2]
      simp [CTransaction.nDustOutputs]
    · have hw : wrap32u (1000 + nBytes) = 1000 + nBytes := by
        unfold wrap32u; exact Nat.mod_eq_of_lt (by omega)
      have h11 : 1000 + nBytes < 11000 := by omega
      have hne : ¬ (mode ≠ GetMinFee_mode.GMF_SEND ∧ 1000 + nBytes ≥ MAX_BLOCK_SIZE_GEN / 2) := by
        rintro ⟨_, hge⟩
        have : MAX_BLOCK_SIZE_GEN / 2 = 131072 := by decide
        omega
      simp only [if_neg hm, hw, if_pos h11, if_neg hne]
      rw [GetMinFee.dust_eq _ hbase.1 _ _ (le_refl _) hbase.2]
      simp [CTransaction.nDustOutputs]
  exact ⟨key, fun h0 => by rw [key, h0]; simp⟩

/-- Claim C15 at `exampleSpend`, whose only output of 40 units is dust, with 500 bytes in
mode `GMF_RELAY`: one relay base fee. -/
theorem GetMinFee_free_exemption_witness :
    MIN_TX_FEE * (exampleSpend.nDustOutputs : Int) < 2 ^ 63 ∧
      exampleSpend.GetMinFee 500 true GetMinFee_mode.GMF_RELAY = MIN_RELAY_TX_FEE * 1 :=
  ⟨by decide,
    (GetMinFee_free_exemption exampleSpend 500 GetMinFee_mode.GMF_RELAY (by decide)
      (Or.inr ⟨by decide, by decide⟩)).1⟩

/-! ## CheckTransaction scores and the conflict check of the memory pool -/

/-- Every failure of `CheckTransaction` adds 10 or 100 to `nDoS`, except the failure of the
duplicate-input loop, which leaves `nDoS` as it was. -/
theorem CheckTransaction_false_nDoS (GetSerializeSize : CTransaction → Nat)
    (tx : CTransaction) (h : (tx.CheckTransaction GetSerializeSize).1 = false) :
    (tx.CheckTransaction GetSerializeSize).2.nDoS = tx.nDoS + 10 ∨
      (tx.CheckTransaction GetSerializeSize).2.nDoS = tx.nDoS + 100 ∨
      ((tx.CheckTransaction GetSerializeSize).2 = tx ∧
        CheckTransaction.inputs tx.vin [] = false) := by
  unfold CTransaction.CheckTransaction at h ⊢
  cases hv : tx.vin with
  | nil => left; simp [CTransaction.DoS]
  | cons txin0 rest =>
    simp only [hv] at h ⊢
    by_cases h1 : tx.vout.isEmpty = true
    · left; simp [h1, CTransaction.DoS]
    by_cases h2 : GetSerializeSize tx > MAX_BLOCK_SIZE
    · right; left; simp [h1, h2, CTransaction.DoS]
    by_cases h3 : (!CheckTransaction.outputs tx.vout 0) = true
    · right; left; simp [h1, h2, h3, CTransaction.DoS]
    by_cases h4 : (!CheckTransaction.inputs (txin0 :: rest) []) = true
    · right; right
      rw [if_neg h1, if_neg h2, if_neg h3, if_pos h4]
      exact ⟨rfl, by simpa using h4⟩
    rw [if_neg h1, if_neg h2, if_neg h3, if_neg h4] at h ⊢
    by_cases h5 : tx.IsCoinBase = true
    · rw [if_pos h5] at h ⊢
      by_cases h6 : (decide (txin0.scriptSig.length < 2) || decide (txin0.scriptSig.length > 100)) = true
      · right; left; rw [if_pos h6]; simp [CTransaction.DoS]
      · rw [if_neg h6] at h; simp at h
    · rw [if_neg h5] at h ⊢
      by_cases h7 : (rest.any fun txin => txin.prevout.IsNull) = true ∨ txin0.prevout.IsNull = true
      · left
        have : ((txin0 :: rest).any fun txin => txin.prevout.IsNull) = true := by
          simp only [List.any_cons, Bool.or_eq_true]; tauto
        rw [if_pos this]; simp [CTransaction.DoS]
      · have : ¬ ((txin0 :: rest).any fun txin => txin.prevout.IsNull) = true := by
          simp only [List.any_cons, Bool.or_eq_true]; tauto
        rw [if_neg this] at h; simp at h

/-- Claim C13 fails for every transaction that names an outpoint in two inputs and passes
the checks before the duplicate-input loop (there are outputs, the size fits, the output
values are in range): `CheckTransaction` returns false from that loop (main.cpp:484) with
a bare `return false`, and the counter `nDoS` of the transaction is what it was. -/
theorem CheckTransaction_duplicate_input_unscored (GetSerializeSize : CTransaction → Nat)
    (tx : CTransaction) (hvout : tx.vout.isEmpty = false)
    (hsize : GetSerializeSize tx ≤ MAX_BLOCK_SIZE)
    (hvalues : CheckTransaction.outputs tx.vout 0 = true)
    (hdup : ¬ (tx.vin.map CTxIn.prevout).Nodup) :
    tx.CheckTransaction GetSerializeSize = (false, tx) ∧
      (tx.CheckTransaction GetSerializeSize).2.nDoS = tx.nDoS := by
  have hin : CheckTransaction.inputs tx.vin [] = false := by
    by_contra hne
    have ht : CheckTransaction.inputs tx.vin [] = true := by simpa using hne
    exact hdup ((CheckTransaction.inputs_iff tx.vin []).1 ht).1
  have key : tx.CheckTransaction GetSerializeSize = (false, tx) := by
    unfold CTransaction.CheckTransaction
    cases hv : tx.vin with
    | nil => rw [hv] at hdup; simp at hdup
    | cons txin0 rest =>
      rw [hv] at hin
      simp only
      rw [if_neg (by simp [hvout]), if_neg (by omega), if_neg (by simp [hvalues]),
        if_pos (by simp [hin])]
  exact ⟨key, by rw [key]⟩

/-- Claim C13 at `exampleTwice`, whose two inputs spend the same outpoint. -/
theorem CheckTransaction_duplicate_input_unscored_witness :
    exampleTwice.CheckTransaction exampleExternals.GetSerializeSizeTx = (false, exampleTwice) ∧
      (exampleTwice.CheckTransaction exampleExternals.GetSerializeSizeTx).2.nDoS =
        exampleTwice.nDoS :=
  CheckTransaction_duplicate_input_unscored exampleExternals.GetSerializeSizeTx exampleTwice
    (by decide) (by decide) (by decide) (by decide)

/-- Claim C16: a transaction that passes `CheckTransaction`, is no coinbase, and has an
input whose outpoint is a key of `mapNextTx` is refused by `CTxMemPool::accept`: the call
returns false and leaves `mapTx`, `mapNextTx`, `nTransactionsUpdated` and the counter
`nDoS` of the transaction as they were. This holds whatever the lock time, the standard
test, the pool and the database say about the transaction. -/
theorem accept_double_spend_rejected (GetSerializeSize : CTransaction → Nat)
    (GetHash : CTransaction → uint256) (IsStandard : CTransaction → Bool) (fTestNet : Bool)
    (pool : CTxMemPool) (nTransactionsUpdated : Nat) (tx : CTransaction)
    (fCheckInputs : Bool) (answers : AcceptAnswers)
    (hcheck : (tx.CheckTransaction GetSerializeSize).1 = true)
    (hcoinbase : tx.IsCoinBase = false)
    (hspent : ∃ txin ∈ tx.vin, pool.mapNextTx.count txin.prevout ≠ 0) :
    CTxMemPool.accept GetSerializeSize GetHash IsStandard fTestNet pool nTransactionsUpdated
        tx fCheckInputs answers = ⟨false, tx, false, pool, nTransactionsUpdated⟩ := by
  have hany : (tx.vin.any fun txin => decide (pool.mapNextTx.count txin.prevout ≠ 0)) = true := by
    obtain ⟨txin, hmem, hne⟩ := hspent
    exact List.any_eq_true.mpr ⟨txin, hmem, by simpa using hne⟩
  unfold CTxMemPool.accept
  simp only [hcheck, hcoinbase, Bool.not_true, Bool.false_eq_true, if_false]
  split_ifs <;> rfl

/-- Claim C16 at the pool that holds `exampleSpend` and the transaction
`exampleDoubleSpend`, which spends the same outpoint. -/
theorem accept_double_spend_rejected_witness :
    CTxMemPool.accept exampleExternals.GetSerializeSizeTx scriptBytes (fun _ => true) false
        examplePool 1 exampleDoubleSpend true ⟨false, true, 0, false⟩ =
      ⟨false, exampleDoubleSpend, false, examplePool, 1⟩ :=
  accept_double_spend_rejected exampleExternals.GetSerializeSizeTx scriptBytes (fun _ => true)
    false examplePool 1 exampleDoubleSpend true ⟨false, true, 0, false⟩ (by decide) (by decide)
    ⟨⟨⟨7, 0⟩, [9], UINT32_MAX⟩, by decide, by decide⟩

/-! ## The fee floor of the memory pool -/

/-- A call of `accept` with `fCheckInputs = true` that returns true has been told that the
input checks passed. -/
theorem accept_true_inputsOk (GetSerializeSize : CTransaction → Nat)
    (GetHash : CTransaction → uint256) (IsStandard : CTransaction → Bool) (fTestNet : Bool)
    (pool : CTxMemPool) (nTransactionsUpdated : Nat) (tx : CTransaction)
    (answers : AcceptAnswers)
    (h : (CTxMemPool.accept GetSerializeSize GetHash IsStandard fTestNet pool
      nTransactionsUpdated tx true answers).fResult = true) : answers.fInputsOk = true := by
  unfold CTxMemPool.accept at h
  by_contra hne
  simp only [Bool.not_eq_true] at hne
  simp only [hne] at h
  split_ifs at h
  simp_all

/-- When the input checks of `accept` pass, the inputs were fetched, the values were
computed, and the fee is not below the relay minimum. -/
theorem accept.inputChecks_ok (ext : Externals) (db : TxDb)
    (AreInputsStandard : CTransaction → MapPrevTx → Bool)
    (RateLimited : CTransaction → Nat → Bool) (fTestNet : Bool) (s : ChainState)
    (mempool : CTxMemPool) (tx : CTransaction) (hash : uint256) (answers : AcceptAnswers)
    (h : accept.inputChecks ext db AreInputsStandard RateLimited fTestNet s mempool tx hash =
      some answers)
    (hok : answers.fInputsOk = true) :
    ∃ (tx1 : CTransaction) (mapInputs : MapPrevTx) (fInvalid : Bool) (nValueIn nValueOut : Int),
      tx.FetchInputs db mempool [] false false [] = some (true, tx1, mapInputs, fInvalid) ∧
      tx.GetValueIn mapInputs = some nValueIn ∧ tx.GetValueOut = some nValueOut ∧
      tx.GetMinFee (wrap32u (ext.GetSerializeSizeTx tx)) true GetMinFee_mode.GMF_RELAY ≤
        wrap64 (nValueIn - nValueOut) := by
  unfold accept.inputChecks at h
  cases hf : tx.FetchInputs db mempool [] false false [] with
  | none => rw [hf] at h; simp at h
  | some r =>
    obtain ⟨f, tx1, mapInputs, fInvalid⟩ := r
    rw [hf] at h
    cases f with
    | false =>
      simp only [Option.some.injEq] at h
      rw [← h] at hok; simp at hok
    | true =>
      simp only at h
      by_cases hstd : (!AreInputsStandard tx mapInputs && !fTestNet) = true
      · rw [if_pos hstd] at h
        simp only [Option.some.injEq] at h
        rw [← h] at hok; simp at hok
      rw [if_neg hstd] at h
      cases hvi : tx.GetValueIn mapInputs with
      | none => rw [hvi] at h; simp at h
      | some nValueIn =>
        cases hvo : tx.GetValueOut with
        | none => rw [hvi, hvo] at h; simp at h
        | some nValueOut =>
          rw [hvi, hvo] at h
          simp only at h
          by_cases hfee : wrap64 (nValueIn - nValueOut) <
              tx.GetMinFee (wrap32u (ext.GetSerializeSizeTx tx)) true GetMinFee_mode.GMF_RELAY
          · rw [if_pos hfee] at h
            simp only [Option.some.injEq] at h
            rw [← h] at hok; simp at hok
          · exact ⟨tx1, mapInputs, fInvalid, nValueIn, nValueOut, rfl, hvi, rfl, not_lt.mp hfee⟩

/-- Claim C17, as the code has it: a transaction that `CTxMemPool::accept` inserts in a
call with `fCheckInputs = true`, where the input checks are those of main.cpp:598-658, has
its inputs fetched and its fee `GetValueIn - GetValueOut` not below
`GetMinFee(nSize, true, GMF_RELAY)`. -/
theorem accept_checked_fee_floor (ext : Externals) (db : TxDb)
    (AreInputsStandard : CTransaction → MapPrevTx → Bool)
    (RateLimited : CTransaction → Nat → Bool) (GetHash : CTransaction → uint256)
    (IsStandard : CTransaction → Bool) (fTestNet : Bool) (s : ChainState)
    (pool : CTxMemPool) (nTransactionsUpdated : Nat) (tx : CTransaction)
    (answers : AcceptAnswers)
    (hin : accept.inputChecks ext db AreInputsStandard RateLimited fTestNet s pool tx
      (GetHash tx) = some answers)
    (hacc : (CTxMemPool.accept ext.GetSerializeSizeTx GetHash IsStandard fTestNet pool
      nTransactionsUpdated tx true answers).fResult = true) :
    ∃ (tx1 : CTransaction) (mapInputs : MapPrevTx) (fInvalid : Bool) (nValueIn nValueOut : Int),
      tx.FetchInputs db pool [] false false [] = some (true, tx1, mapInputs, fInvalid) ∧
      tx.GetValueIn mapInputs = some nValueIn ∧ tx.GetValueOut = some nValueOut ∧
      tx.GetMinFee (wrap32u (ext.GetSerializeSizeTx tx)) true GetMinFee_mode.GMF_RELAY ≤
        wrap64 (nValueIn - nValueOut) :=
  accept.inputChecks_ok ext db AreInputsStandard RateLimited fTestNet s pool tx (GetHash tx)
    answers hin
    (accept_true_inputsOk ext.GetSerializeSizeTx GetHash IsStandard fTestNet pool
      nTransactionsUpdated tx answers hacc)

set_option maxRecDepth 100000 in
/-- Claim C17 at `examplePaying`, which pays 1000000 units of fee and is accepted into the
empty pool on top of `exampleChain`. -/
theorem accept_checked_fee_floor_witness :
    accept.inputChecks exampleExternals exampleDb (fun _ _ => true) (fun _ _ => false) false
        exampleChain ⟨[], []⟩ examplePaying (scriptBytes examplePaying) =
      some ⟨false, true, 0, false⟩ ∧
    (CTxMemPool.accept exampleExternals.GetSerializeSizeTx scriptBytes (fun _ => true) false
      ⟨[], []⟩ 0 examplePaying true ⟨false, true, 0, false⟩).fResult = true ∧
    ∃ (tx1 : CTransaction) (mapInputs : MapPrevTx) (fInvalid : Bool) (nValueIn nValueOut : Int),
      examplePaying.FetchInputs exampleDb ⟨[], []⟩ [] false false [] =
        some (true, tx1, mapInputs, fInvalid) ∧
      examplePaying.GetValueIn mapInputs = some nValueIn ∧
      examplePaying.GetValueOut = some nValueOut ∧
      examplePaying.GetMinFee (wrap32u (exampleExternals.GetSerializeSizeTx examplePaying)) true
          GetMinFee_mode.GMF_RELAY ≤ wrap64 (nValueIn - nValueOut) :=
  ⟨by decide, by decide,
    accept_checked_fee_floor exampleExternals exampleDb (fun _ _ => true) (fun _ _ => false)
      scriptBytes (fun _ => true) false exampleChain ⟨[], []⟩ 0 examplePaying
      ⟨false, true, 0, false⟩ (by decide) (by decide)⟩

set_option maxRecDepth 100000 in
/-- Claim C17 fails for a call with `fCheckInputs = false`, as `Reorganize` makes it for
the transactions of disconnected blocks (main.cpp:1777-1779): `exampleSpend` is inserted
into the empty pool, its inputs are in the database, its fee is 50 - 40 = 10 units, and
`GetMinFee(nSize, true, GMF_RELAY)` asks for 5000000 units because of its dust output. -/
theorem accept_unchecked_below_fee_floor :
    (CTxMemPool.accept exampleExternals.GetSerializeSizeTx scriptBytes (fun _ => true) false
      ⟨[], []⟩ 0 exampleSpend false ⟨false, false, 0, false⟩).fResult = true ∧
    (CTxMemPool.accept exampleExternals.GetSerializeSizeTx scriptBytes (fun _ => true) false
      ⟨[], []⟩ 0 exampleSpend false ⟨false, false, 0, false⟩).pool.mapTx.find
        (scriptBytes exampleSpend) = some exampleSpend ∧
    exampleSpend.FetchInputs exampleDb ⟨[], []⟩ [] false false [] =
      some (true, exampleSpend, exampleInputs 0, false) ∧
    exampleSpend.GetValueIn (exampleInputs 0) = some 50 ∧
    exampleSpend.GetValueOut = some 40 ∧
    wrap64 (50 - 40) = 10 ∧
    exampleSpend.GetMinFee (wrap32u (exampleExternals.GetSerializeSizeTx exampleSpend)) true
      GetMinFee_mode.GMF_RELAY = 5000000 := by
  refine ⟨by decide, by decide, rfl, by decide, by decide, by decide, by decide⟩

/-! ## GetNextWorkRequired -/

/-- After fork five on the main network, a retarget whose two walks reach nodes yields
the target time span 9000 and an actual time span between 8823 and 9450. -/
theorem GetNextWorkRequired.timespan_fork_five (s : ChainState) (pLast : Nat) (H : Int)
    (hH : H > nForkFive) (c1 c2 : Nat) (h1 : s.ancestor pLast 100 = some c1)
    (h2 : s.ancestor c1 400 = some c2) :
    ∃ t, GetNextWorkRequired.timespan false s pLast H 20 1800 = some (t, 9000) ∧
      8823 ≤ t ∧ t ≤ 9450 := by
  simp only [nForkFive] at hH
  obtain ⟨q0, hq0⟩ := s.ancestor_le 100 pLast c1 h1 0 (by omega)
  obtain ⟨hlt, _⟩ := (s.ancestor_zero pLast q0).1 hq0
  obtain ⟨n0, hn0⟩ := s.node_of_lt pLast hlt
  obtain ⟨n1, hn1⟩ := s.ancestor_node _ _ _ h1
  obtain ⟨n2, hn2⟩ := s.ancestor_node _ _ _ h2
  have eA : (decide (H ≥ nForkFour) || (false && decide (H ≥ nTestnetForkOne))) = true := by
    simp [nForkFour]; omega
  have e1 : ¬ ((20 : Int) * 5 ≥ H) := by omega
  have e2 : H ≥ nForkOne := by simp only [nForkOne]; omega
  have e3 : H ≥ nForkThree := by simp only [nForkThree]; omega
  have e5 : H ≥ nForkFive ∨ (false = true ∧ H ≥ nTestnetForkTwo) := by
    left; simp only [nForkFive]; omega
  unfold GetNextWorkRequired.timespan
  simp only [eA, if_true, if_neg e1, if_pos e2, if_pos e3, if_pos e5]
  have t1 : ((20 : Int) * 5).toNat = 100 := by decide
  have t2 : ((20 : Int) * 5 * 4).toNat = 400 := by decide
  simp only [t1, t2, h1, h2, ChainState.GetBlockTime, hn0, hn1, hn2, Option.map_some']
  have d1 : Int.tdiv ((9000 : Int) * 100) 102 = 8823 := by decide
  have d2 : Int.tdiv ((9000 : Int) * 105) 100 = 9450 := by decide
  have d3 : (1800 : Int) * 5 = 9000 := by decide
  simp only [d3, d1, d2]
  refine ⟨_, rfl, ?_, ?_⟩
  · split_ifs <;> omega
  · split_ifs <;> omega

/-- Claim C12: on the main network, at a retarget on top of the node `pLast` at a height
above `nForkFive` whose 500 blocks of averaging window exist, `GetNextWorkRequired`
returns the compact form of `old target * t / T`, capped at the proof-of-work limit, where
`T = 9000` and `t` is the limited time span of the code, and
`T * 100 / 105 <= t <= T * 105 / 100`; the lower limit of the code is `T * 100 / 102`,
which is the stricter one. -/
theorem GetNextWorkRequired_clamp_fork_five (SetCompact : Nat → Int) (GetCompact : Int → Nat)
    (s : ChainState) (pLast : Nat) (last : CBlockIndex) (nTime : Nat)
    (hn : s.node pLast = some last) (hh : last.nHeight + 1 > nForkFive)
    (hret : Int.tmod (last.nHeight + 1) 20 = 0)
    (hanc : (s.ancestor pLast 500).isSome = true) :
    ∃ t : Int,
      GetNextWorkRequired.timespan false s pLast (last.nHeight + 1) 20 1800 = some (t, 9000) ∧
      Int.tdiv (9000 * 100) 105 ≤ t ∧ t ≤ Int.tdiv (9000 * 105) 100 ∧
      Int.tdiv (9000 * 100) 102 ≤ t ∧
      GetNextWorkRequired SetCompact GetCompact false s (some pLast) nTime =
        some (GetCompact (min (Int.tdiv (SetCompact last.nBits * t) 9000) bnProofOfWorkLimit)) := by
  obtain ⟨c2, hc2⟩ := Option.isSome_iff_exists.mp hanc
  obtain ⟨c1, h1, h2⟩ := s.ancestor_add 100 400 pLast c2 hc2
  obtain ⟨t, ht, hlo, hhi⟩ :=
    GetNextWorkRequired.timespan_fork_five s pLast (last.nHeight + 1) hh c1 c2 h1 h2
  have d1 : Int.tdiv ((9000 : Int) * 100) 102 = 8823 := by decide
  have d2 : Int.tdiv ((9000 : Int) * 105) 100 = 9450 := by decide
  have d0 : Int.tdiv ((9000 : Int) * 100) 105 = 8571 := by decide
  refine ⟨t, ht, by rw [d0]; omega, by rw [d2]; exact hhi, by rw [d1]; exact hlo, ?_⟩
  simp only [nForkFive] at hh
  have e1 : last.nHeight + 1 ≥ nForkOne := by simp only [nForkOne]; omega
  have e2 : last.nHeight + 1 ≥ nForkTwo := by simp only [nForkTwo]; omega
  have e3 : last.nHeight + 1 ≥ nForkThree ∨ false = true := by
    left; simp only [nForkThree]; omega
  have e4 : last.nHeight + 1 ≥ nForkFour ∨ (false = true ∧ last.nHeight + 1 ≥ nTestnetForkOne) := by
    left; simp only [nForkFour]; omega
  have e5 : ¬ ((last.nHeight + 1 ≥ nForkFive ∨ (false = true ∧ last.nHeight + 1 ≥ nTestnetForkTwo)) ∧
      last.nHeight + 1 = nForkFive) := by
    simp only [nForkFive]; omega
  have ei : Int.tdiv 1800 nTargetSpacingFour = 20 := by decide
  have et : nTargetTimespanFour = 1800 := by decide
  have e6 : ¬ (Int.tmod (last.nHeight + 1) 20 ≠ 0 ∧
      (if false = true then
          decide (last.nHeight + 1 = nTestnetForkOne) || decide (last.nHeight + 1 = nTestnetForkTwo)
        else decide (last.nHeight + 1 = nForkOne) || decide (last.nHeight + 1 = nForkTwo) ||
          decide (last.nHeight + 1 = nForkThree) || decide (last.nHeight + 1 = nForkFour) ||
          decide (last.nHeight + 1 = nForkFive)) = false) := by
    rintro ⟨h, _⟩; exact h hret
  unfold GetNextWorkRequired
  simp only [hn, if_pos e1, if_pos e2, if_pos e3, if_pos e4, if_neg e5, et, ei, if_neg e6, ht]
  congr 2
  by_cases hc : Int.tdiv (SetCompact last.nBits * t) 9000 > bnProofOfWorkLimit
  · rw [if_pos hc, min_eq_right (le_of_lt hc)]
  · rw [if_neg hc, min_eq_left (not_lt.mp hc)]

set_option maxRecDepth 1000000 in
/-- Claim C12 at `exampleRetargetChain`, whose blocks are 30 seconds apart: the retarget
at the height 400020 is limited from below. -/
theorem GetNextWorkRequired_clamp_fork_five_witness :
    ∃ t : Int,
      GetNextWorkRequired.timespan false exampleRetargetChain 500
        (exampleRetargetTip.nHeight + 1) 20 1800 = some (t, 9000) ∧
      Int.tdiv (9000 * 100) 105 ≤ t ∧ t ≤ Int.tdiv (9000 * 105) 100 ∧
      Int.tdiv (9000 * 100) 102 ≤ t ∧
      GetNextWorkRequired (fun n => n) (fun bn => bn.toNat) false exampleRetargetChain
          (some 500) 0 =
        some ((fun bn : Int => bn.toNat)
          (min (Int.tdiv ((fun n : Nat => (n : Int)) exampleRetargetTip.nBits * t) 9000)
            bnProofOfWorkLimit)) :=
  GetNextWorkRequired_clamp_fork_five (fun n => n) (fun bn => bn.toNat) exampleRetargetChain 500
    exampleRetargetTip 0 (by decide) (by decide) (by decide) (by decide)

/-! ## AcceptBlock -/

theorem GetMedianTimePast.times_mem (s : ChainState) :
    ∀ (k : Nat) (p : Option Nat) (l : List Int), GetMedianTimePast.times s k p = some l →
      ∀ x ∈ l, ∃ n ∈ s.vBlockIndex, x = (n.nTime : Int)
  | 0, _, l, h, x, hx => by
      simp only [GetMedianTimePast.times, Option.some.injEq] at h
      subst h; simp at hx
  | _ + 1, none, l, h, x, hx => by
      simp only [GetMedianTimePast.times, Option.some.injEq] at h
      subst h; simp at hx
  | k + 1, some p, l, h, x, hx => by
      simp only [GetMedianTimePast.times] at h
      cases hn : s.node p with
      | none => rw [hn] at h; simp at h
      | some n =>
        rw [hn] at h
        simp only [Option.map_eq_some'] at h
        obtain ⟨l1, hl1, rfl⟩ := h
        rcases List.mem_append.mp hx with hx | hx
        · exact GetMedianTimePast.times_mem s k n.pprev l1 hl1 x hx
        · simp only [List.mem_singleton] at hx
          refine ⟨n, ?_, hx⟩
          unfold ChainState.node at hn
          exact List.mem_iff_getElem?.mpr ⟨p, hn⟩

/-- The median time is 0 or the time of a node, so it fits an `unsigned int` when the
times of all nodes do. -/
theorem ChainState.GetMedianTimePast_range (s : ChainState)
    (htime : ∀ n ∈ s.vBlockIndex, n.nTime < 2 ^ 32) (p : Nat) (m : Int)
    (h : s.GetMedianTimePast p = some m) : 0 ≤ m ∧ m < 2 ^ 32 := by
  unfold ChainState.GetMedianTimePast at h
  simp only [Option.map_eq_some'] at h
  obtain ⟨l, hl, rfl⟩ := h
  by_cases hi : l.length / 2 < (l.insertionSort (fun a b => a ≤ b)).length
  · rw [List.getD_eq_getElem _ _ hi]
    have hmem : (l.insertionSort (fun a b => a ≤ b))[l.length / 2] ∈ l :=
      (List.perm_insertionSort _ l).mem_iff.mp (List.getElem_mem _)
    obtain ⟨n, hn, hx⟩ := GetMedianTimePast.times_mem s 11 (some p) l hl _ hmem
    rw [hx]
    have := htime n hn
    constructor
    · exact Int.natCast_nonneg _
    · exact_mod_cast this
  · rw [List.getD_eq_default _ _ (not_lt.mp hi)]
    constructor <;> norm_num

theorem AcceptBlock.softForkOne_none (nTime nOurTime : Nat) (nMedianTimePast nPrevBlockTime : Int)
    (h : AcceptBlock.softForkOne nTime nOurTime nMedianTimePast nPrevBlockTime = none) :
    nTime ≤ wrap32u (nOurTime + 10 * 60) ∧ (nTime : Int) > nMedianTimePast + BLOCK_LIMITER_TIME ∧
      (nTime : Int) > nPrevBlockTime - 10 * 60 := by
  unfold AcceptBlock.softForkOne at h
  split_ifs at h with h1 h2 h3
  exact ⟨not_lt.mp h1, not_le.mp h2, not_le.mp h3⟩

theorem AcceptBlock.timeRules_true (ext : Externals) (ans : AcceptBlockAnswers)
    (db : DbAnswers) (fTestNet : Bool) (s s1 : ChainState) (b b1 : CBlock) (hash : uint256)
    (pindexPrev : Nat) (prev : CBlockIndex)
    (h : AcceptBlock.timeRules ext ans db fTestNet s b hash pindexPrev prev =
      some (true, b1, s1)) :
    ∃ nMedianTimePast : Int,
      s.GetMedianTimePast pindexPrev = some nMedianTimePast ∧
      ¬ b.nTime ≤ (nMedianTimePast % 2 ^ 32).toNat ∧
      (prev.nHeight + 1 ≥ nSoftForkOne →
        AcceptBlock.softForkOne b.nTime (ext.GetAdjustedTime % 2 ^ 32).toNat nMedianTimePast
          (prev.nTime : Int) = none) := by
  unfold AcceptBlock.timeRules at h
  cases hmed : s.GetMedianTimePast pindexPrev with
  | none => rw [hmed] at h; simp at h
  | some nMedianTimePast =>
    rw [hmed] at h
    simp only at h
    by_cases htime : b.nTime ≤ (nMedianTimePast % 2 ^ 32).toNat
    · rw [if_pos htime] at h; simp [CBlock.DoS] at h
    rw [if_neg htime] at h
    refine ⟨nMedianTimePast, rfl, htime, ?_⟩
    intro hsoft
    have hc : ((fTestNet && decide (prev.nHeight + 1 ≥ nTestnetSoftForkOne)) ||
        decide (prev.nHeight + 1 ≥ nSoftForkOne)) = true := by
      simp [hsoft]
    rw [if_pos hc] at h
    cases hs : AcceptBlock.softForkOne b.nTime (ext.GetAdjustedTime % 2 ^ 32).toNat
        nMedianTimePast (prev.nTime : Int) with
    | none => rfl
    | some n => rw [hs] at h; simp [CBlock.DoS] at h

/-- What a successful call of `AcceptBlock` has checked about the header. -/
theorem AcceptBlock_true (ext : Externals) (ans : AcceptBlockAnswers) (db : DbAnswers)
    (fTestNet : Bool) (s s1 : ChainState) (b b1 : CBlock)
    (h : b.AcceptBlock ext ans db fTestNet s = some (true, b1, s1)) :
    ∃ (pindexPrev : Nat) (prev : CBlockIndex) (nMedianTimePast : Int),
      s.mapBlockIndex.find b.hashPrevBlock = some pindexPrev ∧
      s.node pindexPrev = some prev ∧
      GetNextWorkRequired ext.SetCompact ans.GetCompact fTestNet s (some pindexPrev) b.nTime =
        some b.nBits ∧
      s.GetMedianTimePast pindexPrev = some nMedianTimePast ∧
      ¬ b.nTime ≤ (nMedianTimePast % 2 ^ 32).toNat ∧
      (prev.nHeight + 1 ≥ nSoftForkOne →
        AcceptBlock.softForkOne b.nTime (ext.GetAdjustedTime % 2 ^ 32).toNat nMedianTimePast
          (prev.nTime : Int) = none) := by
  unfold CBlock.AcceptBlock at h
  simp only at h
  by_cases hdup : s.mapBlockIndex.count (ans.GetHash b) ≠ 0
  · rw [if_pos hdup] at h; simp at h
  rw [if_neg hdup] at h
  cases hprev : s.mapBlockIndex.find b.hashPrevBlock with
  | none => rw [hprev] at h; simp [CBlock.DoS] at h
  | some pindexPrev =>
  rw [hprev] at h
  simp only at h
  cases hnode : s.node pindexPrev with
  | none => rw [hnode] at h; simp at h
  | some prev =>
  rw [hnode] at h
  simp only at h
  cases hcb : AcceptBlock.heightInCoinbase ans fTestNet b (prev.nHeight + 1) with
  | none => rw [hcb] at h; simp at h
  | some f =>
  rw [hcb] at h
  cases f with
  | false => simp [CBlock.DoS] at h
  | true =>
  simp only at h
  by_cases hver : ((decide (prev.nHeight + 1 ≥ nForkFive) ||
      (fTestNet && decide (prev.nHeight + 1 ≥ nTestnetForkTwo))) && decide (b.nVersion ≠ 2)) = true
  · rw [if_pos hver] at h; simp [CBlock.DoS] at h
  rw [if_neg hver] at h
  cases hwork : GetNextWorkRequired ext.SetCompact ans.GetCompact fTestNet s (some pindexPrev)
      b.nTime with
  | none => rw [hwork] at h; simp at h
  | some nBitsRequired =>
  rw [hwork] at h
  simp only at h
  by_cases hbits : b.nBits ≠ nBitsRequired
  · rw [if_pos hbits] at h; simp [CBlock.DoS] at h
  rw [if_neg hbits] at h
  obtain ⟨m, hm, ht, hs⟩ := AcceptBlock.timeRules_true ext ans db fTestNet s s1 b b1 _ _ _ h
  refine ⟨pindexPrev, prev, m, rfl, hnode, ?_, hm, ht, hs⟩
  rw [hwork, not_not.mp hbits]

/-- Claim C11: on the main network, with block times that fit an `unsigned int` and a
clock that is not before 1970, `AcceptBlock` returns true only if the parent is in the
block index, `nBits` is what `GetNextWorkRequired(parent, block)` returns, `nTime` is
above the median time past of the parent and, from the height `nSoftForkOne` on, `nTime`
is at most the adjusted time plus 600, above the median plus `BLOCK_LIMITER_TIME` and
above the time of the parent minus 600. -/
theorem AcceptBlock_header_rules (ext : Externals) (ans : AcceptBlockAnswers) (db : DbAnswers)
    (s : ChainState) (b : CBlock)
    (htime : ∀ n ∈ s.vBlockIndex, n.nTime < 2 ^ 32)
    (hclock : 0 ≤ ext.GetAdjustedTime)
    (h : (b.AcceptBlock ext ans db false s).map Prod.fst = some true) :
    ∃ (pindexPrev : Nat) (prev : CBlockIndex) (nMedianTimePast : Int),
      s.mapBlockIndex.find b.hashPrevBlock = some pindexPrev ∧
      s.node pindexPrev = some prev ∧
      GetNextWorkRequired ext.SetCompact ans.GetCompact false s (some pindexPrev) b.nTime =
        some b.nBits ∧
      s.GetMedianTimePast pindexPrev = some nMedianTimePast ∧
      (b.nTime : Int) > nMedianTimePast ∧
      (prev.nHeight + 1 ≥ nSoftForkOne →
        (b.nTime : Int) ≤ ext.GetAdjustedTime + 600 ∧
        (b.nTime : Int) > nMedianTimePast + BLOCK_LIMITER_TIME ∧
        (b.nTime : Int) > (prev.nTime : Int) - 600) := by
  simp only [Option.map_eq_some'] at h
  obtain ⟨⟨f, b1, s1⟩, h, hf⟩ := h
  simp only at hf
  subst hf
  obtain ⟨pindexPrev, prev, m, hprev, hnode, hwork, hmed, ht, hs⟩ :=
    AcceptBlock_true ext ans db false s s1 b b1 h
  obtain ⟨hm0, hm1⟩ := s.GetMedianTimePast_range htime pindexPrev m hmed
  refine ⟨pindexPrev, prev, m, hprev, hnode, hwork, hmed, ?_, ?_⟩
  · rw [Int.emod_eq_of_lt hm0 hm1] at ht
    omega
  · intro hsoft
    obtain ⟨h1, h2, h3⟩ := AcceptBlock.softForkOne_none _ _ _ _ (hs hsoft)
    refine ⟨?_, h2, by omega⟩
    have hw : wrap32u ((ext.GetAdjustedTime % 2 ^ 32).toNat + 10 * 60) ≤
        (ext.GetAdjustedTime % 2 ^ 32).toNat + 10 * 60 := Nat.mod_le _ _
    have hmod : ext.GetAdjustedTime % 2 ^ 32 ≤ ext.GetAdjustedTime := by omega
    have hnn : 0 ≤ ext.GetAdjustedTime % 2 ^ 32 := Int.emod_nonneg _ (by norm_num)
    omega

set_option maxRecDepth 100000 in
/-- Claim C11 at the block `exampleSoftForkBlock` of height 300012, which `AcceptBlock`
accepts on top of `exampleSoftForkChain`. -/
theorem AcceptBlock_header_rules_witness :
    ∃ (pindexPrev : Nat) (prev : CBlockIndex) (nMedianTimePast : Int),
      exampleSoftForkChain.mapBlockIndex.find exampleSoftForkBlock.hashPrevBlock =
        some pindexPrev ∧
      exampleSoftForkChain.node pindexPrev = some prev ∧
      GetNextWorkRequired exampleSoftForkExternals.SetCompact exampleAcceptAnswers.GetCompact
        false exampleSoftForkChain (some pindexPrev) exampleSoftForkBlock.nTime =
        some exampleSoftForkBlock.nBits ∧
      exampleSoftForkChain.GetMedianTimePast pindexPrev = some nMedianTimePast ∧
      (exampleSoftForkBlock.nTime : Int) > nMedianTimePast ∧
      (prev.nHeight + 1 ≥ nSoftForkOne →
        (exampleSoftForkBlock.nTime : Int) ≤ exampleSoftForkExternals.GetAdjustedTime + 600 ∧
        (exampleSoftForkBlock.nTime : Int) > nMedianTimePast + BLOCK_LIMITER_TIME ∧
        (exampleSoftForkBlock.nTime : Int) > (prev.nTime : Int) - 600) :=
  AcceptBlock_header_rules exampleSoftForkExternals exampleAcceptAnswers exampleAnswers
    exampleSoftForkChain exampleSoftForkBlock (by decide) (by decide) (by decide)

/-! ## ProcessBlock -/

theorem CMap.find_append_of_count_zero {K V : Type} [DecidableEq K] (k : K) (v : V) :
    ∀ m : CMap K V, m.find k = none → CMap.find (m ++ [(k, v)]) k = some v
  | [], _ => by simp [CMap.find]
  | (k1, v1) :: rest, h => by
      simp only [CMap.find] at h
      by_cases hk : k1 = k
      · rw [if_pos hk] at h; simp at h
      · rw [if_neg hk] at h
        simp only [List.cons_append, CMap.find, if_neg hk]
        exact CMap.find_append_of_count_zero k v rest h

theorem CMap.find_insert_self {K V : Type} [DecidableEq K] (m : CMap K V) (k : K) (v : V)
    (h : m.count k = 0) : (m.insert k v).find k = some v := by
  unfold CMap.insert
  rw [if_neg (by simp [h])]
  apply CMap.find_append_of_count_zero
  unfold CMap.count at h
  cases hf : m.find k with
  | none => rfl
  | some x => rw [hf] at h; simp at h

/-- The block that `CheckBlock` leaves has the header it was given. -/
theorem CheckBlock_header (ext : Externals) (fCheckPOW fCheckMerkleRoot : Bool) (b : CBlock) :
    (b.CheckBlock ext fCheckPOW fCheckMerkleRoot).2.hashPrevBlock = b.hashPrevBlock ∧
      (b.CheckBlock ext fCheckPOW fCheckMerkleRoot).2.nTime = b.nTime := by
  unfold CBlock.CheckBlock
  split
  · exact ⟨rfl, rfl⟩
  split
  · exact ⟨rfl, rfl⟩
  split
  · exact ⟨rfl, rfl⟩
  split
  · exact ⟨rfl, rfl⟩
  split
  · exact ⟨rfl, rfl⟩
  split
  · exact ⟨rfl, rfl⟩
  simp only
  split
  · exact ⟨rfl, rfl⟩
  split
  · exact ⟨rfl, rfl⟩
  split
  · exact ⟨rfl, rfl⟩
  split
  · split
    · exact ⟨rfl, rfl⟩
    · exact ⟨rfl, rfl⟩
  · exact ⟨rfl, rfl⟩

/-- The result of `ProcessBlock` for a new block that passes `CheckBlock` and the
checkpoint test and whose parent is not in the block index. -/
theorem ProcessBlock_orphan_eq (ext : Externals) (ans : AcceptBlockAnswers) (db : DbAnswers)
    (ban : BanParams) (pcheckpoint : Option Nat) (fTestNet : Bool) (st : BlockState)
    (setBanned : CMap Nat Int) (pfrom : Option CNode) (pblock : CBlock)
    (hnew : st.chain.mapBlockIndex.count (ans.GetHash pblock) = 0)
    (hnewOrphan : st.mapOrphanBlocks.count (ans.GetHash pblock) = 0)
    (hcheck : (pblock.CheckBlock ext true true).1 = true)
    (hcp : ProcessBlock.beforeCheckpoint st.chain pcheckpoint
      (pblock.CheckBlock ext true true).2 = some false)
    (horphan : st.chain.mapBlockIndex.count pblock.hashPrevBlock = 0) :
    ProcessBlock ext ans db ban pcheckpoint fTestNet st setBanned pfrom pblock =
      some (match pfrom with
        | none => ⟨true, (pblock.CheckBlock ext true true).2, none, setBanned, st⟩
        | some peer =>
          ⟨true, (pblock.CheckBlock ext true true).2, some peer, setBanned,
            { st with
              mapOrphanBlocks :=
                st.mapOrphanBlocks.insert (ans.GetHash pblock) (pblock.CheckBlock ext true true).2
              mapOrphanBlocksByPrev :=
                st.mapOrphanBlocksByPrev ++
                  [(pblock.hashPrevBlock, (pblock.CheckBlock ext true true).2)] }⟩) := by
  have hh := (CheckBlock_header ext true true pblock).1
  unfold ProcessBlock
  simp only [hnew, hnewOrphan, ne_eq, not_true_eq_false, if_false, hcheck, Bool.not_true,
    Bool.false_eq_true, hcp, hh, horphan, if_true]
  cases pfrom <;> rfl

/-- The result of `ProcessBlock` for a new block that passes `CheckBlock`, does not build
on the best block, and is older than the last checkpoint. -/
theorem ProcessBlock_old_eq (ext : Externals) (ans : AcceptBlockAnswers) (db : DbAnswers)
    (ban : BanParams) (pc : Nat) (cp : CBlockIndex) (fTestNet : Bool) (st : BlockState)
    (setBanned : CMap Nat Int) (pfrom : Option CNode) (pblock : CBlock)
    (hnew : st.chain.mapBlockIndex.count (ans.GetHash pblock) = 0)
    (hnewOrphan : st.mapOrphanBlocks.count (ans.GetHash pblock) = 0)
    (hcheck : (pblock.CheckBlock ext true true).1 = true)
    (hcp : st.chain.node pc = some cp)
    (hbest : pblock.hashPrevBlock ≠ st.chain.hashBestChain)
    (hold : pblock.nTime < cp.nTime) :
    ProcessBlock ext ans db ban (some pc) fTestNet st setBanned pfrom pblock =
      some (match pfrom with
        | none => ⟨false, (pblock.CheckBlock ext true true).2, none, setBanned, st⟩
        | some peer =>
          ⟨false, (pblock.CheckBlock ext true true).2,
            some (peer.Misbehaving ban setBanned 100).2.1,
            (peer.Misbehaving ban setBanned 100).2.2, st⟩) := by
  obtain ⟨hh, ht⟩ := CheckBlock_header ext true true pblock
  have hb : ProcessBlock.beforeCheckpoint st.chain (some pc)
      (pblock.CheckBlock ext true true).2 = some true := by
    unfold ProcessBlock.beforeCheckpoint
    simp only [hh, ht, ne_eq, hbest, not_false_eq_true, if_true, hcp, Option.map_some',
      Option.some.injEq, decide_eq_true_eq]
    omega
  unfold ProcessBlock
  simp only [hnew, hnewOrphan, ne_eq, not_true_eq_false, if_false, hcheck, Bool.not_true,
    Bool.false_eq_true, hb]
  cases pfrom <;> rfl

/-- Claim C18, as the code has it: for a new block that passes `CheckBlock` and the
checkpoint test and whose parent is not in the block index, `ProcessBlock` returns true
and leaves the block index as it was; with a peer `pfrom` the block, as `CheckBlock` left
it, is afterwards in `mapOrphanBlocks` under its hash and in `mapOrphanBlocksByPrev` under
the hash of its parent, and without a peer the two maps are unchanged. -/
theorem ProcessBlock_orphan_pooled (ext : Externals) (ans : AcceptBlockAnswers)
    (db : DbAnswers) (ban : BanParams) (pcheckpoint : Option Nat) (fTestNet : Bool)
    (st : BlockState) (setBanned : CMap Nat Int) (pfrom : Option CNode) (pblock : CBlock)
    (hnew : st.chain.mapBlockIndex.count (ans.GetHash pblock) = 0)
    (hnewOrphan : st.mapOrphanBlocks.count (ans.GetHash pblock) = 0)
    (hcheck : (pblock.CheckBlock ext true true).1 = true)
    (hcp : ProcessBlock.beforeCheckpoint st.chain pcheckpoint
      (pblock.CheckBlock ext true true).2 = some false)
    (horphan : st.chain.mapBlockIndex.count pblock.hashPrevBlock = 0) :
    ∃ r : ProcessBlockResult,
      ProcessBlock ext ans db ban pcheckpoint fTestNet st setBanned pfrom pblock = some r ∧
      r.fResult = true ∧ r.state.chain = st.chain ∧
      (pfrom ≠ none →
        r.state.mapOrphanBlocks.find (ans.GetHash pblock) =
          some (pblock.CheckBlock ext true true).2 ∧
        (pblock.hashPrevBlock, (pblock.CheckBlock ext true true).2) ∈
          r.state.mapOrphanBlocksByPrev) ∧
      (pfrom = none →
        r.state.mapOrphanBlocks = st.mapOrphanBlocks ∧
        r.state.mapOrphanBlocksByPrev = st.mapOrphanBlocksByPrev) := by
  refine ⟨_, ProcessBlock_orphan_eq ext ans db ban pcheckpoint fTestNet st setBanned pfrom
    pblock hnew hnewOrphan hcheck hcp horphan, ?_⟩
  cases pfrom with
  | none => exact ⟨rfl, rfl, fun h => absurd rfl h, fun _ => ⟨rfl, rfl⟩⟩
  | some peer =>
    refine ⟨rfl, rfl, fun _ => ⟨?_, ?_⟩, fun h => by cases h⟩
    · exact CMap.find_insert_self _ _ _ hnewOrphan
    · simp

set_option maxRecDepth 100000 in
/-- Claim C18 at `exampleBlock`, whose parent 0 is not in the index of `exampleChain`,
sent by `examplePeer`. -/
theorem ProcessBlock_orphan_pooled_witness :
    ∃ r : ProcessBlockResult,
      ProcessBlock exampleExternals exampleAcceptAnswers exampleAnswers exampleBan none false
        ⟨exampleChain, [], []⟩ [] (some examplePeer) exampleBlock = some r ∧
      r.fResult = true ∧ r.state.chain = exampleChain ∧
      (some examplePeer ≠ none →
        r.state.mapOrphanBlocks.find (exampleAcceptAnswers.GetHash exampleBlock) =
          some (exampleBlock.CheckBlock exampleExternals true true).2 ∧
        (exampleBlock.hashPrevBlock, (exampleBlock.CheckBlock exampleExternals true true).2) ∈
          r.state.mapOrphanBlocksByPrev) ∧
      (some examplePeer = none →
        r.state.mapOrphanBlocks = [] ∧ r.state.mapOrphanBlocksByPrev = []) :=
  ProcessBlock_orphan_pooled exampleExternals exampleAcceptAnswers exampleAnswers exampleBan
    none false ⟨exampleChain, [], []⟩ [] (some examplePeer) exampleBlock (by decide)
    (by decide) exampleBlock_CheckBlock rfl (by decide)

set_option maxRecDepth 100000 in
/-- Claim C18 fails without a peer: `exampleBlock` is new, passes `CheckBlock`, there is
no checkpoint, and its parent is not in the index of `exampleChain`; `ProcessBlock` with a
null `pfrom` returns true and stores the block in neither map of orphan blocks. -/
theorem ProcessBlock_orphan_without_peer :
    exampleChain.mapBlockIndex.count (exampleAcceptAnswers.GetHash exampleBlock) = 0 ∧
    (exampleBlock.CheckBlock exampleExternals true true).1 = true ∧
    exampleChain.mapBlockIndex.count exampleBlock.hashPrevBlock = 0 ∧
    ∃ r : ProcessBlockResult,
      ProcessBlock exampleExternals exampleAcceptAnswers exampleAnswers exampleBan none false
        ⟨exampleChain, [], []⟩ [] none exampleBlock = some r ∧
      r.fResult = true ∧
      r.state.mapOrphanBlocks.find (exampleAcceptAnswers.GetHash exampleBlock) = none ∧
      r.state.mapOrphanBlocksByPrev = [] :=
  ⟨by decide, exampleBlock_CheckBlock, by decide,
    _, ProcessBlock_orphan_eq exampleExternals exampleAcceptAnswers exampleAnswers exampleBan
      none false ⟨exampleChain, [], []⟩ [] none exampleBlock (by decide) (by decide)
      exampleBlock_CheckBlock rfl (by decide), rfl, rfl, rfl⟩

theorem exampleEarlyBlock_CheckBlock :
    exampleEarlyBlock.CheckBlock exampleSoftForkExternals true true =
      (true, { exampleEarlyBlock with vMerkleTree := [7] }) := by
  have hm : exampleEarlyBlock.BuildMerkleTree exampleSoftForkExternals.GetHash
      exampleSoftForkExternals.Hash = (7, { exampleEarlyBlock with vMerkleTree := [7] }) := by
    simp only [CBlock.BuildMerkleTree]
    rw [BuildMerkleTree.levels_of_le_one _ _ _ _ (by decide)]
    rfl
  have ht : CheckBlock.transactions exampleSoftForkExternals.GetSerializeSizeTx
      exampleEarlyBlock.vtx = (none, exampleEarlyBlock.vtx) := by
    decide
  have hb : ({ exampleEarlyBlock with vtx := exampleEarlyBlock.vtx } : CBlock) =
      exampleEarlyBlock := rfl
  unfold CBlock.CheckBlock
  rw [if_neg (by decide), if_neg (by decide), if_neg (by decide)]
  simp only [ht, hb, hm]
  decide

theorem CNode.CloseSocketDisconnect_nMisbehavior (pnode : CNode) :
    pnode.CloseSocketDisconnect.nMisbehavior = pnode.nMisbehavior := by
  unfold CNode.CloseSocketDisconnect
  cases pnode.hSocket <;> rfl

/-- For a peer whose address is not local, `Misbehaving` adds `howmuch` to the count. -/
theorem CNode.Misbehaving_nMisbehavior (ban : BanParams) (pnode : CNode)
    (setBanned : CMap Nat Int) (howmuch : Int) (hl : ban.IsLocal pnode.addr = false) :
    (pnode.Misbehaving ban setBanned howmuch).2.1.nMisbehavior =
      wrap32 (pnode.nMisbehavior + howmuch) := by
  unfold CNode.Misbehaving
  simp only [hl, Bool.false_eq_true, if_false]
  by_cases hb : wrap32 (pnode.nMisbehavior + howmuch) ≥ ban.nBanScore
  · rw [if_pos hb]
    exact CNode.CloseSocketDisconnect_nMisbehavior _
  · rw [if_neg hb]

/-- Claim C19, as the code has it: a new block that passes `CheckBlock`, does not name the
best block as its parent, and has a time before that of the last checkpoint in the block
index is rejected: `ProcessBlock` returns false, leaves the block index and the orphan
maps as they were, and calls `Misbehaving(100)` on the peer if there is one, which adds
100 to the misbehaviour count of a peer whose address is not local. -/
theorem ProcessBlock_before_checkpoint (ext : Externals) (ans : AcceptBlockAnswers)
    (db : DbAnswers) (ban : BanParams) (pc : Nat) (cp : CBlockIndex) (fTestNet : Bool)
    (st : BlockState) (setBanned : CMap Nat Int) (pfrom : Option CNode) (pblock : CBlock)
    (hnew : st.chain.mapBlockIndex.count (ans.GetHash pblock) = 0)
    (hnewOrphan : st.mapOrphanBlocks.count (ans.GetHash pblock) = 0)
    (hcheck : (pblock.CheckBlock ext true true).1 = true)
    (hcp : st.chain.node pc = some cp)
    (hbest : pblock.hashPrevBlock ≠ st.chain.hashBestChain)
    (hold : pblock.nTime < cp.nTime) :
    ∃ r : ProcessBlockResult,
      ProcessBlock ext ans db ban (some pc) fTestNet st setBanned pfrom pblock = some r ∧
      r.fResult = false ∧ r.state = st ∧
      r.pfrom = pfrom.map (fun peer => (peer.Misbehaving ban setBanned 100).2.1) ∧
      (∀ peer, pfrom = some peer → ban.IsLocal peer.addr = false →
        ∃ peer1, r.pfrom = some peer1 ∧
          peer1.nMisbehavior = wrap32 (peer.nMisbehavior + 100)) := by
  refine ⟨_, ProcessBlock_old_eq ext ans db ban pc cp fTestNet st setBanned pfrom pblock hnew
    hnewOrphan hcheck hcp hbest hold, ?_⟩
  cases pfrom with
  | none => exact ⟨rfl, rfl, rfl, fun _ h => by cases h⟩
  | some peer =>
    refine ⟨rfl, rfl, rfl, ?_⟩
    intro peer0 hp hl
    cases hp
    exact ⟨_, rfl, CNode.Misbehaving_nMisbehavior ban peer setBanned 100 hl⟩

theorem exampleStaleBlock_CheckBlock :
    (exampleStaleBlock.CheckBlock exampleSoftForkExternals true true).1 = true := by
  have hm : exampleStaleBlock.BuildMerkleTree exampleSoftForkExternals.GetHash
      exampleSoftForkExternals.Hash = (7, { exampleStaleBlock with vMerkleTree := [7] }) := by
    simp only [CBlock.BuildMerkleTree]
    rw [BuildMerkleTree.levels_of_le_one _ _ _ _ (by decide)]
    rfl
  have ht : CheckBlock.transactions exampleSoftForkExternals.GetSerializeSizeTx
      exampleStaleBlock.vtx = (none, exampleStaleBlock.vtx) := by
    decide
  have hb : ({ exampleStaleBlock with vtx := exampleStaleBlock.vtx } : CBlock) =
      exampleStaleBlock := rfl
  unfold CBlock.CheckBlock
  rw [if_neg (by decide), if_neg (by decide), if_neg (by decide)]
  simp only [ht, hb, hm]
  decide

set_option maxRecDepth 100000 in
/-- Claim C19 at `exampleStaleBlock`, sent by `examplePeer`, with the last block of
`exampleSoftForkChain` as the last checkpoint. -/
theorem ProcessBlock_before_checkpoint_witness :
    ∃ r : ProcessBlockResult,
      ProcessBlock exampleSoftForkExternals exampleAcceptAnswers exampleAnswers exampleBan
        (some 11) false ⟨exampleSoftForkChain, [], []⟩ [] (some examplePeer)
        exampleStaleBlock = some r ∧
      r.fResult = false ∧ r.state = ⟨exampleSoftForkChain, [], []⟩ ∧
      r.pfrom = (some examplePeer).map (fun peer => (peer.Misbehaving exampleBan [] 100).2.1) ∧
      (∀ peer, some examplePeer = some peer → exampleBan.IsLocal peer.addr = false →
        ∃ peer1, r.pfrom = some peer1 ∧
          peer1.nMisbehavior = wrap32 (peer.nMisbehavior + 100)) :=
  ProcessBlock_before_checkpoint exampleSoftForkExternals exampleAcceptAnswers exampleAnswers
    exampleBan 11 exampleSoftForkTip false ⟨exampleSoftForkChain, [], []⟩ []
    (some examplePeer) exampleStaleBlock (by decide) (by decide) exampleStaleBlock_CheckBlock
    (by decide) (by decide) (by decide)

set_option maxRecDepth 100000 in
/-- Claim C19 fails for a block on top of the best block: `exampleEarlyBlock` is new,
passes `CheckBlock`, and its time 1500000900 is before the time 1500000990 of the last
checkpoint, the block of node 11; `ProcessBlock` returns true, the block is in the block
index and is the best block, and the peer has the misbehaviour count it had. -/
theorem ProcessBlock_old_block_on_best_chain :
    exampleSoftForkChain.mapBlockIndex.count (exampleAcceptAnswers.GetHash exampleEarlyBlock) = 0 ∧
    (exampleEarlyBlock.CheckBlock exampleSoftForkExternals true true).1 = true ∧
    exampleSoftForkChain.node 11 = some exampleSoftForkTip ∧
    exampleEarlyBlock.nTime < exampleSoftForkTip.nTime ∧
    exampleEarlyBlock.hashPrevBlock = exampleSoftForkChain.hashBestChain ∧
    (ProcessBlock exampleSoftForkExternals exampleAcceptAnswers exampleAnswers exampleBan
        (some 11) false ⟨exampleSoftForkChain, [], []⟩ [] (some examplePeer)
        exampleEarlyBlock).map
      (fun r => (r.fResult, r.pfrom, r.state.chain.hashBestChain,
        r.state.chain.mapBlockIndex.count (exampleAcceptAnswers.GetHash exampleEarlyBlock))) =
      some (true, some examplePeer, exampleAcceptAnswers.GetHash exampleEarlyBlock, 1) := by
  refine ⟨by decide, by rw [exampleEarlyBlock_CheckBlock], by decide, by decide, by decide, ?_⟩
  unfold ProcessBlock
  simp only [exampleEarlyBlock_CheckBlock]
  decide

/-! ## ProcessMessage and ProcessMessages -/

/-- Before any version message, a message with another command is answered by
`Misbehaving(1)` and the flag false, and nothing else. -/
theorem ProcessMessage_before_version (net : MessageParams) (pfrom : CNode)
    (setBanned : CMap Nat Int) (strCommand : String) (vRecv : List Nat)
    (hdrop : net.DropMessage ⟨strCommand, vRecv⟩ = false) (hcmd : strCommand ≠ "version")
    (h0 : pfrom.nVersion = 0) :
    ProcessMessage net pfrom setBanned strCommand vRecv =
      (some false, (pfrom.Misbehaving net.ban setBanned 1).2.1,
        (pfrom.Misbehaving net.ban setBanned 1).2.2) := by
  unfold ProcessMessage
  rw [if_neg (by simp [hdrop]), if_neg hcmd, if_pos h0]

/-- A version message with a version out of range leaves that version in `nVersion`. -/
theorem ProcessMessage_version_out_of_range (net : MessageParams) (pfrom : CNode)
    (setBanned : CMap Nat Int) (vRecv : List Nat) (nVersion : Int) (nServices : Nat)
    (hdrop : net.DropMessage ⟨"version", vRecv⟩ = false) (h0 : pfrom.nVersion = 0)
    (hread : net.ReadVersion vRecv = VersionRead.ok nVersion nServices)
    (hrange : nVersion > net.MAX_PROTOCOL_VERSION ∨ nVersion < net.MIN_PROTOCOL_VERSION) :
    ProcessMessage net pfrom setBanned "version" vRecv =
      (some false,
        { pfrom with nVersion := nVersion, nServices := nServices, fDisconnect := true },
        setBanned) := by
  unfold ProcessMessage
  rw [if_neg (by simp [hdrop]), if_pos rfl, if_neg (by simp [h0]), hread]
  simp only
  rw [if_pos hrange]

/-- After the handshake field `nVersion` is set, a `verack` message runs its handler. -/
theorem ProcessMessage_verack (net : MessageParams) (pfrom : CNode)
    (setBanned : CMap Nat Int) (vRecv : List Nat)
    (hdrop : net.DropMessage ⟨"verack", vRecv⟩ = false) (h0 : pfrom.nVersion ≠ 0) :
    ProcessMessage net pfrom setBanned "verack" vRecv =
      (some true, { pfrom with nRecvVersion := min pfrom.nVersion net.PROTOCOL_VERSION },
        setBanned) := by
  unfold ProcessMessage
  rw [if_neg (by simp [hdrop]), if_neg (by decide), if_neg h0, if_pos rfl]

theorem ProcessMessages.loop_cons (net : MessageParams) (fuel : Nat) (pfrom : CNode)
    (setBanned : CMap Nat Int) (msg : NetMessage) (rest : List NetMessage)
    (hfull : net.SendBufferFull pfrom = false) (hshutdown : net.fShutdown = false)
    (hbuf : pfrom.vRecv = msg :: rest) :
    ProcessMessages.loop net (fuel + 1) pfrom setBanned =
      ProcessMessages.loop net fuel
        (ProcessMessage net { pfrom with vRecv := rest } setBanned msg.strCommand msg.vMsg).2.1
        (ProcessMessage net { pfrom with vRecv := rest } setBanned msg.strCommand msg.vMsg).2.2 := by
  rw [ProcessMessages.loop]
  simp only [hfull, Bool.false_eq_true, if_false, hbuf, hshutdown, Bool.and_false]

theorem ProcessMessages.loop_nil (net : MessageParams) (fuel : Nat) (pfrom : CNode)
    (setBanned : CMap Nat Int) (hbuf : pfrom.vRecv = []) :
    ProcessMessages.loop net (fuel + 1) pfrom setBanned = some (pfrom, setBanned) := by
  rw [ProcessMessages.loop]
  simp only [hbuf]
  split_ifs <;> rfl

/-- Claim C20 fails for a peer whose only version message is out of range: with a receive
buffer that holds a version message with a version `nVersion` outside
`[MIN_PROTOCOL_VERSION, MAX_PROTOCOL_VERSION]` and not 0, followed by a `verack` message,
`ProcessMessages` runs the `verack` handler, which sets the version of the receive stream,
and the misbehaviour count of the peer and the map `setBanned` are what they were. -/
theorem ProcessMessages_verack_after_bad_version (net : MessageParams) (pfrom : CNode)
    (setBanned : CMap Nat Int) (vVersion vVerack : List Nat) (nVersion : Int) (nServices : Nat)
    (hdrop : ∀ msg, net.DropMessage msg = false)
    (hfull : ∀ pnode, net.SendBufferFull pnode = false)
    (hshutdown : net.fShutdown = false)
    (h0 : pfrom.nVersion = 0)
    (hbuf : pfrom.vRecv = [⟨"version", vVersion⟩, ⟨"verack", vVerack⟩])
    (hread : net.ReadVersion vVersion = VersionRead.ok nVersion nServices)
    (hrange : nVersion > net.MAX_PROTOCOL_VERSION ∨ nVersion < net.MIN_PROTOCOL_VERSION)
    (hne : nVersion ≠ 0) :
    ProcessMessages net pfrom setBanned =
      some (true,
        { pfrom with
          vRecv := []
          nVersion := nVersion
          nServices := nServices
          fDisconnect := true
          nRecvVersion := min nVersion net.PROTOCOL_VERSION },
        setBanned) := by
  have h1 := ProcessMessage_version_out_of_range net
    { pfrom with vRecv := [⟨"verack", vVerack⟩] } setBanned vVersion nVersion nServices
    (hdrop _) h0 hread hrange
  have h2 := ProcessMessage_verack net
    { pfrom with
      vRecv := [], nVersion := nVersion, nServices := nServices, fDisconnect := true }
    setBanned vVerack (hdrop _) hne
  unfold ProcessMessages
  rw [hbuf]
  simp only [List.isEmpty_cons, Bool.false_eq_true, if_false, List.length_cons,
    List.length_nil]
  rw [ProcessMessages.loop_cons net _ pfrom setBanned _ _ (hfull _) hshutdown hbuf]
  simp only [h1]
  rw [ProcessMessages.loop_cons net _ _ setBanned ⟨"verack", vVerack⟩ [] (hfull _) hshutdown rfl]
  simp only [h2]
  rw [ProcessMessages.loop_nil net _ _ setBanned rfl]
  rfl

/-- Claim C20 at `exampleEarlyPeer`: a version message with the version 70001, above the
maximum 70000, and then a `verack` message. -/
theorem ProcessMessages_verack_after_bad_version_witness :
    ProcessMessages exampleNet exampleEarlyPeer [] =
      some (true,
        { exampleEarlyPeer with
          vRecv := []
          nVersion := 70001
          nServices := 1
          fDisconnect := true
          nRecvVersion := min 70001 exampleNet.PROTOCOL_VERSION },
        []) :=
  ProcessMessages_verack_after_bad_version exampleNet exampleEarlyPeer [] [70001, 1] [] 70001 1
    (fun _ => rfl) (fun _ => rfl) rfl rfl rfl rfl (Or.inl (by decide)) (by decide)

/-! ## Misbehaving -/

/-- The result of `Misbehaving` for a peer whose address is not local, below the ban
score. -/
theorem CNode.Misbehaving_below (ban : BanParams) (pnode : CNode) (setBanned : CMap Nat Int)
    (howmuch : Int) (hl : ban.IsLocal pnode.addr = false)
    (hb : ¬ wrap32 (pnode.nMisbehavior + howmuch) ≥ ban.nBanScore) :
    pnode.Misbehaving ban setBanned howmuch =
      (false, { pnode with nMisbehavior := wrap32 (pnode.nMisbehavior + howmuch) },
        setBanned) := by
  unfold CNode.Misbehaving
  simp only [hl, Bool.false_eq_true, if_false]
  rw [if_neg hb]

/-- The result of `Misbehaving` for a peer whose address is not local, at or above the ban
score: the flag, the flag `fDisconnect`, and the ban expiry of the address. -/
theorem CNode.Misbehaving_banned (ban : BanParams) (pnode : CNode) (setBanned : CMap Nat Int)
    (howmuch : Int) (hl : ban.IsLocal pnode.addr = false)
    (hb : wrap32 (pnode.nMisbehavior + howmuch) ≥ ban.nBanScore) :
    (pnode.Misbehaving ban setBanned howmuch).1 = true ∧
      (pnode.Misbehaving ban setBanned howmuch).2.1.fDisconnect = true ∧
      (∃ t : Int, (pnode.Misbehaving ban setBanned howmuch).2.2.find pnode.addr = some t ∧
        wrap64 (ban.GetTime + ban.nBanTime) ≤ t ∧
        ∀ t0, setBanned.find pnode.addr = some t0 → t0 ≤ t) ∧
      ∀ a, a ≠ pnode.addr →
        (pnode.Misbehaving ban setBanned howmuch).2.2.find a = setBanned.find a := by
  unfold CNode.Misbehaving
  simp only [hl, Bool.false_eq_true, if_false]
  rw [if_pos hb]
  refine ⟨rfl, ?_, ?_, ?_⟩
  · simp only [CNode.CloseSocketDisconnect]
    cases pnode.hSocket <;> rfl
  · simp only
    by_cases hc : setBanned.count pnode.addr = 0
    · have hnone : setBanned.find pnode.addr = none := by
        unfold CMap.count at hc
        cases hf : setBanned.find pnode.addr with
        | none => rfl
        | some x => rw [hf] at hc; simp at hc
      rw [if_pos hc, CMap.find_set_self]
      simp only [Option.getD_some]
      by_cases hlt : (0 : Int) < wrap64 (ban.GetTime + ban.nBanTime)
      · rw [if_pos hlt, CMap.find_set_self]
        exact ⟨_, rfl, le_refl _, fun t0 h0 => by rw [hnone] at h0; cases h0⟩
      · rw [if_neg hlt, CMap.find_set_self]
        exact ⟨_, rfl, not_lt.mp hlt, fun t0 h0 => by rw [hnone] at h0; cases h0⟩
    · rw [if_neg hc]
      cases hf : setBanned.find pnode.addr with
      | none => unfold CMap.count at hc; rw [hf] at hc; simp at hc
      | some told =>
        simp only [Option.getD_some]
        by_cases hlt : told < wrap64 (ban.GetTime + ban.nBanTime)
        · rw [if_pos hlt, CMap.find_set_self]
          exact ⟨_, rfl, le_refl _, fun t0 h0 => by cases h0; exact le_of_lt hlt⟩
        · rw [if_neg hlt, hf]
          exact ⟨_, rfl, not_lt.mp hlt, fun t0 h0 => by cases h0; exact le_refl _⟩
  · intro a ha
    simp only
    split_ifs <;>
      simp only [CMap.find_set_ne _ _ _ _ (Ne.symm ha)]

/-- Claim C22, as the code has it: for a peer whose address is not local, `Misbehaving`
adds `howmuch` to the misbehaviour count (an `int`); exactly when the new count is at
least the ban score it returns true, and then the peer is marked for disconnection and the
ban expiry of its address is at least the time plus the ban time and at least any expiry
it had, the other addresses keeping theirs; otherwise it returns false, changes nothing
else in the peer and leaves `setBanned` as it was. -/
theorem Misbehaving_ban_threshold (ban : BanParams) (pnode : CNode) (setBanned : CMap Nat Int)
    (howmuch : Int) (hl : ban.IsLocal pnode.addr = false) :
    (pnode.Misbehaving ban setBanned howmuch).2.1.nMisbehavior =
        wrap32 (pnode.nMisbehavior + howmuch) ∧
      ((pnode.Misbehaving ban setBanned howmuch).1 = true ↔
        wrap32 (pnode.nMisbehavior + howmuch) ≥ ban.nBanScore) ∧
      ((pnode.Misbehaving ban setBanned howmuch).1 = true →
        (pnode.Misbehaving ban setBanned howmuch).2.1.fDisconnect = true ∧
        (∃ t : Int, (pnode.Misbehaving ban setBanned howmuch).2.2.find pnode.addr = some t ∧
          wrap64 (ban.GetTime + ban.nBanTime) ≤ t ∧
          ∀ t0, setBanned.find pnode.addr = some t0 → t0 ≤ t) ∧
        ∀ a, a ≠ pnode.addr →
          (pnode.Misbehaving ban setBanned howmuch).2.2.find a = setBanned.find a) ∧
      ((pnode.Misbehaving ban setBanned howmuch).1 = false →
        (pnode.Misbehaving ban setBanned howmuch).2.2 = setBanned ∧
        (pnode.Misbehaving ban setBanned howmuch).2.1 =
          { pnode with nMisbehavior := wrap32 (pnode.nMisbehavior + howmuch) }) := by
  refine ⟨CNode.Misbehaving_nMisbehavior ban pnode setBanned howmuch hl, ?_⟩
  by_cases hb : wrap32 (pnode.nMisbehavior + howmuch) ≥ ban.nBanScore
  · obtain ⟨h1, h2, h3, h4⟩ := CNode.Misbehaving_banned ban pnode setBanned howmuch hl hb
    refine ⟨⟨fun _ => hb, fun _ => h1⟩, fun _ => ⟨h2, h3, h4⟩, fun hf => ?_⟩
    rw [h1] at hf; cases hf
  · have h := CNode.Misbehaving_below ban pnode setBanned howmuch hl hb
    refine ⟨⟨fun ht => ?_, fun hge => absurd hge hb⟩, fun ht => ?_, fun _ => ?_⟩
    · rw [h] at ht; cases ht
    · rw [h] at ht; cases ht
    · rw [h]; exact ⟨rfl, rfl⟩

/-- Claim C22 at `examplePeer` with `exampleBan` and a step of 100, which reaches the ban
score 100. -/
theorem Misbehaving_ban_threshold_witness :
    (examplePeer.Misbehaving exampleBan [] 100).2.1.nMisbehavior =
        wrap32 (examplePeer.nMisbehavior + 100) ∧
      ((examplePeer.Misbehaving exampleBan [] 100).1 = true ↔
        wrap32 (examplePeer.nMisbehavior + 100) ≥ exampleBan.nBanScore) ∧
      ((examplePeer.Misbehaving exampleBan [] 100).1 = true →
        (examplePeer.Misbehaving exampleBan [] 100).2.1.fDisconnect = true ∧
        (∃ t : Int, (examplePeer.Misbehaving exampleBan [] 100).2.2.find examplePeer.addr =
            some t ∧
          wrap64 (exampleBan.GetTime + exampleBan.nBanTime) ≤ t ∧
          ∀ t0, CMap.find ([] : CMap Nat Int) examplePeer.addr = some t0 → t0 ≤ t) ∧
        ∀ a, a ≠ examplePeer.addr →
          (examplePeer.Misbehaving exampleBan [] 100).2.2.find a =
            CMap.find ([] : CMap Nat Int) a) ∧
      ((examplePeer.Misbehaving exampleBan [] 100).1 = false →
        (examplePeer.Misbehaving exampleBan [] 100).2.2 = [] ∧
        (examplePeer.Misbehaving exampleBan [] 100).2.1 =
          { examplePeer with nMisbehavior := wrap32 (examplePeer.nMisbehavior + 100) }) :=
  Misbehaving_ban_threshold exampleBan examplePeer [] 100 rfl

/-- Claim C22 fails for a peer whose address is local: with a step of 100, which reaches
the ban score 100, `Misbehaving` returns false at once; the count of the peer, its flag
`fDisconnect` and the map `setBanned` are what they were. -/
theorem Misbehaving_local_peer :
    exampleLocalBan.IsLocal examplePeer.addr = true ∧
      examplePeer.nMisbehavior + 100 ≥ exampleLocalBan.nBanScore ∧
      examplePeer.Misbehaving exampleLocalBan [] 100 = (false, examplePeer, []) := by
  decide

/-! ## GetBlockHeight -/

theorem GetBlockHeight.copy_none (scriptsig : CScript) :
    ∀ (k i : Nat), 0 < k → scriptsig.length ≤ i + k → GetBlockHeight.copy scriptsig k i = none
  | 0, _, hk, _ => absurd hk (by decide)
  | k + 1, i, _, hlen => by
      unfold GetBlockHeight.copy
      cases hb : scriptsig[i + 1]? with
      | none => rfl
      | some byte =>
        simp only
        have hlt : i + 1 < scriptsig.length := by
          by_contra hge
          rw [List.getElem?_eq_none (not_lt.mp hge)] at hb
          cases hb
        have hk : 0 < k := by omega
        rw [GetBlockHeight.copy_none scriptsig k (i + 1) hk (by omega)]
        rfl

theorem GetBlockHeight_short_script (b : CBlock) (tx0 : CTransaction)
    (rest : List CTransaction) (txin0 : CTxIn) (vrest : List CTxIn) (scount : Nat)
    (hvtx : b.vtx = tx0 :: rest) (hvin : tx0.vin = txin0 :: vrest)
    (h0 : txin0.scriptSig[0]? = some scount) (h4 : scount < 4)
    (hlen : txin0.scriptSig.length ≤ scount) :
    b.GetBlockHeight = none ∧ scount ∈ GetBlockHeight.reads txin0.scriptSig := by
  have hpos : 0 < scount := by
    have : 0 < txin0.scriptSig.length := by
      by_contra hge
      rw [List.getElem?_eq_none (by omega)] at h0
      cases h0
    omega
  constructor
  · unfold CBlock.GetBlockHeight
    rw [hvtx]
    simp only [hvin, h0, if_pos h4]
    rw [GetBlockHeight.copy_none _ scount 0 hpos (by omega)]
    rfl
  · unfold GetBlockHeight.reads
    simp only [h0, if_pos h4, List.mem_cons, List.mem_map, List.mem_range]
    right
    exact ⟨scount - 1, by omega, by omega⟩

/-- Claim C30 fails for every block whose coinbase passes `CheckTransaction` and has an
input script that starts with a byte `scount` below 4 and has at most `scount` bytes:
`GetBlockHeight` reads the index `scount` of the script, which is past its end, and the
call has no defined result. A block without transactions gives -1. -/
theorem GetBlockHeight_reads_past_the_script (GetSerializeSize : CTransaction → Nat)
    (b : CBlock) (tx0 : CTransaction) (rest : List CTransaction) (txin0 : CTxIn)
    (scount : Nat) (hvtx : b.vtx = tx0 :: rest) (hvin : tx0.vin = [txin0])
    (_hcb : tx0.IsCoinBase = true) (_hcheck : (tx0.CheckTransaction GetSerializeSize).1 = true)
    (h0 : txin0.scriptSig[0]? = some scount) (h4 : scount < 4)
    (hlen : txin0.scriptSig.length ≤ scount) :
    scount ∈ GetBlockHeight.reads txin0.scriptSig ∧ txin0.scriptSig.length ≤ scount ∧
    b.GetBlockHeight = none ∧
    ({ b with vtx := [] } : CBlock).GetBlockHeight = some (-1) := by
  obtain ⟨h1, h2⟩ := GetBlockHeight_short_script b tx0 rest txin0 [] scount hvtx hvin h0 h4 hlen
  exact ⟨h2, hlen, h1, rfl⟩

/-- Claim C30 fails for a coinbase script of the two bytes 3 and 0: the coinbase of
`exampleShortBlock` is the only transaction of the block, has one input and passes
`CheckTransaction`, its script has 2 bytes, and `GetBlockHeight` reads the indices 0 to 3
of the script, so the reads at 2 and 3 are past its end. -/
theorem GetBlockHeight_reads_past_the_script_witness :
    exampleShortBlock.vtx = [exampleShortCoinbase] ∧
    exampleShortCoinbase.IsCoinBase = true ∧
    (exampleShortCoinbase.CheckTransaction exampleExternals.GetSerializeSizeTx).1 = true ∧
    GetBlockHeight.reads [3, 0] = [0, 1, 2, 3] ∧
    (3 ∈ GetBlockHeight.reads [3, 0] ∧ ([3, 0] : CScript).length ≤ 3 ∧
      exampleShortBlock.GetBlockHeight = none ∧
      ({ exampleShortBlock with vtx := [] } : CBlock).GetBlockHeight = some (-1)) :=
  ⟨rfl, by decide, by decide, by decide,
    GetBlockHeight_reads_past_the_script exampleExternals.GetSerializeSizeTx exampleShortBlock
      exampleShortCoinbase [] ⟨⟨0, UINT32_MAX⟩, [3, 0], 0⟩ 3 rfl rfl (by decide) (by decide) rfl
      (by decide) (by decide)⟩

/-! ## mruset -/

theorem lastN_length {T : Type} (n : Nat) (l : List T) : (lastN n l).length = min n l.length := by
  unfold lastN
  rw [List.length_drop]
  omega

theorem lastN_snoc_short {T : Type} (n : Nat) (l : List T) (x : T) (h : l.length < n) :
    lastN n (l ++ [x]) = lastN n l ++ [x] := by
  unfold lastN
  have h1 : (l ++ [x]).length - n = 0 := by simp; omega
  have h2 : l.length - n = 0 := by omega
  rw [h1, h2]
  rfl

theorem lastN_snoc_full {T : Type} (n : Nat) (l : List T) (x : T) (hn : 0 < n)
    (h : n ≤ l.length) : lastN n (l ++ [x]) = (lastN n l).tail ++ [x] := by
  unfold lastN
  have h1 : (l ++ [x]).length - n = (l.length - n) + 1 := by simp; omega
  rw [h1, List.tail_drop, List.drop_append_of_le_length (by omega)]

theorem mruset.insert_present {T : Type} [DecidableEq T] (m : mruset T) (x : T)
    (h : x ∈ m.set) : m.insert x = (false, m) := by
  unfold mruset.insert
  rw [if_pos h]

theorem mruset.insert_flag {T : Type} [DecidableEq T] (m : mruset T) (x : T) :
    (m.insert x).1 = true ↔ x ∉ m.set := by
  unfold mruset.insert
  by_cases h : x ∈ m.set
  · rw [if_pos h]; simp [h]
  · rw [if_neg h]
    simp only [h, not_false_eq_true, iff_true]
    split_ifs
    · cases m.queue <;> rfl
    · rfl

theorem mruset.insert_holds {T : Type} [DecidableEq T] (m : mruset T) (N : Nat)
    (acc : List T) (x : T) (hN : 0 < N) (hm : m.Holds N acc) (hx : x ∉ m.set) :
    (m.insert x).2.Holds N (acc ++ [x]) := by
  obtain ⟨hmax, hq, hmem, hsn, hqn⟩ := hm
  have hxq : x ∉ m.queue := fun h => hx ((hmem x).2 h)
  have hlen : m.queue.length = min N acc.length := by rw [hq, lastN_length]
  unfold mruset.insert
  rw [if_neg hx]
  by_cases hfull : m.nMaxSize ≠ 0 ∧ m.queue.length = m.nMaxSize
  · rw [if_pos hfull]
    have hfl : m.queue.length = N := by rw [hfull.2, hmax]
    cases hqc : m.queue with
    | nil => rw [hqc] at hfl; simp at hfl; omega
    | cons front rest =>
      simp only
      rw [hqc] at hqn hxq
      have hfr : front ∉ rest := (List.nodup_cons.mp hqn).1
      have hrn : rest.Nodup := (List.nodup_cons.mp hqn).2
      have hxf : x ≠ front := fun h => hxq (by rw [h]; exact List.mem_cons_self _ _)
      have hxr : x ∉ rest := fun h => hxq (List.mem_cons_of_mem _ h)
      have hs1 : (m.set ++ [x]).Nodup := by
        rw [List.nodup_append]
        exact ⟨hsn, List.nodup_singleton x, by
          intro a ha hb
          rw [List.mem_singleton] at hb
          rw [hb] at ha
          exact hx ha⟩
      refine ⟨hmax, ?_, ?_, hs1.erase front, ?_⟩
      · show rest ++ [x] = lastN N (acc ++ [x])
        rw [lastN_snoc_full N acc x hN (by omega), ← hq, hqc]
        rfl
      · intro y
        show y ∈ (m.set ++ [x]).erase front ↔ y ∈ rest ++ [x]
        rw [hs1.mem_erase_iff, List.mem_append, List.mem_append, hmem y, hqc,
          List.mem_cons, List.mem_singleton]
        constructor
        · rintro ⟨hne, h | h⟩
          · rcases h with h | h
            · exact absurd h hne
            · exact Or.inl h
          · exact Or.inr h
        · rintro (h | h)
          · exact ⟨fun he => hfr (he ▸ h), Or.inl (Or.inr h)⟩
          · exact ⟨fun he => hxf (h ▸ he), Or.inr h⟩
      · show (rest ++ [x]).Nodup
        rw [List.nodup_append]
        exact ⟨hrn, List.nodup_singleton x, by
          intro a ha hb
          rw [List.mem_singleton] at hb
          rw [hb] at ha
          exact hxr ha⟩
  · rw [if_neg hfull]
    have hshort : acc.length < N := by
      by_contra hge
      apply hfull
      constructor
      · omega
      · rw [hlen, hmax]; omega
    refine ⟨hmax, ?_, ?_, ?_, ?_⟩
    · show m.queue ++ [x] = lastN N (acc ++ [x])
      rw [lastN_snoc_short N acc x hshort, hq]
    · intro y
      show y ∈ m.set ++ [x] ↔ y ∈ m.queue ++ [x]
      rw [List.mem_append, List.mem_append, hmem y]
    · show (m.set ++ [x]).Nodup
      rw [List.nodup_append]
      exact ⟨hsn, List.nodup_singleton x, by
        intro a ha hb
        rw [List.mem_singleton] at hb
        rw [hb] at ha
        exact hx ha⟩
    · show (m.queue ++ [x]).Nodup
      rw [List.nodup_append]
      exact ⟨hqn, List.nodup_singleton x, by
        intro a ha hb
        rw [List.mem_singleton] at hb
        rw [hb] at ha
        exact hxq ha⟩

theorem mruset.insertAll_holds {T : Type} [DecidableEq T] (N : Nat) (hN : 0 < N) :
    ∀ (xs : List T) (m : mruset T) (acc : List T), m.Holds N acc →
      (mruset.insertAll m xs).2.Holds N (acc ++ mruset.accepted m xs)
  | [], m, acc, hm => by
      simp only [mruset.insertAll, mruset.accepted, List.append_nil]
      exact hm
  | x :: xs, m, acc, hm => by
      simp only [mruset.insertAll, mruset.accepted]
      by_cases hx : x ∈ m.set
      · rw [mruset.insert_present m x hx]
        simp only [Bool.false_eq_true, if_false]
        exact mruset.insertAll_holds N hN xs m acc hm
      · have hf : (m.insert x).1 = true := (mruset.insert_flag m x).2 hx
        rw [if_pos hf]
        have h1 := mruset.insert_holds m N acc x hN hm hx
        have h2 := mruset.insertAll_holds N hN xs (m.insert x).2 (acc ++ [x]) h1
        rw [List.append_assoc] at h2
        exact h2

/-- Claim C24: `insert(x)` reports true exactly when `x` is not in the container, and a
present element leaves the container as it is; after any sequence of `insert` calls on an
empty `mruset` with a limit `N > 0`, the queue is the last `min(N, k)` of the `k` accepted
elements, oldest first, the set holds exactly these elements, each once, and so the size
is `min(N, k)`. -/
theorem mruset_keeps_most_recent {T : Type} [DecidableEq T] (N : Nat) (hN : 0 < N)
    (xs : List T) :
    (∀ (m : mruset T) (x : T), (m.insert x).1 = true ↔ x ∉ m.set) ∧
    (∀ (m : mruset T) (x : T), x ∈ m.set → (m.insert x).2 = m) ∧
    (mruset.insertAll ⟨[], [], N⟩ xs).2.queue =
      lastN N (mruset.accepted ⟨[], [], N⟩ xs) ∧
    (∀ y, y ∈ (mruset.insertAll ⟨[], [], N⟩ xs).2.set ↔
      y ∈ lastN N (mruset.accepted ⟨[], [], N⟩ xs)) ∧
    (mruset.insertAll ⟨[], [], N⟩ xs).2.set.Nodup ∧
    (mruset.insertAll ⟨[], [], N⟩ xs).2.set.length =
      min N (mruset.accepted ⟨[], [], N⟩ xs).length := by
  have h0 : (⟨[], [], N⟩ : mruset T).Holds N [] :=
    ⟨rfl, by simp [lastN], fun _ => Iff.rfl, List.nodup_nil, List.nodup_nil⟩
  have h := mruset.insertAll_holds N hN xs ⟨[], [], N⟩ [] h0
  rw [List.nil_append] at h
  obtain ⟨_, hq, hmem, hsn, hqn⟩ := h
  refine ⟨mruset.insert_flag, fun m x hx => by rw [mruset.insert_present m x hx], hq,
    fun y => by rw [hmem y, hq], hsn, ?_⟩
  have hperm := (List.perm_ext_iff_of_nodup hsn hqn).2 hmem
  rw [hperm.length_eq, hq, lastN_length]

/-- Claim C24 for the limit 2 and the calls `insert(1)`, `insert(2)`, `insert(1)`,
`insert(3)`, `insert(2)`: the elements 1, 2 and 3 are accepted and 2 and 3 are kept. -/
theorem mruset_keeps_most_recent_witness :
    (∀ (m : mruset Nat) (x : Nat), (m.insert x).1 = true ↔ x ∉ m.set) ∧
    (∀ (m : mruset Nat) (x : Nat), x ∈ m.set → (m.insert x).2 = m) ∧
    (mruset.insertAll ⟨[], [], 2⟩ [1, 2, 1, 3, 2]).2.queue =
      lastN 2 (mruset.accepted ⟨[], [], 2⟩ [1, 2, 1, 3, 2]) ∧
    (∀ y, y ∈ (mruset.insertAll ⟨[], [], 2⟩ [1, 2, 1, 3, 2]).2.set ↔
      y ∈ lastN 2 (mruset.accepted ⟨[], [], 2⟩ [1, 2, 1, 3, 2])) ∧
    (mruset.insertAll ⟨[], [], 2⟩ [1, 2, 1, 3, 2]).2.set.Nodup ∧
    (mruset.insertAll ⟨[], [], 2⟩ [1, 2, 1, 3, 2]).2.set.length =
      min 2 (mruset.accepted ⟨[], [], 2⟩ [1, 2, 1, 3, 2]).length :=
  mruset_keeps_most_recent 2 (by decide) [1, 2, 1, 3, 2]

/-! ## GetMoneySupply -/

theorem wrap32_small (x : Int) (h0 : -(2 ^ 31) ≤ x) (h1 : x < 2 ^ 31) : wrap32 x = x := by
  unfold wrap32
  rw [Int.emod_eq_of_lt (by omega) (by omega)]
  omega

/-- The reward of a mainnet block below the height 4000000, without fees. -/
theorem GetProofOfWorkReward_value (h : Int) (h0 : 0 ≤ h) (h4 : h < 4000000) :
    GetProofOfWorkReward false h 0 =
      some (if h < 74100 then 5000000000
        else if h < 154000 then 2500000000
        else if h < 1000000 then 5000000000
        else if h < 2000000 then 2500000000
        else if h < 3000000 then 1250000000
        else 625000000) := by
  have hdiv : Int.tdiv h 1000000 = h / 1000000 := by
    rw [Int.tdiv_eq_ediv] <;> omega
  unfold GetProofOfWorkReward shr64
  simp only [hdiv, COIN, nForkThree, nForkFour, nTestnetForkOne, Bool.false_and,
    Bool.or_false, Bool.and_eq_true, decide_eq_true_eq, ge_iff_le]
  have hq : 0 ≤ h / 1000000 ∧ h / 1000000 < 64 := by omega
  rw [if_pos hq]
  simp only [Option.map_some', Option.some.injEq]
  by_cases c1 : h < 74100
  · have : h / 1000000 = 0 := by omega
    rw [this, if_neg (by omega), if_pos c1]; decide
  rw [if_neg c1]
  by_cases c2 : h < 154000
  · have : h / 1000000 = 0 := by omega
    rw [this, if_pos (by omega), if_pos c2]; decide
  rw [if_neg c2]
  by_cases c3 : h < 1000000
  · have : h / 1000000 = 0 := by omega
    rw [this, if_neg (by omega), if_pos c3]; decide
  rw [if_neg c3]
  by_cases c4 : h < 2000000
  · have : h / 1000000 = 1 := by omega
    rw [this, if_neg (by omega), if_pos c4]; decide
  rw [if_neg c4]
  by_cases c5 : h < 3000000
  · have : h / 1000000 = 2 := by omega
    rw [this, if_neg (by omega), if_pos c5]; decide
  rw [if_neg c5]
  have : h / 1000000 = 3 := by omega
  rw [this, if_neg (by omega)]; decide

/-- The mainnet money supply below the height 4000000 without the machine arithmetic. -/
theorem GetMoneySupply_value (h : Int) (h0 : 0 ≤ h) (h4 : h < 4000000) :
    GetMoneySupply false h =
      if h < 74100 then (h + 1) * 5000000000
      else if h < 154000 then 370500000000000 + (h - 74100 + 1) * 2500000000
      else if h < 1000000 then 570250000000000 + (h - 154000 + 1) * 5000000000
      else if h < 2000000 then 4800250000000000 + (h - 1000000 + 1) * 2500000000
      else if h < 3000000 then 7300250000000000 + (h - 2000000 + 1) * 1250000000
      else 8550250000000000 + (h - 3000000 + 1) * 625000000 := by
  unfold GetMoneySupply
  simp only [Bool.not_false, if_true, COIN, nForkThree, nForkFour]
  by_cases c1 : h < 74100
  · rw [if_pos c1, if_pos c1, wrap32_small _ (by omega) (by omega),
      wrap64_small _ (by omega) (by omega)]
    ring
  rw [if_neg c1, if_neg c1]
  by_cases c2 : h < 154000
  · rw [if_pos c2, if_pos c2, wrap32_small _ (by omega) (by omega),
      wrap64_small _ (by omega) (by omega)]
    ring
  rw [if_neg c2, if_neg c2]
  by_cases c3 : h < 1000000
  · rw [if_pos c3, if_pos c3, wrap32_small _ (by omega) (by omega),
      wrap64_small _ (by omega) (by omega)]
    ring
  rw [if_neg c3, if_neg c3]
  by_cases c4 : h < 2000000
  · rw [if_pos c4, if_pos c4, wrap32_small _ (by omega) (by omega),
      wrap64_small _ (by omega) (by omega)]
    ring
  rw [if_neg c4, if_neg c4]
  by_cases c5 : h < 3000000
  · rw [if_pos c5, if_pos c5, wrap32_small _ (by omega) (by omega),
      wrap64_small ((h - 2000000 + 1) * 25 * 100000000) (by omega) (by omega)]
    have hd : Int.tdiv ((h - 2000000 + 1) * 25 * 100000000) 2 =
        (h - 2000000 + 1) * 1250000000 := by
      rw [Int.tdiv_eq_ediv] <;> omega
    rw [hd, wrap64_small _ (by omega) (by omega)]
    have hc : Int.tdiv ((2000000 - 1000000) * 25 * 100000000) 2 = 1250000000000000 := by decide
    omega
  rw [if_neg c5, if_neg c5, if_pos h4, wrap32_small _ (by omega) (by omega),
    wrap64_small ((h - 3000000 + 1) * 25 * 100000000) (by omega) (by omega)]
  have hd : Int.tdiv ((h - 3000000 + 1) * 25 * 100000000) 4 =
      (h - 3000000 + 1) * 625000000 := by
    rw [Int.tdiv_eq_ediv] <;> omega
  have hc : Int.tdiv ((3000000 - 2000000) * 25 * 100000000) 2 = 1250000000000000 := by decide
  rw [hd, hc, wrap64_small _ (by omega) (by omega)]
  omega

/-- Claim C29: on the main network, for every height `h` below 4000000, `GetMoneySupply(h)`
is the sum over `i = 0..h` of `GetProofOfWorkReward(i, 0)`. -/
theorem GetMoneySupply_sum_of_subsidies (h : Nat) (h4 : h < 4000000) :
    sumOfSubsidies false h = some (GetMoneySupply false (h : Int)) := by
  induction h with
  | zero =>
    unfold sumOfSubsidies
    rw [GetProofOfWorkReward_value 0 (le_refl _) (by norm_num),
      GetMoneySupply_value _ (by norm_num) (by norm_num)]
    norm_num
  | succ k ih =>
    have hk := ih (by omega)
    unfold sumOfSubsidies
    rw [hk, GetProofOfWorkReward_value ((k : Int) + 1) (by omega) (by omega)]
    simp only [Option.some.injEq]
    rw [GetMoneySupply_value (k : Int) (by omega) (by omega)]
    have hc : ((k + 1 : Nat) : Int) = (k : Int) + 1 := by push_cast; rfl
    rw [hc, GetMoneySupply_value ((k : Int) + 1) (by omega) (by omega)]
    split_ifs <;> omega

/-- Claim C29 at the height 1000000, the first block of the first halving. -/
theorem GetMoneySupply_sum_of_subsidies_witness :
    sumOfSubsidies false 1000000 = some (GetMoneySupply false ((1000000 : Nat) : Int)) :=
  GetMoneySupply_sum_of_subsidies 1000000 (by decide)

/-! ## GetNextWorkRequired in parts -/

/-- The time span of the code is the limiter applied to the time span before it. -/
theorem GetNextWorkRequired.timespan_eq (fTestNet : Bool) (s : ChainState) (pindexLast : Nat)
    (nHeight nInterval nTargetTimespan : Int) :
    GetNextWorkRequired.timespan fTestNet s pindexLast nHeight nInterval nTargetTimespan =
      (GetNextWorkRequired.unclamped fTestNet s pindexLast nHeight nInterval
        nTargetTimespan).map fun r =>
          (GetNextWorkRequired.clamp fTestNet nHeight r.1 r.2, r.2) := by
  unfold GetNextWorkRequired.timespan GetNextWorkRequired.unclamped GetNextWorkRequired.clamp
  simp only
  cases s.ancestor pindexLast
      (if (if (decide (nHeight ≥ nForkFour) || (fTestNet && decide (nHeight ≥ nTestnetForkOne))) = true
          then nInterval * 5 else nInterval) ≥ nHeight then nHeight - 1
        else if (decide (nHeight ≥ nForkFour) || (fTestNet && decide (nHeight ≥ nTestnetForkOne))) = true
          then nInterval * 5 else nInterval).toNat with
  | none => rfl
  | some pindexFirst =>
    simp only
    cases s.GetBlockTime pindexLast with
    | none => rfl
    | some nTimeLast =>
      cases s.GetBlockTime pindexFirst with
      | none => rfl
      | some nTimeFirst =>
        simp only
        by_cases hA : (decide (nHeight ≥ nForkFour) || (fTestNet && decide (nHeight ≥ nTestnetForkOne))) = true
        · simp only [hA, if_true]
          cases s.ancestor pindexFirst _ with
          | none => rfl
          | some pindexFirst1 =>
            simp only
            cases s.GetBlockTime pindexFirst1 with
            | none => rfl
            | some nTimeFirst1 => rfl
        · simp only [hA, Bool.false_eq_true, if_false]
          rfl

/-- The function `GetNextWorkRequired` in terms of its parts. -/
theorem GetNextWorkRequired_eq (SetCompact : Nat → Int) (GetCompact : Int → Nat)
    (fTestNet : Bool) (s : ChainState) (pLast : Nat) (last : CBlockIndex) (nTime : Nat)
    (hn : s.node pLast = some last)
    (hfive : ¬ ((last.nHeight + 1 ≥ nForkFive ∨
      (fTestNet = true ∧ last.nHeight + 1 ≥ nTestnetForkTwo)) ∧ last.nHeight + 1 = nForkFive))
    (hret : ¬ GetNextWorkRequired.regular fTestNet (last.nHeight + 1)
      (Int.tdiv (GetNextWorkRequired.targets fTestNet (last.nHeight + 1)).2
        (GetNextWorkRequired.targets fTestNet (last.nHeight + 1)).1)) :
    GetNextWorkRequired SetCompact GetCompact fTestNet s (some pLast) nTime =
      (GetNextWorkRequired.timespan fTestNet s pLast (last.nHeight + 1)
        (Int.tdiv (GetNextWorkRequired.targets fTestNet (last.nHeight + 1)).2
          (GetNextWorkRequired.targets fTestNet (last.nHeight + 1)).1)
        (GetNextWorkRequired.targets fTestNet (last.nHeight + 1)).2).map fun r =>
          GetCompact (min (Int.tdiv (SetCompact last.nBits * r.1) r.2) bnProofOfWorkLimit) := by
  unfold GetNextWorkRequired.regular GetNextWorkRequired.targets at hret
  unfold GetNextWorkRequired GetNextWorkRequired.targets
  simp only [hn]
  simp only at hret
  rw [if_neg hfive, if_neg hret]
  cases GetNextWorkRequired.timespan fTestNet s pLast (last.nHeight + 1) _ _ with
  | none => rfl
  | some r =>
    obtain ⟨t, T⟩ := r
    simp only [Option.map_some', Option.some.injEq]
    congr 1
    by_cases hc : Int.tdiv (SetCompact last.nBits * t) T > bnProofOfWorkLimit
    · rw [if_pos hc, min_eq_right (le_of_lt hc)]
    · rw [if_neg hc, min_eq_left (not_lt.mp hc)]

/-! ## Averaging and damping -/

theorem exampleLinearChain_node (n : Nat) (nHeight0 : Int) (nTime0 nSpacing : Nat) (i : Nat)
    (hi : i < n) :
    (exampleLinearChain n nHeight0 nTime0 nSpacing).node i =
      some (exampleLinearNode n nHeight0 nTime0 nSpacing i) := by
  unfold ChainState.node exampleLinearChain
  simp only [List.getElem?_map, List.getElem?_range hi, Option.map_some']

theorem exampleLinearChain_length (n : Nat) (nHeight0 : Int) (nTime0 nSpacing : Nat) :
    (exampleLinearChain n nHeight0 nTime0 nSpacing).vBlockIndex.length = n := by
  simp [exampleLinearChain]

theorem exampleLinearChain_ancestor (n : Nat) (nHeight0 : Int) (nTime0 nSpacing : Nat) :
    ∀ (k p : Nat), k ≤ p → p < n →
      (exampleLinearChain n nHeight0 nTime0 nSpacing).ancestor p k = some (p - k)
  | 0, p, _, hp => by
      rw [ChainState.ancestor_zero]
      exact ⟨by rw [exampleLinearChain_length]; exact hp, rfl⟩
  | k + 1, p, hk, hp => by
      rw [ChainState.ancestor_succ]
      refine ⟨_, p - 1, exampleLinearChain_node n nHeight0 nTime0 nSpacing p hp, ?_, ?_⟩
      · simp only [exampleLinearNode]
        rw [if_neg (by omega)]
      · rw [exampleLinearChain_ancestor n nHeight0 nTime0 nSpacing k (p - 1) (by omega)
          (by omega)]
        congr 1
        omega

/-- On the main network the walks of a retarget stay on the chain when the chain reaches
back far enough, and the time span before the limiter has a value. -/
theorem GetNextWorkRequired.unclamped_some (s : ChainState) (pLast : Nat) (last : CBlockIndex)
    (H nInterval nTargetTimespan : Int) (hn : s.node pLast = some last) (hH : 1 ≤ H)
    (hanc : ∀ j : Nat, (j : Int) ≤ H - 1 → ∃ c, s.ancestor pLast j = some c)
    (hI : 0 < nInterval) (havg : H ≥ nForkFour → nInterval * 25 ≤ H - 1) :
    ∃ t : Int, GetNextWorkRequired.unclamped false s pLast H nInterval nTargetTimespan =
      some (t, if H ≥ nForkFour then nTargetTimespan * 5 else nTargetTimespan) := by
  unfold GetNextWorkRequired.unclamped
  by_cases hA : H ≥ nForkFour
  · have eA : (decide (H ≥ nForkFour) || (false && decide (H ≥ nTestnetForkOne))) = true := by
      simp [hA]
    have h25 := havg hA
    have e1 : ¬ (nInterval * 5 ≥ H) := by omega
    simp only [eA, if_true, if_neg e1, if_pos hA]
    obtain ⟨c2, hc2⟩ := hanc ((nInterval * 5).toNat + (nInterval * 5 * 4).toNat) (by omega)
    obtain ⟨c1, hc1, hc12⟩ := s.ancestor_add _ _ pLast c2 hc2
    obtain ⟨n1, hn1⟩ := s.ancestor_node _ _ _ hc1
    obtain ⟨n2, hn2⟩ := s.ancestor_node _ _ _ hc2
    simp only [hc1, hc12, ChainState.GetBlockTime, hn, hn1, hn2, Option.map_some']
    exact ⟨_, rfl⟩
  · have eA : (decide (H ≥ nForkFour) || (false && decide (H ≥ nTestnetForkOne))) = false := by
      simp [hA]
    simp only [eA, Bool.false_eq_true, if_false, if_neg hA]
    obtain ⟨c1, hc1⟩ := hanc (if nInterval ≥ H then H - 1 else nInterval).toNat (by
      split_ifs <;> omega)
    obtain ⟨n1, hn1⟩ := s.ancestor_node _ _ _ hc1
    simp only [hc1, ChainState.GetBlockTime, hn, hn1, Option.map_some']
    exact ⟨_, rfl⟩

/-- The targets of the main network: the spacing, the time span and the interval between
retargets are positive, and from fork four on the extended window of 25 intervals is
shorter than the chain. -/
theorem GetNextWorkRequired.targets_mainnet (H : Int) :
    0 < (GetNextWorkRequired.targets false H).1 ∧
      0 < (GetNextWorkRequired.targets false H).2 ∧
      0 < Int.tdiv (GetNextWorkRequired.targets false H).2
        (GetNextWorkRequired.targets false H).1 ∧
      (H ≥ nForkFour →
        Int.tdiv (GetNextWorkRequired.targets false H).2
          (GetNextWorkRequired.targets false H).1 * 25 ≤ H - 1) := by
  unfold GetNextWorkRequired.targets
  simp only [Bool.false_eq_true, or_false, false_and]
  by_cases h4 : H ≥ nForkFour
  · simp only [if_pos h4]
    refine ⟨by decide, by decide, by decide, fun _ => ?_⟩
    have : Int.tdiv nTargetTimespanFour nTargetSpacingFour = 20 := by decide
    rw [this]
    simp only [nForkFour] at h4
    omega
  simp only [if_neg h4]
  by_cases h3 : H ≥ nForkThree
  · simp only [if_pos h3]
    exact ⟨by decide, by decide, by decide, fun h => absurd h h4⟩
  simp only [if_neg h3]
  by_cases h2 : H ≥ nForkTwo
  · simp only [if_pos h2]
    exact ⟨by decide, by decide, by decide, fun h => absurd h h4⟩
  simp only [if_neg h2]
  by_cases h1 : H ≥ nForkOne
  · simp only [if_pos h1]
    exact ⟨by decide, by decide, by decide, fun h => absurd h h4⟩
  simp only [if_neg h1]
  exact ⟨by decide, by decide, by decide, fun h => absurd h h4⟩

/-- Claim C28: on the main network, for a block `last` of a height `h - 1 >= 0` whose
chain of `pprev` pointers is `h - 1` blocks deep, `GetNextWorkRequired` for the height `h`
uses a target spacing, a target time span and an interval between retargets that are not
0, at a retarget both walks along `pprev` end at a node, so that the time span has a
value and its final `nTargetTimespan` is not 0, and the function returns a value. -/
theorem GetNextWorkRequired_window_on_chain (SetCompact : Nat → Int) (GetCompact : Int → Nat)
    (s : ChainState) (pLast : Nat) (last : CBlockIndex) (nTime : Nat)
    (hn : s.node pLast = some last) (h0 : 0 ≤ last.nHeight)
    (hroot : (s.ancestor pLast last.nHeight.toNat).isSome = true) :
    (GetNextWorkRequired.targets false (last.nHeight + 1)).1 ≠ 0 ∧
    (GetNextWorkRequired.targets false (last.nHeight + 1)).2 ≠ 0 ∧
    Int.tdiv (GetNextWorkRequired.targets false (last.nHeight + 1)).2
      (GetNextWorkRequired.targets false (last.nHeight + 1)).1 ≠ 0 ∧
    (∃ t T : Int,
      GetNextWorkRequired.timespan false s pLast (last.nHeight + 1)
        (Int.tdiv (GetNextWorkRequired.targets false (last.nHeight + 1)).2
          (GetNextWorkRequired.targets false (last.nHeight + 1)).1)
        (GetNextWorkRequired.targets false (last.nHeight + 1)).2 = some (t, T) ∧ T ≠ 0) ∧
    (GetNextWorkRequired SetCompact GetCompact false s (some pLast) nTime).isSome = true := by
  obtain ⟨hS, hT, hI, h25⟩ := GetNextWorkRequired.targets_mainnet (last.nHeight + 1)
  obtain ⟨croot, hcroot⟩ := Option.isSome_iff_exists.mp hroot
  have hanc : ∀ j : Nat, (j : Int) ≤ last.nHeight + 1 - 1 →
      ∃ c, s.ancestor pLast j = some c := by
    intro j hj
    exact s.ancestor_le _ pLast croot hcroot j (by omega)
  obtain ⟨t, ht⟩ := GetNextWorkRequired.unclamped_some s pLast last (last.nHeight + 1) _
    (GetNextWorkRequired.targets false (last.nHeight + 1)).2 hn (by omega) hanc hI h25
  have hts := GetNextWorkRequired.timespan_eq false s pLast (last.nHeight + 1)
    (Int.tdiv (GetNextWorkRequired.targets false (last.nHeight + 1)).2
      (GetNextWorkRequired.targets false (last.nHeight + 1)).1)
    (GetNextWorkRequired.targets false (last.nHeight + 1)).2
  rw [ht] at hts
  simp only [Option.map_some'] at hts
  have hT1 : (if last.nHeight + 1 ≥ nForkFour then
      (GetNextWorkRequired.targets false (last.nHeight + 1)).2 * 5
      else (GetNextWorkRequired.targets false (last.nHeight + 1)).2) ≠ 0 := by
    split_ifs <;> omega
  refine ⟨by omega, by omega, by omega, ⟨_, _, hts, hT1⟩, ?_⟩
  by_cases hfive : (last.nHeight + 1 ≥ nForkFive ∨
      (false = true ∧ last.nHeight + 1 ≥ nTestnetForkTwo)) ∧ last.nHeight + 1 = nForkFive
  · unfold GetNextWorkRequired
    simp only [hn]
    rw [if_pos hfive]
    rfl
  by_cases hreg : GetNextWorkRequired.regular false (last.nHeight + 1)
      (Int.tdiv (GetNextWorkRequired.targets false (last.nHeight + 1)).2
        (GetNextWorkRequired.targets false (last.nHeight + 1)).1)
  · unfold GetNextWorkRequired.regular GetNextWorkRequired.targets at hreg
    unfold GetNextWorkRequired
    simp only [hn]
    simp only at hreg
    rw [if_neg hfive, if_pos hreg]
    rfl
  · rw [GetNextWorkRequired_eq SetCompact GetCompact false s pLast last nTime hn hfive hreg,
      hts]
    rfl

/-- Claim C28 at a chain of 2400 blocks from the height 0 on: the first retarget, at the
height 2400, walks back 2399 blocks to the first block. -/
theorem GetNextWorkRequired_window_on_chain_witness :
    (GetNextWorkRequired.targets false
      ((exampleLinearNode 2400 0 1500000000 90 2399).nHeight + 1)).1 ≠ 0 ∧
    (GetNextWorkRequired.targets false
      ((exampleLinearNode 2400 0 1500000000 90 2399).nHeight + 1)).2 ≠ 0 ∧
    Int.tdiv (GetNextWorkRequired.targets false
        ((exampleLinearNode 2400 0 1500000000 90 2399).nHeight + 1)).2
      (GetNextWorkRequired.targets false
        ((exampleLinearNode 2400 0 1500000000 90 2399).nHeight + 1)).1 ≠ 0 ∧
    (∃ t T : Int,
      GetNextWorkRequired.timespan false (exampleLinearChain 2400 0 1500000000 90) 2399
        ((exampleLinearNode 2400 0 1500000000 90 2399).nHeight + 1)
        (Int.tdiv (GetNextWorkRequired.targets false
            ((exampleLinearNode 2400 0 1500000000 90 2399).nHeight + 1)).2
          (GetNextWorkRequired.targets false
            ((exampleLinearNode 2400 0 1500000000 90 2399).nHeight + 1)).1)
        (GetNextWorkRequired.targets false
          ((exampleLinearNode 2400 0 1500000000 90 2399).nHeight + 1)).2 = some (t, T) ∧
        T ≠ 0) ∧
    (GetNextWorkRequired (fun n => n) (fun bn => bn.toNat) false
      (exampleLinearChain 2400 0 1500000000 90) (some 2399) 0).isSome = true :=
  GetNextWorkRequired_window_on_chain (fun n => n) (fun bn => bn.toNat)
    (exampleLinearChain 2400 0 1500000000 90) 2399
    (exampleLinearNode 2400 0 1500000000 90 2399) 0
    (exampleLinearChain_node 2400 0 1500000000 90 2399 (by decide)) (by decide)
    (by
      show ((exampleLinearChain 2400 0 1500000000 90).ancestor 2399 2399).isSome = true
      rw [exampleLinearChain_ancestor 2400 0 1500000000 90 2399 2399 (by decide) (by decide)]
      rfl)

/-! ## The fork of a reorganisation -/

theorem Reorganize.descend_spec (s : ChainState) (hl : s.HeightsLinked) (pn : Nat)
    (nn : CBlockIndex) (hpn : s.node pn = some nn) (jS fS : Nat) (nfS : CBlockIndex)
    (hj : s.ancestor pn jS = some fS) (hnf : s.node fS = some nfS) (hF : Int)
    (hhF : nfS.nHeight ≤ hF) :
    ∀ (d y py fuel : Nat), jS - y ≤ d → y ≤ jS → s.ancestor pn y = some py → d ≤ fuel →
      ∃ (y1 py1 : Nat) (npy1 : CBlockIndex), y ≤ y1 ∧ y1 ≤ jS ∧
        s.ancestor pn y1 = some py1 ∧ s.node py1 = some npy1 ∧ npy1.nHeight ≤ hF ∧
        Reorganize.descend s hF fuel py = some (some py1) := by
  have hhS := s.ancestor_height hl jS pn fS nn nfS hj hpn hnf
  intro d
  induction d with
  | zero =>
    intro y py fuel hd hy hy1 _
    have hyj : y = jS := by omega
    subst hyj
    rw [hj] at hy1
    cases hy1
    refine ⟨y, fS, nfS, le_refl _, le_refl _, hj, hnf, hhF, ?_⟩
    rw [Reorganize.descend]
    simp only [hnf]
    rw [if_neg (by omega)]
  | succ d1 ih =>
    intro y py fuel hd hy hy1 hfuel
    obtain ⟨npy, hnpy⟩ := s.ancestor_node _ _ _ hy1
    have hh := s.ancestor_height hl y pn py nn npy hy1 hpn hnpy
    by_cases hgt : npy.nHeight > hF
    · have hlt : y < jS := by
        by_contra hge
        have hyj : y = jS := by omega
        subst hyj
        rw [hj] at hy1
        cases hy1
        rw [hnf] at hnpy
        cases hnpy
        omega
      obtain ⟨q, hq⟩ := s.ancestor_le jS pn fS hj (y + 1) (by omega)
      obtain ⟨c, nc, hc, hnc, hpq⟩ := s.ancestor_succ_end y pn q hq
      rw [hy1] at hc
      cases hc
      rw [hnpy] at hnc
      cases hnc
      obtain ⟨fuel1, rfl⟩ : ∃ f1, fuel = f1 + 1 := ⟨fuel - 1, by omega⟩
      obtain ⟨y1, py1, npy1, h1, h2, h3, h4, h5, h6⟩ :=
        ih (y + 1) q fuel1 (by omega) (by omega) hq (by omega)
      refine ⟨y1, py1, npy1, by omega, h2, h3, h4, h5, ?_⟩
      rw [Reorganize.descend]
      simp only [hnpy, hpq]
      rw [if_pos hgt]
      exact h6
    · refine ⟨y, py, npy, le_refl _, hy, hy1, hnpy, not_lt.mp hgt, ?_⟩
      rw [Reorganize.descend]
      simp only [hnpy]
      rw [if_neg hgt]

theorem Reorganize.findFork_spec (s : ChainState) (hl : s.HeightsLinked) (pb pn : Nat)
    (nb nn : CBlockIndex) (hpb : s.node pb = some nb) (hpn : s.node pn = some nn)
    (iS jS fS : Nat) (hi : s.ancestor pb iS = some fS) (hj : s.ancestor pn jS = some fS)
    (hmin : ∀ a i j, s.ancestor pb i = some a → s.ancestor pn j = some a → iS ≤ i) :
    ∀ (d x px y py fuel : Nat), iS - x ≤ d → x ≤ iS → y ≤ jS → s.ancestor pb x = some px →
      s.ancestor pn y = some py → d ≤ fuel →
      Reorganize.findFork s fuel px py = some (some fS) := by
  obtain ⟨nfS, hnf⟩ := s.ancestor_node _ _ _ hi
  have hhS := s.ancestor_height hl iS pb fS nb nfS hi hpb hnf
  have hhSn := s.ancestor_height hl jS pn fS nn nfS hj hpn hnf
  have hjlen := s.ancestor_lt_length hl pn jS fS hj
  have hcommon : ∀ x px y, x ≤ iS → s.ancestor pb x = some px → s.ancestor pn y = some px →
      px = fS := by
    intro x px y hx h1 h2
    have := hmin px x y h1 h2
    have hxe : x = iS := by omega
    subst hxe
    rw [hi] at h1
    cases h1
    rfl
  intro d
  induction d with
  | zero =>
    intro x px y py fuel hd hx hy h1 h2 _
    have hxe : x = iS := by omega
    subst hxe
    rw [hi] at h1
    cases h1
    rw [Reorganize.findFork]
    by_cases hne : fS ≠ py
    · rw [if_pos hne]
      simp only [hnf]
      obtain ⟨y1, py1, npy1, _, hy1, hay1, hny1, hh1, hdesc⟩ :=
        Reorganize.descend_spec s hl pn nn hpn jS fS nfS hj hnf nfS.nHeight (le_refl _)
          (jS - y) y py s.vBlockIndex.length (le_refl _) hy h2 (by omega)
      rw [hdesc]
      simp only
      have hhy := s.ancestor_height hl y1 pn py1 nn npy1 hay1 hpn hny1
      have hye : y1 = jS := by omega
      subst hye
      rw [hj] at hay1
      cases hay1
      rw [if_pos rfl]
    · rw [if_neg hne]
  | succ d1 ih =>
    intro x px y py fuel hd hx hy h1 h2 hfuel
    rw [Reorganize.findFork]
    by_cases hne : px ≠ py
    · rw [if_pos hne]
      obtain ⟨nf, hnfx⟩ := s.ancestor_node _ _ _ h1
      have hhx := s.ancestor_height hl x pb px nb nf h1 hpb hnfx
      simp only [hnfx]
      obtain ⟨y1, py1, npy1, hyy1, hy1, hay1, hny1, hh1, hdesc⟩ :=
        Reorganize.descend_spec s hl pn nn hpn jS fS nfS hj hnf nf.nHeight (by omega)
          (jS - y) y py s.vBlockIndex.length (le_refl _) hy h2 (by omega)
      rw [hdesc]
      simp only
      by_cases heq : px = py1
      · rw [if_pos heq]
        rw [← heq] at hay1
        rw [hcommon x px y1 hx h1 hay1]
      · rw [if_neg heq]
        have hhy := s.ancestor_height hl y1 pn py1 nn npy1 hay1 hpn hny1
        have hlt : x < iS := by
          by_contra hge
          have hxe : x = iS := by omega
          subst hxe
          rw [hi] at h1
          cases h1
          rw [hnf] at hnfx
          cases hnfx
          have hye : y1 = jS := by omega
          subst hye
          rw [hj] at hay1
          cases hay1
          exact heq rfl
        obtain ⟨q, hq⟩ := s.ancestor_le iS pb fS hi (x + 1) (by omega)
        obtain ⟨c, nc, hc, hnc, hpq⟩ := s.ancestor_succ_end x pb q hq
        rw [h1] at hc
        cases hc
        rw [hnfx] at hnc
        cases hnc
        obtain ⟨fuel1, rfl⟩ : ∃ f1, fuel = f1 + 1 := ⟨fuel - 1, by omega⟩
        simp only [hpq]
        exact ih (x + 1) q y1 py1 fuel1 (by omega) (by omega) hy1 hq hay1 (by omega)
    · rw [if_neg hne]
      have hpe : px = py := not_not.mp hne
      rw [← hpe] at h2
      rw [hcommon x px y hx h1 h2]

/-- With linked heights a walk along `pprev` does not come back to a node. -/
theorem ChainState.ancestor_ne_of_lt (s : ChainState) (hl : s.HeightsLinked) (p i k f : Nat)
    (hi : s.ancestor p i = some f) (hk : k < i) : s.ancestor p k ≠ some f := by
  intro hkf
  obtain ⟨q0, hq0⟩ := s.ancestor_le i p f hi 0 (by omega)
  obtain ⟨hlt, _⟩ := (s.ancestor_zero p q0).1 hq0
  obtain ⟨np, hnp⟩ := s.node_of_lt p hlt
  obtain ⟨nf, hnf⟩ := s.ancestor_node _ _ _ hi
  have h1 := s.ancestor_height hl i p f np nf hi hnp hnf
  have h2 := s.ancestor_height hl k p f np nf hkf hnp hnf
  omega

theorem Reorganize.path_spec (s : ChainState) (f : Nat) :
    ∀ (i p fuel : Nat), s.ancestor p i = some f → (∀ k < i, s.ancestor p k ≠ some f) →
      i ≤ fuel →
      ∃ l : List Nat, Reorganize.path s f fuel (some p) = some l ∧ l.length = i ∧
        ∀ k < i, l[k]? = s.ancestor p k
  | 0, p, fuel, hi, _, _ => by
      obtain ⟨_, hpf⟩ := (s.ancestor_zero p f).1 hi
      subst hpf
      refine ⟨[], ?_, rfl, fun k hk => absurd hk (by omega)⟩
      rw [Reorganize.path]
      simp
  | i + 1, p, fuel, hi, hne, hfuel => by
      obtain ⟨n, q, hn, hq, hqf⟩ := (s.ancestor_succ p i f).1 hi
      have hp0 : s.ancestor p 0 = some p := (s.ancestor_zero p p).2 ⟨s.node_lt p n hn, rfl⟩
      have hpf : p ≠ f := by
        intro h
        apply hne 0 (by omega)
        rw [hp0, h]
      obtain ⟨fuel1, rfl⟩ : ∃ f1, fuel = f1 + 1 := ⟨fuel - 1, by omega⟩
      have hne1 : ∀ k < i, s.ancestor q k ≠ some f := by
        intro k hk hkf
        exact hne (k + 1) (by omega) ((s.ancestor_succ p k f).2 ⟨n, q, hn, hq, hkf⟩)
      obtain ⟨l, hl1, hl2, hl3⟩ := Reorganize.path_spec s f i q fuel1 hqf hne1 (by omega)
      refine ⟨p :: l, ?_, by simp [hl2], ?_⟩
      · rw [Reorganize.path]
        rw [if_pos (by simpa using hpf)]
        simp only [hn, hq, hl1, Option.map_some']
      · intro k hk
        cases k with
        | zero => simp [hp0]
        | succ k1 =>
          simp only [List.getElem?_cons_succ]
          rw [hl3 k1 (by omega)]
          cases hqk : s.ancestor q k1 with
          | none =>
            symm
            by_contra hc
            obtain ⟨c, hc1⟩ := Option.ne_none_iff_exists'.mp hc
            obtain ⟨n2, q2, hn2, hq2, hqc⟩ := (s.ancestor_succ p k1 c).1 hc1
            rw [hn] at hn2
            cases hn2
            rw [hq] at hq2
            cases hq2
            rw [hqk] at hqc
            cases hqc
          | some c => exact ((s.ancestor_succ p k1 c).2 ⟨n, q, hn, hq, hqk⟩).symm

/-- Claim C25: in a block index with linked heights in which `pindexBest` and `pindexNew`
have a common ancestor, the search for the fork in `Reorganize` ends with `pfork` at their
deepest common ancestor, the one nearest to both; `vDisconnect` is the walk along `pprev`
from `pindexBest` to the node before `pfork`, and `vConnect`, the reversed walk from
`pindexNew`, runs from the child of `pfork` up to `pindexNew`. -/
theorem Reorganize_finds_fork (s : ChainState) (hl : s.HeightsLinked) (pindexBest pindexNew : Nat)
    (hcommon : ∃ a i j, s.ancestor pindexBest i = some a ∧ s.ancestor pindexNew j = some a) :
    ∃ (pfork iS jS : Nat),
      s.ancestor pindexBest iS = some pfork ∧ s.ancestor pindexNew jS = some pfork ∧
      (∀ a i j, s.ancestor pindexBest i = some a → s.ancestor pindexNew j = some a →
        iS ≤ i ∧ jS ≤ j) ∧
      Reorganize.findFork s s.vBlockIndex.length pindexBest pindexNew = some (some pfork) ∧
      ∃ vDisconnect vConnectRev : List Nat,
        Reorganize.path s pfork s.vBlockIndex.length (some pindexBest) = some vDisconnect ∧
        Reorganize.path s pfork s.vBlockIndex.length (some pindexNew) = some vConnectRev ∧
        vDisconnect.length = iS ∧ (∀ k < iS, vDisconnect[k]? = s.ancestor pindexBest k) ∧
        vConnectRev.reverse.length = jS ∧
        ∀ k < jS, vConnectRev.reverse[k]? = s.ancestor pindexNew (jS - 1 - k) := by
  classical
  have hP : ∃ i, ∃ a j, s.ancestor pindexBest i = some a ∧ s.ancestor pindexNew j = some a := by
    obtain ⟨a, i, j, h1, h2⟩ := hcommon
    exact ⟨i, a, j, h1, h2⟩
  obtain ⟨pfork, jS, hi, hj⟩ := Nat.find_spec hP
  have hmin : ∀ a i j, s.ancestor pindexBest i = some a → s.ancestor pindexNew j = some a →
      Nat.find hP ≤ i := fun a i j h1 h2 => Nat.find_min' hP ⟨a, j, h1, h2⟩
  obtain ⟨qb, hqb⟩ := s.ancestor_le _ pindexBest pfork hi 0 (by omega)
  obtain ⟨hltb, _⟩ := (s.ancestor_zero pindexBest qb).1 hqb
  obtain ⟨nb, hnb⟩ := s.node_of_lt pindexBest hltb
  obtain ⟨qn, hqn⟩ := s.ancestor_le _ pindexNew pfork hj 0 (by omega)
  obtain ⟨hltn, _⟩ := (s.ancestor_zero pindexNew qn).1 hqn
  obtain ⟨nn, hnn⟩ := s.node_of_lt pindexNew hltn
  obtain ⟨nf, hnf⟩ := s.ancestor_node _ _ _ hi
  have hhb := s.ancestor_height hl _ pindexBest pfork nb nf hi hnb hnf
  have hhn := s.ancestor_height hl jS pindexNew pfork nn nf hj hnn hnf
  have hilen := s.ancestor_lt_length hl pindexBest _ pfork hi
  have hjlen := s.ancestor_lt_length hl pindexNew jS pfork hj
  refine ⟨pfork, Nat.find hP, jS, hi, hj, ?_, ?_, ?_⟩
  · intro a i j h1 h2
    have h3 := hmin a i j h1 h2
    refine ⟨h3, ?_⟩
    obtain ⟨na, hna⟩ := s.ancestor_node _ _ _ h1
    have ha1 := s.ancestor_height hl i pindexBest a nb na h1 hnb hna
    have ha2 := s.ancestor_height hl j pindexNew a nn na h2 hnn hna
    omega
  · exact Reorganize.findFork_spec s hl pindexBest pindexNew nb nn hnb hnn (Nat.find hP) jS
      pfork hi hj hmin (Nat.find hP) 0 pindexBest 0 pindexNew s.vBlockIndex.length (by omega)
      (by omega) (by omega) ((s.ancestor_zero _ _).2 ⟨hltb, rfl⟩)
      ((s.ancestor_zero _ _).2 ⟨hltn, rfl⟩) (by omega)
  · obtain ⟨vD, hD1, hD2, hD3⟩ := Reorganize.path_spec s pfork (Nat.find hP) pindexBest
      s.vBlockIndex.length hi
      (fun k hk => s.ancestor_ne_of_lt hl pindexBest _ k pfork hi hk) (by omega)
    obtain ⟨vC, hC1, hC2, hC3⟩ := Reorganize.path_spec s pfork jS pindexNew
      s.vBlockIndex.length hj
      (fun k hk => s.ancestor_ne_of_lt hl pindexNew _ k pfork hj hk) (by omega)
    refine ⟨vD, vC, hD1, hC1, hD2, hD3, by rw [List.length_reverse, hC2], ?_⟩
    intro k hk
    rw [List.getElem?_reverse (by omega), hC2]
    exact hC3 _ (by omega)

/-- Claim C25 at `exampleFork`, where the best block `A1` (node 1) and the block `B2`
(node 3) have the genesis block (node 0) as their only common ancestor. -/
theorem Reorganize_finds_fork_witness :
    ∃ (pfork iS jS : Nat),
      exampleFork.ancestor 1 iS = some pfork ∧ exampleFork.ancestor 3 jS = some pfork ∧
      (∀ a i j, exampleFork.ancestor 1 i = some a → exampleFork.ancestor 3 j = some a →
        iS ≤ i ∧ jS ≤ j) ∧
      Reorganize.findFork exampleFork exampleFork.vBlockIndex.length 1 3 = some (some pfork) ∧
      ∃ vDisconnect vConnectRev : List Nat,
        Reorganize.path exampleFork pfork exampleFork.vBlockIndex.length (some 1) =
          some vDisconnect ∧
        Reorganize.path exampleFork pfork exampleFork.vBlockIndex.length (some 3) =
          some vConnectRev ∧
        vDisconnect.length = iS ∧ (∀ k < iS, vDisconnect[k]? = exampleFork.ancestor 1 k) ∧
        vConnectRev.reverse.length = jS ∧
        ∀ k < jS, vConnectRev.reverse[k]? = exampleFork.ancestor 3 (jS - 1 - k) :=
  Reorganize_finds_fork exampleFork (ChainState.heightsLinked_of_check exampleFork (by decide))
    1 3 ⟨0, 1, 2, by decide, by decide⟩

/-! ## The message getblocks -/

theorem getblocks.loop_length (s : ChainState) (hashStop : uint256) :
    ∀ (nLimit pindex : Nat) (vInv : List uint256) (p : Nat) (v : List uint256),
      getblocks.loop s hashStop nLimit pindex vInv = some (p, v) →
      ∃ w, v = vInv ++ w ∧ w.length ≤ nLimit
  | 0, pindex, vInv, p, v, h => by
      simp only [getblocks.loop, Option.some.injEq, Prod.mk.injEq] at h
      exact ⟨[], by simp [h.2], by simp⟩
  | nLimit + 1, pindex, vInv, p, v, h => by
      rw [getblocks.loop] at h
      cases hn : s.node pindex with
      | none => rw [hn] at h; simp at h
      | some n =>
        rw [hn] at h
        simp only at h
        by_cases hs : n.phashBlock = hashStop
        · rw [if_pos hs] at h
          simp only [Option.some.injEq, Prod.mk.injEq] at h
          exact ⟨[], by simp [h.2], by simp⟩
        · rw [if_neg hs] at h
          cases hq : n.pnext with
          | none =>
            rw [hq] at h
            simp only [Option.some.injEq, Prod.mk.injEq] at h
            exact ⟨[n.phashBlock], h.2.symm, by simp⟩
          | some q =>
            rw [hq] at h
            obtain ⟨w, hw, hl⟩ := getblocks.loop_length s hashStop nLimit q _ p v h
            exact ⟨n.phashBlock :: w, by rw [hw]; simp, by simp; omega⟩

theorem getblocks.advertise_spec (s : ChainState) (nCurrentTime pindex : Nat)
    (vInv : List uint256) (r : GetblocksResult)
    (h : getblocks.advertise s nCurrentTime pindex vInv = some r) :
    r.vInventory = vInv ∨ r.vInventory = vInv ++ [s.hashBestChain] := by
  unfold getblocks.advertise at h
  split at h
  · split_ifs at h
    · simp only [Option.some.injEq] at h
      right; rw [← h]
    · simp only [Option.some.injEq] at h
      left; rw [← h]
  · simp at h

theorem ProcessMessage.getblocks_spec (s : ChainState) (GetTime : Int)
    (nGetblocksReceiveTime : Nat) (vHave : List uint256) (hashStop : uint256)
    (r : GetblocksResult)
    (h : ProcessMessage.getblocks s GetTime nGetblocksReceiveTime vHave hashStop = some r) :
    ∃ vChain : List uint256, vChain.length ≤ 1000 ∧
      (r.vInventory = vChain ∨ r.vInventory = vChain ++ [s.hashBestChain]) := by
  unfold ProcessMessage.getblocks at h
  simp only at h
  split_ifs at h
  · simp only [Option.some.injEq] at h
    exact ⟨[], by simp, Or.inl (by rw [← h])⟩
  · split at h
    · split at h
      · simp at h
      · split at h
        · simp only [Option.some.injEq] at h
          exact ⟨[], by simp, Or.inl (by rw [← h])⟩
        · split at h
          · simp at h
          · rename_i pindex vInv hloop
            obtain ⟨w, hw, hl⟩ := getblocks.loop_length s hashStop 1000 _ [] pindex vInv hloop
            rw [List.nil_append] at hw
            subst hw
            exact ⟨vInv, hl, getblocks.advertise_spec s _ pindex vInv r h⟩
    · simp at h

theorem getblocks.loop_exampleLinearChain (n : Nat) (nHeight0 : Int) (nTime0 nSpacing : Nat)
    (hashStop : uint256) (hs : hashStop < 1000) :
    ∀ (k p : Nat) (vInv : List uint256), p + k < n →
      ∃ v, getblocks.loop (exampleLinearChain n nHeight0 nTime0 nSpacing) hashStop k p vInv =
        some (p + k, v) ∧ v.length = vInv.length + k
  | 0, p, vInv, _ => ⟨vInv, rfl, rfl⟩
  | k + 1, p, vInv, hp => by
      rw [getblocks.loop, exampleLinearChain_node n nHeight0 nTime0 nSpacing p (by omega)]
      have hne : ¬ (exampleLinearNode n nHeight0 nTime0 nSpacing p).phashBlock = hashStop := by
        intro h
        have h2 : (1000 + p : Nat) < 1000 := by
          rw [show (1000 + p : Nat) = hashStop from h]
          exact hs
        omega
      have hnext : (exampleLinearNode n nHeight0 nTime0 nSpacing p).pnext = some (p + 1) := by
        simp only [exampleLinearNode]
        rw [if_pos (by omega)]
      simp only [if_neg hne, hnext]
      obtain ⟨v, hv, hl⟩ := getblocks.loop_exampleLinearChain n nHeight0 nTime0 nSpacing
        hashStop hs k (p + 1)
        (vInv ++ [(exampleLinearNode n nHeight0 nTime0 nSpacing p).phashBlock]) (by omega)
      have e : p + 1 + k = p + (k + 1) := by omega
      refine ⟨v, by rw [hv, e], ?_⟩
      rw [hl, List.length_append, List.length_singleton]
      omega

theorem getblocks_exampleLinearChain (n : Nat) (nHeight0 : Int) (nTime0 nSpacing : Nat)
    (hn : 1002 < n) (hn4 : n < 5002) (nNow : Nat) (h5 : 5 ≤ nNow) (h32 : nNow < 2 ^ 32) :
    ∃ v, ProcessMessage.getblocks (exampleLinearChain n nHeight0 nTime0 nSpacing) nNow 0 [] 0 =
      some ⟨true, nNow, v⟩ ∧ v.length = 1001 := by
  obtain ⟨v, hv, hl⟩ := getblocks.loop_exampleLinearChain n nHeight0 nTime0 nSpacing 0
    (by decide) 1000 1 [] (by omega)
  have h0 := exampleLinearChain_node n nHeight0 nTime0 nSpacing 0 (by omega)
  have h1 := exampleLinearChain_node n nHeight0 nTime0 nSpacing 1001 (by omega)
  have h2 := exampleLinearChain_node n nHeight0 nTime0 nSpacing (n - 1) (by omega)
  have hg : CBlockLocator.GetBlockIndex (exampleLinearChain n nHeight0 nTime0 nSpacing) [] =
      some (some 0) := rfl
  have hc : ((nNow : Int) % 2 ^ 32).toNat = nNow := by omega
  have ht : ¬ wrap32u (nNow + 2 ^ 32 - 5) < 0 := Nat.not_lt_zero _
  have e : 1 + 1000 = 1001 := rfl
  rw [e] at hv
  have hn0 : (exampleLinearNode n nHeight0 nTime0 nSpacing 0).pnext = some 1 := by
    simp only [exampleLinearNode]
    rw [if_pos (by omega)]
  have hw : wrap32 ((exampleLinearNode n nHeight0 nTime0 nSpacing (n - 1)).nHeight -
      (exampleLinearNode n nHeight0 nTime0 nSpacing 1001).nHeight) = (n : Int) - 1002 := by
    simp only [exampleLinearNode]
    rw [wrap32_small _ (by omega) (by omega)]
    omega
  have hadv : wrap32 ((exampleLinearNode n nHeight0 nTime0 nSpacing (n - 1)).nHeight -
      (exampleLinearNode n nHeight0 nTime0 nSpacing 1001).nHeight) < 4000 ∧
      (exampleLinearNode n nHeight0 nTime0 nSpacing 1001).phashBlock ≠
        (exampleLinearChain n nHeight0 nTime0 nSpacing).hashBestChain := by
    rw [hw]
    refine ⟨by omega, ?_⟩
    show (1000 + 1001 : Nat) ≠ 1000 + n - 1
    omega
  have ha : getblocks.advertise (exampleLinearChain n nHeight0 nTime0 nSpacing) nNow
      1001 v = some ⟨true, nNow,
        v ++ [(exampleLinearChain n nHeight0 nTime0 nSpacing).hashBestChain]⟩ := by
    unfold getblocks.advertise
    have hb : (exampleLinearChain n nHeight0 nTime0 nSpacing).pindexBest = some (n - 1) := rfl
    simp only [hb, Option.bind, h2, h1, if_pos hadv]
  refine ⟨v ++ [(exampleLinearChain n nHeight0 nTime0 nSpacing).hashBestChain], ?_, ?_⟩
  · unfold ProcessMessage.getblocks
    simp only [hc]
    rw [if_neg ht, hg]
    simp only [h0, hn0, hv]
    exact ha
  · rw [List.length_append, hl]
    rfl

/-- One `getblocks` message with an empty locator and no stop hash, sent to a node whose
chain has 1003 blocks, makes the handler pass 1001 block inventories to `PushInventory`:
the 1000 blocks after the genesis block, and the best block. -/
theorem getblocks_1001_inventories :
    ∃ v, ProcessMessage.getblocks (exampleLinearChain 1003 0 1500000000 90)
      (1600000000 : Nat) 0 [] 0 = some ⟨true, 1600000000, v⟩ ∧ v.length = 1001 :=
  getblocks_exampleLinearChain 1003 0 1500000000 90 (by decide) (by decide) 1600000000
    (by decide) (by decide)

/-- Claim C21: whenever the handling of one `getblocks` message runs to its end, the loop
over the chain has passed at most 1000 block inventories to `PushInventory`, and the only
inventory that can follow them is the one of the best block, so at most 1001 inventories
are pushed to the requesting peer. -/
theorem getblocks_inventory_limit (s : ChainState) (GetTime : Int)
    (nGetblocksReceiveTime : Nat) (vHave : List uint256) (hashStop : uint256)
    (r : GetblocksResult)
    (h : ProcessMessage.getblocks s GetTime nGetblocksReceiveTime vHave hashStop = some r) :
    r.vInventory.length ≤ 1001 ∧
    ∃ vChain : List uint256, vChain.length ≤ 1000 ∧
      (r.vInventory = vChain ∨ r.vInventory = vChain ++ [s.hashBestChain]) := by
  obtain ⟨vChain, hl, hv⟩ :=
    ProcessMessage.getblocks_spec s GetTime nGetblocksReceiveTime vHave hashStop r h
  refine ⟨?_, vChain, hl, hv⟩
  rcases hv with hv | hv
  · rw [hv]; omega
  · rw [hv, List.length_append, List.length_singleton]; omega

/-- Claim C21 at `exampleFork`, asked for the blocks after its genesis block. -/
theorem getblocks_inventory_limit_witness :
    ProcessMessage.getblocks exampleFork 1600000000 0 [] 0 =
      some ⟨true, 1600000000, [exampleFork.hashBestChain]⟩ ∧
    [exampleFork.hashBestChain].length ≤ 1001 ∧
    ∃ vChain : List uint256, vChain.length ≤ 1000 ∧
      ([exampleFork.hashBestChain] = vChain ∨
        [exampleFork.hashBestChain] = vChain ++ [exampleFork.hashBestChain]) :=
  ⟨by decide, getblocks_inventory_limit exampleFork 1600000000 0 [] 0
    ⟨true, 1600000000, [exampleFork.hashBestChain]⟩ (by decide)⟩

/-! ## CreateNewBlock -/

theorem CreateNewBlock.nBlockMaxSize_range (mp : MinerParams) :
    1000 ≤ CreateNewBlock.nBlockMaxSize mp ∧
      CreateNewBlock.nBlockMaxSize mp ≤ MAX_BLOCK_SIZE - 1000 := by
  unfold CreateNewBlock.nBlockMaxSize MAX_BLOCK_SIZE
  omega

theorem CreateNewBlock.add_kept (ext : Externals) (mp : MinerParams) (st : MinerState)
    (tx : CTransaction) (nTxSigOps : Nat) (nTxFees : Int)
    (mapTestPoolTmp : CMap uint256 CTxIndex) (st1 : MinerState)
    (hk : CreateNewBlock.Kept ext mp st)
    (hsize : st.nBlockSize + ext.GetSerializeSizeTx tx < CreateNewBlock.nBlockMaxSize mp)
    (hops : CreateNewBlock.sigOps st.nBlockSigOps nTxSigOps < MAX_BLOCK_SIGOPS)
    (h : CreateNewBlock.add ext mp st tx (ext.GetSerializeSizeTx tx) nTxSigOps nTxFees
      mapTestPoolTmp = some st1) :
    CreateNewBlock.Kept ext mp st1 := by
  obtain ⟨hv, hs, _, _, _⟩ := hk
  have hw : wrap32 (CreateNewBlock.sigOps st.nBlockSigOps nTxSigOps : Nat) =
      (CreateNewBlock.sigOps st.nBlockSigOps nTxSigOps : Nat) := by
    unfold MAX_BLOCK_SIGOPS MAX_BLOCK_SIZE at hops
    exact wrap32_small _ (by omega) (by omega)
  have hfin : ∀ (vO : List COrphan) (vP : List TxPriority) (pool : CMap uint256 CTxIndex)
      (nTx : Nat) (nF : Int),
      CreateNewBlock.Kept ext mp
        { vecPriority := vP, vOrphan := vO, mapDependers := st.mapDependers,
          mapTestPool := pool, vtx := st.vtx ++ [tx],
          nBlockSize := st.nBlockSize + ext.GetSerializeSizeTx tx, nBlockTx := nTx,
          nBlockSigOps := wrap32 (CreateNewBlock.sigOps st.nBlockSigOps nTxSigOps),
          fSortedByFee := st.fSortedByFee, nFees := nF } := by
    intro vO vP pool nTx nF
    refine ⟨by simp, ?_, Or.inr hsize, ?_, ?_⟩
    · show st.nBlockSize + ext.GetSerializeSizeTx tx =
        1000 + CreateNewBlock.sizes ext (st.vtx ++ [tx])
      unfold CreateNewBlock.sizes at hs ⊢
      rw [List.tail_append_of_ne_nil hv, List.map_append, List.sum_append, hs]
      simp
      omega
    · show 0 ≤ wrap32 _
      rw [hw]
      omega
    · show wrap32 _ < _
      rw [hw]
      exact_mod_cast hops
  unfold CreateNewBlock.add at h
  simp only at h
  split at h
  · simp only [Option.some.injEq] at h
    rw [← h]
    exact hfin _ _ _ _ _
  · split at h
    · simp at h
    · simp only [Option.some.injEq] at h
      rw [← h]
      exact hfin _ _ _ _ _

theorem CreateNewBlock.connect_kept (ext : Externals) (p2sh : P2SHAnswers) (mp : MinerParams)
    (db : TxDb) (mempool : CTxMemPool) (s : ChainState) (st : MinerState)
    (tx : CTransaction) (nTxSigOps : Nat) (st1 : MinerState)
    (hk : CreateNewBlock.Kept ext mp st)
    (hsize : st.nBlockSize + ext.GetSerializeSizeTx tx < CreateNewBlock.nBlockMaxSize mp)
    (h : CreateNewBlock.connect ext p2sh mp db mempool s st tx (ext.GetSerializeSizeTx tx)
      nTxSigOps = some st1) :
    CreateNewBlock.Kept ext mp st1 := by
  unfold CreateNewBlock.connect at h
  split at h
  · simp at h
  · simp only [Option.some.injEq] at h
    rw [← h]; exact hk
  · split at h
    · simp only at h
      split at h
      · simp at h
      · rename_i nP2SH _
        by_cases hops : CreateNewBlock.sigOps st.nBlockSigOps (wrap32u (nTxSigOps + nP2SH)) ≥
            MAX_BLOCK_SIGOPS
        · rw [if_pos hops] at h
          simp only [Option.some.injEq] at h
          rw [← h]; exact hk
        · rw [if_neg hops] at h
          split at h
          · simp at h
          · simp only [Option.some.injEq] at h
            rw [← h]; exact hk
          · exact CreateNewBlock.add_kept ext mp st tx _ _ _ st1 hk hsize (by omega) h
    · simp at h

theorem CreateNewBlock.step_kept (ext : Externals) (p2sh : P2SHAnswers) (mp : MinerParams)
    (db : TxDb) (mempool : CTxMemPool) (s : ChainState) (st : MinerState)
    (front : TxPriority) (st1 : MinerState)
    (hk : CreateNewBlock.Kept ext mp st)
    (h : CreateNewBlock.step ext p2sh mp db mempool s st front = some st1) :
    CreateNewBlock.Kept ext mp st1 := by
  unfold CreateNewBlock.step at h
  simp only at h
  by_cases hsize : st.nBlockSize + ext.GetSerializeSizeTx front.ptx ≥
      CreateNewBlock.nBlockMaxSize mp
  · rw [if_pos hsize] at h
    simp only [Option.some.injEq] at h
    rw [← h]; exact hk
  · rw [if_neg hsize] at h
    split_ifs at h
    · simp only [Option.some.injEq] at h
      rw [← h]; exact hk
    · simp only [Option.some.injEq] at h
      rw [← h]; exact hk
    · refine CreateNewBlock.connect_kept ext p2sh mp db mempool s _ front.ptx _ st1 ?_ ?_ h
      · exact hk
      · show st.nBlockSize + _ < _
        omega
    · refine CreateNewBlock.connect_kept ext p2sh mp db mempool s _ front.ptx _ st1 ?_ ?_ h
      · exact hk
      · show st.nBlockSize + _ < _
        omega

theorem CreateNewBlock.loop_kept (ext : Externals) (p2sh : P2SHAnswers) (mp : MinerParams)
    (db : TxDb) (mempool : CTxMemPool) (s : ChainState) :
    ∀ (fuel : Nat) (st st1 : MinerState), CreateNewBlock.Kept ext mp st →
      CreateNewBlock.loop ext p2sh mp db mempool s fuel st = some st1 →
      CreateNewBlock.Kept ext mp st1
  | 0, st, st1, _, h => by simp [CreateNewBlock.loop] at h
  | fuel + 1, st, st1, hk, h => by
      rw [CreateNewBlock.loop] at h
      split at h
      · simp only [Option.some.injEq] at h
        rw [← h]; exact hk
      · rename_i front _ _
        cases hs : CreateNewBlock.step ext p2sh mp db mempool s st front with
        | none => rw [hs] at h; simp at h
        | some st2 =>
          rw [hs] at h
          exact CreateNewBlock.loop_kept ext p2sh mp db mempool s fuel st2 st1
            (CreateNewBlock.step_kept ext p2sh mp db mempool s st front st2 hk hs) h

theorem CreateNewBlock.init_kept (ext : Externals) (mp : MinerParams) (txNew : CTransaction)
    (vecPriority : List TxPriority) (vOrphan : List COrphan)
    (mapDependers : CMap uint256 (List Nat)) :
    CreateNewBlock.Kept ext mp
      (CreateNewBlock.init mp txNew vecPriority vOrphan mapDependers) := by
  refine ⟨by simp [CreateNewBlock.init], ?_, Or.inl rfl, ?_, ?_⟩
  · simp [CreateNewBlock.init, CreateNewBlock.sizes]
  · simp [CreateNewBlock.init]
  · simp [CreateNewBlock.init, MAX_BLOCK_SIGOPS, MAX_BLOCK_SIZE]

/-- With `-blockmaxsize=500000` and one transaction of 300000 bytes in the queue, the loop
of `CreateNewBlock` adds the transaction, and the accumulated size of 301000 bytes is
above `MAX_BLOCK_SIZE_GEN`. -/
theorem CreateNewBlock_above_MAX_BLOCK_SIZE_GEN :
    (CreateNewBlock.loop exampleLargeExternals exampleP2SH exampleLargeMiner exampleDb
        examplePayingPool exampleFork 2
        (CreateNewBlock.init exampleLargeMiner exampleCoinbase examplePayingQueue [] [])).map
      (fun st => (st.vtx, st.nBlockSize, st.nBlockSigOps)) =
      some ([exampleCoinbase, examplePaying], 301000, 100) ∧
    MAX_BLOCK_SIZE_GEN = 262144 := by
  decide

theorem foldl_wrap32u_le {α : Type} (f : α → Nat) :
    ∀ (l : List α) (acc : Nat),
      l.foldl (fun n a => wrap32u (n + f a)) acc ≤ acc + (l.map f).sum
  | [], acc => by simp
  | a :: l, acc => by
      simp only [List.foldl_cons, List.map_cons, List.sum_cons]
      have h1 := foldl_wrap32u_le f l (wrap32u (acc + f a))
      have h2 : wrap32u (acc + f a) ≤ acc + f a := Nat.mod_le _ _
      omega

theorem GetLegacySigOpCount_le (GetSigOpCount : CScript → Nat)
    (hops : ∀ script : CScript, GetSigOpCount script ≤ 20 * script.length)
    (tx : CTransaction) : tx.GetLegacySigOpCount GetSigOpCount ≤ 20 * scriptBytes tx := by
  have h := legacySigOps_le GetSigOpCount hops tx
  unfold legacySigOps at h
  unfold CTransaction.GetLegacySigOpCount
  have h1 := foldl_wrap32u_le (fun txin : CTxIn => GetSigOpCount txin.scriptSig) tx.vin 0
  have h2 := foldl_wrap32u_le (fun txout : CTxOut => GetSigOpCount txout.scriptPubKey) tx.vout
    (tx.vin.foldl (fun n txin => wrap32u (n + GetSigOpCount txin.scriptSig)) 0)
  simp only at h1 h2 ⊢
  omega

theorem GetP2SHSigOpCount.loop_le (p2sh : P2SHAnswers) (inputs : MapPrevTx)
    (hp : ∀ scriptPubKey scriptSig : CScript, p2sh.IsPayToScriptHash scriptPubKey = true →
      p2sh.GetSigOpCount scriptPubKey scriptSig ≤ 20 * scriptSig.length) :
    ∀ (ins : List CTxIn) (acc n : Nat), GetP2SHSigOpCount.loop p2sh inputs ins acc = some n →
      n ≤ acc + 20 * (ins.map (fun txin => txin.scriptSig.length)).sum
  | [], acc, n, h => by
      simp only [GetP2SHSigOpCount.loop, Option.some.injEq] at h
      simp [h]
  | txin :: rest, acc, n, h => by
      rw [GetP2SHSigOpCount.loop] at h
      simp only [List.map_cons, List.sum_cons]
      cases ho : CTransaction.GetOutputFor txin inputs with
      | none => rw [ho] at h; simp at h
      | some prevout =>
        rw [ho] at h
        simp only at h
        by_cases hs : p2sh.IsPayToScriptHash prevout.scriptPubKey = true
        · rw [if_pos hs] at h
          have h1 := GetP2SHSigOpCount.loop_le p2sh inputs hp rest _ n h
          have h2 : wrap32u (acc + p2sh.GetSigOpCount prevout.scriptPubKey txin.scriptSig) ≤
              acc + p2sh.GetSigOpCount prevout.scriptPubKey txin.scriptSig := Nat.mod_le _ _
          have h3 := hp prevout.scriptPubKey txin.scriptSig hs
          omega
        · rw [if_neg hs] at h
          have h1 := GetP2SHSigOpCount.loop_le p2sh inputs hp rest _ n h
          omega

theorem CTransaction.GetP2SHSigOpCount_le (p2sh : P2SHAnswers) (inputs : MapPrevTx)
    (hp : ∀ scriptPubKey scriptSig : CScript, p2sh.IsPayToScriptHash scriptPubKey = true →
      p2sh.GetSigOpCount scriptPubKey scriptSig ≤ 20 * scriptSig.length)
    (tx : CTransaction) (n : Nat) (h : tx.GetP2SHSigOpCount p2sh inputs = some n) :
    n ≤ 20 * scriptBytes tx := by
  unfold CTransaction.GetP2SHSigOpCount at h
  split_ifs at h
  · simp only [Option.some.injEq] at h
    omega
  · have h1 := GetP2SHSigOpCount.loop_le p2sh inputs hp tx.vin 0 n h
    unfold scriptBytes
    omega

theorem CreateNewBlock.counted_append (ext : Externals) (p2sh : P2SHAnswers) (db : TxDb)
    (mempool : CTxMemPool) (s : ChainState) (l2 : List CTransaction) :
    ∀ (l1 : List CTransaction) (acc acc1 : CMap uint256 CTxIndex × Nat),
      CreateNewBlock.counted ext p2sh db mempool s l1 acc = some acc1 →
      CreateNewBlock.counted ext p2sh db mempool s (l1 ++ l2) acc =
        CreateNewBlock.counted ext p2sh db mempool s l2 acc1
  | [], acc, acc1, h => by
      simp only [CreateNewBlock.counted, Option.some.injEq] at h
      rw [List.nil_append, h]
  | tx :: rest, (pool, n), acc1, h => by
      rw [CreateNewBlock.counted] at h
      rw [List.cons_append, CreateNewBlock.counted]
      repeat' first
        | exact CreateNewBlock.counted_append ext p2sh db mempool s l2 rest _ acc1 h
        | (simp only [reduceCtorEq] at h)
        | split at h

theorem CreateNewBlock.add_counted (ext : Externals) (p2sh : P2SHAnswers) (mp : MinerParams)
    (db : TxDb) (mempool : CTxMemPool) (s : ChainState) (st st1 : MinerState)
    (tx tx1 tx2 : CTransaction) (nTxFees : Int) (mapInputs : MapPrevTx) (fInvalid : Bool)
    (nP2SH : Nat) (mapTestPoolTmp : CMap uint256 CTxIndex)
    (hk : CreateNewBlock.Kept ext mp st)
    (hc : CreateNewBlock.Counted ext p2sh db mempool s st)
    (hsize : st.nBlockSize + ext.GetSerializeSizeTx tx < CreateNewBlock.nBlockMaxSize mp)
    (hF : tx.FetchInputs db mempool st.mapTestPool false true [] =
      some (true, tx1, mapInputs, fInvalid))
    (hP : tx.GetP2SHSigOpCount p2sh mapInputs = some nP2SH)
    (hC : tx.ConnectInputs ext s mapInputs st.mapTestPool ⟨1, 1, 1⟩ s.pindexBest false true
      true = some (true, tx2, mapTestPoolTmp))
    (hops : CreateNewBlock.sigOps st.nBlockSigOps
      (wrap32u (tx.GetLegacySigOpCount ext.GetSigOpCount + nP2SH)) < MAX_BLOCK_SIGOPS)
    (h : CreateNewBlock.add ext mp st tx (ext.GetSerializeSizeTx tx)
      (wrap32u (tx.GetLegacySigOpCount ext.GetSigOpCount + nP2SH)) nTxFees mapTestPoolTmp =
        some st1) :
    CreateNewBlock.Counted ext p2sh db mempool s st1 := by
  obtain ⟨hv, _, _, _, _⟩ := hk
  obtain ⟨n, hn, hcnt, hb⟩ := hc
  have hone : CreateNewBlock.counted ext p2sh db mempool s [tx] (st.mapTestPool, n) =
      some (mapTestPoolTmp.set (ext.GetHash tx) (CTxIndex.ofOutputs ⟨1, 1, 1⟩ tx.vout.length),
        n + tx.GetLegacySigOpCount ext.GetSigOpCount + nP2SH) := by
    rw [CreateNewBlock.counted, hF]
    simp only [hP, hC]
    rfl
  have hall : CreateNewBlock.counted ext p2sh db mempool s (st.vtx ++ [tx]).tail ([], 100) =
      some (mapTestPoolTmp.set (ext.GetHash tx) (CTxIndex.ofOutputs ⟨1, 1, 1⟩ tx.vout.length),
        n + tx.GetLegacySigOpCount ext.GetSigOpCount + nP2SH) := by
    rw [List.tail_append_of_ne_nil hv,
      CreateNewBlock.counted_append ext p2sh db mempool s [tx] _ _ _ hn, hone]
  have hs : CreateNewBlock.sigOps st.nBlockSigOps
      (wrap32u (tx.GetLegacySigOpCount ext.GetSigOpCount + nP2SH)) =
      (n + tx.GetLegacySigOpCount ext.GetSigOpCount + nP2SH) % 2 ^ 32 := by
    unfold CreateNewBlock.sigOps wrap32u
    rw [hcnt]
    have e : (((n % 2 ^ 32 : Nat) : Int) % 2 ^ 32).toNat = n % 2 ^ 32 := by omega
    rw [e]
    omega
  have hw : wrap32 (CreateNewBlock.sigOps st.nBlockSigOps
      (wrap32u (tx.GetLegacySigOpCount ext.GetSigOpCount + nP2SH)) : Nat) =
      (((n + tx.GetLegacySigOpCount ext.GetSigOpCount + nP2SH) % 2 ^ 32 : Nat) : Int) := by
    unfold MAX_BLOCK_SIGOPS MAX_BLOCK_SIZE at hops
    rw [wrap32_small _ (by omega) (by omega), hs]
  have hbound : CreateNewBlock.ScriptBounds ext p2sh →
      n + tx.GetLegacySigOpCount ext.GetSigOpCount + nP2SH < MAX_BLOCK_SIGOPS := by
    intro hsb
    have hn8 := hb hsb
    obtain ⟨h1, h2, h3⟩ := hsb
    have hl := GetLegacySigOpCount_le ext.GetSigOpCount h1 tx
    have hp := CTransaction.GetP2SHSigOpCount_le p2sh mapInputs h2 tx nP2SH hP
    have hsz := h3 tx
    have hmax := (CreateNewBlock.nBlockMaxSize_range mp).2
    have e1 : MAX_BLOCK_SIGOPS = 8192 := by decide
    have e2 : MAX_BLOCK_SIZE - 1000 = 523288 := by decide
    rw [e2] at hmax
    rw [e1] at hn8
    have hLP : tx.GetLegacySigOpCount ext.GetSigOpCount + nP2SH ≤ 40 * 523288 := by
      clear hs hw hall hone hcnt hops hn hb hF hC h
      omega
    have hlt : n + tx.GetLegacySigOpCount ext.GetSigOpCount + nP2SH < 2 ^ 32 := by
      clear hs hw hall hone hcnt hops hn hb hF hC h
      omega
    rw [hs, Nat.mod_eq_of_lt hlt] at hops
    exact hops
  have hfin : ∀ (vO : List COrphan) (vP : List TxPriority) (nSize nTx : Nat) (nF : Int),
      CreateNewBlock.Counted ext p2sh db mempool s
        { vecPriority := vP, vOrphan := vO, mapDependers := st.mapDependers,
          mapTestPool := mapTestPoolTmp.set (ext.GetHash tx)
            (CTxIndex.ofOutputs ⟨1, 1, 1⟩ tx.vout.length),
          vtx := st.vtx ++ [tx], nBlockSize := nSize, nBlockTx := nTx,
          nBlockSigOps := wrap32 (CreateNewBlock.sigOps st.nBlockSigOps
            (wrap32u (tx.GetLegacySigOpCount ext.GetSigOpCount + nP2SH))),
          fSortedByFee := st.fSortedByFee, nFees := nF } :=
    fun vO vP nSize nTx nF => ⟨_, hall, hw, hbound⟩
  unfold CreateNewBlock.add at h
  simp only at h
  split at h
  · simp only [Option.some.injEq] at h
    rw [← h]
    exact hfin _ _ _ _ _
  · split at h
    · simp at h
    · simp only [Option.some.injEq] at h
      rw [← h]
      exact hfin _ _ _ _ _

theorem CreateNewBlock.connect_counted (ext : Externals) (p2sh : P2SHAnswers)
    (mp : MinerParams) (db : TxDb) (mempool : CTxMemPool) (s : ChainState)
    (st st1 : MinerState) (tx : CTransaction)
    (hk : CreateNewBlock.Kept ext mp st)
    (hc : CreateNewBlock.Counted ext p2sh db mempool s st)
    (hsize : st.nBlockSize + ext.GetSerializeSizeTx tx < CreateNewBlock.nBlockMaxSize mp)
    (h : CreateNewBlock.connect ext p2sh mp db mempool s st tx (ext.GetSerializeSizeTx tx)
      (tx.GetLegacySigOpCount ext.GetSigOpCount) = some st1) :
    CreateNewBlock.Counted ext p2sh db mempool s st1 := by
  unfold CreateNewBlock.connect at h
  cases hF : tx.FetchInputs db mempool st.mapTestPool false true [] with
  | none => rw [hF] at h; simp at h
  | some r =>
    obtain ⟨f, tx1, mapInputs, fInvalid⟩ := r
    rw [hF] at h
    cases f with
    | false =>
      simp only [Option.some.injEq] at h
      rw [← h]; exact hc
    | true =>
      simp only at h
      split at h
      · cases hP : tx.GetP2SHSigOpCount p2sh mapInputs with
        | none => rw [hP] at h; simp at h
        | some nP2SH =>
          rw [hP] at h
          simp only at h
          by_cases hops : CreateNewBlock.sigOps st.nBlockSigOps
              (wrap32u (tx.GetLegacySigOpCount ext.GetSigOpCount + nP2SH)) ≥ MAX_BLOCK_SIGOPS
          · rw [if_pos hops] at h
            simp only [Option.some.injEq] at h
            rw [← h]; exact hc
          · rw [if_neg hops] at h
            cases hC : tx.ConnectInputs ext s mapInputs st.mapTestPool ⟨1, 1, 1⟩ s.pindexBest
                false true true with
            | none => rw [hC] at h; simp at h
            | some r =>
              obtain ⟨f, tx2, mapTestPoolTmp⟩ := r
              rw [hC] at h
              cases f with
              | false =>
                simp only [Option.some.injEq] at h
                rw [← h]; exact hc
              | true =>
                simp only at h
                exact CreateNewBlock.add_counted ext p2sh mp db mempool s st st1 tx tx1 tx2 _
                  mapInputs fInvalid nP2SH mapTestPoolTmp hk hc hsize hF hP hC (by omega) h
      · simp at h

theorem CreateNewBlock.step_counted (ext : Externals) (p2sh : P2SHAnswers) (mp : MinerParams)
    (db : TxDb) (mempool : CTxMemPool) (s : ChainState) (st : MinerState)
    (front : TxPriority) (st1 : MinerState)
    (hk : CreateNewBlock.Kept ext mp st)
    (hc : CreateNewBlock.Counted ext p2sh db mempool s st)
    (h : CreateNewBlock.step ext p2sh mp db mempool s st front = some st1) :
    CreateNewBlock.Counted ext p2sh db mempool s st1 := by
  unfold CreateNewBlock.step at h
  simp only at h
  by_cases hsize : st.nBlockSize + ext.GetSerializeSizeTx front.ptx ≥
      CreateNewBlock.nBlockMaxSize mp
  · rw [if_pos hsize] at h
    simp only [Option.some.injEq] at h
    rw [← h]; exact hc
  · rw [if_neg hsize] at h
    split_ifs at h
    · simp only [Option.some.injEq] at h
      rw [← h]; exact hc
    · simp only [Option.some.injEq] at h
      rw [← h]; exact hc
    · refine CreateNewBlock.connect_counted ext p2sh mp db mempool s _ st1 front.ptx ?_ ?_ ?_ h
      · exact hk
      · exact hc
      · show st.nBlockSize + _ < _
        omega
    · refine CreateNewBlock.connect_counted ext p2sh mp db mempool s _ st1 front.ptx ?_ ?_ ?_ h
      · exact hk
      · exact hc
      · show st.nBlockSize + _ < _
        omega

theorem CreateNewBlock.loop_counted (ext : Externals) (p2sh : P2SHAnswers) (mp : MinerParams)
    (db : TxDb) (mempool : CTxMemPool) (s : ChainState) :
    ∀ (fuel : Nat) (st st1 : MinerState), CreateNewBlock.Kept ext mp st →
      CreateNewBlock.Counted ext p2sh db mempool s st →
      CreateNewBlock.loop ext p2sh mp db mempool s fuel st = some st1 →
      CreateNewBlock.Counted ext p2sh db mempool s st1
  | 0, st, st1, _, _, h => by simp [CreateNewBlock.loop] at h
  | fuel + 1, st, st1, hk, hc, h => by
      rw [CreateNewBlock.loop] at h
      split at h
      · simp only [Option.some.injEq] at h
        rw [← h]; exact hc
      · rename_i front _ _
        cases hs : CreateNewBlock.step ext p2sh mp db mempool s st front with
        | none => rw [hs] at h; simp at h
        | some st2 =>
          rw [hs] at h
          exact CreateNewBlock.loop_counted ext p2sh mp db mempool s fuel st2 st1
            (CreateNewBlock.step_kept ext p2sh mp db mempool s st front st2 hk hs)
            (CreateNewBlock.step_counted ext p2sh mp db mempool s st front st2 hk hc hs) h

theorem CreateNewBlock.init_counted (ext : Externals) (p2sh : P2SHAnswers) (mp : MinerParams)
    (db : TxDb) (mempool : CTxMemPool) (s : ChainState) (txNew : CTransaction)
    (vecPriority : List TxPriority) (vOrphan : List COrphan)
    (mapDependers : CMap uint256 (List Nat)) :
    CreateNewBlock.Counted ext p2sh db mempool s
      (CreateNewBlock.init mp txNew vecPriority vOrphan mapDependers) :=
  ⟨100, rfl, rfl, fun _ => by decide⟩

/-- Claim C23: the state in which the loop of `CreateNewBlock` over the priority queue
ends has in `nBlockSize` the 1000 reserved bytes plus the serialised sizes of the
transactions added, below `nBlockMaxSize` once a transaction is added, where
`nBlockMaxSize` is the setting `-blockmaxsize` brought into the range from 1000 to
`MAX_BLOCK_SIZE - 1000`; the size is below `MAX_BLOCK_SIZE_GEN` when the setting is
between 0 and `MAX_BLOCK_SIZE_GEN`. The counter `nBlockSigOps` is below
`MAX_BLOCK_SIGOPS`, and it is the number `n` of the 100 reserved signature operations plus
the legacy and P2SH counts of the transactions added, as an `unsigned int`; when scripts
have at most 20 counted operations per byte and a serialised transaction contains its
scripts, it is `n` itself, so `n` is below `MAX_BLOCK_SIGOPS`. -/
theorem CreateNewBlock_block_limits (ext : Externals) (p2sh : P2SHAnswers) (mp : MinerParams)
    (db : TxDb) (mempool : CTxMemPool) (s : ChainState) (txNew : CTransaction)
    (vecPriority : List TxPriority) (vOrphan : List COrphan)
    (mapDependers : CMap uint256 (List Nat)) (fuel : Nat) (st : MinerState)
    (h : CreateNewBlock.loop ext p2sh mp db mempool s fuel
      (CreateNewBlock.init mp txNew vecPriority vOrphan mapDependers) = some st) :
    st.nBlockSize = 1000 + CreateNewBlock.sizes ext st.vtx ∧
    (st.vtx.tail = [] ∨ st.nBlockSize < CreateNewBlock.nBlockMaxSize mp) ∧
    CreateNewBlock.nBlockMaxSize mp ≤ MAX_BLOCK_SIZE - 1000 ∧
    st.nBlockSize ≤ MAX_BLOCK_SIZE - 1000 ∧
    (0 ≤ mp.blockmaxsize → mp.blockmaxsize ≤ MAX_BLOCK_SIZE_GEN →
      st.nBlockSize < MAX_BLOCK_SIZE_GEN) ∧
    0 ≤ st.nBlockSigOps ∧ st.nBlockSigOps < MAX_BLOCK_SIGOPS ∧
    ∃ n : Nat,
      CreateNewBlock.counted ext p2sh db mempool s st.vtx.tail ([], 100) =
        some (st.mapTestPool, n) ∧
      st.nBlockSigOps = ((n % 2 ^ 32 : Nat) : Int) ∧
      (CreateNewBlock.ScriptBounds ext p2sh →
        st.nBlockSigOps = (n : Int) ∧ n < MAX_BLOCK_SIGOPS) := by
  have hk0 := CreateNewBlock.init_kept ext mp txNew vecPriority vOrphan mapDependers
  obtain ⟨hv, hs, hm, h0, h1⟩ := CreateNewBlock.loop_kept ext p2sh mp db mempool s fuel _ st
    hk0 h
  obtain ⟨n, hn, hcnt, hb⟩ := CreateNewBlock.loop_counted ext p2sh mp db mempool s fuel _ st
    hk0 (CreateNewBlock.init_counted ext p2sh mp db mempool s txNew vecPriority vOrphan
      mapDependers) h
  have hr := CreateNewBlock.nBlockMaxSize_range mp
  have hone : st.vtx.tail = [] → st.nBlockSize = 1000 := by
    intro ht
    rw [hs, CreateNewBlock.sizes, ht]
    rfl
  refine ⟨hs, hm, hr.2, ?_, ?_, h0, h1, n, hn, hcnt, ?_⟩
  · rcases hm with hm | hm
    · rw [hone hm]; decide
    · omega
  · intro hb0 hb1
    rcases hm with hm | hm
    · rw [hone hm]; decide
    · unfold CreateNewBlock.nBlockMaxSize at hm
      unfold MAX_BLOCK_SIZE_GEN MAX_BLOCK_SIZE at hb1 ⊢
      unfold MAX_BLOCK_SIZE at hm
      omega
  · intro hsb
    have hn8 := hb hsb
    have e1 : MAX_BLOCK_SIGOPS = 8192 := by decide
    refine ⟨?_, hn8⟩
    rw [hcnt, Nat.mod_eq_of_lt (by omega)]

theorem exampleScriptHash_bounds :
    CreateNewBlock.ScriptBounds exampleExternals exampleScriptHash :=
  ⟨fun script => by show script.length ≤ 20 * script.length; omega,
    fun _ scriptSig _ => by show scriptSig.length ≤ 20 * scriptSig.length; omega,
    fun tx => by show scriptBytes tx ≤ 10 + scriptBytes tx; omega⟩

/-- Claim C23 at a miner with the default settings and `exampleSigning` in the queue: the
transaction is added, the accumulated size is 1015 bytes, and the counter is 108, the 100
reserved signature operations, the legacy count 5 and the P2SH count 3. -/
theorem CreateNewBlock_block_limits_witness :
    CreateNewBlock.ScriptBounds exampleExternals exampleScriptHash ∧
    ∃ st, CreateNewBlock.loop exampleExternals exampleScriptHash exampleMiner exampleDb
        exampleSigningPool exampleFork 2
        (CreateNewBlock.init exampleMiner exampleCoinbase exampleSigningQueue [] []) = some st ∧
      (st.vtx, st.nBlockSize, st.nBlockSigOps) =
        ([exampleCoinbase, exampleSigning], 1015, 108) ∧
      st.nBlockSize = 1000 + CreateNewBlock.sizes exampleExternals st.vtx ∧
      (st.vtx.tail = [] ∨ st.nBlockSize < CreateNewBlock.nBlockMaxSize exampleMiner) ∧
      CreateNewBlock.nBlockMaxSize exampleMiner ≤ MAX_BLOCK_SIZE - 1000 ∧
      st.nBlockSize ≤ MAX_BLOCK_SIZE - 1000 ∧
      (0 ≤ exampleMiner.blockmaxsize → exampleMiner.blockmaxsize ≤ MAX_BLOCK_SIZE_GEN →
        st.nBlockSize < MAX_BLOCK_SIZE_GEN) ∧
      0 ≤ st.nBlockSigOps ∧ st.nBlockSigOps < MAX_BLOCK_SIGOPS ∧
      ∃ n : Nat,
        CreateNewBlock.counted exampleExternals exampleScriptHash exampleDb exampleSigningPool
          exampleFork st.vtx.tail ([], 100) = some (st.mapTestPool, n) ∧
        st.nBlockSigOps = ((n % 2 ^ 32 : Nat) : Int) ∧
        (CreateNewBlock.ScriptBounds exampleExternals exampleScriptHash →
          st.nBlockSigOps = (n : Int) ∧ n < MAX_BLOCK_SIGOPS) := by
  refine ⟨exampleScriptHash_bounds, ?_⟩
  cases h : CreateNewBlock.loop exampleExternals exampleScriptHash exampleMiner exampleDb
      exampleSigningPool exampleFork 2
      (CreateNewBlock.init exampleMiner exampleCoinbase exampleSigningQueue [] []) with
  | none => exact absurd h (by decide)
  | some st =>
    have hvtx : (some st).map (fun st => (st.vtx, st.nBlockSize, st.nBlockSigOps)) =
        some ([exampleCoinbase, exampleSigning], 1015, 108) := by
      rw [← h]
      decide
    exact ⟨st, rfl, by simpa using hvtx,
      CreateNewBlock_block_limits exampleExternals exampleScriptHash exampleMiner exampleDb
        exampleSigningPool exampleFork exampleCoinbase exampleSigningQueue [] [] 2 st h⟩

/-! ## ConnectBlock and DisconnectBlock -/

theorem ConnectBlock.write_find (mapTxIndex : CMap uint256 CTxIndex) (hash : uint256) :
    ∀ q : CMap uint256 CTxIndex,
      (ConnectBlock.write q mapTxIndex).find hash = ConnectBlock.view q mapTxIndex hash
  | [] => by simp [ConnectBlock.write, ConnectBlock.view, CMap.find]
  | (k, v) :: rest => by
      have ih := ConnectBlock.write_find mapTxIndex hash rest
      unfold ConnectBlock.write at ih ⊢
      rw [List.foldr_cons]
      by_cases hk : k = hash
      · subst hk
        rw [CMap.find_set_self]
        simp [ConnectBlock.view, CMap.find]
      · rw [CMap.find_set_ne _ _ _ _ hk, ih]
        simp [ConnectBlock.view, CMap.find, hk]

theorem ConnectBlock.view_nil (mapTxIndex : CMap uint256 CTxIndex) (hash : uint256) :
    ConnectBlock.view [] mapTxIndex hash = mapTxIndex.find hash := by
  simp [ConnectBlock.view, CMap.find]

theorem ConnectBlock.view_set_self (q mapTxIndex : CMap uint256 CTxIndex) (hash : uint256)
    (e : CTxIndex) : ConnectBlock.view (q.set hash e) mapTxIndex hash = some e := by
  simp [ConnectBlock.view, CMap.find_set_self]

theorem ConnectBlock.view_set_ne (q mapTxIndex : CMap uint256 CTxIndex) (hash k : uint256)
    (e : CTxIndex) (hne : hash ≠ k) :
    ConnectBlock.view (q.set hash e) mapTxIndex k = ConnectBlock.view q mapTxIndex k := by
  simp [ConnectBlock.view, CMap.find_set_ne _ _ _ _ hne]

/-- With `fBlock` set, what `FetchInputs` finds for a hash is the entry of the index with
the queued changes laid over it. -/
theorem FetchInputs.fetch_step (mapTxIndex : CMap uint256 CTxIndex)
    (ReadFromDisk : CDiskTxPos → Option CTransaction) (mempool : CTxMemPool)
    (q : CMap uint256 CTxIndex) (txin : CTxIn) (rest : List CTxIn) (inputsRet I : MapPrevTx)
    (h : FetchInputs.fetch (TxDb.ofIndex mapTxIndex ReadFromDisk) mempool q true false
      (txin :: rest) inputsRet = (true, I)) :
    (inputsRet.find txin.prevout.hash ≠ none ∧
      FetchInputs.fetch (TxDb.ofIndex mapTxIndex ReadFromDisk) mempool q true false rest
        inputsRet = (true, I)) ∨
    ∃ txindex txPrev, ConnectBlock.view q mapTxIndex txin.prevout.hash = some txindex ∧
      FetchInputs.fetch (TxDb.ofIndex mapTxIndex ReadFromDisk) mempool q true false rest
        (inputsRet.set txin.prevout.hash (txindex, txPrev)) = (true, I) := by
  rw [FetchInputs.fetch] at h
  simp only at h
  by_cases hc : inputsRet.count txin.prevout.hash ≠ 0
  · rw [if_pos hc] at h
    left
    refine ⟨?_, h⟩
    intro hn
    exact hc ((CMap.count_eq_zero _ _).2 hn)
  · rw [if_neg hc] at h
    right
    have hfound : (if (true || false) && decide (q.count txin.prevout.hash ≠ 0) then
        q.find txin.prevout.hash
        else (TxDb.ofIndex mapTxIndex ReadFromDisk).ReadTxIndex txin.prevout.hash) =
        ConnectBlock.view q mapTxIndex txin.prevout.hash := by
      unfold ConnectBlock.view TxDb.ofIndex
      by_cases hq : q.count txin.prevout.hash ≠ 0
      · have : q.find txin.prevout.hash ≠ none := fun hn => hq ((CMap.count_eq_zero _ _).2 hn)
        cases hf : q.find txin.prevout.hash with
        | none => exact absurd hf this
        | some e => simp [hq]
      · have : q.find txin.prevout.hash = none := (CMap.count_eq_zero _ _).1 (by simpa using hq)
        simp [hq, this]
    rw [hfound] at h
    cases hv : ConnectBlock.view q mapTxIndex txin.prevout.hash with
    | none =>
      rw [hv] at h
      simp at h
    | some txindex =>
      rw [hv] at h
      simp only [Option.isSome_some, Bool.not_true, Bool.false_and, Bool.false_eq_true,
        if_false, Option.getD_some, Bool.false_or] at h
      split_ifs at h
      · split at h
        · simp at h
        · rename_i txPrev _
          exact ⟨txindex, txPrev, rfl, h⟩
      · split at h
        · simp at h
        · rename_i txPrev _
          exact ⟨txindex, txPrev, rfl, h⟩

theorem FetchInputs.fetch_agree (mapTxIndex : CMap uint256 CTxIndex)
    (ReadFromDisk : CDiskTxPos → Option CTransaction) (mempool : CTxMemPool)
    (q : CMap uint256 CTxIndex) (I : MapPrevTx) :
    ∀ (ins : List CTxIn) (inputsRet : MapPrevTx),
      FetchInputs.fetch (TxDb.ofIndex mapTxIndex ReadFromDisk) mempool q true false ins
        inputsRet = (true, I) →
      (∀ hash ti tp, inputsRet.find hash = some (ti, tp) →
        ConnectBlock.view q mapTxIndex hash = some ti) →
      ∀ hash ti tp, I.find hash = some (ti, tp) →
        ConnectBlock.view q mapTxIndex hash = some ti
  | [], inputsRet, h, ha => by
      simp only [FetchInputs.fetch, Prod.mk.injEq, true_and] at h
      rw [← h]
      exact ha
  | txin :: rest, inputsRet, h, ha => by
      rcases FetchInputs.fetch_step mapTxIndex ReadFromDisk mempool q txin rest inputsRet I h
        with ⟨_, h1⟩ | ⟨txindex, txPrev, hv, h1⟩
      · exact FetchInputs.fetch_agree mapTxIndex ReadFromDisk mempool q I rest inputsRet h1 ha
      · refine FetchInputs.fetch_agree mapTxIndex ReadFromDisk mempool q I rest _ h1 ?_
        intro hash ti tp hf
        by_cases hk : txin.prevout.hash = hash
        · subst hk
          rw [CMap.find_set_self] at hf
          simp only [Option.some.injEq, Prod.mk.injEq] at hf
          rw [← hf.1]
          exact hv
        · rw [CMap.find_set_ne _ _ _ _ hk] at hf
          exact ha hash ti tp hf

theorem FetchInputs.inRange_true (I : MapPrevTx) :
    ∀ ins : List CTxIn, FetchInputs.inRange I ins = some true →
      ∀ txin ∈ ins, ∃ ti tp, I.find txin.prevout.hash = some (ti, tp) ∧
        txin.prevout.n < ti.vSpent.length
  | [], _ => by simp
  | txin :: rest, h => by
      rw [FetchInputs.inRange] at h
      cases hf : I.find txin.prevout.hash with
      | none => rw [hf] at h; simp at h
      | some e =>
        obtain ⟨ti, tp⟩ := e
        rw [hf] at h
        simp only at h
        split_ifs at h with hr
        · simp at h
        have ih := FetchInputs.inRange_true I rest h
        intro t ht
        rcases List.mem_cons.1 ht with rfl | ht
        · refine ⟨ti, tp, hf, ?_⟩
          simp only [ge_iff_le, Bool.or_eq_true, decide_eq_true_eq, not_or, not_le] at hr
          exact hr.2
        · exact ih t ht

theorem ConnectBlock.markedFrom_step (mapTxIndex q : CMap uint256 CTxIndex)
    (v0 : uint256 → Option CTxIndex) (outs : List COutPoint) (prevout : COutPoint)
    (ti : CTxIndex) (pos : CDiskTxPos)
    (hm : ConnectBlock.MarkedFrom outs v0 (ConnectBlock.view q mapTxIndex))
    (hv : ConnectBlock.view q mapTxIndex prevout.hash = some ti)
    (hn : prevout.n < ti.vSpent.length)
    (hnull : (ti.vSpent.getD prevout.n ⟨UINT32_MAX, 0, 0⟩).IsNull = true) :
    ConnectBlock.MarkedFrom (outs ++ [prevout]) v0
      (ConnectBlock.view (q.set prevout.hash { ti with vSpent := ti.vSpent.set prevout.n pos })
        mapTxIndex) := by
  intro k
  by_cases hk : prevout.hash = k
  · subst hk
    rw [ConnectBlock.view_set_self]
    obtain ⟨hiff, hrel⟩ := hm prevout.hash
    rw [hv] at hiff hrel
    cases hv0 : v0 prevout.hash with
    | none => exact absurd (hiff.1 hv0) (by simp)
    | some e =>
      refine ⟨by simp, ?_⟩
      intro e' e1 he' he1
      simp only [Option.some.injEq] at he' he1
      subst he' he1
      obtain ⟨hpos, hlen, hpt⟩ := hrel e ti hv0 rfl
      refine ⟨hpos, by rw [List.length_set]; exact hlen, ?_⟩
      intro m hmlt
      obtain ⟨hin, hout⟩ := hpt m hmlt
      constructor
      · intro hmem
        rcases List.mem_append.1 hmem with hmem | hmem
        · exact hin hmem
        · simp only [List.mem_singleton] at hmem
          have hmn : m = prevout.n := by rw [← hmem]
          subst hmn
          by_cases ho : (⟨prevout.hash, prevout.n⟩ : COutPoint) ∈ outs
          · exact hin ho
          · have h1 := hout ho
            refine ⟨ti.vSpent.getD prevout.n ⟨UINT32_MAX, 0, 0⟩, ?_, hnull⟩
            rw [← h1, List.getD_eq_getElem?_getD, List.getElem?_eq_getElem hn]
            rfl
      · intro hmem
        have hmn : prevout.n ≠ m := by
          intro h
          apply hmem
          rw [← h]
          simp
        have ho : (⟨prevout.hash, m⟩ : COutPoint) ∉ outs := fun h =>
          hmem (List.mem_append.2 (Or.inl h))
        show (ti.vSpent.set prevout.n pos)[m]? = _
        rw [List.getElem?_set_ne hmn]
        exact hout ho
  · rw [ConnectBlock.view_set_ne _ _ _ _ _ hk]
    obtain ⟨hiff, hrel⟩ := hm k
    refine ⟨hiff, ?_⟩
    intro e e1 he he1
    obtain ⟨hpos, hlen, hpt⟩ := hrel e e1 he he1
    refine ⟨hpos, hlen, ?_⟩
    intro m hmlt
    obtain ⟨hin, hout⟩ := hpt m hmlt
    constructor
    · intro hmem
      rcases List.mem_append.1 hmem with hmem | hmem
      · exact hin hmem
      · simp only [List.mem_singleton] at hmem
        exact absurd (by rw [← hmem]) hk
    · intro hmem
      exact hout (fun h => hmem (List.mem_append.2 (Or.inl h)))

theorem ConnectInputs.pass2_marks (ext : Externals) (s : ChainState) (tx : CTransaction)
    (pos : CDiskTxPos) (fStrict : Bool) (mapTxIndex : CMap uint256 CTxIndex)
    (v0 : uint256 → Option CTxIndex) :
    ∀ (ins : List CTxIn) (i : Nat) (inputs : MapPrevTx) (q : CMap uint256 CTxIndex)
      (outs : List COutPoint) (inputs1 : MapPrevTx) (q1 : CMap uint256 CTxIndex),
      ConnectInputs.pass2 ext s tx pos true false fStrict ins i inputs q =
        some (Flow.next inputs1, q1) →
      (∀ hash ti tp, inputs.find hash = some (ti, tp) →
        ConnectBlock.view q mapTxIndex hash = some ti) →
      (∀ txin ∈ ins, ∃ ti tp, inputs.find txin.prevout.hash = some (ti, tp) ∧
        txin.prevout.n < ti.vSpent.length) →
      ConnectBlock.MarkedFrom outs v0 (ConnectBlock.view q mapTxIndex) →
      ConnectBlock.MarkedFrom (outs ++ ins.map (fun txin => txin.prevout)) v0
        (ConnectBlock.view q1 mapTxIndex)
  | [], i, inputs, q, outs, inputs1, q1, h, _, _, hm => by
      simp only [ConnectInputs.pass2, Option.some.injEq, Prod.mk.injEq] at h
      rw [← h.2]
      simpa using hm
  | txin :: rest, i, inputs, q, outs, inputs1, q1, h, ha, hr, hm => by
      obtain ⟨ti, tp, hf, hn⟩ := hr txin (List.mem_cons_self _ _)
      rw [ConnectInputs.pass2] at h
      simp only [hf] at h
      by_cases hnull : (!(ti.vSpent.getD txin.prevout.n ⟨UINT32_MAX, 0, 0⟩).IsNull) = true
      · rw [if_pos hnull] at h
        simp at h
      rw [if_neg hnull] at h
      by_cases hver : (!(true && decide (s.nBestHeight < ext.GetTotalBlocksEstimate)) &&
          !ext.VerifySignature tp tx i fStrict 0) = true
      · rw [if_pos hver] at h
        split_ifs at h <;> simp at h
      rw [if_neg hver] at h
      simp only [Bool.true_or, if_true] at h
      have hnull1 : (ti.vSpent.getD txin.prevout.n ⟨UINT32_MAX, 0, 0⟩).IsNull = true := by
        simpa using hnull
      have hv := ha _ _ _ hf
      have hm1 := ConnectBlock.markedFrom_step mapTxIndex q v0 outs txin.prevout ti pos hm hv
        hn hnull1
      have key := ConnectInputs.pass2_marks ext s tx pos fStrict mapTxIndex v0 rest (i + 1) _ _
        (outs ++ [txin.prevout]) inputs1 q1 h ?_ ?_ hm1
      · rw [List.map_cons]
        rw [List.append_assoc] at key
        exact key
      · intro hash ti2 tp2 hf2
        by_cases hk : txin.prevout.hash = hash
        · subst hk
          rw [CMap.find_set_self] at hf2
          simp only [Option.some.injEq, Prod.mk.injEq] at hf2
          rw [ConnectBlock.view_set_self, ← hf2.1]
        · rw [CMap.find_set_ne _ _ _ _ hk] at hf2
          rw [ConnectBlock.view_set_ne _ _ _ _ _ hk]
          exact ha _ _ _ hf2
      · intro t ht
        obtain ⟨ti2, tp2, hf2, hn2⟩ := hr t (List.mem_cons_of_mem _ ht)
        by_cases hk : txin.prevout.hash = t.prevout.hash
        · rw [← hk, CMap.find_set_self]
          rw [← hk, hf] at hf2
          simp only [Option.some.injEq, Prod.mk.injEq] at hf2
          refine ⟨_, _, rfl, ?_⟩
          show _ < (ti.vSpent.set _ _).length
          rw [List.length_set, hf2.1]
          exact hn2
        · rw [CMap.find_set_ne _ _ _ _ hk]
          exact ⟨ti2, tp2, hf2, hn2⟩

theorem ConnectInputs.pass1_ret (s : ChainState) (inputs : MapPrevTx) (pindexBlock : Option Nat) :
    ∀ (ins : List CTxIn) (nValueIn : Int) (f : Bool) (n : Int),
      ConnectInputs.pass1 s inputs pindexBlock ins nValueIn = some (Flow.ret f n) → f = false
  | [], nValueIn, f, n, h => by simp [ConnectInputs.pass1] at h
  | txin :: rest, nValueIn, f, n, h => by
      rw [ConnectInputs.pass1] at h
      simp only at h
      repeat' first
        | exact ConnectInputs.pass1_ret s inputs pindexBlock rest _ f n h
        | (simp only [Option.some.injEq, Flow.ret.injEq] at h; exact h.1.symm)
        | (simp only [reduceCtorEq] at h)
        | split at h

theorem ConnectInputs.pass2_ret (ext : Externals) (s : ChainState) (tx : CTransaction)
    (pos : CDiskTxPos) (fBlock fMiner fStrict : Bool) :
    ∀ (ins : List CTxIn) (i : Nat) (inputs : MapPrevTx) (q : CMap uint256 CTxIndex)
      (f : Bool) (n : Int) (q1 : CMap uint256 CTxIndex),
      ConnectInputs.pass2 ext s tx pos fBlock fMiner fStrict ins i inputs q =
        some (Flow.ret f n, q1) → f = false
  | [], i, inputs, q, f, n, q1, h => by simp [ConnectInputs.pass2] at h
  | txin :: rest, i, inputs, q, f, n, q1, h => by
      rw [ConnectInputs.pass2] at h
      simp only at h
      repeat' first
        | exact ConnectInputs.pass2_ret ext s tx pos fBlock fMiner fStrict rest _ _ _ f n q1 h
        | (simp only [Option.some.injEq, Prod.mk.injEq, Flow.ret.injEq] at h; exact h.1.1.symm)
        | (simp only [reduceCtorEq] at h)
        | split at h

theorem CTransaction.ConnectInputs_true (ext : Externals) (s : ChainState) (tx : CTransaction)
    (inputs : MapPrevTx) (q : CMap uint256 CTxIndex) (pos : CDiskTxPos)
    (pindexBlock : Option Nat) (fBlock fMiner fStrict : Bool) (tx1 : CTransaction)
    (q1 : CMap uint256 CTxIndex) (hcb : tx.IsCoinBase = false)
    (h : tx.ConnectInputs ext s inputs q pos pindexBlock fBlock fMiner fStrict =
      some (true, tx1, q1)) :
    ∃ inputs1, ConnectInputs.pass2 ext s tx pos fBlock fMiner fStrict tx.vin 0 inputs q =
      some (Flow.next inputs1, q1) := by
  unfold CTransaction.ConnectInputs at h
  rw [hcb] at h
  simp only [Bool.false_eq_true, if_false] at h
  cases h1 : ConnectInputs.pass1 s inputs pindexBlock tx.vin 0 with
  | none => rw [h1] at h; simp at h
  | some r1 =>
    cases r1 with
    | ret f n =>
      rw [h1] at h
      have := ConnectInputs.pass1_ret s inputs pindexBlock tx.vin 0 f n h1
      subst this
      simp [CTransaction.DoS] at h
    | next nValueIn =>
      rw [h1] at h
      simp only at h
      cases h2 : ConnectInputs.pass2 ext s tx pos fBlock fMiner fStrict tx.vin 0 inputs q with
      | none => rw [h2] at h; simp at h
      | some r2 =>
        obtain ⟨r2, q2⟩ := r2
        cases r2 with
        | ret f n =>
          rw [h2] at h
          have := ConnectInputs.pass2_ret ext s tx pos fBlock fMiner fStrict tx.vin 0 inputs q
            f n q2 h2
          subst this
          simp [CTransaction.DoS] at h
        | next inputs1 =>
          rw [h2] at h
          simp only at h
          refine ⟨inputs1, ?_⟩
          have hq : q2 = q1 := by
            repeat' first
              | (simp only [Option.some.injEq, Prod.mk.injEq] at h; exact h.2.2)
              | (simp only [reduceCtorEq] at h)
              | split at h
          rw [hq]

theorem CTransaction.FetchInputs_true (tx : CTransaction) (db : TxDb) (mempool : CTxMemPool)
    (q : CMap uint256 CTxIndex) (fBlock fMiner : Bool) (inputsRet : MapPrevTx)
    (tx1 : CTransaction) (I : MapPrevTx) (fInvalid : Bool) (hcb : tx.IsCoinBase = false)
    (h : tx.FetchInputs db mempool q fBlock fMiner inputsRet = some (true, tx1, I, fInvalid)) :
    FetchInputs.fetch db mempool q fBlock fMiner tx.vin inputsRet = (true, I) ∧
      FetchInputs.inRange I tx.vin = some true := by
  unfold CTransaction.FetchInputs at h
  rw [hcb] at h
  simp only [Bool.false_eq_true, if_false] at h
  by_cases h1 : (!(FetchInputs.fetch db mempool q fBlock fMiner tx.vin inputsRet).1) = true
  · rw [if_pos h1] at h
    simp at h
  · rw [if_neg h1] at h
    have h1t : (FetchInputs.fetch db mempool q fBlock fMiner tx.vin inputsRet).1 = true := by
      simpa using h1
    cases h2 : FetchInputs.inRange (FetchInputs.fetch db mempool q fBlock fMiner tx.vin
        inputsRet).2 tx.vin with
    | none => rw [h2] at h; simp at h
    | some b =>
      rw [h2] at h
      cases b with
      | false => simp [CTransaction.DoS] at h
      | true =>
        simp only [Option.some.injEq, Prod.mk.injEq, true_and] at h
        rw [← h.2.1]
        exact ⟨Prod.ext h1t rfl, h2⟩

theorem ConnectBlock.markedFrom_refl (v : uint256 → Option CTxIndex) :
    ConnectBlock.MarkedFrom [] v v := by
  intro k
  refine ⟨Iff.rfl, ?_⟩
  intro e e1 he he1
  rw [he] at he1
  simp only [Option.some.injEq] at he1
  subst he1
  refine ⟨rfl, rfl, ?_⟩
  intro n _
  exact ⟨fun h => absurd h (List.not_mem_nil _), fun _ => rfl⟩

theorem ConnectBlock.inputs_marks (ext : Externals) (p2sh : P2SHAnswers)
    (mapTxIndex : CMap uint256 CTxIndex) (ReadFromDisk : CDiskTxPos → Option CTransaction)
    (mempool : CTxMemPool) (s : ChainState) (pindex : Nat) (fStrict : Bool)
    (posThisTx : CDiskTxPos) (st st1 : ConnectBlockState) (tx : CTransaction)
    (hcb : tx.IsCoinBase = false)
    (h : ConnectBlock.inputs ext p2sh (TxDb.ofIndex mapTxIndex ReadFromDisk) mempool s pindex
      fStrict posThisTx st tx = some (some st1)) :
    ConnectBlock.MarkedFrom (tx.vin.map (fun txin => txin.prevout))
        (ConnectBlock.view st.mapQueuedChanges mapTxIndex)
        (ConnectBlock.view st1.mapQueuedChanges mapTxIndex) ∧
      ∀ txin ∈ tx.vin, ∃ e, ConnectBlock.view st.mapQueuedChanges mapTxIndex
        txin.prevout.hash = some e ∧ txin.prevout.n < e.vSpent.length := by
  unfold ConnectBlock.inputs at h
  cases hF : tx.FetchInputs (TxDb.ofIndex mapTxIndex ReadFromDisk) mempool st.mapQueuedChanges
      true false [] with
  | none => rw [hF] at h; simp at h
  | some r =>
    obtain ⟨f, tx1, I, fInvalid⟩ := r
    cases f with
    | false => rw [hF] at h; simp at h
    | true =>
      rw [hF] at h
      simp only at h
      obtain ⟨hfetch, hrange⟩ := CTransaction.FetchInputs_true tx _ mempool _ true false [] tx1 I
        fInvalid hcb hF
      have hagree := FetchInputs.fetch_agree mapTxIndex ReadFromDisk mempool
        st.mapQueuedChanges I tx.vin [] hfetch (by intro hash ti tp hf; simp [CMap.find] at hf)
      have hr := FetchInputs.inRange_true I tx.vin hrange
      refine ⟨?_, ?_⟩
      · split at h
        · simp at h
        · split_ifs at h
          · simp at h
          split at h
          · cases hC : tx.ConnectInputs ext s I st.mapQueuedChanges posThisTx (some pindex)
                true false fStrict with
            | none => rw [hC] at h; simp at h
            | some r =>
              obtain ⟨f, tx2, q1⟩ := r
              cases f with
              | false => rw [hC] at h; simp at h
              | true =>
                rw [hC] at h
                simp only [Option.some.injEq] at h
                obtain ⟨inputs1, hp2⟩ := CTransaction.ConnectInputs_true ext s tx I _ posThisTx
                  _ true false fStrict tx2 q1 hcb hC
                have key := ConnectInputs.pass2_marks ext s tx posThisTx fStrict mapTxIndex
                  (ConnectBlock.view st.mapQueuedChanges mapTxIndex) tx.vin 0 I
                  st.mapQueuedChanges [] inputs1 q1 hp2 hagree hr
                  (ConnectBlock.markedFrom_refl _)
                rw [← h]
                simpa using key
          · simp at h
      · intro txin ht
        obtain ⟨ti, tp, hf, hn⟩ := hr txin ht
        exact ⟨ti, hagree _ _ _ hf, hn⟩

theorem DisconnectInputs.loop_spec :
    ∀ (ins : List CTxIn) (w : CMap uint256 CTxIndex),
      (∀ txin ∈ ins, ∃ a, w.find txin.prevout.hash = some a ∧ txin.prevout.n < a.vSpent.length) →
      ∃ w1, DisconnectInputs.loop ins w = (true, w1) ∧
        ∀ k, (w1.find k = none ↔ w.find k = none) ∧
          ∀ a a1, w.find k = some a → w1.find k = some a1 →
            a1.pos = a.pos ∧ a1.vSpent.length = a.vSpent.length ∧
            ∀ n, n < a.vSpent.length →
              ((⟨k, n⟩ ∈ ins.map (fun txin => txin.prevout) →
                  a1.vSpent[n]? = some CDiskTxPos.null) ∧
                (⟨k, n⟩ ∉ ins.map (fun txin => txin.prevout) → a1.vSpent[n]? = a.vSpent[n]?))
  | [], w, _ => by
      refine ⟨w, rfl, ?_⟩
      intro k
      refine ⟨Iff.rfl, ?_⟩
      intro a a1 ha ha1
      rw [ha] at ha1
      simp only [Option.some.injEq] at ha1
      subst ha1
      exact ⟨rfl, rfl, fun n _ => ⟨fun h => absurd h (by simp), fun _ => rfl⟩⟩
  | txin :: rest, w, hr => by
      obtain ⟨a0, hf, hn⟩ := hr txin (List.mem_cons_self _ _)
      rw [DisconnectInputs.loop]
      simp only [hf]
      rw [if_neg (by omega)]
      have hr1 : ∀ t ∈ rest, ∃ a,
          (w.set txin.prevout.hash
            { a0 with vSpent := a0.vSpent.set txin.prevout.n CDiskTxPos.null }).find
            t.prevout.hash = some a ∧ t.prevout.n < a.vSpent.length := by
        intro t ht
        obtain ⟨a, hfa, hna⟩ := hr t (List.mem_cons_of_mem _ ht)
        by_cases hk : txin.prevout.hash = t.prevout.hash
        · rw [← hk, CMap.find_set_self]
          rw [← hk, hf] at hfa
          simp only [Option.some.injEq] at hfa
          refine ⟨_, rfl, ?_⟩
          show _ < (a0.vSpent.set _ _).length
          rw [List.length_set, hfa]
          exact hna
        · rw [CMap.find_set_ne _ _ _ _ hk]
          exact ⟨a, hfa, hna⟩
      obtain ⟨w1, hw1, hspec⟩ := DisconnectInputs.loop_spec rest _ hr1
      refine ⟨w1, hw1, ?_⟩
      intro k
      obtain ⟨hiff, hrel⟩ := hspec k
      by_cases hk : txin.prevout.hash = k
      · subst hk
        rw [CMap.find_set_self] at hiff hrel
        refine ⟨by rw [hiff, hf]; simp, ?_⟩
        intro a a1 ha ha1
        rw [hf] at ha
        simp only [Option.some.injEq] at ha
        subst ha
        obtain ⟨hpos, hlen, hpt⟩ := hrel _ a1 rfl ha1
        refine ⟨hpos, by rw [hlen]; exact List.length_set _ _ _, ?_⟩
        intro m hm
        obtain ⟨hin, hout⟩ := hpt m (by
          show m < (a0.vSpent.set _ _).length
          rw [List.length_set]; exact hm)
        constructor
        · intro hmem
          by_cases ho : (⟨txin.prevout.hash, m⟩ : COutPoint) ∈
              rest.map (fun txin => txin.prevout)
          · exact hin ho
          · rw [List.map_cons, List.mem_cons] at hmem
            rcases hmem with hmem | hmem
            · have hmn : m = txin.prevout.n := congrArg COutPoint.n hmem
              rw [hout ho]
              show (a0.vSpent.set _ _)[m]? = _
              rw [hmn, List.getElem?_set_self hn]
            · exact absurd hmem ho
        · intro hmem
          rw [List.map_cons, List.mem_cons, not_or] at hmem
          rw [hout hmem.2]
          show (a0.vSpent.set _ _)[m]? = _
          have hmn : txin.prevout.n ≠ m := by
            intro h
            apply hmem.1
            rw [← h]
          rw [List.getElem?_set_ne hmn]
      · rw [CMap.find_set_ne _ _ _ _ hk] at hiff hrel
        refine ⟨hiff, ?_⟩
        intro a a1 ha ha1
        obtain ⟨hpos, hlen, hpt⟩ := hrel a a1 ha ha1
        refine ⟨hpos, hlen, ?_⟩
        intro m hm
        obtain ⟨hin, hout⟩ := hpt m hm
        constructor
        · intro hmem
          rw [List.map_cons, List.mem_cons] at hmem
          rcases hmem with hmem | hmem
          · exact absurd (by rw [← hmem]) hk
          · exact hin hmem
        · intro hmem
          rw [List.map_cons, List.mem_cons, not_or] at hmem
          exact hout hmem.2

theorem CTransaction.DisconnectInputs_eq (GetHash : CTransaction → uint256) (tx : CTransaction)
    (w w1 : CMap uint256 CTxIndex)
    (h : DisconnectInputs.loop (if tx.IsCoinBase = true then [] else tx.vin) w = (true, w1)) :
    tx.DisconnectInputs GetHash w = (true, w1.erase (GetHash tx)) := by
  unfold CTransaction.DisconnectInputs
  cases hcb : tx.IsCoinBase with
  | true =>
    rw [hcb] at h
    simp only [if_true, DisconnectInputs.loop, Prod.mk.injEq, true_and] at h
    simp [h]
  | false =>
    rw [hcb] at h
    simp only [Bool.false_eq_true, if_false] at h
    simp [h]

theorem CTransaction.DisconnectInputs_cleared (GetHash : CTransaction → uint256)
    (tx : CTransaction) (v v1 v2 : uint256 → Option CTxIndex) (w : CMap uint256 CTxIndex)
    (hm : ConnectBlock.MarkedFrom
      ((if tx.IsCoinBase = true then [] else tx.vin).map (fun txin => txin.prevout)) v v1)
    (hr : ∀ txin ∈ (if tx.IsCoinBase = true then [] else tx.vin),
      ∃ e, v txin.prevout.hash = some e ∧ txin.prevout.n < e.vSpent.length)
    (hfresh : v (GetHash tx) = none)
    (h2 : ∀ k, k ≠ GetHash tx → v2 k = v1 k)
    (hw : DisconnectBlock.ClearedFrom v2 w.find) :
    ∃ w1, tx.DisconnectInputs GetHash w = (true, w1) ∧
      DisconnectBlock.ClearedFrom v w1.find := by
  have hrw : ∀ txin ∈ (if tx.IsCoinBase = true then [] else tx.vin),
      ∃ a, w.find txin.prevout.hash = some a ∧ txin.prevout.n < a.vSpent.length := by
    intro txin ht
    obtain ⟨e, he, hn⟩ := hr txin ht
    have hne : txin.prevout.hash ≠ GetHash tx := by
      intro h
      rw [h, hfresh] at he
      simp at he
    obtain ⟨hiff, hrel⟩ := hm txin.prevout.hash
    cases h1 : v1 txin.prevout.hash with
    | none => rw [hiff.2 h1] at he; simp at he
    | some e1 =>
      obtain ⟨_, hlen, _⟩ := hrel e e1 he h1
      obtain ⟨hiffw, hrelw⟩ := hw txin.prevout.hash
      rw [h2 _ hne, h1] at hiffw hrelw
      cases hwf : w.find txin.prevout.hash with
      | none => exact absurd (hiffw.1 hwf) (by simp)
      | some a =>
        obtain ⟨_, hlenw, _⟩ := hrelw a e1 hwf rfl
        exact ⟨a, rfl, by omega⟩
  obtain ⟨w0, hloop, hspec⟩ := DisconnectInputs.loop_spec _ w hrw
  refine ⟨_, CTransaction.DisconnectInputs_eq GetHash tx w w0 hloop, ?_⟩
  intro k
  by_cases hk : GetHash tx = k
  · subst hk
    rw [CMap.find_erase_self, hfresh]
    exact ⟨Iff.rfl, fun a e ha => by simp at ha⟩
  · have hk2 : k ≠ GetHash tx := fun h => hk h.symm
    rw [CMap.find_erase_ne _ _ hk]
    obtain ⟨hiff0, hrel0⟩ := hspec k
    obtain ⟨hiffw, hrelw⟩ := hw k
    obtain ⟨hiffm, hrelm⟩ := hm k
    rw [h2 k hk2] at hiffw hrelw
    refine ⟨by rw [hiff0, hiffw, hiffm], ?_⟩
    intro a0 e ha0 he
    cases h1 : v1 k with
    | none => rw [hiffm.2 h1] at he; simp at he
    | some e1 =>
      cases hwf : w.find k with
      | none => rw [hiff0.2 hwf] at ha0; simp at ha0
      | some a =>
        obtain ⟨hp0, hl0, hpt0⟩ := hrel0 a a0 hwf ha0
        obtain ⟨hpw, hlw, hptw⟩ := hrelw a e1 hwf h1
        obtain ⟨hpm, hlm, hptm⟩ := hrelm e e1 he h1
        refine ⟨by rw [hp0, hpw, hpm], by omega, ?_⟩
        intro n hn
        obtain ⟨hin0, hout0⟩ := hpt0 n (by omega)
        obtain ⟨hinm, houtm⟩ := hptm n hn
        by_cases ho : (⟨k, n⟩ : COutPoint) ∈
            (if tx.IsCoinBase = true then [] else tx.vin).map (fun txin => txin.prevout)
        · right
          exact ⟨hin0 ho, hinm ho⟩
        · rw [hout0 ho]
          rcases hptw n (by omega) with hq | ⟨hq, p, hp, hpn⟩
          · left
            rw [hq, houtm ho]
          · right
            refine ⟨hq, p, ?_, hpn⟩
            rw [← houtm ho, hp]

theorem ConnectBlock.tx_result (r : Option (Option ConnectBlockState))
    (f : ConnectBlockState → ConnectBlockState) (st1 : ConnectBlockState)
    (h : (match r with
      | some (some st2) => some (some (f st2))
      | r1 => r1) = some (some st1)) :
    ∃ st2, r = some (some st2) ∧ st1 = f st2 := by
  cases r with
  | none => simp at h
  | some r1 =>
    cases r1 with
    | none => simp at h
    | some st2 =>
      simp only [Option.some.injEq] at h
      exact ⟨st2, rfl, h.symm⟩

theorem ConnectBlock.tx_marks (ext : Externals) (p2sh : P2SHAnswers) (cp : ConnectBlockParams)
    (mempool : CTxMemPool) (s : ChainState) (mapTxIndex : CMap uint256 CTxIndex)
    (pindex nFile nBlockPos : Nat) (fEnforceBIP30 fStrict fJustCheck : Bool)
    (st st1 : ConnectBlockState) (tx : CTransaction)
    (h : ConnectBlock.tx ext p2sh cp mempool s mapTxIndex pindex nFile nBlockPos fEnforceBIP30
      fStrict fJustCheck st tx = some (some st1)) :
    ∃ v1 : uint256 → Option CTxIndex,
      ConnectBlock.MarkedFrom
        ((if tx.IsCoinBase = true then [] else tx.vin).map (fun txin => txin.prevout))
        (ConnectBlock.view st.mapQueuedChanges mapTxIndex) v1 ∧
      (∀ txin ∈ (if tx.IsCoinBase = true then [] else tx.vin),
        ∃ e, ConnectBlock.view st.mapQueuedChanges mapTxIndex txin.prevout.hash = some e ∧
          txin.prevout.n < e.vSpent.length) ∧
      ∀ k, k ≠ ext.GetHash tx → ConnectBlock.view st1.mapQueuedChanges mapTxIndex k = v1 k := by
  unfold ConnectBlock.tx at h
  simp only at h
  by_cases hb : (fEnforceBIP30 && !ConnectBlock.bip30 mapTxIndex (ext.GetHash tx)) = true
  · rw [if_pos hb] at h
    simp at h
  rw [if_neg hb] at h
  by_cases hs : wrap32u (st.nSigOps + tx.GetLegacySigOpCount ext.GetSigOpCount) >
      MAX_BLOCK_SIGOPS
  · rw [if_pos hs] at h
    simp at h
  rw [if_neg hs] at h
  obtain ⟨st2, hr, hst1⟩ := ConnectBlock.tx_result _ _ st1 h
  cases hcb : tx.IsCoinBase with
  | false =>
    simp only [hcb, Bool.not_false, if_true] at hr
    obtain ⟨hmk, hrg⟩ := ConnectBlock.inputs_marks ext p2sh mapTxIndex cp.ReadFromDisk mempool
      s pindex fStrict _ _ st2 tx hcb hr
    refine ⟨ConnectBlock.view st2.mapQueuedChanges mapTxIndex, ?_, ?_, ?_⟩
    · simpa using hmk
    · simpa using hrg
    · intro k hk
      rw [hst1]
      exact ConnectBlock.view_set_ne _ _ _ _ _ (fun h => hk h.symm)
  | true =>
    simp only [hcb, Bool.not_true, Bool.false_eq_true, if_false, Option.some.injEq] at hr
    refine ⟨ConnectBlock.view st.mapQueuedChanges mapTxIndex, ?_, ?_, ?_⟩
    · simpa using ConnectBlock.markedFrom_refl _
    · intro txin ht
      simp at ht
    · intro k hk
      rw [hst1, ← hr]
      exact ConnectBlock.view_set_ne _ _ _ _ _ (fun h => hk h.symm)

theorem DisconnectBlock.loop_append (GetHash : CTransaction → uint256) :
    ∀ (l1 l2 : List CTransaction) (w w1 : CMap uint256 CTxIndex),
      DisconnectBlock.loop GetHash l1 w = (true, w1) →
      DisconnectBlock.loop GetHash (l1 ++ l2) w = DisconnectBlock.loop GetHash l2 w1
  | [], l2, w, w1, h => by
      simp only [DisconnectBlock.loop, Prod.mk.injEq, true_and] at h
      rw [List.nil_append, h]
  | tx :: rest, l2, w, w1, h => by
      rw [DisconnectBlock.loop] at h
      rw [List.cons_append, DisconnectBlock.loop]
      by_cases hf : (!(tx.DisconnectInputs GetHash w).1) = true
      · rw [if_pos hf] at h
        rw [h] at hf
        simp at hf
      · rw [if_neg hf] at h ⊢
        exact DisconnectBlock.loop_append GetHash rest l2 _ w1 h

theorem DisconnectBlock.clearedFrom_refl (v : uint256 → Option CTxIndex) :
    DisconnectBlock.ClearedFrom v v := by
  intro k
  refine ⟨Iff.rfl, ?_⟩
  intro a e ha he
  rw [ha] at he
  simp only [Option.some.injEq] at he
  subst he
  exact ⟨rfl, rfl, fun n _ => Or.inl rfl⟩

theorem ConnectBlock.loop_disconnect (ext : Externals) (p2sh : P2SHAnswers)
    (cp : ConnectBlockParams) (mempool : CTxMemPool) (s : ChainState)
    (mapTxIndex : CMap uint256 CTxIndex) (pindex nFile nBlockPos : Nat)
    (fEnforceBIP30 fStrict fJustCheck : Bool) :
    ∀ (vtx : List CTransaction) (st st1 : ConnectBlockState) (w : CMap uint256 CTxIndex),
      ConnectBlock.loop ext p2sh cp mempool s mapTxIndex pindex nFile nBlockPos fEnforceBIP30
        fStrict fJustCheck vtx st = some (some st1) →
      (vtx.map ext.GetHash).Nodup →
      (∀ tx ∈ vtx, ConnectBlock.view st.mapQueuedChanges mapTxIndex (ext.GetHash tx) = none) →
      DisconnectBlock.ClearedFrom (ConnectBlock.view st1.mapQueuedChanges mapTxIndex) w.find →
      ∃ w1, DisconnectBlock.loop ext.GetHash vtx.reverse w = (true, w1) ∧
        DisconnectBlock.ClearedFrom (ConnectBlock.view st.mapQueuedChanges mapTxIndex) w1.find
  | [], st, st1, w, h, _, _, hw => by
      simp only [ConnectBlock.loop, Option.some.injEq] at h
      rw [h]
      exact ⟨w, rfl, hw⟩
  | tx :: rest, st, st1, w, h, hnd, hfresh, hw => by
      rw [ConnectBlock.loop] at h
      cases ht : ConnectBlock.tx ext p2sh cp mempool s mapTxIndex pindex nFile nBlockPos
          fEnforceBIP30 fStrict fJustCheck st tx with
      | none => rw [ht] at h; simp at h
      | some r =>
        cases r with
        | none => rw [ht] at h; simp at h
        | some st2 =>
          rw [ht] at h
          simp only at h
          obtain ⟨v1, hmk, hrg, hother⟩ := ConnectBlock.tx_marks ext p2sh cp mempool s mapTxIndex
            pindex nFile nBlockPos fEnforceBIP30 fStrict fJustCheck st st2 tx ht
          rw [List.map_cons, List.nodup_cons] at hnd
          have hfresh2 : ∀ t ∈ rest,
              ConnectBlock.view st2.mapQueuedChanges mapTxIndex (ext.GetHash t) = none := by
            intro t hmem
            have hne : ext.GetHash t ≠ ext.GetHash tx := by
              intro he
              apply hnd.1
              rw [← he]
              exact List.mem_map_of_mem _ hmem
            rw [hother _ hne]
            exact (hmk (ext.GetHash t)).1.1 (hfresh t (List.mem_cons_of_mem _ hmem))
          obtain ⟨w1, hloop, hc1⟩ := ConnectBlock.loop_disconnect ext p2sh cp mempool s
            mapTxIndex pindex nFile nBlockPos fEnforceBIP30 fStrict fJustCheck rest st2 st1 w
            h hnd.2 hfresh2 hw
          obtain ⟨w2, hdis, hc2⟩ := CTransaction.DisconnectInputs_cleared ext.GetHash tx _ v1 _
            w1 hmk hrg (hfresh tx (List.mem_cons_self _ _)) hother hc1
          refine ⟨w2, ?_, hc2⟩
          rw [List.reverse_cons, DisconnectBlock.loop_append ext.GetHash _ _ w w1 hloop,
            DisconnectBlock.loop, hdis]
          rfl

theorem CheckBlock_true_vtx (ext : Externals) (fCheckPOW fCheckMerkleRoot : Bool) (b : CBlock)
    (h : (b.CheckBlock ext fCheckPOW fCheckMerkleRoot).1 = true) :
    (b.CheckBlock ext fCheckPOW fCheckMerkleRoot).2.vtx = b.vtx ∧
      (b.vtx.map ext.GetHash).Nodup := by
  unfold CBlock.CheckBlock at h ⊢
  by_cases h1 : (b.vtx.isEmpty || decide (b.vtx.length > MAX_BLOCK_SIZE) ||
      decide (ext.GetSerializeSizeBlock b > MAX_BLOCK_SIZE)) = true
  · rw [if_pos h1] at h; simp [CBlock.DoS] at h
  rw [if_neg h1] at h ⊢
  by_cases h2 : (fCheckPOW && !CheckProofOfWork ext.SetCompact (ext.GetHashPoW b) b.nBits) = true
  · rw [if_pos h2] at h; simp [CBlock.DoS] at h
  rw [if_neg h2] at h ⊢
  by_cases h3 : (b.nTime : Int) > wrap64 (ext.GetAdjustedTime + 2 * 60 * 60)
  · rw [if_pos h3] at h; simp at h
  rw [if_neg h3] at h ⊢
  cases hv : b.vtx with
  | nil => rw [hv] at h; simp [CBlock.DoS] at h
  | cons tx0 rest =>
    rw [hv] at h
    simp only at h ⊢
    by_cases h4 : (!tx0.IsCoinBase) = true
    · rw [if_pos h4] at h; simp [CBlock.DoS] at h
    rw [if_neg h4] at h ⊢
    by_cases h5 : (rest.any fun tx => tx.IsCoinBase) = true
    · rw [if_pos h5] at h; simp [CBlock.DoS] at h
    rw [if_neg h5] at h ⊢
    cases hr : (CheckBlock.transactions ext.GetSerializeSizeTx (tx0 :: rest)).1 with
    | some n => rw [hr] at h; simp [CBlock.DoS] at h
    | none =>
      rw [hr] at h
      obtain ⟨_, hsame⟩ := CheckBlock.transactions_none ext.GetSerializeSizeTx _ hr
      simp only [hsame] at h ⊢
      by_cases h6 : (CheckBlock.uniqueTx ((tx0 :: rest).map ext.GetHash)).length ≠
          (tx0 :: rest).length
      · rw [if_pos h6] at h; simp [CBlock.DoS] at h
      rw [if_neg h6] at h ⊢
      have hnd : ((tx0 :: rest).map ext.GetHash).Nodup := by
        apply CheckBlock.uniqueTx_length
        rw [List.length_map]
        exact not_not.1 h6
      refine ⟨?_, hnd⟩
      by_cases h7 : CheckBlock.nSigOps ext.GetSigOpCount (tx0 :: rest) > MAX_BLOCK_SIGOPS
      · rw [if_pos h7] at h; simp [CBlock.DoS] at h
      rw [if_neg h7] at h ⊢
      cases fCheckMerkleRoot with
      | false => rfl
      | true =>
        simp only [if_true] at h ⊢
        split_ifs at h ⊢
        · simp [CBlock.DoS] at h
        · rfl

theorem DisconnectBlock.clearedFrom_eq (mapTxIndex w : CMap uint256 CTxIndex)
    (hnull : ∀ hash e, mapTxIndex.find hash = some e → ∀ pos ∈ e.vSpent,
      pos.IsNull = true → pos = CDiskTxPos.null)
    (hc : DisconnectBlock.ClearedFrom mapTxIndex.find w.find) (hash : uint256) :
    w.find hash = mapTxIndex.find hash := by
  obtain ⟨hiff, hrel⟩ := hc hash
  cases he : mapTxIndex.find hash with
  | none => exact hiff.2 he
  | some e =>
    cases ha : w.find hash with
    | none => rw [hiff.1 ha] at he; simp at he
    | some a =>
      obtain ⟨hpos, hlen, hpt⟩ := hrel a e ha he
      have hv : a.vSpent = e.vSpent := by
        apply List.ext_getElem?
        intro n
        by_cases hn : n < e.vSpent.length
        · rcases hpt n hn with h | ⟨h, p, hp, hpn⟩
          · exact h
          · rw [h, hp, hnull hash e he p (List.mem_iff_getElem?.2 ⟨n, hp⟩) hpn]
        · rw [List.getElem?_eq_none (by omega), List.getElem?_eq_none (by omega)]
      cases a
      cases e
      simp only at hpos hv
      rw [hpos, hv]

theorem ConnectBlock.finish_true (cp : ConnectBlockParams) (fTestNet : Bool)
    (mapTxIndex : CMap uint256 CTxIndex) (vtx : List CTransaction) (n : CBlockIndex)
    (st : ConnectBlockState) (m : CMap uint256 CTxIndex)
    (h : ConnectBlock.finish cp fTestNet mapTxIndex vtx n false st = some (true, m)) :
    m = ConnectBlock.write st.mapQueuedChanges mapTxIndex := by
  unfold ConnectBlock.finish at h
  split at h
  · simp only [Bool.false_eq_true, if_false] at h
    split_ifs at h
    · simp at h
    · simp at h
    · simp only [Option.some.injEq, Prod.mk.injEq, true_and] at h
      exact h.symm
  · simp at h

/-- Claim C26: when `ConnectBlock` with `fJustCheck = false` succeeds for the block `b` on
a transaction index `mapTxIndex` that holds no transaction id of `b` and has `SetNull`
positions for its unspent outputs, `DisconnectBlock` of `b` on the resulting index runs
through all transactions of the block and leaves an index with the entries of
`mapTxIndex`: the same keys, disk positions and spent vectors. It returns true when the
write of the previous block's entry succeeds. -/
theorem ConnectBlock_then_DisconnectBlock (ext : Externals) (p2sh : P2SHAnswers)
    (cp : ConnectBlockParams) (fTestNet : Bool) (mempool : CTxMemPool) (s : ChainState)
    (b : CBlock) (mapTxIndex mapTxIndex1 : CMap uint256 CTxIndex) (pindex : Nat)
    (WriteBlockIndex : Bool)
    (hnull : ∀ hash e, mapTxIndex.find hash = some e → ∀ pos ∈ e.vSpent,
      pos.IsNull = true → pos = CDiskTxPos.null)
    (hfresh : ∀ tx ∈ b.vtx, mapTxIndex.find (ext.GetHash tx) = none)
    (hconn : b.ConnectBlock ext p2sh cp fTestNet mempool s mapTxIndex pindex false =
      some (true, mapTxIndex1)) :
    ∃ (fRet : Bool) (mapTxIndex2 : CMap uint256 CTxIndex),
      b.DisconnectBlock ext.GetHash WriteBlockIndex s mapTxIndex1 pindex =
        some (fRet, mapTxIndex2) ∧
      (WriteBlockIndex = true → fRet = true) ∧
      DisconnectBlock.loop ext.GetHash b.vtx.reverse mapTxIndex1 = (true, mapTxIndex2) ∧
      ∀ hash, mapTxIndex2.find hash = mapTxIndex.find hash := by
  unfold CBlock.ConnectBlock at hconn
  simp only [Bool.not_false] at hconn
  by_cases hc : (!(b.CheckBlock ext true true).1) = true
  · rw [if_pos hc] at hconn
    simp at hconn
  rw [if_neg hc] at hconn
  have hc1 : (b.CheckBlock ext true true).1 = true := by simpa using hc
  obtain ⟨hvtx, hnd⟩ := CheckBlock_true_vtx ext true true b hc1
  cases hn : s.node pindex with
  | none => rw [hn] at hconn; simp at hconn
  | some n =>
    rw [hn] at hconn
    simp only [hvtx, Bool.false_eq_true, if_false] at hconn
    split at hconn
    · simp at hconn
    · simp at hconn
    · rename_i st hloop
      have hm := ConnectBlock.finish_true cp fTestNet mapTxIndex b.vtx n st mapTxIndex1 hconn
      have hview : mapTxIndex1.find = ConnectBlock.view st.mapQueuedChanges mapTxIndex := by
        funext k
        rw [hm]
        exact ConnectBlock.write_find mapTxIndex k _
      obtain ⟨w1, hdis, hcl⟩ := ConnectBlock.loop_disconnect ext p2sh cp mempool s mapTxIndex
        pindex _ _ _ _ false b.vtx _ st mapTxIndex1 hloop hnd
        (by
          intro tx ht
          rw [ConnectBlock.view_nil]
          exact hfresh tx ht)
        (by
          rw [hview]
          exact DisconnectBlock.clearedFrom_refl _)
      have hfin : ∀ hash, w1.find hash = mapTxIndex.find hash := by
        apply DisconnectBlock.clearedFrom_eq mapTxIndex w1 hnull
        have e : ConnectBlock.view [] mapTxIndex = mapTxIndex.find := by
          funext k
          exact ConnectBlock.view_nil mapTxIndex k
        rw [← e]
        exact hcl
      unfold CBlock.DisconnectBlock
      simp only [hdis, hn, Bool.not_true, Bool.false_eq_true, if_false]
      by_cases hw : (n.pprev.isSome && !WriteBlockIndex) = true
      · rw [if_pos hw]
        refine ⟨false, w1, rfl, ?_, rfl, hfin⟩
        intro hW
        rw [hW] at hw
        simp at hw
      · rw [if_neg hw]
        exact ⟨true, w1, rfl, fun _ => rfl, rfl, hfin⟩

theorem exampleSpendingBlock_CheckBlock :
    exampleSpendingBlock.CheckBlock exampleExternals true true =
      (true, { exampleSpendingBlock with vMerkleTree := [7, 0, 9, 70, 99, 799] }) := by
  have hl : BuildMerkleTree.levels exampleExternals.Hash 3 0 [7, 0, 9] =
      [7, 0, 9, 70, 99, 799] := by
    rw [BuildMerkleTree.levels, if_pos (by decide)]
    rw [BuildMerkleTree.row, if_pos (by decide)]
    simp only []
    rw [BuildMerkleTree.row, if_pos (by decide)]
    simp only []
    rw [BuildMerkleTree.row, if_neg (by decide)]
    rw [BuildMerkleTree.levels, if_pos (by decide)]
    rw [BuildMerkleTree.row, if_pos (by decide)]
    simp only []
    rw [BuildMerkleTree.row, if_neg (by decide)]
    rw [BuildMerkleTree.levels, if_neg (by decide)]
    decide
  have hm : exampleSpendingBlock.BuildMerkleTree exampleExternals.GetHash exampleExternals.Hash =
      (799, { exampleSpendingBlock with vMerkleTree := [7, 0, 9, 70, 99, 799] }) := by
    simp only [CBlock.BuildMerkleTree]
    have e1 : ((exampleSpendingBlock.vtx.length : Nat) : Int) = 3 := rfl
    have e2 : exampleSpendingBlock.vtx.map exampleExternals.GetHash = [7, 0, 9] := rfl
    rw [e1, e2, hl]
    rfl
  have ht : CheckBlock.transactions exampleExternals.GetSerializeSizeTx
      exampleSpendingBlock.vtx = (none, exampleSpendingBlock.vtx) := by
    decide
  have hb : ({ exampleSpendingBlock with vtx := exampleSpendingBlock.vtx } : CBlock) =
      exampleSpendingBlock := rfl
  unfold CBlock.CheckBlock
  rw [if_neg (by decide), if_neg (by decide), if_neg (by decide)]
  simp only [ht, hb, hm]
  decide

theorem exampleSpendingBlock_ConnectBlock :
    exampleSpendingBlock.ConnectBlock exampleExternals exampleP2SH exampleConnectParams false
      examplePayingPool exampleFork exampleTxIndex 3 false = some (true, exampleTxIndexAfter) := by
  unfold CBlock.ConnectBlock
  simp only [Bool.not_false, exampleSpendingBlock_CheckBlock]
  decide

theorem exampleTxIndex_null (hash : uint256) (e : CTxIndex)
    (h : exampleTxIndex.find hash = some e) (pos : CDiskTxPos) (hp : pos ∈ e.vSpent)
    (_ : pos.IsNull = true) : pos = CDiskTxPos.null := by
  unfold exampleTxIndex at h
  simp only [CMap.find] at h
  split_ifs at h
  · simp only [Option.some.injEq] at h
    rw [← h] at hp
    simpa using hp

/-- Claim C26 at `exampleSpendingBlock`, connected as the node 3 of `exampleFork` on
`exampleTxIndex`: its second transaction spends an output of the index and its third one
the output of the second, and `DisconnectBlock` on `exampleTxIndexAfter` returns the index
to the entries of `exampleTxIndex`. -/
theorem ConnectBlock_then_DisconnectBlock_witness :
    exampleSpendingBlock.ConnectBlock exampleExternals exampleP2SH exampleConnectParams false
      examplePayingPool exampleFork exampleTxIndex 3 false = some (true, exampleTxIndexAfter) ∧
    ∃ (fRet : Bool) (mapTxIndex2 : CMap uint256 CTxIndex),
      exampleSpendingBlock.DisconnectBlock exampleExternals.GetHash true exampleFork
        exampleTxIndexAfter 3 = some (fRet, mapTxIndex2) ∧
      (true = true → fRet = true) ∧
      DisconnectBlock.loop exampleExternals.GetHash exampleSpendingBlock.vtx.reverse
        exampleTxIndexAfter = (true, mapTxIndex2) ∧
      ∀ hash, mapTxIndex2.find hash = exampleTxIndex.find hash :=
  ⟨exampleSpendingBlock_ConnectBlock,
    ConnectBlock_then_DisconnectBlock exampleExternals exampleP2SH exampleConnectParams false
      examplePayingPool exampleFork exampleSpendingBlock exampleTxIndex exampleTxIndexAfter 3 true
      exampleTxIndex_null (by decide) exampleSpendingBlock_ConnectBlock⟩

end Phoenixcoin
